import Mathlib

/-!
# scg-boost: template overlay engine

A shallow embedding of `internal/bootstrap/overrides.go` (markdown section
indexer and override applier) and of `internal/skills` (registry and graph
validator), followed by theorems about them.

Conventions of the embedding:

* a Go `string` / `[]byte` holding text is a `List Char`; the inputs are taken
  to be valid UTF-8, so the byte loops of the source, which treat every byte
  outside `[a-z0-9]` alike, are loops over characters here;
* a Go `map` is an association list with pairwise distinct keys; a `range`
  over a map visits the entries in an order chosen by the runtime, which is a
  parameter (`RangeOrder`);
* a slice that shares its backing array with another one is modelled
  explicitly where the source relies on it (`LineSlice`);
* the file system is a map from slash paths relative to the repository root
  to file contents, with the set of paths that can be written and a journal
  of the writes made.
-/

namespace ScgBoost

/-! ## Go runtime primitives used by the source -/

/-- Text: the characters of a Go string. -/
abbrev Str := List Char

/-- The order in which a `for ... range m` loop visits the entries of a map.
The runtime may pick a different order at every loop, so the choice is indexed
by the loop (`site`); the only guarantee is that every entry is visited once. -/
structure RangeOrder where
  shuffle : Nat → {α : Type} → List α → List α
  perm : ∀ (site : Nat) {α : Type} (l : List α), (shuffle site l).Perm l

/-- The order that visits the entries as stored. -/
def RangeOrder.stored : RangeOrder where
  shuffle := fun _ _ l => l
  perm := fun _ _ l => List.Perm.refl l

/-- The order that visits the entries back to front. -/
def RangeOrder.backwards : RangeOrder where
  shuffle := fun _ _ l => l.reverse
  perm := fun _ _ l => List.reverse_perm l

/-- Go `strings.Split(s, "\n")`: never empty, one more element than there are
newlines. The result has `cap == len`. -/
def splitLines : Str → List Str
  | [] => [[]]
  | c :: cs =>
    if c = '\n' then [] :: splitLines cs
    else
      match splitLines cs with
      | [] => [[c]]
      | l :: ls => (c :: l) :: ls

/-- Go `strings.Join(lines, "\n")`. -/
def joinLines : List Str → Str
  | [] => []
  | [l] => l
  | l :: l2 :: ls => l ++ '\n' :: joinLines (l2 :: ls)

/-- Go `unicode.IsSpace`, the characters removed by `strings.TrimSpace`. -/
def isSpace (c : Char) : Bool :=
  let n := c.toNat
  (9 ≤ n && n ≤ 13) || n == 32 || n == 0x85 || n == 0xA0 || n == 0x1680 ||
  (0x2000 ≤ n && n ≤ 0x200A) || n == 0x2028 || n == 0x2029 || n == 0x202F ||
  n == 0x205F || n == 0x3000

/-- Go `strings.TrimSpace`. -/
def trimSpace (s : Str) : Str :=
  ((s.dropWhile isSpace).reverse.dropWhile isSpace).reverse

/-- Go `strings.TrimLeft(s, " \t")`. -/
def trimLeftBlank (s : Str) : Str :=
  s.dropWhile (fun c => c == ' ' || c == '\t')

/-- Go `strings.Trim(s, "-")`. -/
def trimDash (s : Str) : Str :=
  ((s.dropWhile (fun c => c == '-')).reverse.dropWhile (fun c => c == '-')).reverse

/-- Go `unicode.ToLower` as far as the source can observe it: the result is
only tested for membership in `[a-z0-9]`. Besides `A`..`Z`, the two runes whose
lower case is an ASCII letter are U+0130 (to `i`) and U+212A (to `k`); every
other rune maps to a rune outside ASCII or to itself. -/
def toLowerChar (c : Char) : Char :=
  if 65 ≤ c.toNat ∧ c.toNat ≤ 90 then Char.ofNat (c.toNat + 32)
  else if c.toNat = 0x130 then 'i'
  else if c.toNat = 0x212A then 'k'
  else c

/-- Go `strings.ToLower`. -/
def toLower (s : Str) : Str := s.map toLowerChar

/-! ## internal/bootstrap/overrides.go: markdown section indexer -/

/-- Source `parseHeading`: level and trimmed text of an ATX heading line. -/
def parseHeading (line : Str) : Option (Nat × Str) :=
  let line := trimLeftBlank line
  if line.head? ≠ some '#' then none
  else
    let count := (line.takeWhile (fun c => c == '#')).length
    if count = 0 ∨ count > 6 then none
    else
      let text := trimSpace (line.drop count)
      if text = [] then none else some (count, text)

/-- The test `(ch >= 'a' && ch <= 'z') || (ch >= '0' && ch <= '9')`. -/
def isSlugChar (ch : Char) : Bool :=
  (97 ≤ ch.toNat && ch.toNat ≤ 122) || (48 ≤ ch.toNat && ch.toNat ≤ 57)

/-- The loop of `anchorFromHeading`: what is written to the builder for the
rest of the text, given `lastDash`. -/
def slugLoop : Str → Bool → Str
  | [], _ => []
  | ch :: rest, lastDash =>
    if isSlugChar ch then ch :: slugLoop rest false
    else if !lastDash then '-' :: slugLoop rest true
    else slugLoop rest true

/-- Source `anchorFromHeading`. -/
def anchorFromHeading (text : Str) : Str :=
  trimDash (slugLoop (toLower (trimSpace text)) false)

/-- Local type `heading` of `parseMarkdownSections`. -/
structure heading where
  index : Nat
  level : Nat
  anchor : Str
  deriving DecidableEq, Repr

/-- Source `mdSection` (`end_` is the source field `end`). -/
structure mdSection where
  anchor : Str
  level : Nat
  start : Nat
  end_ : Nat
  deriving DecidableEq, Repr

/-- First loop of `parseMarkdownSections`, for the lines from index `i` on. -/
def collectHeadings : Nat → List Str → List heading
  | _, [] => []
  | i, line :: rest =>
    match parseHeading line with
    | none => collectHeadings (i + 1) rest
    | some (level, text) =>
      let anchor := anchorFromHeading text
      if anchor = [] then collectHeadings (i + 1) rest
      else { index := i, level := level, anchor := anchor } :: collectHeadings (i + 1) rest

/-- Inner loop of `parseMarkdownSections`: the index of the first later heading
whose level is at most `level`, or `n` (the number of lines). -/
def sectionEnd (n : Nat) (level : Nat) : List heading → Nat
  | [] => n
  | g :: later => if g.level ≤ level then g.index else sectionEnd n level later

/-- Lookup in a section map (`sections[anchor]`). -/
def lookupSection (sections : List mdSection) (anchor : Str) : Option mdSection :=
  sections.find? (fun s => s.anchor = anchor)

/-- Second loop of `parseMarkdownSections`: each heading is entered into the
map unless its anchor is already a key. -/
def buildSections (n : Nat) : List heading → List mdSection → List mdSection
  | [], sections => sections
  | h :: later, sections =>
    let e := sectionEnd n h.level later
    match lookupSection sections h.anchor with
    | some _ => buildSections n later sections
    | none =>
      buildSections n later
        (sections ++ [{ anchor := h.anchor, level := h.level, start := h.index, end_ := e }])

/-- Source `parseMarkdownSections`; the map is listed in insertion order. -/
def parseMarkdownSections (lines : List Str) : List mdSection :=
  buildSections lines.length (collectHeadings 0 lines) []

/-! ## internal/bootstrap/overrides.go: override rules -/

/-- Errors returned by the override applier, one constructor per
`fmt.Errorf` of the source plus the errors of the file system. -/
inductive OverrideError where
  /-- Message `invalid override path: %s`. -/
  | invalidPath (raw : Str)
  /-- Message `override path must start with .claude/: %s`. -/
  | outsideClaude (raw : Str)
  /-- An error of `loadOverrideFiles`. -/
  | loadFailed
  /-- Message `read base file: %w`. -/
  | readBase (targetPath : Str)
  /-- Message `override requires markdown headings for multiple sections`. -/
  | headingsRequired
  /-- Message `section %q not found in %s`. -/
  | sectionNotFound (anchor : Str) (targetPath : Str)
  /-- Message `section %q not found` of `ExtractSectionBody`. -/
  | sectionMissing (anchor : Str)
  /-- An error of `os.MkdirAll` or `os.WriteFile`. -/
  | writeFailed (targetPath : Str)
  deriving DecidableEq, Repr

/-- Source `overrideRule`; the set `sections` lists its keys once each. -/
structure overrideRule where
  full : Bool
  sections : List Str
  deriving DecidableEq, Repr

/-- Go `strings.SplitN(raw, "#", 2)`: the text before the first `#` and, when
there is a `#`, the text after it. -/
def splitHash (raw : Str) : Str × Option Str :=
  match raw.span (fun c => c != '#') with
  | (file, []) => (file, none)
  | (file, _ :: anchor) => (file, some anchor)

/-- Lookup in the rule map (`rules[filePath]`, nil when absent). -/
def lookupRule (rules : List (Str × overrideRule)) (filePath : Str) : Option overrideRule :=
  (rules.find? (fun kv => kv.1 = filePath)).map Prod.snd

/-- The update `rule.full = true` through the pointer stored at `filePath`,
creating the rule first when the key is absent. -/
def grantFull : List (Str × overrideRule) → Str → List (Str × overrideRule)
  | [], filePath => [(filePath, { full := true, sections := [] })]
  | kv :: rest, filePath =>
    if kv.1 = filePath then (kv.1, { kv.2 with full := true }) :: rest
    else kv :: grantFull rest filePath

/-- The update `rule.sections[anchor] = struct{}{}` through the pointer stored
at `filePath`, creating the rule first when the key is absent. -/
def grantSection : List (Str × overrideRule) → Str → Str → List (Str × overrideRule)
  | [], filePath, anchor => [(filePath, { full := false, sections := [anchor] })]
  | kv :: rest, filePath, anchor =>
    if kv.1 = filePath then
      (kv.1, { kv.2 with
        sections := if anchor ∈ kv.2.sections then kv.2.sections else kv.2.sections ++ [anchor] })
        :: rest
    else kv :: grantSection rest filePath anchor

/-- The loop of `parseOverridePaths` with the rules accumulated so far.
`clean` is Go `path.Clean`. -/
def parseOverridePathsFrom (clean : Str → Str) :
    List Str → List (Str × overrideRule) → Except OverrideError (List (Str × overrideRule))
  | [], rules => .ok rules
  | raw :: rest, rules =>
    let raw := trimSpace raw
    if raw = [] then parseOverridePathsFrom clean rest rules
    else
      let parts := splitHash raw
      let filePath := clean parts.1
      if filePath = ".".toList ∨ "../".toList.isPrefixOf filePath then
        .error (.invalidPath raw)
      else if ¬ ".claude/".toList.isPrefixOf filePath ∧ filePath ≠ ".claude".toList then
        .error (.outsideClaude raw)
      else
        match parts.2 with
        | none => parseOverridePathsFrom clean rest (grantFull rules filePath)
        | some anchor =>
          if anchor = [] then parseOverridePathsFrom clean rest (grantFull rules filePath)
          else parseOverridePathsFrom clean rest (grantSection rules filePath anchor)

/-- Source `parseOverridePaths`. -/
def parseOverridePaths (clean : Str → Str) (paths : List Str) :
    Except OverrideError (List (Str × overrideRule)) :=
  parseOverridePathsFrom clean paths []

/-! ## File system -/

/-- The tree under the repository root: `files` gives the content of every
readable file by slash path relative to the root, `writable` tells for which
paths `os.MkdirAll` and `os.WriteFile` succeed, and `journal` records the
successful writes, latest first. -/
structure FS where
  files : Str → Option Str
  writable : Str → Bool
  journal : List (Str × Str)

/-- Source `readFileFromRoot`. The paths given to it come from
`path.Join(".claude", rel)` in `loadOverrideFiles`, so they are clean; a path
that is invalid or unreadable has no entry in `files`. -/
def readFileFromRoot (fs : FS) (rel : Str) : Option Str := fs.files rel

/-- How a call that returns an `error` ends: with nil, with an error, or in a
run-time panic (slice bounds out of range). -/
inductive Exit where
  | ok
  | error (e : OverrideError)
  | panic
  deriving DecidableEq, Repr

/-- Source `writeFile`, on the path `filepath.Join(root, targetPath)`: how it
returns and the file system it leaves. A write that fails is modelled as
leaving every file as it was; `os.WriteFile` can truncate the target before it
fails, which this model does not show. -/
def writeFile (fs : FS) (targetPath : Str) (data : Str) : Exit × FS :=
  if fs.writable targetPath then
    (.ok, { files := fun q => if q = targetPath then some data else fs.files q
            writable := fs.writable
            journal := (targetPath, data) :: fs.journal })
  else (.error (.writeFailed targetPath), fs)

/-! ## internal/bootstrap/overrides.go: section overrides -/

/-- The outcome of building a value: the value, a returned error, or a
run-time panic. -/
inductive Run (α : Type) where
  | ok (a : α)
  | error (e : OverrideError)
  | panic

/-- The `lines` of a `sectionReplacement`: either a slice with an array of its
own, or the sub-slice `overrideLines[lo:hi]`, which shares the array of
`overrideLines` and has capacity up to the end of that array. -/
inductive LineSlice where
  | fresh (lines : List Str)
  | sub (lo hi : Nat)
  deriving DecidableEq, Repr

/-- Source `sectionReplacement` (`end_` is the source field `end`). -/
structure sectionReplacement where
  start : Nat
  end_ : Nat
  lines : LineSlice
  deriving DecidableEq, Repr

/-- The variables the replacement loop reads and writes: the slice `baseLines`
and the array behind `overrideLines`. -/
structure SpliceState where
  baseLines : List Str
  overrideLines : List Str
  deriving DecidableEq, Repr

/-- One iteration of the replacement loop,
`baseLines = append(baseLines[:repl.start], append(repl.lines, baseLines[repl.end:]...)...)`.
`baseLines[repl.end:]` panics when `repl.end > len(baseLines)` (`none`). The
inner `append` writes the tail into the array of `repl.lines` when its
capacity suffices: for `overrideLines[lo:hi]` that is when
`hi + len(tail) <= len(overrideLines)`, and then `overrideLines[hi:hi+len(tail)]`
is overwritten. The outer `append` copies into the array of `baseLines` or into
a new one, never into the array of `overrideLines`. Every replacement the
source builds has `start < end` (theorem `section_bounds`), so the bound on
`repl.end` is the only one that can fail. -/
def spliceOne (st : SpliceState) (repl : sectionReplacement) : Option SpliceState :=
  if repl.start ≤ repl.end_ ∧ repl.end_ ≤ st.baseLines.length then
    let tail := st.baseLines.drop repl.end_
    match repl.lines with
    | .fresh lines =>
      some { baseLines := st.baseLines.take repl.start ++ (lines ++ tail)
             overrideLines := st.overrideLines }
    | .sub lo hi =>
      let lines := (st.overrideLines.drop lo).take (hi - lo)
      some { baseLines := st.baseLines.take repl.start ++ (lines ++ tail)
             overrideLines :=
               if hi + tail.length ≤ st.overrideLines.length then
                 st.overrideLines.take hi ++ (tail ++ st.overrideLines.drop (hi + tail.length))
               else st.overrideLines }
  else none

/-- The replacement loop `for _, repl := range replacements`. -/
def spliceAll : SpliceState → List sectionReplacement → Option SpliceState
  | st, [] => some st
  | st, repl :: rest =>
    match spliceOne st repl with
    | none => none
    | some st1 => spliceAll st1 rest

/-- The call `sort.Slice(replacements, ...)` with
`replacements[i].start > replacements[j].start`. `sort.Slice` is not stable;
the starts of the replacements are pairwise distinct. -/
def sortReplacements (replacements : List sectionReplacement) : List sectionReplacement :=
  replacements.insertionSort (fun a b => a.start ≥ b.start)

/-- The loop `for anchor, overrideSection := range overrideSections` that
builds the replacements when the override has headings, over the entries in
the order of the visit. -/
def collectReplacements (targetPath : Str) (baseSections : List mdSection)
    (overrideLen : Nat) (allowedSections : List Str) :
    List mdSection → List sectionReplacement → Run (List sectionReplacement)
  | [], replacements => .ok replacements
  | overrideSection :: rest, replacements =>
    if overrideSection.anchor ∉ allowedSections then
      collectReplacements targetPath baseSections overrideLen allowedSections rest replacements
    else
      match lookupSection baseSections overrideSection.anchor with
      | none => .error (.sectionNotFound overrideSection.anchor targetPath)
      | some base =>
        if overrideSection.start ≤ overrideSection.end_ ∧ overrideSection.end_ ≤ overrideLen then
          collectReplacements targetPath baseSections overrideLen allowedSections rest
            (replacements ++
              [{ start := base.start, end_ := base.end_
                 lines := .sub overrideSection.start overrideSection.end_ }])
        else .panic

/-- The loop `for section := range allowedSections { anchor = section }`. -/
def lastRanged (visited : List Str) : Str := (visited.getLast?).getD []

/-- The first half of `applySectionOverrides`: the list `replacements`. -/
def buildReplacements (ord : RangeOrder) (targetPath : Str) (baseLines overrideLines : List Str)
    (allowedSections : List Str) : Run (List sectionReplacement) :=
  let baseSections := parseMarkdownSections baseLines
  let overrideSections := parseMarkdownSections overrideLines
  if overrideSections.length = 0 then
    if allowedSections.length ≠ 1 then .error .headingsRequired
    else
      let anchor := lastRanged (ord.shuffle 0 allowedSections)
      match lookupSection baseSections anchor with
      | none => .error (.sectionNotFound anchor targetPath)
      | some base =>
        match baseLines.get? base.start with
        | none => .panic
        | some heading =>
          let body := joinLines overrideLines
          let replLines := if body ≠ [] then [heading] ++ splitLines body else [heading]
          .ok [{ start := base.start, end_ := base.end_, lines := .fresh replLines }]
  else
    collectReplacements targetPath baseSections overrideLines.length allowedSections
      (ord.shuffle 1 overrideSections) []

/-- Source `applySectionOverrides`: how it returns and the file system it
leaves. -/
def applySectionOverrides (ord : RangeOrder) (fs : FS) (targetPath : Str)
    (overrideContent : Str) (allowedSections : List Str) : Exit × FS :=
  match readFileFromRoot fs targetPath with
  | none => (.error (.readBase targetPath), fs)
  | some baseContent =>
    let baseLines := splitLines baseContent
    let overrideLines := splitLines overrideContent
    match buildReplacements ord targetPath baseLines overrideLines allowedSections with
    | .error e => (.error e, fs)
    | .panic => (.panic, fs)
    | .ok replacements =>
      if replacements.length = 0 then (.ok, fs)
      else
        match spliceAll { baseLines := baseLines, overrideLines := overrideLines }
            (sortReplacements replacements) with
        | none => (.panic, fs)
        | some st => writeFile fs targetPath (joinLines st.baseLines)

/-! ## internal/bootstrap/overrides.go: ApplyOverrides -/

/-- The text `override ignored for %s (not in override_paths)`. -/
def ignoredWarning (targetPath : Str) : Str :=
  "override ignored for ".toList ++ targetPath ++ " (not in override_paths)".toList

/-- What `ApplyOverrides` leaves behind: the returned warnings, the way it
returned and the file system. -/
structure ApplyResult where
  warnings : List Str
  exit : Exit
  fs : FS

/-- The loop `for targetPath, content := range overrides` of `ApplyOverrides`,
over the entries in the order of the visit. -/
def applyLoop (ord : RangeOrder) (rules : List (Str × overrideRule)) :
    List (Str × Str) → List Str → FS → ApplyResult
  | [], warnings, fs => { warnings := warnings, exit := .ok, fs := fs }
  | (targetPath, content) :: rest, warnings, fs =>
    match lookupRule rules targetPath with
    | none => applyLoop ord rules rest (warnings ++ [ignoredWarning targetPath]) fs
    | some rule =>
      if rule.full then
        match writeFile fs targetPath content with
        | (.ok, fs1) => applyLoop ord rules rest warnings fs1
        | (exit, fs1) => { warnings := warnings, exit := exit, fs := fs1 }
      else
        match applySectionOverrides ord fs targetPath content rule.sections with
        | (.ok, fs1) => applyLoop ord rules rest warnings fs1
        | (exit, fs1) => { warnings := warnings, exit := exit, fs := fs1 }

/-- Source `ApplyOverrides`. `loaded` is what `loadOverrideFiles(root, skillID)`
returns: an error, or the map from target path (`.claude/<rel>`) to the
content of the override file staged under `.scg/overrides/<skillID>/<rel>`
(empty when that directory does not exist). `clean` is Go `path.Clean`. -/
def ApplyOverrides (ord : RangeOrder) (clean : Str → Str) (fs : FS)
    (loaded : Except OverrideError (List (Str × Str))) (overridePaths : List Str) :
    ApplyResult :=
  match parseOverridePaths clean overridePaths with
  | .error e => { warnings := [], exit := .error e, fs := fs }
  | .ok rules =>
    match loaded with
    | .error e => { warnings := [], exit := .error e, fs := fs }
    | .ok overrides =>
      if overrides.length = 0 then { warnings := [], exit := .ok, fs := fs }
      else applyLoop ord rules (ord.shuffle 2 overrides) [] fs

/-! ## internal/skills: metadata and registry -/

/-- Source `Metadata` (`Type_` is the source field `Type`). -/
structure Metadata where
  ID : Str
  Name : Str
  Type_ : Str
  Version : Str
  Description : Str
  Tags : List Str
  RepoTypes : List Str
  Author : Str
  DependsOn : List Str
  ConflictsWith : List Str
  Provides : List Str
  OverridePaths : List Str
  deriving DecidableEq, Repr

/-- Why `LoadMetadata` fails. -/
inductive MetadataError where
  /-- Message `read %s: %w`. -/
  | read
  /-- Message `unmarshal %s: %w`. -/
  | unmarshal
  /-- Message `%s: <field> is required`. -/
  | required (field : Str)
  deriving DecidableEq, Repr

/-- Source `LoadMetadata`. `file` is the content of `<skillPath>/skill.json`
(`none` when `fs.ReadFile` fails) and `unmarshal` is `json.Unmarshal` into a
`Metadata` (`none` when it returns an error). -/
def LoadMetadata (unmarshal : Str → Option Metadata) (file : Option Str) :
    Except MetadataError Metadata :=
  match file with
  | none => .error .read
  | some data =>
    match unmarshal data with
    | none => .error .unmarshal
    | some meta =>
      if meta.ID = [] then .error (.required "id".toList)
      else if meta.Name = [] then .error (.required "name".toList)
      else if meta.Type_ = [] then .error (.required "type".toList)
      else if meta.Version = [] then .error (.required "version".toList)
      else if meta.Description = [] then .error (.required "description".toList)
      else if meta.RepoTypes.length = 0 then .error (.required "repo_types".toList)
      else .ok meta

/-- Source `Registry`: the map `skills`. -/
structure Registry where
  skills : List (Str × Metadata)
  deriving DecidableEq, Repr

/-- The map read `reg.skills[key]`. -/
def lookupSkill (reg : Registry) (key : Str) : Option Metadata :=
  (reg.skills.find? (fun kv => kv.1 = key)).map Prod.snd

/-- The map write `skills[key] = meta`: the value of an existing key is
replaced, a new key is added. -/
def putSkill : List (Str × Metadata) → Str → Metadata → List (Str × Metadata)
  | [], key, meta => [(key, meta)]
  | kv :: rest, key, meta =>
    if kv.1 = key then (key, meta) :: rest else kv :: putSkill rest key meta

/-- An entry of the root of the package source, as `fs.ReadDir` lists it, with
the content of its `skill.json` when that file can be read. -/
structure DirEntry where
  name : Str
  isDir : Bool
  skillJson : Option Str
  deriving DecidableEq, Repr

/-- The loop of `Load` over the directory entries. -/
def loadEntries (unmarshal : Str → Option Metadata) :
    List DirEntry → List (Str × Metadata) → List (Str × Metadata)
  | [], skills => skills
  | entry :: rest, skills =>
    if !entry.isDir then loadEntries unmarshal rest skills
    else if entry.name = "_PACK_PLAN.md".toList ∨ entry.name = "_PACK_README.md".toList then
      loadEntries unmarshal rest skills
    else
      match LoadMetadata unmarshal entry.skillJson with
      | .error _ => loadEntries unmarshal rest skills
      | .ok meta => loadEntries unmarshal rest (putSkill skills meta.Name meta)

/-- Source `Load`. `root` is the result of `fs.ReadDir(fsys, ".")`, `none`
when it fails (message `read root: %w`). -/
def Load (unmarshal : Str → Option Metadata) (root : Option (List DirEntry)) :
    Option Registry :=
  match root with
  | none => none
  | some entries => some { skills := loadEntries unmarshal entries [] }

/-! ## internal/skills/validator.go: graph validator -/

/-- Go `strings.Contains`. -/
def containsText (s sub : Str) : Bool :=
  s.tails.any (fun t => sub.isPrefixOf t)

/-- The two marker maps of `detectCycles`, each as the list of its keys. -/
structure Marks where
  visited : List Str
  finished : List Str
  deriving DecidableEq, Repr

/-- The loop `for _, depID := range skill.DependsOn` of `detectCycles`, with
the recursive call as `call`. -/
def detectDeps (call : Str → Marks → Option (Except Str Marks)) (skillID : Str) :
    List Str → Marks → Option (Except Str Marks)
  | [], m => some (.ok m)
  | depID :: rest, m =>
    match call depID m with
    | none => none
    | some (.error err) =>
      if containsText err "circular dependency".toList then
        some (.error (err ++ " -> ".toList ++ skillID))
      else some (.error err)
    | some (.ok m1) => detectDeps call skillID rest m1

/-- Source `detectCycles`. The first argument bounds the depth of the
recursion; `none` means the bound was reached. The maps are passed by
reference in the source and are returned here; on an error the caller
discards them. -/
def detectCycles : Nat → Registry → Str → Marks → Option (Except Str Marks)
  | 0, _, _, _ => none
  | fuel + 1, reg, skillID, m =>
    if skillID ∈ m.finished then some (.ok m)
    else if skillID ∈ m.visited then
      some (.error ("circular dependency detected involving skill: ".toList ++ skillID))
    else
      let m1 : Marks := { visited := skillID :: m.visited, finished := m.finished }
      match lookupSkill reg skillID with
      | none => some (.error ("skill not found: ".toList ++ skillID))
      | some skill =>
        match detectDeps (detectCycles fuel reg) skillID skill.DependsOn m1 with
        | none => none
        | some (.error err) => some (.error err)
        | some (.ok m2) =>
          some (.ok { visited := m2.visited.filter (fun v => v ≠ skillID)
                      finished := skillID :: m2.finished })

/-- The loop of `ValidateRegistry` that looks for duplicate ids. -/
def checkDuplicateIDs : List (Str × Metadata) → List Str → Except Str Unit
  | [], _ => .ok ()
  | kv :: rest, idSet =>
    if kv.2.ID ∈ idSet then .error ("duplicate skill ID: ".toList ++ kv.2.ID)
    else checkDuplicateIDs rest (kv.2.ID :: idSet)

/-- The loop over `skill.DependsOn` in the reference check. -/
def checkDependsOn (reg : Registry) (skill : Metadata) : List Str → Except Str Unit
  | [] => .ok ()
  | depID :: rest =>
    if (lookupSkill reg depID).isNone then
      .error ("skill ".toList ++ skill.ID ++ " depends on non-existent skill ".toList ++ depID)
    else checkDependsOn reg skill rest

/-- The loop over `skill.ConflictsWith` in the reference check. -/
def checkConflictsWith (reg : Registry) (skill : Metadata) : List Str → Except Str Unit
  | [] => .ok ()
  | conflictID :: rest =>
    if (lookupSkill reg conflictID).isNone then
      .error ("skill ".toList ++ skill.ID ++ " conflicts with non-existent skill ".toList
        ++ conflictID)
    else checkConflictsWith reg skill rest

/-- The loop of `ValidateRegistry` that checks the references. -/
def checkReferences (reg : Registry) : List (Str × Metadata) → Except Str Unit
  | [] => .ok ()
  | kv :: rest =>
    match checkDependsOn reg kv.2 kv.2.DependsOn with
    | .error e => .error e
    | .ok _ =>
      match checkConflictsWith reg kv.2 kv.2.ConflictsWith with
      | .error e => .error e
      | .ok _ => checkReferences reg rest

/-- The loop of `ValidateRegistry` that looks for cycles; every start gets
fresh maps. -/
def checkCycles (fuel : Nat) (reg : Registry) : List (Str × Metadata) → Option (Except Str Unit)
  | [] => some (.ok ())
  | kv :: rest =>
    match detectCycles fuel reg kv.1 { visited := [], finished := [] } with
    | none => none
    | some (.error e) => some (.error e)
    | some (.ok _) => checkCycles fuel reg rest

/-- Source `ValidateRegistry`. `reg` is `none` for the nil pointer; `fuel`
bounds the recursion depth of `detectCycles` and the result is `none` when
that bound is reached. -/
def ValidateRegistry (ord : RangeOrder) (fuel : Nat) (reg : Option Registry) :
    Option (Except Str Unit) :=
  match reg with
  | none => some (.error "registry is nil".toList)
  | some reg =>
    match checkDuplicateIDs (ord.shuffle 3 reg.skills) [] with
    | .error e => some (.error e)
    | .ok _ =>
      match checkReferences reg (ord.shuffle 4 reg.skills) with
      | .error e => some (.error e)
      | .ok _ => checkCycles fuel reg (ord.shuffle 5 reg.skills)


/-! ## internal/bootstrap/overrides.go: ExtractSectionBody -/

/-- Source `ExtractSectionBody` (`section_` is the source parameter `section`).
The slice `lines[base.start+1:base.end]` panics when `base.end` is beyond the
end of `lines`. -/
def ExtractSectionBody (content : Str) (section_ : Str) : Run Str :=
  let lines := splitLines content
  let sections := parseMarkdownSections lines
  match lookupSection sections section_ with
  | none => .error (.sectionMissing section_)
  | some base =>
    if base.start + 1 ≥ base.end_ then .ok []
    else if base.end_ ≤ lines.length then
      .ok (joinLines ((lines.drop (base.start + 1)).take (base.end_ - (base.start + 1))))
    else .panic

/-! ## Go `path` and `sort` -/

/-- The elements of a slash path: Go `strings.Split(path, "/")`. -/
def splitSlash : Str → List Str
  | [] => [[]]
  | c :: cs =>
    if c = '/' then [] :: splitSlash cs
    else
      match splitSlash cs with
      | [] => [[c]]
      | e :: es => (c :: e) :: es

/-- Go `strings.Join(elems, "/")`. -/
def joinSlash : List Str → Str
  | [] => []
  | [e] => e
  | e :: e2 :: es => e ++ '/' :: joinSlash (e2 :: es)

/-- One path element in the loop of Go `path.Clean`. `out` holds the elements
written so far, the last one first. An empty element and `.` are dropped; `..`
removes the last element written unless there is none or it is a `..` that
could not be removed itself, in which case a path that is not rooted keeps the
`..` and a rooted path drops it. -/
def cleanElement (rooted : Bool) (out : List Str) (elem : Str) : List Str :=
  if elem = [] ∨ elem = ".".toList then out
  else if elem = "..".toList then
    match out with
    | last :: before => if last = "..".toList then elem :: out else before
    | [] => if rooted then [] else [elem]
  else elem :: out

/-- Go `path.Clean`. -/
def pathClean (path : Str) : Str :=
  if path = [] then ".".toList
  else
    let rooted := decide (path.head? = some '/')
    let out := (splitSlash path).foldl (cleanElement rooted) []
    let body := joinSlash out.reverse
    if rooted then '/' :: body
    else if body = [] then ".".toList else body

/-- Go `path.Join(a, b)`. -/
def pathJoin (a b : Str) : Str :=
  if a = [] ∧ b = [] then []
  else if a = [] then pathClean b
  else pathClean (a ++ '/' :: b)

/-- Go `strings.TrimPrefix(s, lead)`. -/
def trimLeading (s lead : Str) : Str :=
  if lead.isPrefixOf s then s.drop lead.length else s

/-- Go `a < b` on strings: the order of the bytes, which for UTF-8 text is the
order of the characters. -/
def strLess : Str → Str → Bool
  | [], [] => false
  | [], _ :: _ => true
  | _ :: _, [] => false
  | a :: as, b :: bs =>
    if a < b then true else if b < a then false else strLess as bs

/-- Go `sort.Strings`. -/
def sortStrings (l : List Str) : List Str :=
  l.insertionSort (fun a b => strLess b a = false)

/-! ## internal/bootstrap/overrides.go: DetectConflicts -/

/-- Source `Conflict`. -/
structure Conflict where
  Path : Str
  ExistingSkill : Str
  NewSkill : Str
  Severity : Str
  deriving DecidableEq, Repr

/-- Errors of `DetectConflicts`. -/
inductive ConflictError where
  /-- Message `new skill is required`. -/
  | newSkillRequired
  /-- Message `skill %q not found: %w`. -/
  | skillNotFound (skillName : Str)
  /-- An error returned by `fs.WalkDir`. -/
  | walkFailed (skillName : Str)
  deriving DecidableEq, Repr

/-- What `fs.Stat` followed by `fs.WalkDir` gives on a root: `fs.Stat` fails,
the walk fails, or the walk visits these paths of files that are not
directories. -/
inductive Walk where
  | statError
  | walkError
  | files (paths : List Str)
  deriving DecidableEq, Repr

/-- The package source (`fs.FS`), as far as `listSkillFiles` reads it. -/
structure TemplateFS where
  walk : Str → Walk

/-- Source `listSkillFiles`. -/
def listSkillFiles (templates : TemplateFS) (skillName : Str) : Except ConflictError (List Str) :=
  let root := pathJoin skillName ".claude".toList
  match templates.walk root with
  | .statError => .error (.skillNotFound skillName)
  | .walkError => .error (.walkFailed skillName)
  | .files visited =>
    .ok (sortStrings (visited.map fun p =>
      pathJoin ".".toList (trimLeading p (skillName ++ "/".toList))))

/-- The map read `existing[file]`. -/
def lookupOwner (existing : List (Str × Str)) (file : Str) : Option Str :=
  (existing.find? (fun kv => kv.1 = file)).map Prod.snd

/-- The loop `for _, file := range files` of `DetectConflicts`: a file gets the
owner `skill` unless it has one. -/
def claimFiles : List Str → Str → List (Str × Str) → List (Str × Str)
  | [], _, existing => existing
  | file :: rest, skill, existing =>
    match lookupOwner existing file with
    | some _ => claimFiles rest skill existing
    | none => claimFiles rest skill (existing ++ [(file, skill)])

/-- The loop `for _, skill := range installedSkills` of `DetectConflicts`. -/
def collectExisting (templates : TemplateFS) :
    List Str → List (Str × Str) → Except ConflictError (List (Str × Str))
  | [], existing => .ok existing
  | skill :: rest, existing =>
    match listSkillFiles templates skill with
    | .error e => .error e
    | .ok files => collectExisting templates rest (claimFiles files skill existing)

/-- The loop `for _, file := range newFiles` of `DetectConflicts`. -/
def newConflicts (existing : List (Str × Str)) (newSkill : Str) : List Str → List Conflict
  | [] => []
  | file :: rest =>
    match lookupOwner existing file with
    | some owner =>
      { Path := file, ExistingSkill := owner, NewSkill := newSkill, Severity := "warn".toList }
        :: newConflicts existing newSkill rest
    | none => newConflicts existing newSkill rest

/-- The call `sort.Slice(conflicts, ...)` with
`conflicts[i].Path < conflicts[j].Path`. -/
def sortConflicts (conflicts : List Conflict) : List Conflict :=
  conflicts.insertionSort (fun a b => strLess b.Path a.Path = false)

/-- Source `DetectConflicts`. -/
def DetectConflicts (templates : TemplateFS) (installedSkills : List Str) (newSkill : Str) :
    Except ConflictError (List Conflict) :=
  if newSkill = [] then .error .newSkillRequired
  else
    match collectExisting templates installedSkills [] with
    | .error e => .error e
    | .ok existing =>
      match listSkillFiles templates newSkill with
      | .error e => .error e
      | .ok newFiles => .ok (sortConflicts (newConflicts existing newSkill newFiles))

/-- Source `installedSkillIDs` of `cmd/scg-boost/skills_state.go`, on the ids
of the installed records. -/
def installedSkillIDs (ids : List Str) : List Str :=
  ids.filter (fun id => id ≠ [])

/-! ## internal/skills/registry.go: Get and List -/

/-- Source `Registry.Get`. -/
def Registry.Get (r : Registry) (name : Str) : Option Metadata :=
  lookupSkill r name

/-- Source `Registry.List`: the keys are collected in the order of the visit
and sorted, and each is looked up (every one of them is a key). -/
def Registry.List (ord : RangeOrder) (r : Registry) : List Metadata :=
  (sortStrings (ord.shuffle 6 (r.skills.map Prod.fst))).filterMap (lookupSkill r)

/-! ## internal/skills/registry.go: MatchRepoType, HasSkill, Count -/

/-- The inner loop of `MatchRepoType`: some repo type of the skill is
`repoType` or `generic`. -/
def applicable (repoType : Str) (skill : Metadata) : Bool :=
  skill.RepoTypes.any (fun rt => decide (rt = repoType) || decide (rt = "generic".toList))

/-- The call `sort.Slice(matches, ...)` with `matches[i].Name < matches[j].Name`.
The sort of the source is not stable; the order it may give to equal names is
covered by the order in which the map is visited. -/
def sortByName (found : List Metadata) : List Metadata :=
  found.insertionSort (fun a b => strLess b.Name a.Name = false)

/-- The type `[]*Metadata` of the results. -/
abbrev MetadataList := List Metadata

/-- Source `Registry.MatchRepoType`. -/
def Registry.MatchRepoType (ord : RangeOrder) (r : Registry) (repoType : Str) : MetadataList :=
  if repoType = [] then r.List ord
  else sortByName (((ord.shuffle 7 r.skills).map Prod.snd).filter (applicable repoType))

/-- Source `Registry.HasSkill`. -/
def Registry.HasSkill (r : Registry) (name : Str) : Bool :=
  (lookupSkill r name).isSome

/-- Source `Registry.Count`. -/
def Registry.Count (r : Registry) : Nat :=
  r.skills.length

/-! ## internal/skills/validator.go: ValidateSkill -/

/-- The character class `[a-z0-9-]`. -/
def isIdChar (c : Char) : Bool :=
  (97 ≤ c.toNat && c.toNat ≤ 122) || (48 ≤ c.toNat && c.toNat ≤ 57) || c == '-'

/-- The test `regexp.MustCompile("^[a-z0-9-]+$").MatchString(s)`; without the
flag `m` the `$` of Go matches at the end of the text only. -/
def matchesIdPattern (s : Str) : Bool :=
  !s.isEmpty && s.all isIdChar

/-- Go `len(s)` of a string: the number of bytes of its UTF-8 form. -/
def byteLength (s : Str) : Nat :=
  (s.map Char.utf8Size).sum

/-- The regular expression with one character of `chars`. -/
def oneOf (chars : String) : RegularExpression Char :=
  chars.toList.foldr (fun c r => RegularExpression.char c + r) 0

/-- The class `\d`, which is `[0-9]` in Go. -/
def reDigit : RegularExpression Char := oneOf "0123456789"

/-- The class `[1-9]`. -/
def rePositive : RegularExpression Char := oneOf "123456789"

/-- The class `[a-zA-Z-]`. -/
def reLetterOrHyphen : RegularExpression Char :=
  oneOf "abcdefghijklmnopqrstuvwxyzABCDEFGHIJKLMNOPQRSTUVWXYZ-"

/-- The class `[0-9a-zA-Z-]`. -/
def reIdentChar : RegularExpression Char :=
  oneOf "0123456789abcdefghijklmnopqrstuvwxyzABCDEFGHIJKLMNOPQRSTUVWXYZ-"

/-- The group `(0|[1-9]\d*)`. -/
def reNumeric : RegularExpression Char :=
  RegularExpression.char '0' + rePositive * reDigit.star

/-- The group `(?:0|[1-9]\d*|\d*[a-zA-Z-][0-9a-zA-Z-]*)`. -/
def rePrereleaseIdent : RegularExpression Char :=
  RegularExpression.char '0' + rePositive * reDigit.star +
    reDigit.star * reLetterOrHyphen * reIdentChar.star

/-- The group `[0-9a-zA-Z-]+`. -/
def reBuildIdent : RegularExpression Char :=
  reIdentChar * reIdentChar.star

/-- Source `semverRegex`, between `^` and `$`:
`(0|[1-9]\d*)\.(0|[1-9]\d*)\.(0|[1-9]\d*)`, then the optional group
`-` with prerelease identifiers separated by `.`, then the optional group `+`
with build identifiers separated by `.`. -/
def semverRegex : RegularExpression Char :=
  reNumeric * RegularExpression.char '.' * reNumeric * RegularExpression.char '.' * reNumeric *
    (1 + RegularExpression.char '-' *
      (rePrereleaseIdent * (RegularExpression.char '.' * rePrereleaseIdent).star)) *
    (1 + RegularExpression.char '+' *
      (reBuildIdent * (RegularExpression.char '.' * reBuildIdent).star))

/-- The test `semverRegex.MatchString(version)`. -/
def matchesSemver (version : Str) : Bool :=
  semverRegex.rmatch version

/-- Errors of `validateMetadataManually`, one for each `fmt.Errorf`. -/
inductive SchemaError where
  /-- Message `id must match pattern ^[a-z0-9-]+$`. -/
  | idPattern
  /-- Message `id length must be between 1 and 64 characters`. -/
  | idLength
  /-- Message `invalid repo_type: %s`. -/
  | invalidRepoType (rt : Str)
  /-- Message `type is required`. -/
  | typeRequired
  /-- Message `invalid type: %s`. -/
  | invalidType (t : Str)
  /-- Message `tag %q must match pattern ^[a-z0-9-]+$`. -/
  | tagPattern (tag : Str)
  /-- Message `dependency ID %q must match pattern ^[a-z0-9-]+$`. -/
  | dependencyPattern (dep : Str)
  /-- Message `conflict ID %q must match pattern ^[a-z0-9-]+$`. -/
  | conflictPattern (conflict : Str)
  deriving DecidableEq, Repr

/-- A loop of `validateMetadataManually` over a list: the error of the first
element that fails the test. -/
def firstFailing (ok : Str → Bool) (err : Str → SchemaError) : List Str → Except SchemaError Unit
  | [] => .ok ()
  | x :: rest => if ok x then firstFailing ok err rest else .error (err x)

/-- The map `validRepoTypes`. -/
def validRepoTypes : List Str :=
  ["go-service".toList, "go-library".toList, "terraform".toList, "generic".toList]

/-- The map `validTypes`. -/
def validTypes : List Str :=
  ["concrete".toList, "library".toList, "generic".toList]

/-- Source `validateMetadataManually` (and `validateAgainstSchema`, which calls
it). -/
def validateMetadataManually (meta : Metadata) : Except SchemaError Unit :=
  if !matchesIdPattern meta.ID then .error .idPattern
  else if byteLength meta.ID < 1 ∨ byteLength meta.ID > 64 then .error .idLength
  else
    match firstFailing (fun rt => decide (rt ∈ validRepoTypes)) .invalidRepoType meta.RepoTypes with
    | .error e => .error e
    | .ok _ =>
      if meta.Type_ = [] then .error .typeRequired
      else if meta.Type_ ∉ validTypes then .error (.invalidType meta.Type_)
      else
        match firstFailing matchesIdPattern .tagPattern meta.Tags with
        | .error e => .error e
        | .ok _ =>
          match firstFailing matchesIdPattern .dependencyPattern meta.DependsOn with
          | .error e => .error e
          | .ok _ => firstFailing matchesIdPattern .conflictPattern meta.ConflictsWith

/-- Go `filepath.Base` with the separator `/`. -/
def filepathBase (path : Str) : Str :=
  if path = [] then ".".toList
  else
    let stripped := (path.reverse.dropWhile (fun c => c == '/')).reverse
    let last := (stripped.reverse.takeWhile (fun c => c != '/')).reverse
    if last = [] then "/".toList else last

/-- Errors of `ValidateSkill`. -/
inductive SkillError where
  /-- Message `load metadata: %w`. -/
  | loadMetadata (e : MetadataError)
  /-- Message `schema validation: %w`. -/
  | schemaValidation (e : SchemaError)
  /-- Message `skill ID %q does not match directory name %q`. -/
  | idMismatch (id expectedID : Str)
  /-- Message `invalid semver version: %s`. -/
  | invalidSemver (version : Str)
  /-- Message `required file %s not found`. -/
  | requiredFileMissing (file : Str)
  deriving DecidableEq, Repr

/-- Source `ValidateSkill`. `file` is the content of `<skillPath>/skill.json`
(`none` when it cannot be read), `unmarshal` is `json.Unmarshal` and
`hasClaudeMd` tells whether `fs.Stat` finds `<skillPath>/.claude/CLAUDE.md`. -/
def ValidateSkill (unmarshal : Str → Option Metadata) (file : Option Str) (skillPath : Str)
    (hasClaudeMd : Bool) : Except SkillError Unit :=
  match LoadMetadata unmarshal file with
  | .error e => .error (.loadMetadata e)
  | .ok meta =>
    match validateMetadataManually meta with
    | .error e => .error (.schemaValidation e)
    | .ok _ =>
      let expectedID := filepathBase skillPath
      if meta.ID ≠ expectedID then .error (.idMismatch meta.ID expectedID)
      else if !matchesSemver meta.Version then .error (.invalidSemver meta.Version)
      else if !hasClaudeMd then .error (.requiredFileMissing ".claude/CLAUDE.md".toList)
      else .ok ()

/-! ## cmd/scg-boost/skills_state.go: upsertInstalledSkill -/

/-- Source `InstalledSkill`; `InstalledAt` is a time, as a number. -/
structure InstalledSkill where
  ID : Str
  Version : Str
  InstalledAt : Nat
  HasOverrides : Bool
  deriving DecidableEq, Repr

/-- Source `InstalledState`. -/
structure InstalledState where
  Skills : List InstalledSkill
  deriving DecidableEq, Repr

/-- The loop `for i := range state.Skills` of `upsertInstalledSkill`: the list
with the first record of the id updated, `none` when the loop ends without a
return. `now` is `time.Now().UTC()`. -/
def upsertLoop (now : Nat) (meta : Metadata) (hasOverrides : Bool) :
    List InstalledSkill → Option (List InstalledSkill)
  | [] => none
  | s :: rest =>
    if s.ID = meta.ID then
      some ({ s with Version := meta.Version, InstalledAt := now, HasOverrides := hasOverrides }
        :: rest)
    else (upsertLoop now meta hasOverrides rest).map (fun l => s :: l)

/-- Source `upsertInstalledSkill`: the state the pointer refers to afterwards
(`none` for the nil pointer). -/
def upsertInstalledSkill (now : Nat) (state : Option InstalledState) (meta : Option Metadata)
    (hasOverrides : Bool) : Option InstalledState :=
  match state, meta with
  | some st, some m =>
    match upsertLoop now m hasOverrides st.Skills with
    | some skills => some { Skills := skills }
    | none =>
      some { Skills := st.Skills ++
        [{ ID := m.ID, Version := m.Version, InstalledAt := now, HasOverrides := hasOverrides }] }
  | st, _ => st

/-! ## internal/tools/dbquery/readonly.go: IsReadOnly -/

/-- The call `regexp.MustCompile("--.*").ReplaceAllString(query, "")`: from
each `--` to the end of its line is removed (`.` does not match a newline).
The flag tells whether the text is inside such a match. -/
def dropLineComments : Bool → Str → Str
  | _, [] => []
  | true, c :: rest =>
    if c = '\n' then c :: dropLineComments false rest else dropLineComments true rest
  | false, [c] => [c]
  | false, c :: d :: rest =>
    if c = '-' ∧ d = '-' then dropLineComments true rest
    else c :: dropLineComments false (d :: rest)

/-- The length of the shortest match of `.*?\*/` at the start of the text:
up to the end of the first `*/` that no newline comes before. -/
def blockCommentEnd : Str → Option Nat
  | [] => none
  | [_] => none
  | c :: d :: rest =>
    if c = '*' ∧ d = '/' then some 2
    else if c = '\n' then none
    else (blockCommentEnd (d :: rest)).map (fun n => n + 1)

/-- The call `regexp.MustCompile("/\*.*?\*/").ReplaceAllString(query, "")`.
The number tells how many characters of a match are still to be removed. -/
def dropBlockComments : Nat → Str → Str
  | _, [] => []
  | skip + 1, _ :: rest => dropBlockComments skip rest
  | 0, c :: rest =>
    if c = '/' ∧ rest.head? = some '*' then
      match blockCommentEnd rest.tail with
      | some n => dropBlockComments (n + 1) rest
      | none => c :: dropBlockComments 0 rest
    else c :: dropBlockComments 0 rest

/-- Go `strings.Split(s, ";")`. -/
def splitSemicolon : Str → List Str
  | [] => [[]]
  | c :: cs =>
    if c = ';' then [] :: splitSemicolon cs
    else
      match splitSemicolon cs with
      | [] => [[c]]
      | p :: ps => (c :: p) :: ps

/-- The class `\w` of Go: `[0-9A-Za-z_]`. -/
def isWordChar (c : Char) : Bool :=
  (48 ≤ c.toNat && c.toNat ≤ 57) || (65 ≤ c.toNat && c.toNat ≤ 90) ||
    (97 ≤ c.toNat && c.toNat ≤ 122) || c == '_'

/-- The assertion `\b` between two neighbours (`none` at an end of the text):
exactly one of them is a word character. -/
def wordBoundary (before after : Option Char) : Bool :=
  before.any isWordChar != after.any isWordChar

/-- Under the flag `i` the upper-case letter `p` of a pattern matches itself,
its lower case, and the other characters of its case-folding orbit: U+212A for
`K` and U+017F for `S`. -/
def foldMatches (p c : Char) : Bool :=
  c == p || c.toNat == p.toNat + 32 || (p == 'K' && c.toNat == 0x212A) ||
    (p == 'S' && c.toNat == 0x17F)

/-- The text starts with the keyword, under the flag `i`. -/
def foldPrefix : Str → Str → Bool
  | [], _ => true
  | _ :: _, [] => false
  | p :: ps, c :: cs => foldMatches p c && foldPrefix ps cs

/-- The keyword, followed by `\b`, matches at the start of the text. -/
def keywordThenBoundary (text : Str) (keyword : Str) : Bool :=
  foldPrefix keyword text &&
    wordBoundary (text.get? (keyword.length - 1)) (text.get? keyword.length)

/-- The alternatives of the pattern `blocked`. -/
def blockedKeywords : List Str :=
  ["INSERT".toList, "UPDATE".toList, "DELETE".toList, "MERGE".toList, "ALTER".toList,
   "TRUNCATE".toList, "DROP".toList, "CREATE".toList, "REINDEX".toList, "VACUUM".toList,
   "ANALYZE".toList, "GRANT".toList, "REVOKE".toList, "COPY".toList, "CALL".toList,
   "DO".toList]

/-- The pattern `(?i)\b(INSERT|...|DO)\b` matches somewhere in the text that
follows `before`. -/
def blockedMatch : Option Char → Str → Bool
  | _, [] => false
  | before, c :: rest =>
    (wordBoundary before (some c) && blockedKeywords.any (keywordThenBoundary (c :: rest))) ||
      blockedMatch (some c) rest

/-- The class `\s` of Go: `[\t\n\f\r ]`. -/
def isRegexSpace (c : Char) : Bool :=
  c == '\t' || c == '\n' || c.toNat == 12 || c == '\r' || c == ' '

/-- The pattern `(?i)^\s*(SELECT|WITH)\b` matches the text. -/
def allowedMatch (query : Str) : Bool :=
  ["SELECT".toList, "WITH".toList].any (keywordThenBoundary (query.dropWhile isRegexSpace))

/-- Source `IsReadOnly`. -/
def IsReadOnly (query : Str) : Bool :=
  let query := trimSpace (dropBlockComments 0 (dropLineComments false query))
  if containsText query ";".toList then
    let parts := splitSemicolon query
    if parts.length > 1 ∧ trimSpace (parts.getD 1 []) ≠ [] then false
    else
      let query := parts.headD []
      if blockedMatch none query then false else allowedMatch query
  else
    if blockedMatch none query then false else allowedMatch query

/-! ## Notions used to state the properties -/

/-- A heading list is ordered when the line indices increase strictly and stay
inside `[lo, n)`. -/
def HeadingsOrdered (lo n : Nat) : List heading → Prop
  | [] => True
  | h :: later => lo ≤ h.index ∧ h.index < n ∧ HeadingsOrdered (h.index + 1) n later

/-- A section is cut from a heading list when it is the section the second
loop computes for one of the headings. -/
def CutFrom (n : Nat) (hs : List heading) (s : mdSection) : Prop :=
  ∃ pre h later, hs = pre ++ h :: later ∧
    s = { anchor := h.anchor, level := h.level, start := h.index,
          end_ := sectionEnd n h.level later }

/-- The lines `lines[lo:hi]`. -/
def linesBetween (lines : List Str) (lo hi : Nat) : List Str :=
  (lines.drop lo).take (hi - lo)

/-- The section index of a text. -/
def sectionIndex (content : Str) : List mdSection :=
  parseMarkdownSections (splitLines content)

/-- What a `LineSlice` holds, given the array behind `overrideLines`. -/
def LineSlice.read (overrideLines : List Str) : LineSlice → List Str
  | .fresh lines => lines
  | .sub lo hi => linesBetween overrideLines lo hi

/-- The replacement the loop over the override sections builds for one of
them, when its anchor is in the base index. -/
def replacementFor (baseSections : List mdSection) (s : mdSection) : Option sectionReplacement :=
  (lookupSection baseSections s.anchor).map fun b =>
    { start := b.start, end_ := b.end_, lines := .sub s.start s.end_ }

/-- The override sections whose anchor the rule allows. -/
def selected (allowedSections : List Str) (l : List mdSection) : List mdSection :=
  l.filter (fun s => decide (s.anchor ∈ allowedSections))

/-- An override with section index `overrideSections`, applied under a rule
with the allowed anchors `allowed`, targets only the section `a`: either it has
no headings and `a` is the one allowed anchor, or `a` is the only anchor of
the override that is allowed. -/
def TargetsOnly (overrideSections : List mdSection) (allowed : List Str) (a : Str) : Prop :=
  (overrideSections = [] ∧ allowed = [a]) ∨
  ((∃ s ∈ overrideSections, s.anchor = a) ∧
    ∀ s ∈ overrideSections, s.anchor ∈ allowed ↔ s.anchor = a)

/-- The file system `fs1` comes from `fs` by successful writes to paths that
satisfy `P` only: the journal has grown by such writes, every other path reads
as before, and what can be written has not changed. -/
def WritesOnly (P : Str → Prop) (fs fs1 : FS) : Prop :=
  (∃ new, fs1.journal = new ++ fs.journal ∧ ∀ e ∈ new, P e.1) ∧
  (∀ q, ¬ P q → fs1.files q = fs.files q) ∧ fs1.writable = fs.writable

/-- The rule map grants a full-file override of `p`. -/
def FullAt (rules : List (Str × overrideRule)) (p : Str) : Prop :=
  ∃ rule, lookupRule rules p = some rule ∧ rule.full = true

/-- The declaration `raw` names the file `p` without an anchor. -/
def DeclaresFull (clean : Str → Str) (raw p : Str) : Prop :=
  trimSpace raw ≠ [] ∧ clean (splitHash (trimSpace raw)).1 = p ∧
    ((splitHash (trimSpace raw)).2 = none ∨ (splitHash (trimSpace raw)).2 = some [])

/-- Two ways of returning agree up to the text of the error. -/
def Exit.agrees (x y : Exit) : Prop :=
  x = y ∨ ∃ e1 e2, x = .error e1 ∧ y = .error e2

/-- An edit of a line list: the span `[start, end_)` is replaced by `lines`. -/
structure Edit where
  start : Nat
  end_ : Nat
  lines : List Str
  deriving DecidableEq, Repr

/-- The edits an override selects, as the specification lists them: for every
anchor of the override that is allowed, the base span of the anchor and the
lines of the override span of the anchor. -/
def selectedEdits (base override : Str) (allowed : List Str) : List Edit :=
  (sectionIndex override).filterMap fun s =>
    if s.anchor ∈ allowed then
      (lookupSection (sectionIndex base) s.anchor).map fun b =>
        { start := b.start, end_ := b.end_
          lines := linesBetween (splitLines override) s.start s.end_ }
    else none

/-- Reference semantics of the specification: every selected span of the
original line list is replaced by its lines at once. A line that starts a span
gives the lines of that span, a line inside a span gives nothing (so a span
inside another one goes with the outer span), and every other line is kept. -/
def replaceSimultaneously (lines : List Str) (edits : List Edit) : List Str :=
  lines.enum.flatMap fun il =>
    if edits.any (fun e => decide (e.start < il.1 ∧ il.1 < e.end_)) then []
    else
      match edits.find? (fun e => decide (e.start = il.1)) with
      | some e => e.lines
      | none => [il.2]

/-- The ids the descriptor stored under `key` depends on (none when the key is
absent). -/
def dependsOf (reg : Registry) (key : Str) : List Str :=
  match lookupSkill reg key with
  | some skill => skill.DependsOn
  | none => []

/-- The descriptor stored under the key `a` lists `b` in `dependsOn`: the edge
`detectCycles` follows. -/
def KeyEdge (reg : Registry) (a b : Str) : Prop := b ∈ dependsOf reg a

/-- The descriptor with id `a` lists `b` in `dependsOn`. -/
def DependsEdge (reg : Registry) (a b : Str) : Prop :=
  ∃ kv ∈ reg.skills, kv.2.ID = a ∧ b ∈ kv.2.DependsOn

/-- The `dependsOn` relation of the registry has a directed cycle. -/
def HasCycle (reg : Registry) : Prop :=
  ∃ x, Relation.TransGen (DependsEdge reg) x x

/-- The map keys are pairwise distinct and each is the id of its descriptor. -/
def KeysAreIds (reg : Registry) : Prop :=
  (reg.skills.map Prod.fst).Nodup ∧ ∀ kv ∈ reg.skills, kv.1 = kv.2.ID

/-- Every id in a `dependsOn` or `conflictsWith` list is the id of a descriptor
of the registry. -/
def ReferencesResolve (reg : Registry) : Prop :=
  ∀ kv ∈ reg.skills,
    (∀ d ∈ kv.2.DependsOn, ∃ kv1 ∈ reg.skills, kv1.2.ID = d) ∧
    (∀ d ∈ kv.2.ConflictsWith, ∃ kv1 ∈ reg.skills, kv1.2.ID = d)

/-- The text of a circular-dependency error. -/
def CircularText (msg : Str) : Prop :=
  "circular dependency detected involving skill: ".toList <+: msg

/-- The result is a circular-dependency error. -/
def IsCircularError (r : Except Str Unit) : Prop :=
  ∃ msg, r = .error msg ∧ CircularText msg

/-- The `finished` markers are in order: each key was entered once, after all
the keys it depends on. -/
def FinishedOK (reg : Registry) : List Str → Prop
  | [] => True
  | x :: rest => x ∉ rest ∧ (∀ d ∈ dependsOf reg x, d ∈ rest) ∧ FinishedOK reg rest

/-! ## Example inputs -/

/-- The target of the example scenarios. -/
def exampleTarget : Str := ".claude/CLAUDE.md".toList

/-- A repository in which the target holds `base`, nothing else can be read and
every write succeeds. -/
def exampleFS (base : Str) : FS where
  files := fun p => if p = exampleTarget then some base else none
  writable := fun _ => true
  journal := []

/-- A repository in which the target holds `base` and no write succeeds. -/
def readOnlyFS (base : Str) : FS where
  files := fun p => if p = exampleTarget then some base else none
  writable := fun _ => false
  journal := []

/-- The base file of the section override scenario. -/
def exampleBase : Str :=
  "# Title\n## Repo-Specific Rules\nbase rules\n## Other\nkeep this".toList

/-- An override of the example base with one heading. -/
def exampleOverride : Str := "## Repo-Specific Rules\nnew rules".toList

/-- A base file with the section `b` inside the section `a`, and the section
`c` after them. -/
def nestedBase : Str := "# A\n## B\nb1\nb2\n# C\nc".toList

/-- An override for both `a` and `b` of `nestedBase`. -/
def nestedOverride : Str := "# A\nnewA\n## B\nnewB".toList

/-- A base file with the sibling sections `a` and `b`, followed by a further
heading. -/
def siblingBase : Str := "## A\na\n## B\nb\n# T".toList

/-- An override for both sections of `siblingBase` that lists `b` first. -/
def siblingOverride : Str := "## B\nB2\n## A\nA2".toList

/-- Two staged override files: the first is declared for a section the base
does not have, the second is not declared. -/
def stagedPair : List (Str × Str) :=
  [(exampleTarget, "text".toList), (".claude/notes.md".toList, "other".toList)]

/-- The target of the full-file scenario. -/
def customTarget : Str := ".claude/commands/custom.md".toList

/-- A descriptor with the given id (also its name) and `dependsOn` list, stored
under its id. -/
def skillEntry (id : Str) (dependsOn : List Str) : Str × Metadata :=
  (id, { ID := id, Name := id, Type_ := "generic".toList, Version := "1.0.0".toList
         Description := "skill".toList, Tags := [], RepoTypes := ["generic".toList]
         Author := [], DependsOn := dependsOn, ConflictsWith := [], Provides := []
         OverridePaths := [] })

/-- The chain A -> B -> C -> A. -/
def chainRegistry : Registry where
  skills := [skillEntry "A".toList ["B".toList], skillEntry "B".toList ["C".toList],
    skillEntry "C".toList ["A".toList]]

/-- The diamond A -> B, A -> C, B -> D, C -> D. -/
def diamondRegistry : Registry where
  skills := [skillEntry "A".toList ["B".toList, "C".toList], skillEntry "B".toList ["D".toList],
    skillEntry "C".toList ["D".toList], skillEntry "D".toList []]

/-- A rank that decreases along every edge of the diamond. -/
def diamondRank (id : Str) : Nat :=
  if id = "A".toList then 3 else if id = "B".toList then 2 else if id = "C".toList then 2
  else if id = "D".toList then 1 else 0

/-- A descriptor whose name differs from its id. -/
def namedSkill (id name : Str) (dependsOn : List Str) : Metadata where
  ID := id
  Name := name
  Type_ := "concrete".toList
  Version := "1.0.0".toList
  Description := "skill".toList
  Tags := []
  RepoTypes := ["go-service".toList]
  Author := []
  DependsOn := dependsOn
  ConflictsWith := []
  Provides := []
  OverridePaths := []

/-- The `skill.json` of the directory `alpha`. -/
def alphaJson : Str :=
  ("\x7b\"id\":\"alpha\",\"name\":\"Alpha\",\"type\":\"concrete\",\"version\":\"1.0.0\"," ++
   "\"description\":\"skill\",\"repo_types\":[\"go-service\"]\x7d").toList

/-- The `skill.json` of the directory `beta`, which depends on the id `alpha`. -/
def betaJson : Str :=
  ("\x7b\"id\":\"beta\",\"name\":\"Beta\",\"type\":\"concrete\",\"version\":\"1.0.0\"," ++
   "\"description\":\"skill\",\"repo_types\":[\"go-service\"],\"depends_on\":[\"alpha\"]\x7d").toList

/-- What `json.Unmarshal` gives on the two documents above. -/
def exampleUnmarshal (data : Str) : Option Metadata :=
  if data = alphaJson then some (namedSkill "alpha".toList "Alpha".toList [])
  else if data = betaJson then some (namedSkill "beta".toList "Beta".toList ["alpha".toList])
  else none

/-- A package source with the skill directories `alpha` and `beta`. -/
def namedSource : List DirEntry :=
  [{ name := "alpha".toList, isDir := true, skillJson := some alphaJson },
   { name := "beta".toList, isDir := true, skillJson := some betaJson }]

/-! ## Notions for the section index, the anchors and the override rules -/

/-- The level and anchor with which the first loop of `parseMarkdownSections`
records a line: the line is an ATX heading and its anchor is not empty. -/
def indexedHeading (line : Str) : Option (Nat × Str) :=
  match parseHeading line with
  | none => none
  | some (level, text) =>
    if anchorFromHeading text = [] then none else some (level, anchorFromHeading text)

/-- The text with each maximal run of characters outside `[a-z0-9]` replaced
by one hyphen. -/
def collapseRuns : Str → Str
  | [] => []
  | ch :: rest =>
    if isSlugChar ch then ch :: collapseRuns rest
    else '-' :: collapseRuns (rest.dropWhile (fun c => !isSlugChar c))
termination_by s => s.length
decreasing_by
  · simp
  · simp only [List.length_cons]
    exact Nat.lt_succ_of_le (List.Sublist.length_le (List.dropWhile_sublist _))

/-- The slug of a heading text as the specification words it: the text in
lower case, each maximal run of characters outside `[a-z0-9]` replaced by one
hyphen, and the hyphens at both ends removed. -/
def slugReference (text : Str) : Str :=
  trimDash (collapseRuns (toLower text))

/-- A level-2 section whose body is followed by a level-1 heading without
letters or digits. -/
def punctuationHeadingLines : List Str :=
  ["## A".toList, "a".toList, "# !!!".toList, "b".toList]

/-- Two headings without letters or digits. -/
def anchorlessLines : List Str :=
  ["# !!!".toList, "text".toList, "# ???".toList]

/-- A text in which the anchor `a` occurs twice. -/
def repeatedAnchorText : Str :=
  "# T\n## A\nfirst\n### Sub\nmore\n## B\n## A\nsecond".toList

/-- The declaration `raw` is not blank and names the file `p`. -/
def DeclaresFile (clean : Str → Str) (raw p : Str) : Prop :=
  trimSpace raw ≠ [] ∧ clean (splitHash (trimSpace raw)).1 = p

/-- The declaration `raw` names the file `p` with the anchor `a`, which is not
empty. -/
def DeclaresSection (clean : Str → Str) (raw p a : Str) : Prop :=
  trimSpace raw ≠ [] ∧ clean (splitHash (trimSpace raw)).1 = p ∧
    (splitHash (trimSpace raw)).2 = some a ∧ a ≠ []

/-- The test with which `parseOverridePaths` rejects a cleaned file path: it is
`.`, or starts with `../`, or is neither `.claude` nor under `.claude/`. -/
def Rejected (filePath : Str) : Prop :=
  (filePath = ".".toList ∨ "../".toList.isPrefixOf filePath) ∨
    (¬ ".claude/".toList.isPrefixOf filePath ∧ filePath ≠ ".claude".toList)

instance (filePath : Str) : Decidable (Rejected filePath) := by
  unfold Rejected; infer_instance

/-- The full-file flag the rule map holds for `p` (false without a rule). -/
def ruleFull (rules : List (Str × overrideRule)) (p : Str) : Bool :=
  ((lookupRule rules p).map (·.full)).getD false

/-- The anchors the rule map holds for `p` (none without a rule). -/
def ruleSections (rules : List (Str × overrideRule)) (p : Str) : List Str :=
  ((lookupRule rules p).map (·.sections)).getD []

/-- Declarations that name `.claude/CLAUDE.md` three times and `.claude/x.md`
once. -/
def exampleDeclarations : List Str :=
  [".claude/CLAUDE.md#a".toList, "  ".toList, ".claude/./CLAUDE.md".toList,
   ".claude/x.md#b".toList, ".claude/CLAUDE.md#a".toList]

/-! ## Notions for paths, manifests and conflicts -/

/-- Go `fs.ValidPath` for a path other than the root `.`: no element of the
path is empty, `.` or `..`. -/
def ValidPath (p : Str) : Prop :=
  ∀ e ∈ splitSlash p, e ≠ [] ∧ e ≠ ".".toList ∧ e ≠ "..".toList

instance (p : Str) : Decidable (ValidPath p) := by
  unfold ValidPath; infer_instance

/-- The path is `.claude` or starts with `.claude/`. -/
def UnderClaude (p : Str) : Prop :=
  p = ".claude".toList ∨ ".claude/".toList.isPrefixOf p = true

instance (p : Str) : Decidable (UnderClaude p) := by
  unfold UnderClaude; infer_instance

/-- Declarations of which the second, once cleaned, leaves `.claude`. -/
def escapingDeclarations : List Str :=
  [".claude/CLAUDE.md".toList, ".claude/../etc/passwd#x".toList]

/-- Declarations whose cleaned paths stay under `.claude`. -/
def windingDeclarations : List Str :=
  [".claude/a/../b.md#x".toList, "./.claude//c.md".toList]

/-- What `fs.Stat` and `fs.WalkDir` guarantee for the roots `listSkillFiles`
walks: every file is visited once, under a valid path that is the root or lies
below it. -/
def WalkContract (templates : TemplateFS) : Prop :=
  ∀ skillName visited, templates.walk (pathJoin skillName ".claude".toList) = .files visited →
    visited.Nodup ∧
    ∀ p ∈ visited, ValidPath p ∧
      (p = pathJoin skillName ".claude".toList ∨
        (pathJoin skillName ".claude".toList ++ "/".toList).isPrefixOf p = true)

/-- The manifest of a skill: the files `listSkillFiles` finds for it, none when
it fails. -/
def manifest (templates : TemplateFS) (id : Str) : List Str :=
  match listSkillFiles templates id with
  | .ok files => files
  | .error _ => []

/-- The first id of the installed list whose manifest holds the path. -/
def firstOwner (templates : TemplateFS) (installed : List Str) (path : Str) : Option Str :=
  installed.find? (fun id => decide (path ∈ manifest templates id))

/-- The conflicts as the specification defines them: one for each path of the
manifest of the new skill that some installed id owns, with the first such id
as the existing skill. -/
def referenceConflicts (templates : TemplateFS) (installed : List Str) (newSkill : Str) :
    List Conflict :=
  (manifest templates newSkill).filterMap fun path =>
    (firstOwner templates installed path).map fun owner =>
      { Path := path, ExistingSkill := owner, NewSkill := newSkill, Severity := "warn".toList }

/-- The package source of `TestDetectConflicts`: `skill-a` has `CLAUDE.md`,
`skill-b` has `CLAUDE.md` and `commands/test.md`. -/
def exampleTemplates : TemplateFS where
  walk := fun root =>
    if root = "skill-a/.claude".toList then .files ["skill-a/.claude/CLAUDE.md".toList]
    else if root = "skill-b/.claude".toList then
      .files ["skill-b/.claude/CLAUDE.md".toList, "skill-b/.claude/commands/test.md".toList]
    else .statError

/-! ## Notions for the result of the validation -/

/-- The kinds of error `ValidateRegistry` returns. -/
inductive ErrorKind where
  | duplicateID
  | missingReference
  | circular
  | other
  deriving DecidableEq, Repr

/-- The kind of an error of `ValidateRegistry`, read from the start of its
text. -/
def errorKind (e : Str) : ErrorKind :=
  if "duplicate skill ID: ".toList.isPrefixOf e then .duplicateID
  else if "circular dependency detected involving skill: ".toList.isPrefixOf e then .circular
  else if "skill ".toList.isPrefixOf e then .missingReference
  else .other

/-- Two results of a validation give the same verdict: both accept, or both
reject with an error of the same kind. -/
def SameVerdict (r1 r2 : Except Str Unit) : Prop :=
  (r1 = .ok () ∧ r2 = .ok ()) ∨
    ∃ e1 e2, r1 = .error e1 ∧ r2 = .error e2 ∧ errorKind e1 = errorKind e2

/-- Two disjoint cycles: A -> B -> A and C -> D -> C. -/
def twoCycleRegistry : Registry where
  skills := [skillEntry "A".toList ["B".toList], skillEntry "B".toList ["A".toList],
    skillEntry "C".toList ["D".toList], skillEntry "D".toList ["C".toList]]

/-- Two skills that each depend on an id that is not in the registry. -/
def twoDanglingRegistry : Registry where
  skills := [skillEntry "A".toList ["X".toList], skillEntry "B".toList ["Y".toList]]

/-! ## Example registry source -/

/-- The `skill.json` of the directory `zeta`, whose name is `Alpha`. -/
def zetaJson : Str :=
  ("\x7b\"id\":\"zeta\",\"name\":\"Alpha\",\"type\":\"concrete\",\"version\":\"1.0.0\"," ++
   "\"description\":\"skill\",\"repo_types\":[\"go-service\"]\x7d").toList

/-- The `skill.json` of the directory `beta`, whose name is `Beta`. -/
def plainBetaJson : Str :=
  ("\x7b\"id\":\"beta\",\"name\":\"Beta\",\"type\":\"concrete\",\"version\":\"1.0.0\"," ++
   "\"description\":\"skill\",\"repo_types\":[\"go-service\"]\x7d").toList

/-- What `json.Unmarshal` gives on the two documents above. -/
def zetaUnmarshal (data : Str) : Option Metadata :=
  if data = zetaJson then some (namedSkill "zeta".toList "Alpha".toList [])
  else if data = plainBetaJson then some (namedSkill "beta".toList "Beta".toList [])
  else none

/-- A package source with the skill directories `beta` and `zeta`, in the
order of `fs.ReadDir`. -/
def misnamedSource : List DirEntry :=
  [{ name := "beta".toList, isDir := true, skillJson := some plainBetaJson },
   { name := "zeta".toList, isDir := true, skillJson := some zetaJson }]

/-! ## Example inputs for the splice and the scaffold -/

/-- A base in which the section `b` lies inside the section `a` and runs to
the end of the file. -/
def shrinkBase : Str := "# A\n## B\nb1\nb2\nb3".toList

/-- An override that replaces both sections and gives `b` fewer lines than it
has in the base. -/
def shrinkOverride : Str := "# A\n## B".toList

/-- The override of `siblingOverride` with its two sections in the order of the
base. -/
def orderedOverride : Str := "## A\nA2\n## B\nB2".toList

/-- A base whose section `a` has one empty line as body. -/
def blankBodyBase : Str := "## A\n\n## B\nb".toList

/-- A base whose section `a` holds a heading with the same anchor. -/
def echoBase : Str := "## A\n### A\nx".toList

/-! ## Notions for discovery -/

/-- The directory entry is one `Load` looks into: a directory that does not
have one of the two reserved names. -/
def Scanned (entry : DirEntry) : Prop :=
  entry.isDir = true ∧ entry.name ≠ "_PACK_PLAN.md".toList ∧
    entry.name ≠ "_PACK_README.md".toList

instance (entry : DirEntry) : Decidable (Scanned entry) := by
  unfold Scanned; infer_instance

/-- The entry is a directory whose `skill.json` loads. -/
def loadable (unmarshal : Str → Option Metadata) (entry : DirEntry) : Bool :=
  entry.isDir &&
    match LoadMetadata unmarshal entry.skillJson with
    | .ok _ => true
    | .error _ => false

/-- A package source whose only entry is a directory with the reserved name
`_PACK_PLAN.md` and a `skill.json` that loads. -/
def reservedNameSource : List DirEntry :=
  [{ name := "_PACK_PLAN.md".toList, isDir := true, skillJson := some alphaJson }]

/-- A registry with skills for three repo types. -/
def mixedRegistry : Registry where
  skills :=
    [("svc".toList, { namedSkill "svc".toList "svc".toList [] with
        RepoTypes := ["go-service".toList] }),
     ("lib".toList, { namedSkill "lib".toList "lib".toList [] with
        RepoTypes := ["go-library".toList] }),
     ("any".toList, { namedSkill "any".toList "any".toList [] with
        RepoTypes := ["generic".toList] })]

/-! ## Example inputs for the validation of a skill, the installed state and
the read-only guard -/

/-- A descriptor that `LoadMetadata` and the schema accept, with the given id
and version. -/
def versionedSkill (id version : Str) : Metadata :=
  { namedSkill id id [] with Version := version }

/-- A `json.Unmarshal` that gives the same descriptor for every document. -/
def constUnmarshal (meta : Metadata) (_ : Str) : Option Metadata := some meta

/-- An installed state with the records of `skill-a` and `skill-b`. -/
def exampleState : InstalledState where
  Skills :=
    [{ ID := "skill-a".toList, Version := "1.0.0".toList, InstalledAt := 10,
       HasOverrides := false },
     { ID := "skill-b".toList, Version := "2.0.0".toList, InstalledAt := 20,
       HasOverrides := true }]

/-- A query with two semicolons before a write statement. -/
def hiddenWriteQuery : Str := "SELECT 1;; DROP TABLE users".toList

/-! ## Semantic versions, as semver.org 2.0.0 words them -/

/-- An ASCII digit. -/
def isAsciiDigit (c : Char) : Bool :=
  48 ≤ c.toNat && c.toNat ≤ 57

/-- A character of an identifier: an ASCII digit, an ASCII letter or a hyphen. -/
def isIdentChar (c : Char) : Bool :=
  isAsciiDigit c || (65 ≤ c.toNat && c.toNat ≤ 90) || (97 ≤ c.toNat && c.toNat ≤ 122) ||
    c == '-'

/-- A numeric identifier: digits, without a leading zero unless it is `0`. -/
def IsNumericIdentifier (s : Str) : Prop :=
  s ≠ [] ∧ (∀ c ∈ s, isAsciiDigit c = true) ∧ (s.head? = some '0' → s = ['0'])

/-- An identifier of a pre-release: characters of identifiers, and without a
leading zero when it is made of digits only. -/
def IsPrereleaseIdentifier (s : Str) : Prop :=
  s ≠ [] ∧ (∀ c ∈ s, isIdentChar c = true) ∧
    ((∀ c ∈ s, isAsciiDigit c = true) → s.head? = some '0' → s = ['0'])

/-- An identifier of build metadata: characters of identifiers, at least one. -/
def IsBuildIdentifier (s : Str) : Prop :=
  s ≠ [] ∧ ∀ c ∈ s, isIdentChar c = true

/-- Identifiers joined by dots. -/
def joinDots : List Str → Str
  | [] => []
  | [e] => e
  | e :: e2 :: es => e ++ '.' :: joinDots (e2 :: es)

/-- A valid semantic version: `major.minor.patch` of numeric identifiers, then
optionally `-` and the pre-release identifiers joined by dots, then optionally
`+` and the build identifiers joined by dots. -/
def IsSemVer (v : Str) : Prop :=
  ∃ major minor patch : Str, ∃ pre build : List Str,
    IsNumericIdentifier major ∧ IsNumericIdentifier minor ∧ IsNumericIdentifier patch ∧
    (∀ p ∈ pre, IsPrereleaseIdentifier p) ∧ (∀ b ∈ build, IsBuildIdentifier b) ∧
    v = major ++ '.' :: (minor ++ '.' :: (patch ++
      ((if pre = [] then [] else '-' :: joinDots pre) ++
        (if build = [] then [] else '+' :: joinDots build))))

/-- An override whose one heading, `# !!!`, has the empty anchor. -/
def anchorlessOverride : Str := "# !!!\nfoo".toList

open Relation

/-! # Theorems -/

/-! ## Lines -/

theorem splitLines_ne_nil (s : Str) : splitLines s ≠ [] := by
  cases s with
  | nil => simp [splitLines]
  | cons c cs =>
    unfold splitLines
    split_ifs
    · simp
    · split <;> simp

theorem joinLines_cons_cons (l l2 : Str) (ls : List Str) :
    joinLines (l :: l2 :: ls) = l ++ '\n' :: joinLines (l2 :: ls) := rfl

theorem joinLines_cons_of_ne_nil (l : Str) {ls : List Str} (h : ls ≠ []) :
    joinLines (l :: ls) = l ++ '\n' :: joinLines ls := by
  cases ls with
  | nil => exact absurd rfl h
  | cons l2 ls => rfl

/-- Joining the lines of a text gives the text back. -/
theorem joinLines_splitLines (s : Str) : joinLines (splitLines s) = s := by
  induction s with
  | nil => rfl
  | cons c cs ih =>
    unfold splitLines
    split_ifs with hc
    · rw [joinLines_cons_of_ne_nil _ (splitLines_ne_nil cs), ih, hc]; rfl
    · have hne := splitLines_ne_nil cs
      cases hsp : splitLines cs with
      | nil => exact absurd hsp hne
      | cons l ls =>
        rw [hsp] at ih
        cases ls with
        | nil =>
          simp only [joinLines] at ih ⊢
          rw [ih]
        | cons l2 ls =>
          simp only [joinLines_cons_cons] at ih ⊢
          rw [← ih]; rfl

/-! ## Section index -/

theorem headingsOrdered_weaken {lo lo' n : Nat} (hle : lo' ≤ lo) :
    ∀ {hs : List heading}, HeadingsOrdered lo n hs → HeadingsOrdered lo' n hs
  | [], _ => trivial
  | _ :: _, ⟨h1, h2, h3⟩ => ⟨le_trans hle h1, h2, h3⟩

theorem headingsOrdered_index_bounds {lo n : Nat} :
    ∀ {hs : List heading}, HeadingsOrdered lo n hs → ∀ g ∈ hs, lo ≤ g.index ∧ g.index < n
  | [], _, g, hg => by simp at hg
  | h :: later, ⟨h1, h2, h3⟩, g, hg => by
    rcases List.mem_cons.1 hg with rfl | hg
    · exact ⟨h1, h2⟩
    · have := headingsOrdered_index_bounds h3 g hg
      exact ⟨by omega, this.2⟩

theorem headingsOrdered_of_append {lo n : Nat} :
    ∀ {pre : List heading} {h : heading} {later : List heading},
      HeadingsOrdered lo n (pre ++ h :: later) →
      (∀ g ∈ pre, g.index < h.index) ∧ lo ≤ h.index ∧ h.index < n ∧
        HeadingsOrdered (h.index + 1) n later
  | [], h, later, ⟨h1, h2, h3⟩ => ⟨by simp, h1, h2, h3⟩
  | p :: pre, h, later, ⟨h1, h2, h3⟩ => by
    have ih := headingsOrdered_of_append h3
    refine ⟨?_, by omega, ih.2.2.1, ih.2.2.2⟩
    intro g hg
    rcases List.mem_cons.1 hg with rfl | hg
    · omega
    · exact ih.1 g hg

theorem collectHeadings_ordered (lines : List Str) :
    ∀ i, HeadingsOrdered i (i + lines.length) (collectHeadings i lines) := by
  induction lines with
  | nil => intro i; trivial
  | cons line rest ih =>
    intro i
    have hrest : HeadingsOrdered (i + 1) (i + (line :: rest).length)
        (collectHeadings (i + 1) rest) := by
      have := ih (i + 1)
      simpa [List.length_cons, Nat.add_assoc, Nat.add_comm 1] using this
    unfold collectHeadings
    split
    · exact headingsOrdered_weaken (by omega) hrest
    · dsimp only
      split_ifs
      · exact headingsOrdered_weaken (by omega) hrest
      · exact ⟨le_refl _, by simp, hrest⟩

theorem sectionEnd_bounds {lo n : Nat} (level : Nat) (hlo : lo ≤ n) :
    ∀ {later : List heading}, HeadingsOrdered lo n later →
      lo ≤ sectionEnd n level later ∧ sectionEnd n level later ≤ n
  | [], _ => ⟨hlo, le_refl _⟩
  | g :: later, ⟨h1, h2, h3⟩ => by
    unfold sectionEnd
    split_ifs
    · exact ⟨h1, le_of_lt h2⟩
    · have := sectionEnd_bounds level (show g.index + 1 ≤ n by omega) h3
      exact ⟨by omega, this.2⟩

theorem buildSections_mem (n : Nat) :
    ∀ (hs : List heading) (acc : List mdSection) (pre : List heading) (all : List heading),
      all = pre ++ hs → (∀ s ∈ acc, CutFrom n all s) →
      ∀ s ∈ buildSections n hs acc, CutFrom n all s := by
  intro hs
  induction hs with
  | nil => intro acc pre all _ hacc s hs; simpa [buildSections] using hacc s hs
  | cons h later ih =>
    intro acc pre all hall hacc s hs
    unfold buildSections at hs
    have hall' : all = (pre ++ [h]) ++ later := by simp [hall]
    split at hs
    · exact ih acc (pre ++ [h]) all hall' hacc s hs
    · refine ih _ (pre ++ [h]) all hall' ?_ s hs
      intro t ht
      rcases List.mem_append.1 ht with ht | ht
      · exact hacc t ht
      · rw [List.mem_singleton] at ht
        exact ⟨pre, h, later, hall, ht⟩

theorem parseMarkdownSections_cut (lines : List Str) :
    ∀ s ∈ parseMarkdownSections lines, CutFrom lines.length (collectHeadings 0 lines) s :=
  buildSections_mem _ _ [] [] _ rfl (by simp)

theorem lookupSection_some {sections : List mdSection} {a : Str} {s : mdSection}
    (h : lookupSection sections a = some s) : s ∈ sections ∧ s.anchor = a := by
  unfold lookupSection at h
  exact ⟨List.mem_of_find?_eq_some h, by simpa using List.find?_some h⟩

theorem lookupSection_none {sections : List mdSection} {a : Str}
    (h : lookupSection sections a = none) : ∀ s ∈ sections, s.anchor ≠ a := by
  unfold lookupSection at h
  intro s hs
  simpa using List.find?_eq_none.1 h s hs

/-- Every section of the index starts on a line of the buffer and ends after
its heading line, at most at the end of the buffer. -/
theorem section_bounds {lines : List Str} {s : mdSection}
    (h : s ∈ parseMarkdownSections lines) :
    s.start < s.end_ ∧ s.end_ ≤ lines.length := by
  obtain ⟨pre, g, later, hall, rfl⟩ := parseMarkdownSections_cut lines s h
  have hord := collectHeadings_ordered lines 0
  rw [hall] at hord
  obtain ⟨_, _, hlt, hlater⟩ := headingsOrdered_of_append hord
  simp only [Nat.zero_add] at hlt hlater
  have := sectionEnd_bounds g.level (show g.index + 1 ≤ lines.length by omega) hlater
  exact ⟨by simpa using this.1, this.2⟩

/-- The keys of the section map are pairwise distinct. -/
theorem buildSections_nodup (n : Nat) :
    ∀ (hs : List heading) (acc : List mdSection), (acc.map mdSection.anchor).Nodup →
      ((buildSections n hs acc).map mdSection.anchor).Nodup := by
  intro hs
  induction hs with
  | nil => intro acc h; simpa [buildSections] using h
  | cons h later ih =>
    intro acc hacc
    unfold buildSections
    split
    · exact ih acc hacc
    · rename_i hnone
      apply ih
      rw [List.map_append, List.nodup_append]
      refine ⟨hacc, by simp, ?_⟩
      intro a ha hb
      simp only [List.map_cons, List.map_nil, List.mem_singleton] at hb
      obtain ⟨t, ht, rfl⟩ := List.mem_map.1 ha
      exact lookupSection_none hnone t ht hb

theorem parseMarkdownSections_nodup (lines : List Str) :
    ((parseMarkdownSections lines).map mdSection.anchor).Nodup :=
  buildSections_nodup _ _ [] (by simp)

theorem section_eq_of_anchor {lines : List Str} {s t : mdSection}
    (hs : s ∈ parseMarkdownSections lines) (ht : t ∈ parseMarkdownSections lines)
    (h : s.anchor = t.anchor) : s = t :=
  List.inj_on_of_nodup_map (parseMarkdownSections_nodup lines) hs ht h

theorem lookupSection_of_mem {lines : List Str} {s : mdSection}
    (hs : s ∈ parseMarkdownSections lines) :
    lookupSection (parseMarkdownSections lines) s.anchor = some s := by
  cases h : lookupSection (parseMarkdownSections lines) s.anchor with
  | none => exact absurd rfl (lookupSection_none h s hs)
  | some t =>
    obtain ⟨ht, hta⟩ := lookupSection_some h
    rw [section_eq_of_anchor ht hs hta]

/-! ## Sections are nested or disjoint -/

theorem split_cases {α : Type} :
    ∀ (pre1 : List α) (h1 : α) (later1 pre2 : List α) (h2 : α) (later2 : List α),
      pre1 ++ h1 :: later1 = pre2 ++ h2 :: later2 →
      (pre1 = pre2 ∧ h1 = h2 ∧ later1 = later2) ∨
      (∃ mid, later1 = mid ++ h2 :: later2) ∨ (∃ mid, later2 = mid ++ h1 :: later1) := by
  intro pre1
  induction pre1 with
  | nil =>
    intro h1 later1 pre2 h2 later2 h
    cases pre2 with
    | nil =>
      simp only [List.nil_append, List.cons.injEq] at h
      exact Or.inl ⟨rfl, h.1, h.2⟩
    | cons p pre2 =>
      simp only [List.nil_append, List.cons_append, List.cons.injEq] at h
      exact Or.inr (Or.inl ⟨pre2, h.2⟩)
  | cons q pre1 ih =>
    intro h1 later1 pre2 h2 later2 h
    cases pre2 with
    | nil =>
      simp only [List.nil_append, List.cons_append, List.cons.injEq] at h
      exact Or.inr (Or.inr ⟨pre1, h.2.symm⟩)
    | cons p pre2 =>
      simp only [List.cons_append, List.cons.injEq] at h
      rcases ih h1 later1 pre2 h2 later2 h.2 with ⟨e1, e2, e3⟩ | h' | h'
      · exact Or.inl ⟨by rw [h.1, e1], e2, e3⟩
      · exact Or.inr (Or.inl h')
      · exact Or.inr (Or.inr h')

theorem sectionEnd_cons (n l : Nat) (g : heading) (later : List heading) :
    sectionEnd n l (g :: later) = if g.level ≤ l then g.index else sectionEnd n l later := rfl

theorem sectionEnd_antitone {n : Nat} {l l' : Nat} (hl : l ≤ l') :
    ∀ {lo : Nat} {later : List heading}, lo ≤ n → HeadingsOrdered lo n later →
      sectionEnd n l' later ≤ sectionEnd n l later
  | _, [], _, _ => le_refl _
  | lo, g :: later, hlo, ⟨h1, h2, h3⟩ => by
    rw [sectionEnd_cons, sectionEnd_cons]
    by_cases hg : g.level ≤ l
    · rw [if_pos hg, if_pos (le_trans hg hl)]
    · rw [if_neg hg]
      by_cases hg' : g.level ≤ l'
      · rw [if_pos hg']
        have := sectionEnd_bounds l (show g.index + 1 ≤ n by omega) h3
        omega
      · rw [if_neg hg']
        exact sectionEnd_antitone hl (show g.index + 1 ≤ n by omega) h3

theorem sectionEnd_later {n : Nat} (l1 : Nat) (h2 : heading) (later2 : List heading) :
    ∀ (mid : List heading) {lo : Nat}, lo ≤ n →
      HeadingsOrdered lo n (mid ++ h2 :: later2) →
      sectionEnd n l1 (mid ++ h2 :: later2) ≤ h2.index ∨
        sectionEnd n h2.level later2 ≤ sectionEnd n l1 (mid ++ h2 :: later2)
  | [], lo, hlo, ⟨h1, hlt, h3⟩ => by
    simp only [List.nil_append]
    rw [sectionEnd_cons]
    by_cases hg : h2.level ≤ l1
    · rw [if_pos hg]; exact Or.inl (le_refl _)
    · rw [if_neg hg]
      exact Or.inr (sectionEnd_antitone (by omega) (show h2.index + 1 ≤ n by omega) h3)
  | g :: mid, lo, hlo, ⟨h1, hlt, h3⟩ => by
    simp only [List.cons_append]
    rw [sectionEnd_cons]
    by_cases hg : g.level ≤ l1
    · rw [if_pos hg]
      have := (headingsOrdered_of_append h3).2.1
      exact Or.inl (by omega)
    · rw [if_neg hg]
      exact sectionEnd_later l1 h2 later2 mid (show g.index + 1 ≤ n by omega) h3

theorem cut_later {n lo : Nat} {pre : List heading} {h1 : heading} {mid : List heading}
    {h2 : heading} {later2 : List heading}
    (hord : HeadingsOrdered lo n (pre ++ h1 :: (mid ++ h2 :: later2))) :
    h1.index < h2.index ∧
      (sectionEnd n h1.level (mid ++ h2 :: later2) ≤ h2.index ∨
        sectionEnd n h2.level later2 ≤ sectionEnd n h1.level (mid ++ h2 :: later2)) := by
  obtain ⟨_, _, hlt, hlater⟩ := headingsOrdered_of_append hord
  have h2b := (headingsOrdered_of_append hlater).2.1
  exact ⟨by omega, sectionEnd_later h1.level h2 later2 mid (show h1.index + 1 ≤ n by omega) hlater⟩

/-- Two sections of one index are equal, disjoint, or one lies inside the
other. -/
theorem sections_laminar {lines : List Str} {s t : mdSection}
    (hs : s ∈ parseMarkdownSections lines) (ht : t ∈ parseMarkdownSections lines) :
    s = t ∨ s.end_ ≤ t.start ∨ t.end_ ≤ s.start ∨
      (s.start < t.start ∧ t.end_ ≤ s.end_) ∨ (t.start < s.start ∧ s.end_ ≤ t.end_) := by
  obtain ⟨pre1, h1, later1, hall1, rfl⟩ := parseMarkdownSections_cut lines s hs
  obtain ⟨pre2, h2, later2, hall2, rfl⟩ := parseMarkdownSections_cut lines t ht
  have hord := collectHeadings_ordered lines 0
  rw [Nat.zero_add] at hord
  rcases split_cases pre1 h1 later1 pre2 h2 later2 (hall1.symm.trans hall2) with
    ⟨_, e2, e3⟩ | ⟨mid, hmid⟩ | ⟨mid, hmid⟩
  · left; rw [e2, e3]
  · subst hmid
    rw [hall1] at hord
    obtain ⟨hlt, hcase⟩ := cut_later hord
    rcases hcase with h | h
    · right; left; exact h
    · right; right; right; left; exact ⟨hlt, h⟩
  · subst hmid
    rw [hall2] at hord
    obtain ⟨hlt, hcase⟩ := cut_later hord
    rcases hcase with h | h
    · right; right; left; exact h
    · right; right; right; right; exact ⟨hlt, h⟩

/-- Sections of one index that start on the same line are the same section. -/
theorem section_eq_of_start {lines : List Str} {s t : mdSection}
    (hs : s ∈ parseMarkdownSections lines) (ht : t ∈ parseMarkdownSections lines)
    (h : s.start = t.start) : s = t := by
  have hb := section_bounds hs
  have hb' := section_bounds ht
  rcases sections_laminar hs ht with h' | h' | h' | h' | h'
  · exact h'
  all_goals omega

/-! ## Slices of a line list -/

theorem take_succ_of_get? {α : Type} {l : List α} {i : Nat} {a : α} (h : l.get? i = some a) :
    l.take (i + 1) = l.take i ++ [a] := by
  rw [List.get?_eq_getElem?] at h
  rw [List.take_succ, h]; rfl

theorem slice_infix_take {α : Type} (l : List α) {a b c : Nat} (h : b ≤ c) :
    (l.drop a).take (b - a) <:+: l.take c := by
  by_cases hab : a ≤ b
  · have h1 : (l.drop a).take (b - a) = ((l.take c).drop a).take (b - a) := by
      rw [List.drop_take, List.take_take, Nat.min_eq_left (by omega)]
    rw [h1]
    exact (List.take_prefix _ _).isInfix.trans (List.drop_suffix _ _).isInfix
  · have : b - a = 0 := by omega
    rw [this, List.take_zero]
    exact List.nil_infix

theorem slice_infix_drop {α : Type} (l : List α) {a b c : Nat} (h : c ≤ a) :
    (l.drop a).take (b - a) <:+: l.drop c := by
  have h1 : l.drop a = (l.drop c).drop (a - c) := by
    rw [List.drop_drop]; congr 1; omega
  rw [h1]
  exact (List.take_prefix _ _).isInfix.trans (List.drop_suffix _ _).isInfix

/-! ## Building the replacements -/

theorem shuffle_singleton (ord : RangeOrder) (site : Nat) {α : Type} (a : α) :
    ord.shuffle site [a] = [a] :=
  List.perm_singleton.1 (ord.perm site [a])

theorem shuffle_mem (ord : RangeOrder) (site : Nat) {α : Type} (l : List α) (a : α) :
    a ∈ ord.shuffle site l ↔ a ∈ l :=
  (ord.perm site l).mem_iff

theorem sortReplacements_singleton (r : sectionReplacement) : sortReplacements [r] = [r] := by
  simp [sortReplacements]

theorem section_get? {lines : List Str} {s : mdSection} (h : s ∈ parseMarkdownSections lines) :
    ∃ line, lines.get? s.start = some line := by
  have hb := section_bounds h
  exact ⟨lines.get ⟨s.start, by omega⟩, List.get?_eq_get _⟩

theorem buildReplacements_without_headings (ord : RangeOrder) (targetPath : Str)
    {baseLines overrideLines : List Str} {anchor : Str} {sec : mdSection}
    (hno : parseMarkdownSections overrideLines = [])
    (hsec : lookupSection (parseMarkdownSections baseLines) anchor = some sec) :
    ∃ heading, baseLines.get? sec.start = some heading ∧
      buildReplacements ord targetPath baseLines overrideLines [anchor] =
        .ok [{ start := sec.start, end_ := sec.end_
               lines := .fresh (if joinLines overrideLines ≠ [] then
                 [heading] ++ splitLines (joinLines overrideLines) else [heading]) }] := by
  obtain ⟨heading, hh⟩ := section_get? (lookupSection_some hsec).1
  refine ⟨heading, hh, ?_⟩
  unfold buildReplacements
  simp only [hno, List.length_nil, if_true, List.length_singleton, ne_eq, not_true_eq_false,
    if_false, shuffle_singleton, lastRanged, List.getLast?_singleton, Option.getD_some, hsec, hh]

theorem collectReplacements_ok (targetPath : Str) (baseSections : List mdSection) (n : Nat)
    (allowed : List Str) :
    ∀ (l : List mdSection) (acc : List sectionReplacement),
      (∀ s ∈ l, s.start ≤ s.end_ ∧ s.end_ ≤ n) →
      (∀ s ∈ l, s.anchor ∈ allowed → lookupSection baseSections s.anchor ≠ none) →
      collectReplacements targetPath baseSections n allowed l acc =
        .ok (acc ++ (selected allowed l).filterMap (replacementFor baseSections)) := by
  intro l
  induction l with
  | nil => intro acc _ _; simp [collectReplacements, selected]
  | cons s rest ih =>
    intro acc hb hfound
    have hb' : ∀ t ∈ rest, t.start ≤ t.end_ ∧ t.end_ ≤ n :=
      fun t ht => hb t (List.mem_cons_of_mem _ ht)
    have hf' : ∀ t ∈ rest, t.anchor ∈ allowed → lookupSection baseSections t.anchor ≠ none :=
      fun t ht => hfound t (List.mem_cons_of_mem _ ht)
    unfold collectReplacements
    by_cases hal : s.anchor ∈ allowed
    · rw [if_neg (not_not.2 hal)]
      cases hl : lookupSection baseSections s.anchor with
      | none => exact absurd hl (hfound s (List.mem_cons_self _ _) hal)
      | some b =>
        simp only
        rw [if_pos (hb s (List.mem_cons_self _ _)), ih _ hb' hf']
        simp [selected, List.filter_cons, hal, replacementFor, hl]
    · rw [if_pos hal, ih _ hb' hf']
      simp [selected, List.filter_cons, hal]

theorem collectReplacements_error (targetPath : Str) (baseSections : List mdSection) (n : Nat)
    (allowed : List Str) :
    ∀ (l : List mdSection) (acc : List sectionReplacement),
      (∀ s ∈ l, s.start ≤ s.end_ ∧ s.end_ ≤ n) →
      (∃ s ∈ l, s.anchor ∈ allowed ∧ lookupSection baseSections s.anchor = none) →
      ∃ s ∈ l, s.anchor ∈ allowed ∧ lookupSection baseSections s.anchor = none ∧
        collectReplacements targetPath baseSections n allowed l acc =
          .error (.sectionNotFound s.anchor targetPath) := by
  intro l
  induction l with
  | nil => intro acc _ h; obtain ⟨s, hs, _⟩ := h; simp at hs
  | cons s rest ih =>
    intro acc hb hmiss
    have hb' : ∀ t ∈ rest, t.start ≤ t.end_ ∧ t.end_ ≤ n :=
      fun t ht => hb t (List.mem_cons_of_mem _ ht)
    unfold collectReplacements
    by_cases hal : s.anchor ∈ allowed
    · rw [if_neg (not_not.2 hal)]
      cases hl : lookupSection baseSections s.anchor with
      | none => exact ⟨s, List.mem_cons_self _ _, hal, hl, rfl⟩
      | some b =>
        simp only
        rw [if_pos (hb s (List.mem_cons_self _ _))]
        have hmiss' : ∃ t ∈ rest, t.anchor ∈ allowed ∧
            lookupSection baseSections t.anchor = none := by
          obtain ⟨t, ht, hta, htl⟩ := hmiss
          rcases List.mem_cons.1 ht with rfl | ht
          · rw [hl] at htl; cases htl
          · exact ⟨t, ht, hta, htl⟩
        obtain ⟨t, ht, h1, h2, h3⟩ := ih _ hb' hmiss'
        exact ⟨t, List.mem_cons_of_mem _ ht, h1, h2, h3⟩
    · rw [if_pos hal]
      have hmiss' : ∃ t ∈ rest, t.anchor ∈ allowed ∧
          lookupSection baseSections t.anchor = none := by
        obtain ⟨t, ht, hta, htl⟩ := hmiss
        rcases List.mem_cons.1 ht with rfl | ht
        · exact absurd hta hal
        · exact ⟨t, ht, hta, htl⟩
      obtain ⟨t, ht, h1, h2, h3⟩ := ih _ hb' hmiss'
      exact ⟨t, List.mem_cons_of_mem _ ht, h1, h2, h3⟩

theorem override_bounds {overrideLines : List Str} (ord : RangeOrder) (site : Nat) :
    ∀ s ∈ ord.shuffle site (parseMarkdownSections overrideLines),
      s.start ≤ s.end_ ∧ s.end_ ≤ overrideLines.length := by
  intro s hs
  have := section_bounds ((shuffle_mem ord site _ s).1 hs)
  exact ⟨by omega, this.2⟩

theorem buildReplacements_with_headings (ord : RangeOrder) (targetPath : Str)
    {baseLines overrideLines : List Str} (allowed : List Str)
    (hhead : parseMarkdownSections overrideLines ≠ []) :
    buildReplacements ord targetPath baseLines overrideLines allowed =
      collectReplacements targetPath (parseMarkdownSections baseLines) overrideLines.length
        allowed (ord.shuffle 1 (parseMarkdownSections overrideLines)) [] := by
  unfold buildReplacements
  have : (parseMarkdownSections overrideLines).length ≠ 0 := by
    simpa [List.length_eq_zero] using hhead
  simp only [this, if_false]

/-! ## A single replacement -/

theorem spliceOne_read (st : SpliceState) (r : sectionReplacement)
    (hb : r.start ≤ r.end_ ∧ r.end_ ≤ st.baseLines.length) :
    ∃ st1, spliceOne st r = some st1 ∧
      st1.baseLines = st.baseLines.take r.start ++
        (r.lines.read st.overrideLines ++ st.baseLines.drop r.end_) := by
  unfold spliceOne
  rw [if_pos hb]
  cases hr : r.lines with
  | fresh lines => exact ⟨_, rfl, rfl⟩
  | sub lo hi => exact ⟨_, rfl, rfl⟩

theorem applySectionOverrides_single {ord : RangeOrder} {fs : FS} {targetPath base override : Str}
    {allowed : List Str} {r : sectionReplacement}
    (hread : readFileFromRoot fs targetPath = some base)
    (hbuild : buildReplacements ord targetPath (splitLines base) (splitLines override) allowed
      = .ok [r])
    (hb : r.start ≤ r.end_ ∧ r.end_ ≤ (splitLines base).length) :
    applySectionOverrides ord fs targetPath override allowed =
      writeFile fs targetPath (joinLines ((splitLines base).take r.start ++
        (r.lines.read (splitLines override) ++ (splitLines base).drop r.end_))) := by
  obtain ⟨st1, h1, h2⟩ := spliceOne_read
    { baseLines := splitLines base, overrideLines := splitLines override } r hb
  unfold applySectionOverrides
  simp only [hread, hbuild, List.length_singleton, one_ne_zero, if_false,
    sortReplacements_singleton, spliceAll, h1, h2]

theorem filter_unique {α : Type} (p : α → Bool) (x : α) :
    ∀ (l : List α), l.Nodup → x ∈ l → (∀ s ∈ l, p s = true ↔ s = x) → l.filter p = [x] := by
  intro l
  induction l with
  | nil => intro _ hx; simp at hx
  | cons a rest ih =>
    intro hnd hx hp
    rw [List.nodup_cons] at hnd
    by_cases hax : a = x
    · subst hax
      have hrest : rest.filter p = [] := by
        rw [List.filter_eq_nil_iff]
        intro s hs hps
        have := (hp s (List.mem_cons_of_mem _ hs)).1 hps
        exact hnd.1 (this ▸ hs)
      rw [List.filter_cons, if_pos ((hp a (List.mem_cons_self _ _)).2 rfl), hrest]
    · have hx' : x ∈ rest := by
        rcases List.mem_cons.1 hx with h | h
        · exact absurd h.symm hax
        · exact h
      have hpa : ¬ p a = true := fun h => hax ((hp a (List.mem_cons_self _ _)).1 h)
      rw [List.filter_cons, if_neg hpa]
      exact ih hnd.2 hx' (fun s hs => hp s (List.mem_cons_of_mem _ hs))

theorem joinLines_append {xs ys : List Str} (hx : xs ≠ []) (hy : ys ≠ []) :
    joinLines (xs ++ ys) = joinLines xs ++ '\n' :: joinLines ys := by
  induction xs with
  | nil => exact absurd rfl hx
  | cons x rest ih =>
    cases rest with
    | nil => simp [joinLines_cons_of_ne_nil _ hy, joinLines]
    | cons x2 rest =>
      have := ih (by simp)
      rw [List.cons_append, joinLines_cons_of_ne_nil _ (by simp), this, joinLines_cons_cons]
      simp

theorem joinLines_infix {l1 l2 : List Str} (h : l1 <:+: l2) :
    joinLines l1 <:+: joinLines l2 := by
  obtain ⟨a, b, rfl⟩ := h
  by_cases h1 : l1 = []
  · subst h1; exact List.nil_infix
  by_cases ha : a = [] <;> by_cases hb : b = []
  · subst ha; subst hb; simp
  · subst ha
    rw [List.nil_append, joinLines_append h1 hb]
    exact ⟨[], '\n' :: joinLines b, by simp⟩
  · subst hb
    rw [List.append_nil, joinLines_append ha h1]
    exact ⟨joinLines a ++ ['\n'], [], by simp⟩
  · rw [joinLines_append (by simp [h1]) hb, joinLines_append ha h1]
    exact ⟨joinLines a ++ ['\n'], '\n' :: joinLines b, by simp⟩

theorem one_target_replacements (ord : RangeOrder) (targetPath : Str)
    {baseLines overrideLines : List Str} {allowed : List Str} {a : Str} {sec' sec : mdSection}
    (hov : lookupSection (parseMarkdownSections overrideLines) a = some sec')
    (honly : ∀ s ∈ parseMarkdownSections overrideLines, s.anchor ∈ allowed ↔ s.anchor = a)
    (hbase : lookupSection (parseMarkdownSections baseLines) a = some sec) :
    buildReplacements ord targetPath baseLines overrideLines allowed =
      .ok [{ start := sec.start, end_ := sec.end_, lines := .sub sec'.start sec'.end_ }] := by
  obtain ⟨hmem, hanchor⟩ := lookupSection_some hov
  have hne : parseMarkdownSections overrideLines ≠ [] := List.ne_nil_of_mem hmem
  rw [buildReplacements_with_headings ord targetPath allowed hne]
  have hfilter : selected allowed (ord.shuffle 1 (parseMarkdownSections overrideLines))
      = [sec'] := by
    apply filter_unique
    · exact ((ord.perm 1 _).nodup_iff).2 (List.Nodup.of_map _
        (parseMarkdownSections_nodup overrideLines))
    · exact (shuffle_mem ord 1 _ _).2 hmem
    · intro s hs
      have hs' := (shuffle_mem ord 1 _ _).1 hs
      rw [decide_eq_true_iff, honly s hs']
      constructor
      · intro h; exact section_eq_of_anchor hs' hmem (h.trans hanchor.symm)
      · intro h; rw [h]; exact hanchor
  rw [collectReplacements_ok _ _ _ _ _ _ (override_bounds ord 1), hfilter]
  · simp [replacementFor, hanchor, hbase]
  · intro s hs hal
    have hs' := (shuffle_mem ord 1 _ _).1 hs
    rw [(honly s hs').1 hal, hbase]
    simp

/-- What is written for an override without headings: the lines before the
heading, the replacement built from the heading line, and the lines that
follow the section. -/
theorem without_headings_writes (ord : RangeOrder) (fs : FS)
    (targetPath base override anchor : Str) (sec : mdSection)
    (hread : readFileFromRoot fs targetPath = some base)
    (hno : sectionIndex override = [])
    (hsec : lookupSection (sectionIndex base) anchor = some sec) :
    ∃ heading, (splitLines base).get? sec.start = some heading ∧
      applySectionOverrides ord fs targetPath override [anchor] =
        writeFile fs targetPath (joinLines ((splitLines base).take sec.start ++
          ((if override ≠ [] then [heading] ++ splitLines override else [heading]) ++
          (splitLines base).drop sec.end_))) := by
  obtain ⟨heading, hh, hbuild⟩ := buildReplacements_without_headings ord targetPath hno hsec
  have hb := section_bounds (lookupSection_some hsec).1
  refine ⟨heading, hh, ?_⟩
  rw [applySectionOverrides_single hread hbuild ⟨by simpa using le_of_lt hb.1, hb.2⟩]
  simp only [LineSlice.read, joinLines_splitLines]

/-- C5. Untouched sections are preserved: when the base index has sections `A`
and `B`, neither inside the other, and the override targets only `A`, the
lines of `B`'s span are a contiguous block of the lines written, and `B`'s text
is a contiguous part of the file content written. -/
theorem untouched_section_preserved (ord : RangeOrder) (fs : FS)
    (targetPath base override : Str) (allowed : List Str) (A B : mdSection)
    (hread : readFileFromRoot fs targetPath = some base)
    (hA : A ∈ sectionIndex base) (hB : B ∈ sectionIndex base)
    (hAB : ¬ (A.start ≤ B.start ∧ B.end_ ≤ A.end_))
    (hBA : ¬ (B.start ≤ A.start ∧ A.end_ ≤ B.end_))
    (honly : TargetsOnly (sectionIndex override) allowed A.anchor) :
    ∃ out, applySectionOverrides ord fs targetPath override allowed =
        writeFile fs targetPath (joinLines out) ∧
      linesBetween (splitLines base) B.start B.end_ <:+: out ∧
      joinLines (linesBetween (splitLines base) B.start B.end_) <:+: joinLines out := by
  have hdisj : B.end_ ≤ A.start ∨ A.end_ ≤ B.start := by
    have ha := section_bounds hA
    have hb := section_bounds hB
    rcases sections_laminar hA hB with h | h | h | h | h
    · subst h; exact absurd ⟨le_refl _, le_refl _⟩ hAB
    · exact Or.inr h
    · exact Or.inl h
    · exact absurd ⟨le_of_lt h.1, h.2⟩ hAB
    · exact absurd ⟨le_of_lt h.1, h.2⟩ hBA
  have hlook := lookupSection_of_mem hA
  have key : ∀ (pre mid : List Str), pre = (splitLines base).take A.start ∨
      pre = (splitLines base).take (A.start + 1) →
      linesBetween (splitLines base) B.start B.end_ <:+:
        pre ++ mid ++ (splitLines base).drop A.end_ := by
    intro pre mid hpre
    rcases hdisj with h | h
    · have : linesBetween (splitLines base) B.start B.end_ <:+: pre := by
        rcases hpre with rfl | rfl
        · exact slice_infix_take _ h
        · exact slice_infix_take _ (by omega)
      rw [List.append_assoc]
      exact this.trans (List.prefix_append _ _).isInfix
    · exact (slice_infix_drop _ h).trans (List.suffix_append _ _).isInfix
  rcases honly with ⟨hno, hallowed⟩ | ⟨_, honly⟩
  · subst hallowed
    obtain ⟨heading, _, hwrite⟩ := without_headings_writes ord fs targetPath base override
      A.anchor A hread hno hlook
    refine ⟨_, hwrite, ?_⟩
    have := key _ (if override ≠ [] then [heading] ++ splitLines override else [heading])
      (Or.inl rfl)
    rw [List.append_assoc] at this
    exact ⟨this, joinLines_infix this⟩
  · have hhead : sectionIndex override ≠ [] := by
      rename_i hex
      obtain ⟨s, hs, _⟩ := hex
      exact List.ne_nil_of_mem hs
    rename_i hex
    obtain ⟨s, hs, hsa⟩ := hex
    have hov : lookupSection (sectionIndex override) A.anchor = some s := by
      rw [← hsa]; exact lookupSection_of_mem hs
    have hbA := section_bounds hA
    have hwrite := applySectionOverrides_single hread
      (one_target_replacements ord targetPath hov honly hlook)
      ⟨by simpa using le_of_lt hbA.1, hbA.2⟩
    refine ⟨_, hwrite, ?_⟩
    have := key _ (linesBetween (splitLines override) s.start s.end_) (Or.inl rfl)
    rw [List.append_assoc] at this
    exact ⟨this, joinLines_infix this⟩

/-- C1 (amended). Section override without headings: when the rule's single
allowed anchor has section `[start, end)` in the base file and the override
content has no headings (its section index is empty, the test of the source),
`applySectionOverrides` writes the base lines up to
and including the heading line at `start`, then the lines of the override
content when that content is not empty (and nothing when it is empty), then the
base lines from `end` onward, joined by newlines. -/
theorem section_override_without_headings (ord : RangeOrder) (fs : FS)
    (targetPath base override anchor : Str) (sec : mdSection)
    (hread : readFileFromRoot fs targetPath = some base)
    (hno : sectionIndex override = [])
    (hsec : lookupSection (sectionIndex base) anchor = some sec) :
    applySectionOverrides ord fs targetPath override [anchor] =
      writeFile fs targetPath (joinLines ((splitLines base).take (sec.start + 1) ++
        (if override = [] then [] else splitLines override) ++
        (splitLines base).drop sec.end_)) := by
  obtain ⟨heading, hh, hwrite⟩ :=
    without_headings_writes ord fs targetPath base override anchor sec hread hno hsec
  rw [hwrite, take_succ_of_get? hh]
  by_cases ho : override = []
  · simp [ho]
  · simp [ho]

/-- Outcome of the branch for an override whose section index is not empty,
with one allowed anchor `a` of the override, and with none. -/
theorem indexed_override_one_target (ord : RangeOrder) (fs : FS)
    (targetPath base override : Str) (allowed : List Str) (a : Str)
    (hread : readFileFromRoot fs targetPath = some base)
    (hhead : sectionIndex override ≠ []) :
    (∀ sec', lookupSection (sectionIndex override) a = some sec' →
      (∀ s ∈ sectionIndex override, s.anchor ∈ allowed ↔ s.anchor = a) →
      (∀ sec, lookupSection (sectionIndex base) a = some sec →
        applySectionOverrides ord fs targetPath override allowed =
          writeFile fs targetPath (joinLines ((splitLines base).take sec.start ++
            linesBetween (splitLines override) sec'.start sec'.end_ ++
            (splitLines base).drop sec.end_))) ∧
      (lookupSection (sectionIndex base) a = none →
        applySectionOverrides ord fs targetPath override allowed =
          (.error (.sectionNotFound a targetPath), fs))) ∧
    ((∀ s ∈ sectionIndex override, s.anchor ∉ allowed) →
      applySectionOverrides ord fs targetPath override allowed = (.ok, fs)) := by
  refine ⟨fun sec' hov honly => ⟨fun sec hbase => ?_, fun hnone => ?_⟩, fun hnone => ?_⟩
  · have hbuild := one_target_replacements ord targetPath hov honly hbase
    have hb := section_bounds (lookupSection_some hbase).1
    rw [applySectionOverrides_single hread hbuild ⟨by simpa using le_of_lt hb.1, hb.2⟩]
    simp [LineSlice.read]
  · obtain ⟨hmem, hanchor⟩ := lookupSection_some hov
    have hmiss : ∃ s ∈ ord.shuffle 1 (parseMarkdownSections (splitLines override)),
        s.anchor ∈ allowed ∧
          lookupSection (parseMarkdownSections (splitLines base)) s.anchor = none :=
      ⟨sec', (shuffle_mem ord 1 _ _).2 hmem, (honly sec' hmem).2 hanchor, by
        rw [hanchor]; exact hnone⟩
    obtain ⟨s, hs, hal, _, herr⟩ := collectReplacements_error targetPath
      (parseMarkdownSections (splitLines base)) (splitLines override).length allowed _ []
      (override_bounds ord 1) hmiss
    have hsa : s.anchor = a := (honly s ((shuffle_mem ord 1 _ _).1 hs)).1 hal
    unfold applySectionOverrides
    simp only [hread]
    rw [buildReplacements_with_headings ord targetPath allowed hhead, herr, hsa]
  · have hbuild : buildReplacements ord targetPath (splitLines base) (splitLines override)
        allowed = .ok [] := by
      rw [buildReplacements_with_headings ord targetPath allowed hhead,
        collectReplacements_ok _ _ _ _ _ _ (override_bounds ord 1)]
      · have : selected allowed (ord.shuffle 1 (parseMarkdownSections (splitLines override)))
            = [] := by
          unfold selected
          rw [List.filter_eq_nil_iff]
          intro s hs
          simpa using hnone s ((shuffle_mem ord 1 _ _).1 hs)
        rw [this]; rfl
      · intro s hs hal
        exact absurd hal (hnone s ((shuffle_mem ord 1 _ _).1 hs))
    unfold applySectionOverrides
    simp only [hread, hbuild, List.length_nil, if_true]

/-! ## Frame of the writes -/

theorem writesOnly_refl (P : Str → Prop) (fs : FS) : WritesOnly P fs fs :=
  ⟨⟨[], rfl, by simp⟩, fun _ _ => rfl, rfl⟩

theorem writesOnly_trans {P : Str → Prop} {fs fs1 fs2 : FS}
    (h1 : WritesOnly P fs fs1) (h2 : WritesOnly P fs1 fs2) : WritesOnly P fs fs2 := by
  obtain ⟨⟨n1, hj1, hn1⟩, hf1, hw1⟩ := h1
  obtain ⟨⟨n2, hj2, hn2⟩, hf2, hw2⟩ := h2
  refine ⟨⟨n2 ++ n1, by rw [hj2, hj1, List.append_assoc], ?_⟩, ?_, hw2.trans hw1⟩
  · intro e he
    rcases List.mem_append.1 he with h | h
    · exact hn2 e h
    · exact hn1 e h
  · intro q hq; rw [hf2 q hq, hf1 q hq]

theorem writesOnly_mono {P Q : Str → Prop} {fs fs1 : FS} (hPQ : ∀ q, P q → Q q)
    (h : WritesOnly P fs fs1) : WritesOnly Q fs fs1 := by
  obtain ⟨⟨n1, hj1, hn1⟩, hf1, hw1⟩ := h
  exact ⟨⟨n1, hj1, fun e he => hPQ _ (hn1 e he)⟩, fun q hq => hf1 q (fun hp => hq (hPQ q hp)), hw1⟩

theorem writeFile_cases (fs : FS) (targetPath data : Str) :
    (fs.writable targetPath = true ∧ (writeFile fs targetPath data).1 = .ok ∧
      (writeFile fs targetPath data).2.files targetPath = some data) ∨
    (fs.writable targetPath = false ∧
      writeFile fs targetPath data = (.error (.writeFailed targetPath), fs)) := by
  unfold writeFile
  cases h : fs.writable targetPath
  · right; simp
  · left; simp

theorem writeFile_writesOnly (fs : FS) (targetPath data : Str) :
    WritesOnly (fun q => q = targetPath) fs (writeFile fs targetPath data).2 := by
  unfold writeFile
  cases h : fs.writable targetPath
  · simpa using writesOnly_refl _ fs
  · refine ⟨⟨[(targetPath, data)], by simp, by simp⟩, ?_, by simp⟩
    intro q hq
    simp [hq]

theorem writeFile_unchanged_of_not_ok (fs : FS) (targetPath data : Str)
    (h : (writeFile fs targetPath data).1 ≠ .ok) : (writeFile fs targetPath data).2 = fs := by
  rcases writeFile_cases fs targetPath data with ⟨_, h1, _⟩ | ⟨_, h1⟩
  · exact absurd h1 h
  · rw [h1]

/-- What `applySectionOverrides` can do to the file system: nothing, or one
write to its target. -/
theorem applySectionOverrides_cases (ord : RangeOrder) (fs : FS)
    (targetPath override : Str) (allowed : List Str) :
    ((applySectionOverrides ord fs targetPath override allowed).2 = fs ∧
      ((applySectionOverrides ord fs targetPath override allowed).1 = .ok →
        ∃ base, readFileFromRoot fs targetPath = some base ∧
          buildReplacements ord targetPath (splitLines base) (splitLines override) allowed
            = .ok [])) ∨
    ∃ data, applySectionOverrides ord fs targetPath override allowed =
      writeFile fs targetPath data := by
  unfold applySectionOverrides
  cases hread : readFileFromRoot fs targetPath with
  | none => left; simp
  | some base =>
    simp only
    cases hb : buildReplacements ord targetPath (splitLines base) (splitLines override)
        allowed with
    | error e => left; simp
    | panic => left; simp
    | ok repls =>
      simp only
      by_cases hlen : repls.length = 0
      · left
        rw [if_pos hlen]
        exact ⟨rfl, fun _ => ⟨base, rfl, by rw [hb, List.length_eq_zero.1 hlen]⟩⟩
      · rw [if_neg hlen]
        cases hs : spliceAll { baseLines := splitLines base, overrideLines := splitLines override }
            (sortReplacements repls) with
        | none => left; simp
        | some st => right; exact ⟨_, rfl⟩

theorem applySectionOverrides_writesOnly (ord : RangeOrder) (fs : FS)
    (targetPath override : Str) (allowed : List Str) :
    WritesOnly (fun q => q = targetPath) fs
      (applySectionOverrides ord fs targetPath override allowed).2 := by
  rcases applySectionOverrides_cases ord fs targetPath override allowed with ⟨h, _⟩ | ⟨d, h⟩
  · rw [h]; exact writesOnly_refl _ fs
  · rw [h]; exact writeFile_writesOnly fs targetPath d

theorem applySectionOverrides_unchanged_of_not_ok (ord : RangeOrder) (fs : FS)
    (targetPath override : Str) (allowed : List Str)
    (hfail : (applySectionOverrides ord fs targetPath override allowed).1 ≠ .ok) :
    (applySectionOverrides ord fs targetPath override allowed).2 = fs := by
  rcases applySectionOverrides_cases ord fs targetPath override allowed with ⟨h, _⟩ | ⟨d, h⟩
  · exact h
  · rw [h] at hfail ⊢
    exact writeFile_unchanged_of_not_ok fs targetPath d hfail

/-! ## C8 -/

/-- A headingless override whose target is ambiguous or missing: the call
returns the error at once, before any write, with the file system as it was. -/
theorem headingless_bad_target (ord : RangeOrder) (fs : FS)
    (targetPath base override : Str) (allowed : List Str)
    (hread : readFileFromRoot fs targetPath = some base)
    (hno : sectionIndex override = [])
    (hnot : ¬ ∃ a, allowed = [a] ∧ lookupSection (sectionIndex base) a ≠ none) :
    ∃ e, applySectionOverrides ord fs targetPath override allowed = (.error e, fs) := by
  unfold sectionIndex at hno hnot
  unfold applySectionOverrides buildReplacements
  simp only [hread, hno, List.length_nil, if_true]
  by_cases hlen : allowed.length = 1
  · obtain ⟨a, ha⟩ := List.length_eq_one.1 hlen
    subst ha
    have hnone : lookupSection (parseMarkdownSections (splitLines base)) a = none := by
      by_contra h
      exact hnot ⟨a, rfl, h⟩
    simp [shuffle_singleton, lastRanged, hnone]
  · simp [hlen]

/-- A headingless override with one allowed anchor that the base has: the call
is the write of the result, so it fails when that write fails. -/
theorem headingless_good_target (ord : RangeOrder) (fs : FS)
    (targetPath base override : Str) (allowed : List Str)
    (hread : readFileFromRoot fs targetPath = some base)
    (hno : sectionIndex override = [])
    (hex : ∃ a, allowed = [a] ∧ lookupSection (sectionIndex base) a ≠ none) :
    ∃ data, applySectionOverrides ord fs targetPath override allowed =
      writeFile fs targetPath data := by
  obtain ⟨a, ha, hsec⟩ := hex
  obtain ⟨sec, hsec'⟩ := Option.ne_none_iff_exists'.1 hsec
  subst ha
  obtain ⟨heading, _, hwrite⟩ := without_headings_writes ord fs targetPath base override a sec
    hread hno hsec'
  exact ⟨_, hwrite⟩

/-- C8 (amended). Ambiguous or missing target: given a readable base file
whose path can be written and override content without headings,
`applySectionOverrides` returns an error if and only if the allowed-anchor set
does not have exactly one element or that anchor is absent from the base
index; a call that fails returns before any write, so the file system, its
journal of writes included, is as it was. -/
theorem headingless_override_fails_iff (ord : RangeOrder) (fs : FS)
    (targetPath base override : Str) (allowed : List Str)
    (hread : readFileFromRoot fs targetPath = some base)
    (hno : sectionIndex override = [])
    (hw : fs.writable targetPath = true) :
    ((∃ e, (applySectionOverrides ord fs targetPath override allowed).1 = .error e) ↔
      ¬ ∃ a, allowed = [a] ∧ lookupSection (sectionIndex base) a ≠ none) ∧
    ((applySectionOverrides ord fs targetPath override allowed).1 ≠ .ok →
      (¬ ∃ a, allowed = [a] ∧ lookupSection (sectionIndex base) a ≠ none) ∧
      (applySectionOverrides ord fs targetPath override allowed).2 = fs) := by
  have hgood : (∃ a, allowed = [a] ∧ lookupSection (sectionIndex base) a ≠ none) →
      (applySectionOverrides ord fs targetPath override allowed).1 = .ok := by
    intro hex
    obtain ⟨data, hd⟩ := headingless_good_target ord fs targetPath base override allowed
      hread hno hex
    rw [hd]
    unfold writeFile
    rw [if_pos hw]
  refine ⟨⟨fun hfail hex => ?_, fun hnot => ?_⟩, fun hfail => ?_⟩
  · obtain ⟨e, he⟩ := hfail
    rw [hgood hex] at he
    cases he
  · obtain ⟨e, he⟩ := headingless_bad_target ord fs targetPath base override allowed
      hread hno hnot
    exact ⟨e, by rw [he]⟩
  · have hnot : ¬ ∃ a, allowed = [a] ∧ lookupSection (sectionIndex base) a ≠ none :=
      fun hex => hfail (hgood hex)
    obtain ⟨e, he⟩ := headingless_bad_target ord fs targetPath base override allowed
      hread hno hnot
    exact ⟨hnot, by rw [he]⟩

/-! ## The order of the visit does not matter -/

theorem replacementFor_start_ne {baseLines : List Str} {s s' : mdSection}
    (hne : s.anchor ≠ s'.anchor) :
    ∀ r ∈ replacementFor (parseMarkdownSections baseLines) s,
      ∀ r' ∈ replacementFor (parseMarkdownSections baseLines) s', r.start ≠ r'.start := by
  intro r hr r' hr' heq
  unfold replacementFor at hr hr'
  rw [Option.mem_def, Option.map_eq_some'] at hr hr'
  obtain ⟨b, hb, rfl⟩ := hr
  obtain ⟨b', hb', rfl⟩ := hr'
  obtain ⟨hm, ha⟩ := lookupSection_some hb
  obtain ⟨hm', ha'⟩ := lookupSection_some hb'
  have := section_eq_of_start hm hm' heq
  exact hne (by rw [← ha, ← ha', this])

theorem sortReplacements_perm {l1 l2 : List sectionReplacement} (hperm : l1.Perm l2)
    (hdistinct : l1.Pairwise (fun r r' => r.start ≠ r'.start)) :
    sortReplacements l1 = sortReplacements l2 := by
  haveI : IsTotal sectionReplacement (fun a b => a.start ≥ b.start) :=
    ⟨fun a b => Nat.le_total b.start a.start⟩
  haveI : IsTrans sectionReplacement (fun a b => a.start ≥ b.start) :=
    ⟨fun a b c hab hbc => Nat.le_trans hbc hab⟩
  haveI : IsAntisymm sectionReplacement (fun a b => a.start > b.start) :=
    ⟨fun a b hab hba => absurd hab (Nat.lt_asymm hba)⟩
  have hsym : ∀ {r r' : sectionReplacement}, r.start ≠ r'.start → r'.start ≠ r.start :=
    fun h => Ne.symm h
  have strict : ∀ l : List sectionReplacement,
      l.Pairwise (fun r r' => r.start ≠ r'.start) →
      (sortReplacements l).Sorted (fun a b => a.start > b.start) := by
    intro l hl
    have h1 : (sortReplacements l).Pairwise (fun a b => a.start ≥ b.start) :=
      List.sorted_insertionSort _ l
    have h2 : (sortReplacements l).Pairwise (fun r r' => r.start ≠ r'.start) :=
      ((List.perm_insertionSort _ l).pairwise_iff hsym).2 hl
    exact (h1.and h2).imp (fun ⟨hge, hne⟩ => lt_of_le_of_ne hge (Ne.symm hne))
  have hdistinct2 : l2.Pairwise (fun r r' => r.start ≠ r'.start) :=
    (hperm.pairwise_iff hsym).1 hdistinct
  have hp : (sortReplacements l1).Perm (sortReplacements l2) :=
    (List.perm_insertionSort _ l1).trans (hperm.trans (List.perm_insertionSort _ l2).symm)
  exact List.eq_of_perm_of_sorted hp (strict l1 hdistinct) (strict l2 hdistinct2)

theorem selected_replacements_distinct (baseLines overrideLines : List Str) (allowed : List Str)
    {l : List mdSection} (hperm : l.Perm (parseMarkdownSections overrideLines)) :
    ((selected allowed l).filterMap
      (replacementFor (parseMarkdownSections baseLines))).Pairwise
      (fun r r' => r.start ≠ r'.start) := by
  rw [List.pairwise_filterMap]
  have hnd : (l.map mdSection.anchor).Nodup :=
    ((hperm.map _).nodup_iff).2 (parseMarkdownSections_nodup overrideLines)
  have hpw : l.Pairwise (fun s s' => s.anchor ≠ s'.anchor) := by
    have := List.pairwise_map.1 hnd
    exact this
  have hsel : (selected allowed l).Pairwise (fun s s' => s.anchor ≠ s'.anchor) :=
    hpw.sublist (List.filter_sublist _)
  exact hsel.imp (fun hne => replacementFor_start_ne hne)

/-- With headings in the override, the replacements found under two orders of
the visit are sorted into the same list, or both visits end in an error. -/
theorem buildReplacements_order (ord1 ord2 : RangeOrder) (targetPath : Str)
    (baseLines overrideLines : List Str) (allowed : List Str) :
    (∃ e1 e2, buildReplacements ord1 targetPath baseLines overrideLines allowed = .error e1 ∧
      buildReplacements ord2 targetPath baseLines overrideLines allowed = .error e2) ∨
    (∃ l1 l2, buildReplacements ord1 targetPath baseLines overrideLines allowed = .ok l1 ∧
      buildReplacements ord2 targetPath baseLines overrideLines allowed = .ok l2 ∧
      l1.length = l2.length ∧ sortReplacements l1 = sortReplacements l2) := by
  by_cases hno : parseMarkdownSections overrideLines = []
  · -- no headings: the visit is of a set with one element
    unfold buildReplacements
    simp only [hno, List.length_nil, if_true]
    by_cases hlen : allowed.length = 1
    · obtain ⟨a, ha⟩ := List.length_eq_one.1 hlen
      subst ha
      simp only [List.length_singleton, ne_eq, not_true_eq_false, if_false, shuffle_singleton]
      cases hl : lookupSection (parseMarkdownSections baseLines) (lastRanged [a]) with
      | none => left; exact ⟨_, _, rfl, rfl⟩
      | some sec =>
        obtain ⟨line, hline⟩ := section_get? (lookupSection_some hl).1
        simp only [hline]
        right; exact ⟨_, _, rfl, rfl, rfl, rfl⟩
    · left
      simp only [ne_eq, hlen, not_false_eq_true, if_true]
      exact ⟨_, _, rfl, rfl⟩
  · rw [buildReplacements_with_headings ord1 targetPath allowed hno,
      buildReplacements_with_headings ord2 targetPath allowed hno]
    by_cases hmiss : ∃ s ∈ parseMarkdownSections overrideLines, s.anchor ∈ allowed ∧
        lookupSection (parseMarkdownSections baseLines) s.anchor = none
    · left
      obtain ⟨s, hs, hal, hl⟩ := hmiss
      obtain ⟨s1, _, _, _, h1⟩ := collectReplacements_error targetPath
        (parseMarkdownSections baseLines) overrideLines.length allowed _ []
        (override_bounds ord1 1) ⟨s, (shuffle_mem ord1 1 _ _).2 hs, hal, hl⟩
      obtain ⟨s2, _, _, _, h2⟩ := collectReplacements_error targetPath
        (parseMarkdownSections baseLines) overrideLines.length allowed _ []
        (override_bounds ord2 1) ⟨s, (shuffle_mem ord2 1 _ _).2 hs, hal, hl⟩
      exact ⟨_, _, h1, h2⟩
    · right
      have hfound : ∀ (ord : RangeOrder),
          ∀ s ∈ ord.shuffle 1 (parseMarkdownSections overrideLines), s.anchor ∈ allowed →
            lookupSection (parseMarkdownSections baseLines) s.anchor ≠ none := by
        intro ord s hs hal hl
        exact hmiss ⟨s, (shuffle_mem ord 1 _ _).1 hs, hal, hl⟩
      rw [collectReplacements_ok _ _ _ _ _ _ (override_bounds ord1 1) (hfound ord1),
        collectReplacements_ok _ _ _ _ _ _ (override_bounds ord2 1) (hfound ord2)]
      have hperm : (ord1.shuffle 1 (parseMarkdownSections overrideLines)).Perm
          (ord2.shuffle 1 (parseMarkdownSections overrideLines)) :=
        (ord1.perm 1 _).trans (ord2.perm 1 _).symm
      have hp2 : ((selected allowed (ord1.shuffle 1 (parseMarkdownSections overrideLines))).filterMap
          (replacementFor (parseMarkdownSections baseLines))).Perm
          ((selected allowed (ord2.shuffle 1 (parseMarkdownSections overrideLines))).filterMap
          (replacementFor (parseMarkdownSections baseLines))) :=
        (hperm.filter _).filterMap _
      refine ⟨_, _, rfl, rfl, ?_, ?_⟩
      · simpa using hp2.length_eq
      · simp only [List.nil_append]
        exact sortReplacements_perm hp2
          (selected_replacements_distinct baseLines overrideLines allowed (ord1.perm 1 _))

theorem applySectionOverrides_order (ord1 ord2 : RangeOrder) (fs : FS)
    (targetPath override : Str) (allowed : List Str) :
    (applySectionOverrides ord1 fs targetPath override allowed).2 =
      (applySectionOverrides ord2 fs targetPath override allowed).2 ∧
    (applySectionOverrides ord1 fs targetPath override allowed).1.agrees
      (applySectionOverrides ord2 fs targetPath override allowed).1 := by
  unfold applySectionOverrides
  cases hread : readFileFromRoot fs targetPath with
  | none => exact ⟨rfl, Or.inl rfl⟩
  | some base =>
    simp only
    rcases buildReplacements_order ord1 ord2 targetPath (splitLines base) (splitLines override)
      allowed with ⟨e1, e2, h1, h2⟩ | ⟨l1, l2, h1, h2, hlen, hsort⟩
    · rw [h1, h2]; exact ⟨rfl, Or.inr ⟨_, _, rfl, rfl⟩⟩
    · rw [h1, h2]
      simp only [hlen, hsort]
      exact ⟨trivial, Or.inl rfl⟩

/-! ## Override rules -/

theorem lookupRule_cons (kv : Str × overrideRule) (rest : List (Str × overrideRule)) (p : Str) :
    lookupRule (kv :: rest) p = if kv.1 = p then some kv.2 else lookupRule rest p := by
  unfold lookupRule
  by_cases h : kv.1 = p <;> simp [List.find?_cons, h]

theorem lookupRule_grantFull (rules : List (Str × overrideRule)) (q p : Str) :
    lookupRule (grantFull rules q) p =
      if p = q then
        some { full := true, sections := ((lookupRule rules q).map (·.sections)).getD [] }
      else lookupRule rules p := by
  induction rules with
  | nil =>
    by_cases h : p = q
    · subst h; simp [grantFull, lookupRule_cons, lookupRule]
    · simp [grantFull, lookupRule_cons, h, Ne.symm h, lookupRule]
  | cons kv rest ih =>
    unfold grantFull
    by_cases hk : kv.1 = q
    · rw [if_pos hk, lookupRule_cons, lookupRule_cons, lookupRule_cons]
      by_cases h : p = q
      · subst h; simp [hk]
      · have : ¬ kv.1 = p := fun h' => h (h'.symm.trans hk)
        simp [h, this]
    · rw [if_neg hk, lookupRule_cons, ih, lookupRule_cons, lookupRule_cons]
      by_cases h : p = q
      · subst h; simp [hk]
      · by_cases h' : kv.1 = p <;> simp [h, h']

theorem lookupRule_grantSection (rules : List (Str × overrideRule)) (q a p : Str) :
    lookupRule (grantSection rules q a) p =
      if p = q then
        some { full := ((lookupRule rules q).map (·.full)).getD false
               sections :=
                 let old := ((lookupRule rules q).map (·.sections)).getD []
                 if a ∈ old then old else old ++ [a] }
      else lookupRule rules p := by
  induction rules with
  | nil =>
    by_cases h : p = q
    · subst h; simp [grantSection, lookupRule_cons, lookupRule]
    · simp [grantSection, lookupRule_cons, h, Ne.symm h, lookupRule]
  | cons kv rest ih =>
    unfold grantSection
    by_cases hk : kv.1 = q
    · rw [if_pos hk, lookupRule_cons, lookupRule_cons, lookupRule_cons]
      by_cases h : p = q
      · subst h; simp [hk]
      · have : ¬ kv.1 = p := fun h' => h (h'.symm.trans hk)
        simp [h, this]
    · rw [if_neg hk, lookupRule_cons, ih, lookupRule_cons, lookupRule_cons]
      by_cases h : p = q
      · subst h; simp [hk]
      · by_cases h' : kv.1 = p <;> simp [h, h']

theorem fullAt_grantFull_self (rules : List (Str × overrideRule)) (p : Str) :
    FullAt (grantFull rules p) p :=
  ⟨_, by rw [lookupRule_grantFull, if_pos rfl], rfl⟩

theorem fullAt_grantFull {rules : List (Str × overrideRule)} {p : Str} (h : FullAt rules p)
    (q : Str) : FullAt (grantFull rules q) p := by
  by_cases hpq : p = q
  · subst hpq; exact fullAt_grantFull_self rules p
  · obtain ⟨r, hr, hf⟩ := h
    exact ⟨r, by rw [lookupRule_grantFull, if_neg hpq, hr], hf⟩

theorem fullAt_grantSection {rules : List (Str × overrideRule)} {p : Str} (h : FullAt rules p)
    (q a : Str) : FullAt (grantSection rules q a) p := by
  obtain ⟨r, hr, hf⟩ := h
  by_cases hpq : p = q
  · subst hpq
    exact ⟨_, by rw [lookupRule_grantSection, if_pos rfl], by simp [hr, hf]⟩
  · exact ⟨r, by rw [lookupRule_grantSection, if_neg hpq, hr], hf⟩

theorem parseOverridePathsFrom_cons (clean : Str → Str) (raw : Str) (rest : List Str)
    (rules : List (Str × overrideRule)) :
    parseOverridePathsFrom clean (raw :: rest) rules =
      if trimSpace raw = [] then parseOverridePathsFrom clean rest rules
      else if clean (splitHash (trimSpace raw)).1 = ".".toList ∨
          "../".toList.isPrefixOf (clean (splitHash (trimSpace raw)).1) then
        .error (.invalidPath (trimSpace raw))
      else if ¬ ".claude/".toList.isPrefixOf (clean (splitHash (trimSpace raw)).1) ∧
          clean (splitHash (trimSpace raw)).1 ≠ ".claude".toList then
        .error (.outsideClaude (trimSpace raw))
      else
        match (splitHash (trimSpace raw)).2 with
        | none => parseOverridePathsFrom clean rest
            (grantFull rules (clean (splitHash (trimSpace raw)).1))
        | some anchor =>
          if anchor = [] then parseOverridePathsFrom clean rest
            (grantFull rules (clean (splitHash (trimSpace raw)).1))
          else parseOverridePathsFrom clean rest
            (grantSection rules (clean (splitHash (trimSpace raw)).1) anchor) := by
  rfl

theorem parseOverridePathsFrom_full (clean : Str → Str) (p : Str) :
    ∀ (paths : List Str) (rules rules1 : List (Str × overrideRule)),
      parseOverridePathsFrom clean paths rules = .ok rules1 →
      (FullAt rules p ∨ ∃ raw ∈ paths, DeclaresFull clean raw p) → FullAt rules1 p := by
  intro paths
  induction paths with
  | nil =>
    intro rules rules1 h hfull
    simp only [parseOverridePathsFrom, Except.ok.injEq] at h
    subst h
    rcases hfull with h | ⟨raw, hraw, _⟩
    · exact h
    · simp at hraw
  | cons raw rest ih =>
    intro rules rules1 h hfull
    rw [parseOverridePathsFrom_cons] at h
    -- what is left to establish after this declaration
    have step : ∀ rules2, parseOverridePathsFrom clean rest rules2 = .ok rules1 →
        (FullAt rules p → FullAt rules2 p) →
        (DeclaresFull clean raw p → FullAt rules2 p) → FullAt rules1 p := by
      intro rules2 h2 hkeep hnew
      apply ih rules2 rules1 h2
      rcases hfull with hf | ⟨raw', hraw', hd⟩
      · exact Or.inl (hkeep hf)
      · rcases List.mem_cons.1 hraw' with rfl | hmem
        · exact Or.inl (hnew hd)
        · exact Or.inr ⟨raw', hmem, hd⟩
    split_ifs at h with h1 h2 h3
    · exact step rules h id (fun hd => absurd h1 hd.1)
    · split at h
      · rename_i hnone
        exact step _ h (fun hf => fullAt_grantFull hf _) (fun hd => by
          rw [← hd.2.1]; exact fullAt_grantFull_self _ _)
      · rename_i anchor hsome
        split_ifs at h with h4
        · exact step _ h (fun hf => fullAt_grantFull hf _) (fun hd => by
            rw [← hd.2.1]; exact fullAt_grantFull_self _ _)
        · refine step _ h (fun hf => fullAt_grantSection hf _ _) (fun hd => ?_)
          rcases hd.2.2 with h5 | h5
          · rw [hsome] at h5; cases h5
          · rw [hsome] at h5
            simp only [Option.some.injEq] at h5
            exact absurd h5 h4

theorem ignoredWarning_injective {p q : Str} (h : ignoredWarning p = ignoredWarning q) :
    p = q := by
  unfold ignoredWarning at h
  rw [List.append_assoc, List.append_assoc] at h
  exact List.append_cancel_right (List.append_cancel_left h)

/-! ## The loop of ApplyOverrides -/

theorem applyLoop_nil (ord : RangeOrder) (rules : List (Str × overrideRule))
    (warnings : List Str) (fs : FS) :
    applyLoop ord rules [] warnings fs = { warnings := warnings, exit := .ok, fs := fs } := rfl

/-- One visit of the loop: the file is ignored with a warning, or it is
processed with outcome `(exit, fs1)`; the loop goes on when `exit` is nil and
returns otherwise. -/
theorem applyLoop_cons (ord : RangeOrder) (rules : List (Str × overrideRule))
    (targetPath content : Str) (rest : List (Str × Str)) (warnings : List Str) (fs : FS) :
    (lookupRule rules targetPath = none ∧
      applyLoop ord rules ((targetPath, content) :: rest) warnings fs =
        applyLoop ord rules rest (warnings ++ [ignoredWarning targetPath]) fs) ∨
    (∃ rule step, lookupRule rules targetPath = some rule ∧
      step = (if rule.full then writeFile fs targetPath content
        else applySectionOverrides ord fs targetPath content rule.sections) ∧
      ((step.1 = .ok ∧ applyLoop ord rules ((targetPath, content) :: rest) warnings fs =
          applyLoop ord rules rest warnings step.2) ∨
       (step.1 ≠ .ok ∧ applyLoop ord rules ((targetPath, content) :: rest) warnings fs =
          { warnings := warnings, exit := step.1, fs := step.2 }))) := by
  cases hl : lookupRule rules targetPath with
  | none => left; exact ⟨rfl, by rw [applyLoop, hl]⟩
  | some rule =>
    right
    refine ⟨rule, _, rfl, rfl, ?_⟩
    by_cases hfull : rule.full = true
    · rw [if_pos hfull]
      cases hw : writeFile fs targetPath content with
      | mk e fs1 =>
        cases e with
        | ok => left; exact ⟨rfl, by rw [applyLoop, hl]; simp [hfull, hw]⟩
        | error err => right; exact ⟨by simp, by rw [applyLoop, hl]; simp [hfull, hw]⟩
        | panic => right; exact ⟨by simp, by rw [applyLoop, hl]; simp [hfull, hw]⟩
    · rw [if_neg hfull]
      cases hw : applySectionOverrides ord fs targetPath content rule.sections with
      | mk e fs1 =>
        cases e with
        | ok => left; exact ⟨rfl, by rw [applyLoop, hl]; simp [hfull, hw]⟩
        | error err => right; exact ⟨by simp, by rw [applyLoop, hl]; simp [hfull, hw]⟩
        | panic => right; exact ⟨by simp, by rw [applyLoop, hl]; simp [hfull, hw]⟩

theorem step_writesOnly (ord : RangeOrder) (fs : FS) (targetPath content : Str)
    (rule : overrideRule) :
    WritesOnly (fun q => q = targetPath) fs
      (if rule.full then writeFile fs targetPath content
        else applySectionOverrides ord fs targetPath content rule.sections).2 := by
  split_ifs
  · exact writeFile_writesOnly fs targetPath content
  · exact applySectionOverrides_writesOnly ord fs targetPath content rule.sections

theorem applyLoop_writesOnly (ord : RangeOrder) (rules : List (Str × overrideRule)) :
    ∀ (l : List (Str × Str)) (warnings : List Str) (fs : FS),
      WritesOnly (fun q => (∃ c, (q, c) ∈ l) ∧ lookupRule rules q ≠ none) fs
        (applyLoop ord rules l warnings fs).fs := by
  intro l
  induction l with
  | nil => intro w fs; exact writesOnly_refl _ fs
  | cons kv rest ih =>
    intro w fs
    obtain ⟨tp, c⟩ := kv
    have hrest : ∀ w1 fs1, WritesOnly
        (fun q => (∃ c1, (q, c1) ∈ (tp, c) :: rest) ∧ lookupRule rules q ≠ none) fs1
        (applyLoop ord rules rest w1 fs1).fs := fun w1 fs1 =>
      writesOnly_mono (fun q ⟨⟨c1, hc1⟩, hq⟩ => ⟨⟨c1, List.mem_cons_of_mem _ hc1⟩, hq⟩) (ih w1 fs1)
    rcases applyLoop_cons ord rules tp c rest w fs with ⟨_, h⟩ | ⟨rule, step, hl, hstep, h⟩
    · rw [h]; exact hrest _ _
    · have hs : WritesOnly
          (fun q => (∃ c1, (q, c1) ∈ (tp, c) :: rest) ∧ lookupRule rules q ≠ none) fs step.2 := by
        rw [hstep]
        refine writesOnly_mono ?_ (step_writesOnly ord fs tp c rule)
        intro q hq
        subst hq
        exact ⟨⟨c, List.mem_cons_self _ _⟩, by rw [hl]; simp⟩
      rcases h with ⟨_, h⟩ | ⟨_, h⟩
      · rw [h]; exact writesOnly_trans hs (hrest _ _)
      · rw [h]; exact hs

theorem applyLoop_warnings (ord : RangeOrder) (rules : List (Str × overrideRule)) :
    ∀ (l : List (Str × Str)) (warnings : List Str) (fs : FS),
      ∃ extra, (applyLoop ord rules l warnings fs).warnings = warnings ++ extra ∧
        (∀ w ∈ extra, ∃ q c, (q, c) ∈ l ∧ lookupRule rules q = none ∧ w = ignoredWarning q) ∧
        ((applyLoop ord rules l warnings fs).exit = .ok →
          ∀ q c, (q, c) ∈ l → lookupRule rules q = none → ignoredWarning q ∈ extra) := by
  intro l
  induction l with
  | nil => intro w fs; exact ⟨[], by simp [applyLoop_nil], by simp, by simp⟩
  | cons kv rest ih =>
    intro w fs
    obtain ⟨tp, c⟩ := kv
    rcases applyLoop_cons ord rules tp c rest w fs with ⟨hnone, h⟩ | ⟨rule, step, hl, hstep, h⟩
    · obtain ⟨extra, h1, h2, h3⟩ := ih (w ++ [ignoredWarning tp]) fs
      rw [h]
      refine ⟨ignoredWarning tp :: extra, by rw [h1]; simp, ?_, ?_⟩
      · intro x hx
        rcases List.mem_cons.1 hx with rfl | hx
        · exact ⟨tp, c, List.mem_cons_self _ _, hnone, rfl⟩
        · obtain ⟨q, c1, hq, hn, he⟩ := h2 x hx
          exact ⟨q, c1, List.mem_cons_of_mem _ hq, hn, he⟩
      · intro hok q c1 hq hn
        rcases List.mem_cons.1 hq with heq | hq
        · simp only [Prod.mk.injEq] at heq
          rw [heq.1]; exact List.mem_cons_self _ _
        · exact List.mem_cons_of_mem _ (h3 hok q c1 hq hn)
    · rcases h with ⟨_, h⟩ | ⟨hne, h⟩
      · obtain ⟨extra, h1, h2, h3⟩ := ih w step.2
        rw [h]
        refine ⟨extra, h1, ?_, ?_⟩
        · intro x hx
          obtain ⟨q, c1, hq, hn, he⟩ := h2 x hx
          exact ⟨q, c1, List.mem_cons_of_mem _ hq, hn, he⟩
        · intro hok q c1 hq hn
          rcases List.mem_cons.1 hq with heq | hq
          · simp only [Prod.mk.injEq] at heq
            rw [heq.1, hl] at hn; cases hn
          · exact h3 hok q c1 hq hn
      · rw [h]
        exact ⟨[], by simp, by simp, fun hok => absurd hok hne⟩

theorem applyLoop_full (ord : RangeOrder) (rules : List (Str × overrideRule)) (p X : Str)
    (hfull : FullAt rules p) :
    ∀ (l : List (Str × Str)) (warnings : List Str) (fs : FS),
      (l.map Prod.fst).Nodup → (p, X) ∈ l →
      (applyLoop ord rules l warnings fs).exit = .ok →
      (applyLoop ord rules l warnings fs).fs.files p = some X := by
  intro l
  induction l with
  | nil => intro _ _ _ h; simp at h
  | cons kv rest ih =>
    intro w fs hnd hmem hok
    obtain ⟨tp, c⟩ := kv
    simp only [List.map_cons, List.nodup_cons] at hnd
    obtain ⟨rule, hrule, hrfull⟩ := hfull
    by_cases htp : tp = p
    · subst htp
      have hc : c = X := by
        rcases List.mem_cons.1 hmem with heq | hmem
        · simp only [Prod.mk.injEq] at heq; exact heq.2.symm
        · exact absurd (List.mem_map_of_mem Prod.fst hmem) hnd.1
      subst hc
      rcases applyLoop_cons ord rules tp c rest w fs with ⟨hnone, _⟩ | ⟨rule1, step, hl, hstep, h⟩
      · rw [hrule] at hnone; cases hnone
      · rw [hrule] at hl
        simp only [Option.some.injEq] at hl
        subst hl
        rw [if_pos hrfull] at hstep
        rcases h with ⟨hsok, h⟩ | ⟨hne, h⟩
        · rw [h]
          have hframe := (applyLoop_writesOnly ord rules rest w step.2).2.1 tp (by
            rintro ⟨⟨c1, hc1⟩, _⟩
            exact hnd.1 (List.mem_map_of_mem Prod.fst hc1))
          rw [hframe, hstep]
          rcases writeFile_cases fs tp c with ⟨_, _, h2⟩ | ⟨_, h2⟩
          · exact h2
          · rw [hstep, h2] at hsok; cases hsok
        · rw [h] at hok; exact absurd hok hne
    · have hmem' : (p, X) ∈ rest := by
        rcases List.mem_cons.1 hmem with heq | hmem
        · simp only [Prod.mk.injEq] at heq; exact absurd heq.1.symm htp
        · exact hmem
      rcases applyLoop_cons ord rules tp c rest w fs with ⟨_, h⟩ | ⟨rule1, step, hl, hstep, h⟩
      · rw [h] at hok ⊢
        exact ih _ _ hnd.2 hmem' hok
      · rcases h with ⟨_, h⟩ | ⟨hne, h⟩
        · rw [h] at hok ⊢
          exact ih _ _ hnd.2 hmem' hok
        · rw [h] at hok; exact absurd hok hne

/-- C1 (counterexample). With the empty override, which has no headings, the
example base keeps the heading of `repo-specific-rules` and loses the body of
that section: the file written has no line between the two headings, whereas
the base lines up to the heading, the lines of the override content (one empty
line) and the base lines after the section give a file with an empty line
there. -/
theorem empty_override_drops_body_only :
    readFileFromRoot (exampleFS exampleBase) exampleTarget = some exampleBase ∧
    sectionIndex [] = [] ∧
    lookupSection (sectionIndex exampleBase) "repo-specific-rules".toList =
      some { anchor := "repo-specific-rules".toList, level := 2, start := 1, end_ := 3 } ∧
    (applySectionOverrides RangeOrder.stored (exampleFS exampleBase) exampleTarget []
      ["repo-specific-rules".toList]).2.files exampleTarget =
      some "# Title\n## Repo-Specific Rules\n## Other\nkeep this".toList ∧
    (writeFile (exampleFS exampleBase) exampleTarget
      (joinLines ((splitLines exampleBase).take (1 + 1) ++ splitLines [] ++
        (splitLines exampleBase).drop 3))).2.files exampleTarget =
      some "# Title\n## Repo-Specific Rules\n\n## Other\nkeep this".toList ∧
    applySectionOverrides RangeOrder.stored (exampleFS exampleBase) exampleTarget []
      ["repo-specific-rules".toList] ≠
      writeFile (exampleFS exampleBase) exampleTarget
        (joinLines ((splitLines exampleBase).take (1 + 1) ++ splitLines [] ++
          (splitLines exampleBase).drop 3)) := by
  refine ⟨by decide, by decide, by decide, by decide, by decide, fun h => ?_⟩
  have h1 := congrArg (fun r : Exit × FS => r.2.files exampleTarget) h
  revert h1
  decide

/-- C1 (witness): the scenario of the specification. -/
theorem spec_scenario_without_headings :
    (applySectionOverrides RangeOrder.stored (exampleFS exampleBase) exampleTarget
      "override rules".toList ["repo-specific-rules".toList]).2.files exampleTarget =
      some "# Title\n## Repo-Specific Rules\noverride rules\n## Other\nkeep this".toList ∧
    containsText "# Title\n## Repo-Specific Rules\noverride rules\n## Other\nkeep this".toList
      "override rules".toList = true ∧
    containsText "# Title\n## Repo-Specific Rules\noverride rules\n## Other\nkeep this".toList
      "keep this".toList = true ∧
    containsText "# Title\n## Repo-Specific Rules\noverride rules\n## Other\nkeep this".toList
      "base rules".toList = false := by
  refine ⟨?_, by decide, by decide, by decide⟩
  rw [section_override_without_headings RangeOrder.stored (exampleFS exampleBase)
    exampleTarget exampleBase "override rules".toList "repo-specific-rules".toList
    { anchor := "repo-specific-rules".toList, level := 2, start := 1, end_ := 3 }
    (by decide) (by decide) (by decide)]
  decide

/-- C3 (evaluation). The back-to-front pass against the simultaneous
replacement on two inputs. Nested sections: replacing `b` first shortens the
file, the end offset of `a` is stale, and the heading `# C`, outside every
selected span, is lost. Sibling sections listed in the other order by the
override: appending the base tail to the sub-slice of `b` overwrites the
override line that holds the heading of `a`. -/
theorem back_to_front_pass_differs :
    ((applySectionOverrides RangeOrder.stored (exampleFS nestedBase) exampleTarget nestedOverride
        ["a".toList, "b".toList]).2.files exampleTarget =
        some "# A\nnewA\n## B\nnewB\nc".toList ∧
      joinLines (replaceSimultaneously (splitLines nestedBase)
        (selectedEdits nestedBase nestedOverride ["a".toList, "b".toList])) =
        "# A\nnewA\n## B\nnewB\n# C\nc".toList ∧
      (applySectionOverrides RangeOrder.stored (exampleFS nestedBase) exampleTarget
        nestedOverride ["a".toList, "b".toList]).2.files exampleTarget ≠
        some (joinLines (replaceSimultaneously (splitLines nestedBase)
          (selectedEdits nestedBase nestedOverride ["a".toList, "b".toList])))) ∧
    ((applySectionOverrides RangeOrder.stored (exampleFS siblingBase) exampleTarget
        siblingOverride ["a".toList, "b".toList]).2.files exampleTarget =
        some "# T\nA2\n## B\nB2\n# T".toList ∧
      joinLines (replaceSimultaneously (splitLines siblingBase)
        (selectedEdits siblingBase siblingOverride ["a".toList, "b".toList])) =
        "## A\nA2\n## B\nB2\n# T".toList ∧
      (applySectionOverrides RangeOrder.stored (exampleFS siblingBase) exampleTarget
        siblingOverride ["a".toList, "b".toList]).2.files exampleTarget ≠
        some (joinLines (replaceSimultaneously (splitLines siblingBase)
          (selectedEdits siblingBase siblingOverride ["a".toList, "b".toList])))) := by
  refine ⟨⟨by decide, by decide, by decide⟩, ⟨by decide, by decide, by decide⟩⟩

/-- C4. Override idempotence across re-sync: the file system an override
leaves, the warnings and the kind of return do not depend on the order in
which the runtime visits the maps, for `applySectionOverrides` under every
allowed-anchor set and for `ApplyOverrides` with one staged override under
every declaration list; so every run on a fresh copy of the base gives the
same bytes. -/
theorem override_output_independent_of_order (ord1 ord2 : RangeOrder) (clean : Str → Str)
    (fs : FS) (targetPath content : Str) (paths : List Str) :
    (∀ allowed : List Str,
      (applySectionOverrides ord1 fs targetPath content allowed).2 =
        (applySectionOverrides ord2 fs targetPath content allowed).2 ∧
      (applySectionOverrides ord1 fs targetPath content allowed).1.agrees
        (applySectionOverrides ord2 fs targetPath content allowed).1) ∧
    (ApplyOverrides ord1 clean fs (.ok [(targetPath, content)]) paths).fs =
      (ApplyOverrides ord2 clean fs (.ok [(targetPath, content)]) paths).fs ∧
    (ApplyOverrides ord1 clean fs (.ok [(targetPath, content)]) paths).warnings =
      (ApplyOverrides ord2 clean fs (.ok [(targetPath, content)]) paths).warnings ∧
    (ApplyOverrides ord1 clean fs (.ok [(targetPath, content)]) paths).exit.agrees
      (ApplyOverrides ord2 clean fs (.ok [(targetPath, content)]) paths).exit := by
  refine ⟨fun allowed => applySectionOverrides_order ord1 ord2 fs targetPath content allowed, ?_⟩
  unfold ApplyOverrides
  cases hparse : parseOverridePaths clean paths with
  | error e => exact ⟨rfl, rfl, Or.inl rfl⟩
  | ok rules =>
    simp only [List.length_singleton, one_ne_zero, if_false, shuffle_singleton]
    rcases applyLoop_cons ord1 rules targetPath content [] [] fs with
      ⟨hn, h1⟩ | ⟨rule, step1, hl, hs1, h1⟩
    · rcases applyLoop_cons ord2 rules targetPath content [] [] fs with
        ⟨_, h2⟩ | ⟨rule2, _, hl2, _, _⟩
      · rw [h1, h2]; exact ⟨rfl, rfl, Or.inl rfl⟩
      · rw [hn] at hl2; cases hl2
    · rcases applyLoop_cons ord2 rules targetPath content [] [] fs with
        ⟨hn2, _⟩ | ⟨rule2, step2, hl2, hs2, h2⟩
      · rw [hn2] at hl; cases hl
      · rw [hl] at hl2
        simp only [Option.some.injEq] at hl2
        subst hl2
        have hsame : step1.2 = step2.2 ∧ step1.1.agrees step2.1 := by
          rw [hs1, hs2]
          split_ifs
          · exact ⟨rfl, Or.inl rfl⟩
          · exact applySectionOverrides_order ord1 ord2 fs targetPath content rule.sections
        obtain ⟨hfs, hag⟩ := hsame
        rcases h1 with ⟨hok1, h1⟩ | ⟨hne1, h1⟩ <;> rcases h2 with ⟨hok2, h2⟩ | ⟨hne2, h2⟩
        · rw [h1, h2, applyLoop_nil, applyLoop_nil]
          exact ⟨hfs, rfl, Or.inl rfl⟩
        · exfalso
          rcases hag with h | ⟨e1, e2, he1, _⟩
          · exact hne2 (h ▸ hok1)
          · rw [hok1] at he1; cases he1
        · exfalso
          rcases hag with h | ⟨e1, e2, _, he2⟩
          · exact hne1 (h ▸ hok2)
          · rw [hok2] at he2; cases he2
        · rw [h1, h2]
          exact ⟨hfs, rfl, hag⟩

/-- C5 (witness): overriding `repo-specific-rules` of the example base keeps
the section `other`. -/
theorem spec_scenario_other_section_kept :
    ∃ out, applySectionOverrides RangeOrder.stored (exampleFS exampleBase) exampleTarget
        exampleOverride ["repo-specific-rules".toList] =
        writeFile (exampleFS exampleBase) exampleTarget (joinLines out) ∧
      ["## Other".toList, "keep this".toList] <:+: out ∧
      "## Other\nkeep this".toList <:+: joinLines out :=
  untouched_section_preserved RangeOrder.stored (exampleFS exampleBase) exampleTarget
    exampleBase exampleOverride ["repo-specific-rules".toList]
    { anchor := "repo-specific-rules".toList, level := 2, start := 1, end_ := 3 }
    { anchor := "other".toList, level := 2, start := 3, end_ := 5 }
    (by decide) (by decide) (by decide) (by decide) (by decide)
    (Or.inr ⟨⟨{ anchor := "repo-specific-rules".toList, level := 2, start := 0, end_ := 2 },
      by decide, by decide⟩, by decide⟩)

/-- C8 (counterexample). The example base can be read but not written; the
override has no headings and the one allowed anchor is in the base index, yet
the call returns an error (of the write). -/
theorem read_only_target_fails :
    readFileFromRoot (readOnlyFS exampleBase) exampleTarget = some exampleBase ∧
    sectionIndex "override rules".toList = [] ∧
    lookupSection (sectionIndex exampleBase) "repo-specific-rules".toList ≠ none ∧
    (applySectionOverrides RangeOrder.stored (readOnlyFS exampleBase) exampleTarget
      "override rules".toList ["repo-specific-rules".toList]).1 =
      .error (.writeFailed exampleTarget) := by
  decide

/-- C8 (witness): on the example base, which can be written, an unknown anchor
makes the call fail and leaves the file system as it was, and the known one
does not make it fail. -/
theorem spec_scenario_unknown_anchor :
    (∃ e, (applySectionOverrides RangeOrder.stored (exampleFS exampleBase) exampleTarget
      "override rules".toList ["unknown".toList]).1 = .error e) ∧
    (applySectionOverrides RangeOrder.stored (exampleFS exampleBase) exampleTarget
      "override rules".toList ["unknown".toList]).2 = exampleFS exampleBase ∧
    ¬ (∃ e, (applySectionOverrides RangeOrder.stored (exampleFS exampleBase) exampleTarget
      "override rules".toList ["repo-specific-rules".toList]).1 = .error e) := by
  have h1 := headingless_override_fails_iff RangeOrder.stored (exampleFS exampleBase)
    exampleTarget exampleBase "override rules".toList ["unknown".toList]
    (by decide) (by decide) rfl
  have h2 := headingless_override_fails_iff RangeOrder.stored (exampleFS exampleBase)
    exampleTarget exampleBase "override rules".toList ["repo-specific-rules".toList]
    (by decide) (by decide) rfl
  have hunknown : ¬ ∃ a, ["unknown".toList] = [a] ∧
      lookupSection (sectionIndex exampleBase) a ≠ none := by
    rintro ⟨a, ha, hsec⟩
    simp only [List.cons.injEq, and_true] at ha
    subst ha
    revert hsec
    decide
  obtain ⟨e, he⟩ := h1.1.2 hunknown
  refine ⟨⟨e, he⟩, (h1.2 (by rw [he]; exact fun h => by cases h)).2,
    fun h => h2.1.1 h ⟨_, rfl, by decide⟩⟩

/-- C6. Full-file override round trip: when some declaration names `p` without
an anchor and `X` is staged for `p`, after `ApplyOverrides` returns nil the
file at `p` holds exactly `X`, whatever the file system held before, and the
warnings do not include the one for `p`. -/
theorem full_file_override_round_trip (ord : RangeOrder) (clean : Str → Str) (fs : FS)
    (overrides : List (Str × Str)) (paths : List Str) (p X : Str)
    (hkeys : (overrides.map Prod.fst).Nodup)
    (hstaged : (p, X) ∈ overrides)
    (hdecl : ∃ raw ∈ paths, DeclaresFull clean raw p)
    (hok : (ApplyOverrides ord clean fs (.ok overrides) paths).exit = .ok) :
    (ApplyOverrides ord clean fs (.ok overrides) paths).fs.files p = some X ∧
    ignoredWarning p ∉ (ApplyOverrides ord clean fs (.ok overrides) paths).warnings := by
  cases hparse : parseOverridePaths clean paths with
  | error e =>
    simp only [ApplyOverrides, hparse] at hok
    cases hok
  | ok rules =>
    have hfull : FullAt rules p :=
      parseOverridePathsFrom_full clean p paths [] rules hparse (Or.inr hdecl)
    have hlen : overrides.length ≠ 0 := by
      intro h
      rw [List.length_eq_zero.1 h] at hstaged
      simp at hstaged
    simp only [ApplyOverrides, hparse, hlen, if_false] at hok ⊢
    refine ⟨applyLoop_full ord rules p X hfull _ [] fs ?_ ?_ hok, ?_⟩
    · exact (((ord.perm 2 overrides).map Prod.fst).nodup_iff).2 hkeys
    · exact (shuffle_mem ord 2 _ _).2 hstaged
    · obtain ⟨extra, h1, h2, _⟩ := applyLoop_warnings ord rules (ord.shuffle 2 overrides) [] fs
      rw [h1, List.nil_append]
      intro hmem
      obtain ⟨q, c, _, hn, he⟩ := h2 _ hmem
      obtain ⟨rule, hrule, _⟩ := hfull
      rw [ignoredWarning_injective he, hn] at hrule
      cases hrule

/-- C6 (witness): the override `override` staged for the declared file
`.claude/commands/custom.md`, which the base tree does not have. -/
theorem spec_scenario_full_file :
    (ApplyOverrides RangeOrder.stored id (exampleFS exampleBase)
      (.ok [(customTarget, "override".toList)]) [customTarget]).fs.files customTarget =
      some "override".toList ∧
    ignoredWarning customTarget ∉ (ApplyOverrides RangeOrder.stored id (exampleFS exampleBase)
      (.ok [(customTarget, "override".toList)]) [customTarget]).warnings :=
  full_file_override_round_trip RangeOrder.stored id (exampleFS exampleBase)
    [(customTarget, "override".toList)] [customTarget] customTarget "override".toList
    (by decide) (by decide) ⟨customTarget, by decide, by unfold DeclaresFull; decide⟩ (by decide)

/-- C7 (counterexample). Two override files are staged and visited as listed:
the first is declared for a section the base does not have, so the call
returns that error at once; the second has no rule, and no warning names it. -/
theorem warning_lost_on_earlier_error :
    (∃ rules, parseOverridePaths id [".claude/CLAUDE.md#missing".toList] = .ok rules ∧
      lookupRule rules ".claude/notes.md".toList = none) ∧
    (".claude/notes.md".toList, "other".toList) ∈ stagedPair ∧
    (ApplyOverrides RangeOrder.stored id (exampleFS exampleBase) (.ok stagedPair)
      [".claude/CLAUDE.md#missing".toList]).warnings = [] ∧
    ignoredWarning ".claude/notes.md".toList ∉
      (ApplyOverrides RangeOrder.stored id (exampleFS exampleBase) (.ok stagedPair)
        [".claude/CLAUDE.md#missing".toList]).warnings ∧
    (ApplyOverrides RangeOrder.stored id (exampleFS exampleBase) (.ok stagedPair)
      [".claude/CLAUDE.md#missing".toList]).exit =
      .error (.sectionNotFound "missing".toList exampleTarget) := by
  refine ⟨⟨_, rfl, by decide⟩, by decide, by decide, by decide, by decide⟩

/-- C7 (amended). Undeclared override is ignored: when the declarations parse
and give no rule for the target `p` of a staged override file, `ApplyOverrides`
writes nothing to `p`, so the file at `p` reads as before, however the call
ends; when the call returns nil its warnings include the one naming `p`; and
the file alone makes the call return nil with exactly that warning. -/
theorem undeclared_override_ignored (ord : RangeOrder) (clean : Str → Str) (fs : FS)
    (overrides : List (Str × Str)) (paths : List Str) (rules : List (Str × overrideRule))
    (p content : Str)
    (hparse : parseOverridePaths clean paths = .ok rules)
    (hnorule : lookupRule rules p = none)
    (hstaged : (p, content) ∈ overrides) :
    (ApplyOverrides ord clean fs (.ok overrides) paths).fs.files p = fs.files p ∧
    (∃ new, (ApplyOverrides ord clean fs (.ok overrides) paths).fs.journal = new ++ fs.journal ∧
      ∀ e ∈ new, e.1 ≠ p) ∧
    ((ApplyOverrides ord clean fs (.ok overrides) paths).exit = .ok →
      ignoredWarning p ∈ (ApplyOverrides ord clean fs (.ok overrides) paths).warnings) ∧
    (ApplyOverrides ord clean fs (.ok [(p, content)]) paths).exit = .ok ∧
    (ApplyOverrides ord clean fs (.ok [(p, content)]) paths).warnings = [ignoredWarning p] := by
  have hlen : overrides.length ≠ 0 := by
    intro h
    rw [List.length_eq_zero.1 h] at hstaged
    simp at hstaged
  have hsingle : applyLoop ord rules [(p, content)] [] fs =
      { warnings := [ignoredWarning p], exit := .ok, fs := fs } := by
    rw [applyLoop, hnorule]
    rfl
  simp only [ApplyOverrides, hparse, hlen, if_false, List.length_singleton, one_ne_zero,
    shuffle_singleton, hsingle]
  obtain ⟨⟨new, hj, hnew⟩, hfiles, _⟩ :=
    applyLoop_writesOnly ord rules (ord.shuffle 2 overrides) [] fs
  have hnotP : ¬ ((∃ c, (p, c) ∈ ord.shuffle 2 overrides) ∧ lookupRule rules p ≠ none) :=
    fun h => h.2 hnorule
  refine ⟨hfiles p hnotP, ⟨new, hj, fun e he heq => ?_⟩, fun hok => ?_, trivial, trivial⟩
  · have := hnew e he
    rw [heq] at this
    exact hnotP this
  · obtain ⟨extra, h1, _, h3⟩ := applyLoop_warnings ord rules (ord.shuffle 2 overrides) [] fs
    rw [h1, List.nil_append]
    exact h3 hok p content ((shuffle_mem ord 2 _ _).2 hstaged) hnorule

/-- C7 (witness): one staged override and no declaration at all. -/
theorem spec_scenario_disallowed_path :
    (ApplyOverrides RangeOrder.stored id (exampleFS exampleBase)
      (.ok [(customTarget, "override".toList)]) []).fs.files customTarget = none ∧
    ignoredWarning customTarget ∈ (ApplyOverrides RangeOrder.stored id (exampleFS exampleBase)
      (.ok [(customTarget, "override".toList)]) []).warnings := by
  have h := undeclared_override_ignored RangeOrder.stored id (exampleFS exampleBase)
    [(customTarget, "override".toList)] [] [] customTarget "override".toList rfl (by decide)
    (by decide)
  exact ⟨h.1.trans (by decide), h.2.2.1 (by decide)⟩

/-! ## Registry lookups -/

theorem lookupSkill_mem {reg : Registry} {key : Str} {skill : Metadata}
    (h : lookupSkill reg key = some skill) : (key, skill) ∈ reg.skills := by
  unfold lookupSkill at h
  rw [Option.map_eq_some'] at h
  obtain ⟨kv, hkv, rfl⟩ := h
  have hm := List.mem_of_find?_eq_some hkv
  have hk : kv.1 = key := by simpa using List.find?_some hkv
  rw [← hk]
  exact hm

theorem lookupSkill_isSome_of_key {reg : Registry} {key : Str}
    (h : key ∈ reg.skills.map Prod.fst) : (lookupSkill reg key).isSome = true := by
  unfold lookupSkill
  rw [Option.isSome_map', List.find?_isSome]
  obtain ⟨kv, hkv, rfl⟩ := List.mem_map.1 h
  exact ⟨kv, hkv, by simp⟩

theorem key_of_lookupSkill_isSome {reg : Registry} {key : Str}
    (h : (lookupSkill reg key).isSome = true) : key ∈ reg.skills.map Prod.fst := by
  obtain ⟨skill, hs⟩ := Option.isSome_iff_exists.1 h
  exact List.mem_map.2 ⟨_, lookupSkill_mem hs, rfl⟩

theorem lookupSkill_of_mem {reg : Registry} (hnd : (reg.skills.map Prod.fst).Nodup)
    {kv : Str × Metadata} (h : kv ∈ reg.skills) : lookupSkill reg kv.1 = some kv.2 := by
  have hsome := lookupSkill_isSome_of_key (List.mem_map_of_mem Prod.fst h)
  obtain ⟨skill, hs⟩ := Option.isSome_iff_exists.1 hsome
  have hm := lookupSkill_mem hs
  have : (kv.1, skill) = kv := List.inj_on_of_nodup_map hnd hm h rfl
  rw [hs, ← this]

/-! ## Termination of detectCycles -/

theorem filter_ne_cons_self (id : Str) (visited : List Str) (h : id ∉ visited) :
    (id :: visited).filter (fun v => decide (v ≠ id)) = visited := by
  rw [List.filter_cons_of_neg (by simp)]
  rw [List.filter_eq_self]
  intro v hv
  simpa using fun hvid : v = id => h (hvid ▸ hv)

theorem visited_length_le {reg : Registry} {visited : List Str} (hnd : visited.Nodup)
    (hkeys : ∀ v ∈ visited, (lookupSkill reg v).isSome = true) :
    visited.length ≤ reg.skills.length := by
  have hsub : visited ⊆ reg.skills.map Prod.fst :=
    fun v hv => key_of_lookupSkill_isSome (hkeys v hv)
  have := (List.subperm_of_subset hnd hsub).length_le
  simpa using this

/-- The loop over the dependencies returns when every call does and every
call that returns nil restores `visited`. -/
theorem detectDeps_returns (call : Str → Marks → Option (Except Str Marks)) (skillID : Str)
    (visited : List Str)
    (hcall : ∀ d m, m.visited = visited →
      ∃ res, call d m = some res ∧ ∀ m1, res = .ok m1 → m1.visited = visited) :
    ∀ (deps : List Str) (m : Marks), m.visited = visited →
      ∃ res, detectDeps call skillID deps m = some res ∧
        ∀ m1, res = .ok m1 → m1.visited = visited := by
  intro deps
  induction deps with
  | nil => intro m hm; exact ⟨.ok m, rfl, fun m1 h => by cases h; exact hm⟩
  | cons d rest ih =>
    intro m hm
    obtain ⟨res, hres, hvis⟩ := hcall d m hm
    unfold detectDeps
    rw [hres]
    cases res with
    | error err =>
      simp only
      split_ifs
      · exact ⟨_, rfl, fun m1 h => by cases h⟩
      · exact ⟨_, rfl, fun m1 h => by cases h⟩
    | ok m1 => exact ih m1 (hvis m1 rfl)

/-- The call `detectCycles` returns within a recursion depth of one more than the
number of registry entries, and restores `visited` when it returns nil. -/
theorem detectCycles_returns (reg : Registry) :
    ∀ (fuel : Nat) (skillID : Str) (m : Marks), m.visited.Nodup →
      (∀ v ∈ m.visited, (lookupSkill reg v).isSome = true) →
      reg.skills.length < fuel + m.visited.length →
      ∃ res, detectCycles fuel reg skillID m = some res ∧
        ∀ m1, res = .ok m1 → m1.visited = m.visited := by
  intro fuel
  induction fuel with
  | zero =>
    intro skillID m hnd hkeys hlen
    have := visited_length_le hnd hkeys
    omega
  | succ fuel ih =>
    intro skillID m hnd hkeys hlen
    unfold detectCycles
    by_cases hfin : skillID ∈ m.finished
    · rw [if_pos hfin]; exact ⟨_, rfl, fun m1 h => by cases h; rfl⟩
    rw [if_neg hfin]
    by_cases hvis : skillID ∈ m.visited
    · rw [if_pos hvis]; exact ⟨_, rfl, fun m1 h => by cases h⟩
    rw [if_neg hvis]
    cases hl : lookupSkill reg skillID with
    | none => exact ⟨_, rfl, fun m1 h => by cases h⟩
    | some skill =>
      simp only
      have hcall : ∀ d (m2 : Marks), m2.visited = skillID :: m.visited →
          ∃ res, detectCycles fuel reg d m2 = some res ∧
            ∀ m1, res = .ok m1 → m1.visited = skillID :: m.visited := by
        intro d m2 hm2
        have := ih d m2 (by rw [hm2]; exact List.nodup_cons.2 ⟨hvis, hnd⟩)
          (by
            rw [hm2]; intro v hv
            rcases List.mem_cons.1 hv with rfl | hv
            · rw [hl]; rfl
            · exact hkeys v hv)
          (by rw [hm2, List.length_cons]; omega)
        rw [hm2] at this
        exact this
      obtain ⟨res, hres, hrestore⟩ := detectDeps_returns (detectCycles fuel reg) skillID
        (skillID :: m.visited) hcall skill.DependsOn
        { visited := skillID :: m.visited, finished := m.finished } rfl
      rw [hres]
      cases res with
      | error err => exact ⟨_, rfl, fun m1 h => by cases h⟩
      | ok m2 =>
        refine ⟨_, rfl, fun m1 h => ?_⟩
        simp only [Option.some.injEq, Except.ok.injEq] at h
        cases h
        simp only [hrestore m2 rfl]
        exact filter_ne_cons_self skillID m.visited hvis

theorem checkCycles_returns (reg : Registry) (fuel : Nat) (hfuel : reg.skills.length < fuel) :
    ∀ l : List (Str × Metadata), ∃ r, checkCycles fuel reg l = some r := by
  intro l
  induction l with
  | nil => exact ⟨_, rfl⟩
  | cons kv rest ih =>
    obtain ⟨res, hres, _⟩ := detectCycles_returns reg fuel kv.1
      { visited := [], finished := [] } List.nodup_nil (by simp) (by simpa using hfuel)
    unfold checkCycles
    rw [hres]
    cases res with
    | error e => exact ⟨_, rfl⟩
    | ok m => exact ih

/-- The call `ValidateRegistry` returns on every registry. -/
theorem ValidateRegistry_returns (ord : RangeOrder) (fuel : Nat) (reg : Registry)
    (hfuel : reg.skills.length < fuel) : ∃ r, ValidateRegistry ord fuel (some reg) = some r := by
  unfold ValidateRegistry
  simp only
  cases checkDuplicateIDs (ord.shuffle 3 reg.skills) [] with
  | error e => exact ⟨_, rfl⟩
  | ok _ =>
    simp only
    cases checkReferences reg (ord.shuffle 4 reg.skills) with
    | error e => exact ⟨_, rfl⟩
    | ok _ => exact checkCycles_returns reg fuel hfuel _

/-! ## The result does not depend on the depth allowed -/

theorem detectDeps_of_call (call1 call2 : Str → Marks → Option (Except Str Marks))
    (skillID : Str) (h : ∀ d m r, call1 d m = some r → call2 d m = some r) :
    ∀ (deps : List Str) (m : Marks) (r : Except Str Marks),
      detectDeps call1 skillID deps m = some r → detectDeps call2 skillID deps m = some r := by
  intro deps
  induction deps with
  | nil => intro m r hr; exact hr
  | cons d rest ih =>
    intro m r hr
    unfold detectDeps at hr ⊢
    cases hc : call1 d m with
    | none => rw [hc] at hr; cases hr
    | some r1 =>
      rw [hc] at hr
      rw [h d m r1 hc]
      cases r1 with
      | error err => exact hr
      | ok m1 => exact ih m1 r hr

theorem detectCycles_fuel_succ (reg : Registry) :
    ∀ (fuel : Nat) (skillID : Str) (m : Marks) (r : Except Str Marks),
      detectCycles fuel reg skillID m = some r →
      detectCycles (fuel + 1) reg skillID m = some r := by
  intro fuel
  induction fuel with
  | zero => intro skillID m r hr; simp [detectCycles] at hr
  | succ fuel ih =>
    intro skillID m r hr
    rw [detectCycles] at hr ⊢
    by_cases hfin : skillID ∈ m.finished
    · rw [if_pos hfin] at hr ⊢; exact hr
    rw [if_neg hfin] at hr ⊢
    by_cases hvis : skillID ∈ m.visited
    · rw [if_pos hvis] at hr ⊢; exact hr
    rw [if_neg hvis] at hr ⊢
    cases hl : lookupSkill reg skillID with
    | none => rw [hl] at hr; exact hr
    | some skill =>
      rw [hl] at hr
      simp only at hr ⊢
      cases hd : detectDeps (detectCycles fuel reg) skillID skill.DependsOn
          { visited := skillID :: m.visited, finished := m.finished } with
      | none => rw [hd] at hr; cases hr
      | some r1 =>
        rw [hd] at hr
        rw [detectDeps_of_call (detectCycles fuel reg) (detectCycles (fuel + 1) reg) skillID
          (fun d m1 r2 h => ih d m1 r2 h) _ _ r1 hd]
        exact hr

theorem detectCycles_fuel_le (reg : Registry) {fuel fuel1 : Nat} (hle : fuel ≤ fuel1)
    (skillID : Str) (m : Marks) (r : Except Str Marks)
    (hr : detectCycles fuel reg skillID m = some r) :
    detectCycles fuel1 reg skillID m = some r := by
  induction hle with
  | refl => exact hr
  | step _ ih => exact detectCycles_fuel_succ reg _ skillID m r ih

theorem checkCycles_fuel_le (reg : Registry) {fuel fuel1 : Nat} (hle : fuel ≤ fuel1) :
    ∀ (l : List (Str × Metadata)) (r : Except Str Unit),
      checkCycles fuel reg l = some r → checkCycles fuel1 reg l = some r := by
  intro l
  induction l with
  | nil => intro r hr; exact hr
  | cons kv rest ih =>
    intro r hr
    unfold checkCycles at hr ⊢
    cases hd : detectCycles fuel reg kv.1 { visited := [], finished := [] } with
    | none => rw [hd] at hr; cases hr
    | some r1 =>
      rw [hd] at hr
      rw [detectCycles_fuel_le reg hle kv.1 _ r1 hd]
      cases r1 with
      | error e => exact hr
      | ok m1 => exact ih r hr

/-- A result of `ValidateRegistry` stays the same when the recursion may go
deeper. -/
theorem ValidateRegistry_fuel_le (ord : RangeOrder) {fuel fuel1 : Nat} (hle : fuel ≤ fuel1)
    (reg : Option Registry) (r : Except Str Unit)
    (hr : ValidateRegistry ord fuel reg = some r) : ValidateRegistry ord fuel1 reg = some r := by
  unfold ValidateRegistry at hr ⊢
  cases reg with
  | none => exact hr
  | some reg =>
    simp only at hr ⊢
    cases h1 : checkDuplicateIDs (ord.shuffle 3 reg.skills) [] with
    | error e => rw [h1] at hr; exact hr
    | ok u =>
      rw [h1] at hr
      simp only at hr ⊢
      cases h2 : checkReferences reg (ord.shuffle 4 reg.skills) with
      | error e => rw [h2] at hr; exact hr
      | ok u2 =>
        rw [h2] at hr
        exact checkCycles_fuel_le reg hle _ r hr

/-! ## The finished markers -/

theorem finishedOK_closed {reg : Registry} :
    ∀ {F : List Str}, FinishedOK reg F → ∀ {x y : Str}, x ∈ F → KeyEdge reg x y → y ∈ F
  | [], _, _, _, hx, _ => by simp at hx
  | z :: rest, ⟨_, hdeps, hrest⟩, x, y, hx, hxy => by
    rcases List.mem_cons.1 hx with rfl | hx
    · exact List.mem_cons_of_mem _ (hdeps y hxy)
    · exact List.mem_cons_of_mem _ (finishedOK_closed hrest hx hxy)

theorem finishedOK_closed_trans {reg : Registry} {F : List Str} (hF : FinishedOK reg F)
    {x y : Str} (hx : x ∈ F) (hxy : TransGen (KeyEdge reg) x y) : y ∈ F := by
  induction hxy with
  | single h => exact finishedOK_closed hF hx h
  | tail _ h ih => exact finishedOK_closed hF ih h

theorem finishedOK_acyclic {reg : Registry} :
    ∀ {F : List Str}, FinishedOK reg F → ∀ {x : Str}, x ∈ F → ¬ TransGen (KeyEdge reg) x x
  | [], _, _, hx, _ => by simp at hx
  | z :: rest, ⟨hz, hdeps, hrest⟩, x, hx, hcyc => by
    rcases List.mem_cons.1 hx with rfl | hx
    · obtain ⟨b, hxb, hbx⟩ := TransGen.head'_iff.1 hcyc
      have hb : b ∈ rest := hdeps b hxb
      rcases reflTransGen_iff_eq_or_transGen.1 hbx with h | h
      · exact hz (h ▸ hb)
      · exact hz (finishedOK_closed_trans hrest hb h)
    · exact finishedOK_acyclic hrest hx hcyc

/-! ## What detectCycles establishes -/

theorem circularText_append {msg : Str} (h : CircularText msg) (suffix : Str) :
    CircularText (msg ++ suffix) :=
  List.IsPrefix.trans h (List.prefix_append _ _)

/-- The loop over the dependencies of `skillID`, given what a call
establishes. -/
theorem detectDeps_spec (reg : Registry) (call : Str → Marks → Option (Except Str Marks))
    (skillID : Str)
    (hcall : ∀ (d : Str) (m : Marks) (res : Except Str Marks),
      KeyEdge reg skillID d → (∀ v ∈ m.visited, v ∉ m.finished) → FinishedOK reg m.finished →
      (∀ v ∈ m.visited, ReflTransGen (KeyEdge reg) v skillID) → call d m = some res →
      (∀ m1, res = .ok m1 → m1.visited = m.visited ∧ FinishedOK reg m1.finished ∧
        d ∈ m1.finished ∧ (∀ x ∈ m.finished, x ∈ m1.finished) ∧
        ∀ v ∈ m.visited, v ∉ m1.finished) ∧
      (∀ e, res = .error e → CircularText e ∧ ∃ x, TransGen (KeyEdge reg) x x)) :
    ∀ (deps : List Str) (m : Marks) (res : Except Str Marks),
      (∀ d ∈ deps, KeyEdge reg skillID d) → (∀ v ∈ m.visited, v ∉ m.finished) →
      FinishedOK reg m.finished → (∀ v ∈ m.visited, ReflTransGen (KeyEdge reg) v skillID) →
      detectDeps call skillID deps m = some res →
      (∀ m1, res = .ok m1 → m1.visited = m.visited ∧ FinishedOK reg m1.finished ∧
        (∀ d ∈ deps, d ∈ m1.finished) ∧ (∀ x ∈ m.finished, x ∈ m1.finished) ∧
        ∀ v ∈ m.visited, v ∉ m1.finished) ∧
      (∀ e, res = .error e → CircularText e ∧ ∃ x, TransGen (KeyEdge reg) x x) := by
  intro deps
  induction deps with
  | nil =>
    intro m res _ hdisj hfin _ hrun
    simp only [detectDeps, Option.some.injEq] at hrun
    subst hrun
    refine ⟨fun m1 h => ?_, fun e h => by cases h⟩
    cases h
    exact ⟨rfl, hfin, by simp, fun x hx => hx, hdisj⟩
  | cons d rest ih =>
    intro m res hedges hdisj hfin hpath hrun
    unfold detectDeps at hrun
    cases hc : call d m with
    | none => rw [hc] at hrun; cases hrun
    | some r =>
      rw [hc] at hrun
      obtain ⟨hok, herr⟩ := hcall d m r (hedges d (List.mem_cons_self _ _)) hdisj hfin hpath hc
      cases r with
      | error err =>
        obtain ⟨htext, hcycle⟩ := herr err rfl
        simp only at hrun
        refine ⟨fun m1 h => ?_, fun e h => ?_⟩
        · subst h; split_ifs at hrun <;> cases hrun
        · subst h
          split_ifs at hrun
          · simp only [Option.some.injEq, Except.error.injEq] at hrun
            subst hrun
            rw [List.append_assoc]
            exact ⟨circularText_append htext _, hcycle⟩
          · simp only [Option.some.injEq, Except.error.injEq] at hrun
            subst hrun
            exact ⟨htext, hcycle⟩
      | ok m1 =>
        obtain ⟨hv1, hf1, hd1, hsub1, hdisj1⟩ := hok m1 rfl
        simp only at hrun
        obtain ⟨hok2, herr2⟩ := ih m1 res (fun d1 hd => hedges d1 (List.mem_cons_of_mem _ hd))
          (by rw [hv1]; exact hdisj1) hf1 (by rw [hv1]; exact hpath) hrun
        refine ⟨fun m2 h => ?_, herr2⟩
        obtain ⟨hv2, hf2, hd2, hsub2, hdisj2⟩ := hok2 m2 h
        refine ⟨hv2.trans hv1, hf2, ?_, fun x hx => hsub2 x (hsub1 x hx), ?_⟩
        · intro d1 hd
          rcases List.mem_cons.1 hd with rfl | hd
          · exact hsub2 _ hd1
          · exact hd2 d1 hd
        · rw [← hv1]; exact hdisj2

/-- What `detectCycles` establishes when every dependency is a key of the
registry: a nil return marks the start finished, keeps `visited`, and keeps the
finished markers in order; an error is a circular-dependency error and there
is a cycle. -/
theorem detectCycles_spec (reg : Registry)
    (hres : ∀ a d, KeyEdge reg a d → (lookupSkill reg d).isSome = true) :
    ∀ (fuel : Nat) (skillID : Str) (m : Marks) (res : Except Str Marks),
      (lookupSkill reg skillID).isSome = true → (∀ v ∈ m.visited, v ∉ m.finished) →
      FinishedOK reg m.finished → (∀ v ∈ m.visited, TransGen (KeyEdge reg) v skillID) →
      detectCycles fuel reg skillID m = some res →
      (∀ m1, res = .ok m1 → m1.visited = m.visited ∧ FinishedOK reg m1.finished ∧
        skillID ∈ m1.finished ∧ (∀ x ∈ m.finished, x ∈ m1.finished) ∧
        ∀ v ∈ m.visited, v ∉ m1.finished) ∧
      (∀ e, res = .error e → CircularText e ∧ ∃ x, TransGen (KeyEdge reg) x x) := by
  intro fuel
  induction fuel with
  | zero => intro skillID m res _ _ _ _ hrun; simp [detectCycles] at hrun
  | succ fuel ih =>
    intro skillID m res hkey hdisj hfin hpath hrun
    unfold detectCycles at hrun
    by_cases hf : skillID ∈ m.finished
    · rw [if_pos hf] at hrun
      simp only [Option.some.injEq] at hrun
      subst hrun
      refine ⟨fun m1 h => ?_, fun e h => by cases h⟩
      cases h
      exact ⟨rfl, hfin, hf, fun x hx => hx, hdisj⟩
    rw [if_neg hf] at hrun
    by_cases hv : skillID ∈ m.visited
    · rw [if_pos hv] at hrun
      simp only [Option.some.injEq] at hrun
      subst hrun
      refine ⟨fun m1 h => (nomatch h), fun e h => ?_⟩
      cases h
      exact ⟨List.prefix_append _ _, skillID, hpath skillID hv⟩
    rw [if_neg hv] at hrun
    obtain ⟨skill, hskill⟩ := Option.isSome_iff_exists.1 hkey
    rw [hskill] at hrun
    simp only at hrun
    have hdepsOf : dependsOf reg skillID = skill.DependsOn := by
      unfold dependsOf; rw [hskill]
    cases hloop : detectDeps (detectCycles fuel reg) skillID skill.DependsOn
        { visited := skillID :: m.visited, finished := m.finished } with
    | none => rw [hloop] at hrun; cases hrun
    | some r =>
      rw [hloop] at hrun
      have hcall : ∀ (d : Str) (m2 : Marks) (res2 : Except Str Marks),
          KeyEdge reg skillID d → (∀ v ∈ m2.visited, v ∉ m2.finished) →
          FinishedOK reg m2.finished →
          (∀ v ∈ m2.visited, ReflTransGen (KeyEdge reg) v skillID) →
          detectCycles fuel reg d m2 = some res2 →
          (∀ m1, res2 = .ok m1 → m1.visited = m2.visited ∧ FinishedOK reg m1.finished ∧
            d ∈ m1.finished ∧ (∀ x ∈ m2.finished, x ∈ m1.finished) ∧
            ∀ v ∈ m2.visited, v ∉ m1.finished) ∧
          (∀ e, res2 = .error e → CircularText e ∧ ∃ x, TransGen (KeyEdge reg) x x) := by
        intro d m2 res2 hedge hdisj2 hfin2 hpath2 hrun2
        exact ih d m2 res2 (hres skillID d hedge) hdisj2 hfin2
          (fun v hv2 => TransGen.tail' (hpath2 v hv2) hedge) hrun2
      obtain ⟨hok, herr⟩ := detectDeps_spec reg (detectCycles fuel reg) skillID hcall
        skill.DependsOn { visited := skillID :: m.visited, finished := m.finished } r
        (fun d hd => by unfold KeyEdge; rw [hdepsOf]; exact hd)
        (by
          intro v hv2
          rcases List.mem_cons.1 hv2 with rfl | hv2
          · exact hf
          · exact hdisj v hv2)
        hfin
        (by
          intro v hv2
          rcases List.mem_cons.1 hv2 with rfl | hv2
          · exact ReflTransGen.refl
          · exact (hpath v hv2).to_reflTransGen)
        hloop
      cases r with
      | error err =>
        simp only [Option.some.injEq] at hrun
        subst hrun
        exact ⟨fun m1 h => (nomatch h), fun e h => by cases h; exact herr err rfl⟩
      | ok m2 =>
        obtain ⟨hv2, hf2, hd2, hsub2, hdisj2⟩ := hok m2 rfl
        simp only [Option.some.injEq] at hrun
        subst hrun
        refine ⟨fun m1 h => ?_, fun e h => by cases h⟩
        cases h
        simp only at hv2 hsub2 hdisj2 ⊢
        refine ⟨?_, ⟨hdisj2 skillID (List.mem_cons_self _ _), ?_, hf2⟩,
          List.mem_cons_self _ _, fun x hx => List.mem_cons_of_mem _ (hsub2 x hx), ?_⟩
        · rw [hv2]; exact filter_ne_cons_self skillID m.visited hv
        · rw [hdepsOf]; exact hd2
        · intro v hvm hmem
          rcases List.mem_cons.1 hmem with rfl | hmem
          · exact hv hvm
          · exact hdisj2 v (List.mem_cons_of_mem _ hvm) hmem

/-- The loop over the keys: an error is a circular-dependency error and there
is a cycle; after a nil return no visited key is on a cycle. -/
theorem checkCycles_spec (reg : Registry) (fuel : Nat)
    (hres : ∀ a d, KeyEdge reg a d → (lookupSkill reg d).isSome = true) :
    ∀ (l : List (Str × Metadata)) (r : Except Str Unit),
      (∀ kv ∈ l, (lookupSkill reg kv.1).isSome = true) → checkCycles fuel reg l = some r →
      (r = .ok () → ∀ kv ∈ l, ¬ TransGen (KeyEdge reg) kv.1 kv.1) ∧
      (∀ e, r = .error e → CircularText e ∧ ∃ x, TransGen (KeyEdge reg) x x) := by
  intro l
  induction l with
  | nil =>
    intro r _ hrun
    simp only [checkCycles, Option.some.injEq] at hrun
    subst hrun
    exact ⟨fun _ kv hkv => by simp at hkv, fun e h => by cases h⟩
  | cons kv rest ih =>
    intro r hkeys hrun
    unfold checkCycles at hrun
    cases hd : detectCycles fuel reg kv.1 { visited := [], finished := [] } with
    | none => rw [hd] at hrun; cases hrun
    | some res =>
      rw [hd] at hrun
      obtain ⟨hok, herr⟩ := detectCycles_spec reg hres fuel kv.1
        { visited := [], finished := [] } res (hkeys kv (List.mem_cons_self _ _))
        (by simp) trivial (by simp) hd
      cases res with
      | error e =>
        simp only [Option.some.injEq] at hrun
        subst hrun
        exact ⟨fun h => (nomatch h), fun e1 h => by cases h; exact herr e rfl⟩
      | ok m1 =>
        simp only at hrun
        obtain ⟨hok2, herr2⟩ := ih r (fun kv1 h => hkeys kv1 (List.mem_cons_of_mem _ h)) hrun
        obtain ⟨_, hfin, hmem, _, _⟩ := hok m1 rfl
        refine ⟨fun hr kv1 hkv1 => ?_, herr2⟩
        rcases List.mem_cons.1 hkv1 with rfl | hkv1
        · exact finishedOK_acyclic hfin hmem
        · exact hok2 hr kv1 hkv1

/-! ## The passes of ValidateRegistry before the cycle check -/

theorem checkDuplicateIDs_ok :
    ∀ (l : List (Str × Metadata)) (idSet : List Str),
      (l.map (fun kv => kv.2.ID)).Nodup → (∀ kv ∈ l, kv.2.ID ∉ idSet) →
      checkDuplicateIDs l idSet = .ok () := by
  intro l
  induction l with
  | nil => intro _ _ _; rfl
  | cons kv rest ih =>
    intro idSet hnd hseen
    simp only [List.map_cons, List.nodup_cons] at hnd
    unfold checkDuplicateIDs
    rw [if_neg (hseen kv (List.mem_cons_self _ _))]
    apply ih _ hnd.2
    intro kv1 hkv1 hmem
    rcases List.mem_cons.1 hmem with h | h
    · exact hnd.1 (List.mem_map.2 ⟨kv1, hkv1, h⟩)
    · exact hseen kv1 (List.mem_cons_of_mem _ hkv1) h

theorem checkDependsOn_ok (reg : Registry) (skill : Metadata) :
    ∀ (deps : List Str), (∀ d ∈ deps, (lookupSkill reg d).isSome = true) →
      checkDependsOn reg skill deps = .ok () := by
  intro deps
  induction deps with
  | nil => intro _; rfl
  | cons d rest ih =>
    intro h
    unfold checkDependsOn
    have hd := h d (List.mem_cons_self _ _)
    rw [if_neg (by rw [Option.isNone_iff_eq_none, ← Option.not_isSome_iff_eq_none]; simp [hd])]
    exact ih (fun d1 hd1 => h d1 (List.mem_cons_of_mem _ hd1))

theorem checkConflictsWith_ok (reg : Registry) (skill : Metadata) :
    ∀ (ids : List Str), (∀ d ∈ ids, (lookupSkill reg d).isSome = true) →
      checkConflictsWith reg skill ids = .ok () := by
  intro ids
  induction ids with
  | nil => intro _; rfl
  | cons d rest ih =>
    intro h
    unfold checkConflictsWith
    have hd := h d (List.mem_cons_self _ _)
    rw [if_neg (by rw [Option.isNone_iff_eq_none, ← Option.not_isSome_iff_eq_none]; simp [hd])]
    exact ih (fun d1 hd1 => h d1 (List.mem_cons_of_mem _ hd1))

theorem checkReferences_ok (reg : Registry) :
    ∀ (l : List (Str × Metadata)),
      (∀ kv ∈ l, (∀ d ∈ kv.2.DependsOn, (lookupSkill reg d).isSome = true) ∧
        (∀ d ∈ kv.2.ConflictsWith, (lookupSkill reg d).isSome = true)) →
      checkReferences reg l = .ok () := by
  intro l
  induction l with
  | nil => intro _; rfl
  | cons kv rest ih =>
    intro h
    obtain ⟨h1, h2⟩ := h kv (List.mem_cons_self _ _)
    unfold checkReferences
    rw [checkDependsOn_ok reg kv.2 _ h1, checkConflictsWith_ok reg kv.2 _ h2]
    exact ih (fun kv1 hkv1 => h kv1 (List.mem_cons_of_mem _ hkv1))

/-! ## Keys and ids -/

theorem lookup_of_id {reg : Registry} (hkeys : KeysAreIds reg) {kv : Str × Metadata}
    (h : kv ∈ reg.skills) : lookupSkill reg kv.2.ID = some kv.2 := by
  rw [← hkeys.2 kv h]
  exact lookupSkill_of_mem hkeys.1 h

theorem keyEdge_iff_dependsEdge {reg : Registry} (hkeys : KeysAreIds reg) (a b : Str) :
    KeyEdge reg a b ↔ DependsEdge reg a b := by
  constructor
  · intro h
    unfold KeyEdge dependsOf at h
    cases hl : lookupSkill reg a with
    | none => rw [hl] at h; simp at h
    | some skill =>
      rw [hl] at h
      have hm := lookupSkill_mem hl
      exact ⟨(a, skill), hm, (hkeys.2 _ hm).symm, h⟩
  · rintro ⟨kv, hkv, rfl, hb⟩
    unfold KeyEdge dependsOf
    rw [lookup_of_id hkeys hkv]
    exact hb

theorem transGen_key_iff {reg : Registry} (hkeys : KeysAreIds reg) (a b : Str) :
    TransGen (KeyEdge reg) a b ↔ TransGen (DependsEdge reg) a b :=
  ⟨TransGen.mono (fun x y => (keyEdge_iff_dependsEdge hkeys x y).1),
   TransGen.mono (fun x y => (keyEdge_iff_dependsEdge hkeys x y).2)⟩

theorem resolves_of_id {reg : Registry} (hkeys : KeysAreIds reg) {d : Str}
    (h : ∃ kv1 ∈ reg.skills, kv1.2.ID = d) : (lookupSkill reg d).isSome = true := by
  obtain ⟨kv1, hkv1, rfl⟩ := h
  rw [lookup_of_id hkeys hkv1]; rfl

/-- On a registry keyed by its unique ids in which all references resolve,
`ValidateRegistry` returns, with a circular-dependency error when `dependsOn`
has a cycle and with nil when it has none. -/
theorem cycle_detection_core (ord : RangeOrder) (reg : Registry) (fuel : Nat)
    (hfuel : reg.skills.length < fuel) (hkeys : KeysAreIds reg) (hrefs : ReferencesResolve reg) :
    ∃ r, ValidateRegistry ord fuel (some reg) = some r ∧
      (HasCycle reg → IsCircularError r) ∧ (¬ HasCycle reg → r = .ok ()) := by
  have hids : ∀ l : List (Str × Metadata), l.Perm reg.skills →
      (l.map (fun kv => kv.2.ID)).Nodup := by
    intro l hl
    have : l.map (fun kv => kv.2.ID) = l.map Prod.fst :=
      List.map_congr_left (fun kv hkv => (hkeys.2 kv (hl.mem_iff.1 hkv)).symm)
    rw [this]
    exact ((hl.map Prod.fst).nodup_iff).2 hkeys.1
  have hres : ∀ a d, KeyEdge reg a d → (lookupSkill reg d).isSome = true := by
    intro a d h
    obtain ⟨kv, hkv, _, hd⟩ := (keyEdge_iff_dependsEdge hkeys a d).1 h
    exact resolves_of_id hkeys ((hrefs kv hkv).1 d hd)
  have hpass1 : checkDuplicateIDs (ord.shuffle 3 reg.skills) [] = .ok () :=
    checkDuplicateIDs_ok _ [] (hids _ (ord.perm 3 _)) (by simp)
  have hpass2 : checkReferences reg (ord.shuffle 4 reg.skills) = .ok () := by
    apply checkReferences_ok
    intro kv hkv
    have hkv' := ((fun (o : RangeOrder) (site : Nat) (l : List (Str × Metadata)) (a : Str × Metadata) => (o.perm site l).mem_iff) ord 4 reg.skills kv).1 hkv
    exact ⟨fun d hd => resolves_of_id hkeys ((hrefs kv hkv').1 d hd),
      fun d hd => resolves_of_id hkeys ((hrefs kv hkv').2 d hd)⟩
  obtain ⟨r, hr⟩ := checkCycles_returns reg fuel hfuel (ord.shuffle 5 reg.skills)
  have hval : ValidateRegistry ord fuel (some reg) = some r := by
    unfold ValidateRegistry
    simp only [hpass1, hpass2, hr]
  obtain ⟨hok, herr⟩ := checkCycles_spec reg fuel hres (ord.shuffle 5 reg.skills) r
    (by
      intro kv hkv
      have hkv' := ((fun (o : RangeOrder) (site : Nat) (l : List (Str × Metadata)) (a : Str × Metadata) => (o.perm site l).mem_iff) ord 5 reg.skills kv).1 hkv
      exact lookupSkill_isSome_of_key (List.mem_map_of_mem Prod.fst hkv'))
    hr
  refine ⟨r, hval, ?_⟩
  cases r with
  | error e =>
    obtain ⟨htext, x, hx⟩ := herr e rfl
    exact ⟨fun _ => ⟨e, rfl, htext⟩, fun hno => absurd ⟨x, (transGen_key_iff hkeys x x).1 hx⟩ hno⟩
  | ok u =>
    have hnone : ¬ HasCycle reg := by
      rintro ⟨x, hx⟩
      have hx' := (transGen_key_iff hkeys x x).2 hx
      obtain ⟨b, hxb, _⟩ := TransGen.head'_iff.1 hx'
      obtain ⟨kv, hkv, hid, _⟩ := (keyEdge_iff_dependsEdge hkeys x b).1 hxb
      have hk : kv.1 = x := (hkeys.2 kv hkv).trans hid
      have := hok rfl kv (((fun (o : RangeOrder) (site : Nat) (l : List (Str × Metadata)) (a : Str × Metadata) => (o.perm site l).mem_iff) ord 5 reg.skills kv).2 hkv)
      rw [hk] at this
      exact this hx'
    exact ⟨fun h => absurd h hnone, fun _ => rfl⟩

theorem acyclic_of_rank (reg : Registry) (rank : Str → Nat)
    (h : ∀ kv ∈ reg.skills, ∀ b ∈ kv.2.DependsOn, rank b < rank kv.2.ID) : ¬ HasCycle reg := by
  have hstep : ∀ x y, TransGen (DependsEdge reg) x y → rank y < rank x := by
    intro x y hxy
    induction hxy with
    | single hxy =>
      obtain ⟨kv, hkv, rfl, hb⟩ := hxy
      exact h kv hkv _ hb
    | tail _ hyz ih =>
      obtain ⟨kv, hkv, rfl, hb⟩ := hyz
      exact lt_trans (h kv hkv _ hb) ih
  rintro ⟨x, hx⟩
  exact lt_irrefl _ (hstep x x hx)

theorem chain_has_cycle : HasCycle chainRegistry := by
  refine ⟨"A".toList, ?_⟩
  have hab : DependsEdge chainRegistry "A".toList "B".toList :=
    ⟨skillEntry "A".toList ["B".toList], by decide, by decide, by decide⟩
  have hbc : DependsEdge chainRegistry "B".toList "C".toList :=
    ⟨skillEntry "B".toList ["C".toList], by decide, by decide, by decide⟩
  have hca : DependsEdge chainRegistry "C".toList "A".toList :=
    ⟨skillEntry "C".toList ["A".toList], by decide, by decide, by decide⟩
  exact ((TransGen.single hab).tail hbc).tail hca

theorem diamond_acyclic : ¬ HasCycle diamondRegistry :=
  acyclic_of_rank diamondRegistry diamondRank (by decide)

theorem chain_wellformed : KeysAreIds chainRegistry ∧ ReferencesResolve chainRegistry := by
  unfold KeysAreIds ReferencesResolve
  decide

theorem diamond_wellformed : KeysAreIds diamondRegistry ∧ ReferencesResolve diamondRegistry := by
  unfold KeysAreIds ReferencesResolve
  decide

/-- C9. Cycle detection is sound and complete: `ValidateRegistry` returns on
every registry once the recursion may go one level deeper than the registry
has entries, with a result that stays the same at every greater depth, and on
a registry keyed by its unique ids in which all references resolve the result
is a circular-dependency error if and only if `dependsOn` has a directed cycle
(nil otherwise); the chain A -> B -> C -> A is rejected and the diamond
A -> B, A -> C, B -> D, C -> D is accepted. -/
theorem cycle_detection_sound_complete (ord : RangeOrder) (reg : Registry) (fuel : Nat)
    (hfuel : reg.skills.length < fuel) :
    (∃ r, (∀ f, fuel ≤ f → ValidateRegistry ord f (some reg) = some r) ∧
      (KeysAreIds reg → ReferencesResolve reg →
        (IsCircularError r ↔ HasCycle reg) ∧ (¬ HasCycle reg → r = .ok ()))) ∧
    (∀ f, 3 < f → ∃ r, ValidateRegistry ord f (some chainRegistry) = some r ∧
      IsCircularError r) ∧
    (∀ f, 4 < f → ValidateRegistry ord f (some diamondRegistry) = some (.ok ())) := by
  refine ⟨?_, ?_, ?_⟩
  · obtain ⟨r, hr⟩ := ValidateRegistry_returns ord fuel reg hfuel
    refine ⟨r, fun f hf => ValidateRegistry_fuel_le ord hf (some reg) r hr,
      fun hkeys hrefs => ?_⟩
    obtain ⟨r1, hr1, hyes, hno⟩ := cycle_detection_core ord reg fuel hfuel hkeys hrefs
    rw [hr] at hr1
    simp only [Option.some.injEq] at hr1
    subst hr1
    refine ⟨⟨fun hcirc => ?_, hyes⟩, hno⟩
    by_contra hnone
    obtain ⟨msg, hmsg, _⟩ := hcirc
    rw [hno hnone] at hmsg
    cases hmsg
  · intro f hf
    obtain ⟨r, hr, hyes, _⟩ := cycle_detection_core ord chainRegistry f (by simpa using hf)
      chain_wellformed.1 chain_wellformed.2
    exact ⟨r, hr, hyes chain_has_cycle⟩
  · intro f hf
    obtain ⟨r, hr, _, hno⟩ := cycle_detection_core ord diamondRegistry f (by simpa using hf)
      diamond_wellformed.1 diamond_wellformed.2
    rw [hr, hno diamond_acyclic]

/-- C9 (witness): the chain and the diamond, visited back to front. -/
theorem spec_scenario_chain_and_diamond :
    (∃ r, ValidateRegistry RangeOrder.backwards 4 (some chainRegistry) = some r ∧
      IsCircularError r) ∧
    ValidateRegistry RangeOrder.backwards 5 (some diamondRegistry) = some (.ok ()) :=
  ⟨(cycle_detection_sound_complete RangeOrder.backwards chainRegistry 4 (by decide)).2.1 4
      (by decide),
    (cycle_detection_sound_complete RangeOrder.backwards chainRegistry 4 (by decide)).2.2 5
      (by decide)⟩

/-- C10 (evaluation). `Load` stores each descriptor under its name. In the
registry it builds from the directories `alpha` (name `Alpha`) and `beta`
(name `Beta`, depends on the id `alpha`) every referenced id is the id of a
descriptor, and `ValidateRegistry` still reports a non-existent skill. -/
theorem load_keys_break_reference_check :
    Load exampleUnmarshal (some namedSource) =
      some { skills := [("Alpha".toList, namedSkill "alpha".toList "Alpha".toList []),
        ("Beta".toList, namedSkill "beta".toList "Beta".toList ["alpha".toList])] } ∧
    (∀ reg ∈ Load exampleUnmarshal (some namedSource), ReferencesResolve reg) ∧
    ValidateRegistry RangeOrder.stored 3 (Load exampleUnmarshal (some namedSource)) =
      some (.error "skill beta depends on non-existent skill alpha".toList) := by
  refine ⟨by decide, ?_, rfl⟩
  intro reg hreg
  have h : Load exampleUnmarshal (some namedSource) =
      some { skills := [("Alpha".toList, namedSkill "alpha".toList "Alpha".toList []),
        ("Beta".toList, namedSkill "beta".toList "Beta".toList ["alpha".toList])] } := by
    decide
  rw [h, Option.mem_def, Option.some.injEq] at hreg
  subst hreg
  unfold ReferencesResolve
  decide

/-! ## The section index: boundaries and first occurrence -/

theorem collectHeadings_cons (i : Nat) (line : Str) (rest : List Str) :
    collectHeadings i (line :: rest) =
      match indexedHeading line with
      | none => collectHeadings (i + 1) rest
      | some (level, anchor) =>
        { index := i, level := level, anchor := anchor } :: collectHeadings (i + 1) rest := by
  unfold indexedHeading
  rw [collectHeadings]
  cases hp : parseHeading line with
  | none => rfl
  | some p =>
    obtain ⟨level, text⟩ := p
    dsimp only
    split_ifs <;> rfl

/-- The heading list holds exactly the lines that are recorded, each with its
line number. -/
theorem mem_collectHeadings (lines : List Str) :
    ∀ (i : Nat) (g : heading), g ∈ collectHeadings i lines ↔
      i ≤ g.index ∧ ∃ line, lines.get? (g.index - i) = some line ∧
        indexedHeading line = some (g.level, g.anchor) := by
  induction lines with
  | nil => intro i g; simp [collectHeadings]
  | cons line rest ih =>
    intro i g
    have hshift : ∀ l : Str, i + 1 ≤ g.index →
        ((line :: rest).get? (g.index - i) = some l ↔ rest.get? (g.index - (i + 1)) = some l) := by
      intro l hi
      have : g.index - i = (g.index - (i + 1)) + 1 := by omega
      rw [this, List.get?_cons_succ]
    have hrest : g ∈ collectHeadings (i + 1) rest ↔
        i + 1 ≤ g.index ∧ ∃ l, (line :: rest).get? (g.index - i) = some l ∧
          indexedHeading l = some (g.level, g.anchor) := by
      rw [ih (i + 1) g]
      constructor
      · rintro ⟨hi, l, hl, hh⟩
        exact ⟨hi, l, (hshift l hi).2 hl, hh⟩
      · rintro ⟨hi, l, hl, hh⟩
        exact ⟨hi, l, (hshift l hi).1 hl, hh⟩
    rw [collectHeadings_cons]
    cases hline : indexedHeading line with
    | none =>
      dsimp only
      rw [hrest]
      constructor
      · rintro ⟨hi, l, hl, hh⟩
        exact ⟨by omega, l, hl, hh⟩
      · rintro ⟨hi, l, hl, hh⟩
        rcases Nat.eq_or_lt_of_le hi with heq | hlt
        · rw [← heq, Nat.sub_self] at hl
          simp only [List.get?_cons_zero, Option.some.injEq] at hl
          rw [← hl, hline] at hh
          cases hh
        · exact ⟨hlt, l, hl, hh⟩
    | some p =>
      obtain ⟨level, anchor⟩ := p
      dsimp only
      rw [List.mem_cons, hrest]
      constructor
      · rintro (rfl | ⟨hi, l, hl, hh⟩)
        · exact ⟨le_refl _, line, by simp, hline⟩
        · exact ⟨by omega, l, hl, hh⟩
      · rintro ⟨hi, l, hl, hh⟩
        rcases Nat.eq_or_lt_of_le hi with heq | hlt
        · left
          rw [← heq, Nat.sub_self] at hl
          simp only [List.get?_cons_zero, Option.some.injEq] at hl
          rw [← hl, hline] at hh
          simp only [Option.some.injEq, Prod.mk.injEq] at hh
          obtain ⟨gi, gl, ga⟩ := g
          simp only at heq hh
          rw [← heq, ← hh.1, ← hh.2]
        · exact Or.inr ⟨hlt, l, hl, hh⟩

/-- The inner loop stops at the first later heading whose level is at most the
given one. -/
theorem sectionEnd_spec {lo n : Nat} (level : Nat) :
    ∀ {later : List heading}, HeadingsOrdered lo n later →
      (∀ g ∈ later, g.index < sectionEnd n level later → level < g.level) ∧
      (sectionEnd n level later < n →
        ∃ g ∈ later, g.index = sectionEnd n level later ∧ g.level ≤ level)
  | [], _ => ⟨by simp, fun h => absurd h (by simp [sectionEnd])⟩
  | g :: later, ⟨_, h2, h3⟩ => by
    rw [sectionEnd_cons]
    have hb := headingsOrdered_index_bounds h3
    split_ifs with hle
    · refine ⟨?_, fun _ => ⟨g, by simp, rfl, hle⟩⟩
      intro k hk hlt
      rcases List.mem_cons.1 hk with rfl | hk
      · omega
      · have := (hb k hk).1
        omega
    · obtain ⟨ih1, ih2⟩ := sectionEnd_spec level h3
      refine ⟨?_, ?_⟩
      · intro k hk hlt
        rcases List.mem_cons.1 hk with rfl | hk
        · omega
        · exact ih1 k hk hlt
      · intro hlt
        obtain ⟨k, hk, hk1, hk2⟩ := ih2 hlt
        exact ⟨k, List.mem_cons_of_mem _ hk, hk1, hk2⟩

/-- Between the heading line of a section and its end no recorded heading has
a level at most that of the section, and an end inside the buffer is a recorded
heading of such a level. -/
theorem section_end_spec {lines : List Str} {s : mdSection}
    (h : s ∈ parseMarkdownSections lines) :
    (∀ j line level anchor, s.start < j → j < s.end_ → lines.get? j = some line →
        indexedHeading line = some (level, anchor) → s.level < level) ∧
    (s.end_ < lines.length → ∃ line level anchor, lines.get? s.end_ = some line ∧
        indexedHeading line = some (level, anchor) ∧ level ≤ s.level) := by
  obtain ⟨pre, g, later, hall, rfl⟩ := parseMarkdownSections_cut lines s h
  have hord := collectHeadings_ordered lines 0
  rw [hall] at hord
  obtain ⟨hpre, _, _, hlater⟩ := headingsOrdered_of_append hord
  simp only [Nat.zero_add] at hlater
  obtain ⟨h1, h2⟩ := sectionEnd_spec g.level hlater
  have hmem : ∀ k, k ∈ later → k ∈ collectHeadings 0 lines := by
    intro k hk
    rw [hall]
    exact List.mem_append_right _ (List.mem_cons_of_mem _ hk)
  refine ⟨?_, ?_⟩
  · intro j line level anchor hj hje hline hh
    have hk : ({ index := j, level := level, anchor := anchor } : heading) ∈
        collectHeadings 0 lines :=
      (mem_collectHeadings lines 0 _).2 ⟨Nat.zero_le _, line, by simpa using hline, hh⟩
    rw [hall] at hk
    rcases List.mem_append.1 hk with hk | hk
    · have := hpre _ hk
      simp only at this hj
      omega
    · rcases List.mem_cons.1 hk with hk | hk
      · rw [← hk] at hj
        simp only at hj
        omega
      · exact h1 _ hk hje
  · intro hlt
    obtain ⟨k, hk, hk1, hk2⟩ := h2 hlt
    obtain ⟨_, line, hline, hh⟩ := (mem_collectHeadings lines 0 k).1 (hmem k hk)
    refine ⟨line, k.level, k.anchor, ?_, hh, hk2⟩
    simpa [hk1] using hline

theorem lookupSection_append (acc : List mdSection) (x : mdSection) (a : Str) :
    lookupSection (acc ++ [x]) a =
      match lookupSection acc a with
      | some s => some s
      | none => if x.anchor = a then some x else none := by
  unfold lookupSection
  rw [List.find?_append]
  cases List.find? (fun s => decide (s.anchor = a)) acc with
  | some s => rfl
  | none =>
    simp only [Option.none_or, List.find?_cons, List.find?_nil]
    by_cases hx : x.anchor = a <;> simp [hx]

/-- What the second loop leaves under an anchor: an entry made before stays,
and otherwise the first heading with the anchor makes the entry. -/
theorem lookupSection_buildSections (n : Nat) (a : Str) :
    ∀ (hs : List heading) (acc : List mdSection),
      lookupSection (buildSections n hs acc) a =
        match lookupSection acc a with
        | some s => some s
        | none =>
          match hs.find? (fun g => g.anchor = a) with
          | none => none
          | some g =>
            some { anchor := g.anchor, level := g.level, start := g.index,
                   end_ := sectionEnd n g.level
                     ((hs.dropWhile (fun k => !decide (k.anchor = a))).drop 1) } := by
  intro hs
  induction hs with
  | nil =>
    intro acc
    cases h : lookupSection acc a <;> simp [buildSections, h]
  | cons h later ih =>
    intro acc
    rw [buildSections]
    by_cases hha : h.anchor = a
    · cases hacc : lookupSection acc h.anchor with
      | some t =>
        dsimp only
        rw [ih acc]
        rw [hha] at hacc
        simp [hacc]
      | none =>
        dsimp only
        rw [ih, lookupSection_append]
        rw [hha] at hacc
        simp [hacc, hha, List.find?_cons, List.dropWhile_cons]
    · have hstep : ∀ acc2 : List mdSection, lookupSection acc2 a = lookupSection acc a →
          lookupSection (buildSections n later acc2) a =
            match lookupSection acc a with
            | some s => some s
            | none =>
              match (h :: later).find? (fun g => g.anchor = a) with
              | none => none
              | some g =>
                some { anchor := g.anchor, level := g.level, start := g.index,
                       end_ := sectionEnd n g.level
                         (((h :: later).dropWhile (fun k => !decide (k.anchor = a))).drop 1) } := by
        intro acc2 hacc2
        rw [ih acc2, hacc2]
        simp [List.find?_cons, List.dropWhile_cons, hha]
      cases hacc : lookupSection acc h.anchor with
      | some t => exact hstep acc rfl
      | none =>
        dsimp only
        apply hstep
        rw [lookupSection_append]
        cases lookupSection acc a <;> simp [hha]

theorem indexedHeading_iff (line : Str) (level : Nat) (a : Str) :
    indexedHeading line = some (level, a) ↔
      a ≠ [] ∧ ∃ text, parseHeading line = some (level, text) ∧ anchorFromHeading text = a := by
  unfold indexedHeading
  cases hp : parseHeading line with
  | none => simp
  | some p =>
    obtain ⟨lvl, text⟩ := p
    dsimp only
    split_ifs with he
    · simp only [false_iff, not_and, not_exists, Option.some.injEq, Prod.mk.injEq]
      rintro ha t ⟨-, rfl⟩ hta
      exact ha (hta ▸ he)
    · simp only [Option.some.injEq, Prod.mk.injEq]
      constructor
      · rintro ⟨rfl, rfl⟩
        exact ⟨he, text, ⟨rfl, rfl⟩, rfl⟩
      · rintro ⟨_, t, ⟨rfl, rfl⟩, rfl⟩
        exact ⟨rfl, rfl⟩

/-- C12 (counterexample). In the lines `## A`, `a`, `# !!!`, `b` the third line
is an ATX heading of level 1 with the text `!!!`, which comes after the heading
`## A` and has a level at most 2; the section `a` still runs to the end of the
buffer (line 4), not to line 2. -/
theorem anchorless_heading_does_not_end_section :
    parseHeading "# !!!".toList = some (1, "!!!".toList) ∧
    parseMarkdownSections punctuationHeadingLines =
      [{ anchor := "a".toList, level := 2, start := 0, end_ := 4 }] := by
  decide

/-- C12 (amended). Section range: a section starts at its heading line and
ends at the first later line that is an ATX heading with an anchor that is not
empty and a level at most the level of the section, or at the end of the buffer
when there is no such line. -/
theorem section_end_boundary (lines : List Str) (s : mdSection)
    (h : s ∈ parseMarkdownSections lines) :
    (∃ line anchor, lines.get? s.start = some line ∧
      indexedHeading line = some (s.level, anchor)) ∧
    s.start < s.end_ ∧ s.end_ ≤ lines.length ∧
    (∀ j line level anchor, s.start < j → j < s.end_ → lines.get? j = some line →
        indexedHeading line = some (level, anchor) → s.level < level) ∧
    (s.end_ < lines.length → ∃ line level anchor, lines.get? s.end_ = some line ∧
        indexedHeading line = some (level, anchor) ∧ level ≤ s.level) := by
  have hb := section_bounds h
  have he := section_end_spec h
  refine ⟨?_, hb.1, hb.2, he.1, he.2⟩
  obtain ⟨pre, g, later, hall, rfl⟩ := parseMarkdownSections_cut lines s h
  have hg : g ∈ collectHeadings 0 lines := by rw [hall]; simp
  obtain ⟨_, line, hline, hh⟩ := (mem_collectHeadings lines 0 g).1 hg
  exact ⟨line, g.anchor, by simpa using hline, hh⟩

/-- C12 (witness): the section `a` of the lines `## A`, `a`, `# !!!`, `b`. -/
theorem spec_scenario_section_range :
    (∃ line anchor, punctuationHeadingLines.get? 0 = some line ∧
      indexedHeading line = some (2, anchor)) ∧
    0 < 4 ∧ 4 ≤ punctuationHeadingLines.length ∧
    (∀ j line level anchor, 0 < j → j < 4 → punctuationHeadingLines.get? j = some line →
        indexedHeading line = some (level, anchor) → 2 < level) ∧
    (4 < punctuationHeadingLines.length → ∃ line level anchor,
        punctuationHeadingLines.get? 4 = some line ∧
        indexedHeading line = some (level, anchor) ∧ level ≤ 2) :=
  section_end_boundary punctuationHeadingLines
    { anchor := "a".toList, level := 2, start := 0, end_ := 4 } (by decide)

/-- C14 (counterexample). The headings `# !!!` and `# ???` have the same
anchor, the empty one, and the index of the lines holds no section, so the
first of them is not retained. -/
theorem empty_anchor_has_no_section :
    parseHeading "# !!!".toList = some (1, "!!!".toList) ∧
    parseHeading "# ???".toList = some (1, "???".toList) ∧
    anchorFromHeading "!!!".toList = [] ∧ anchorFromHeading "???".toList = [] ∧
    parseMarkdownSections anchorlessLines = [] := by
  decide

/-- C14 (amended). First occurrence wins: for an anchor that is not empty, the
index has an entry exactly when some line is an ATX heading with that anchor;
the entry has the level and the line number of the first such line, no earlier
line has the anchor, its end is the boundary computed from that line, and it is
the only entry with the anchor. -/
theorem first_occurrence_wins (lines : List Str) (a : Str) (ha : a ≠ []) :
    (lookupSection (parseMarkdownSections lines) a = none ↔
      ∀ line ∈ lines, ∀ level text,
        parseHeading line = some (level, text) → anchorFromHeading text ≠ a) ∧
    ∀ s, lookupSection (parseMarkdownSections lines) a = some s →
      s.anchor = a ∧
      (∃ line text, lines.get? s.start = some line ∧
        parseHeading line = some (s.level, text) ∧ anchorFromHeading text = a) ∧
      (∀ j line level text, j < s.start → lines.get? j = some line →
        parseHeading line = some (level, text) → anchorFromHeading text ≠ a) ∧
      (∀ j line level anchor, s.start < j → j < s.end_ → lines.get? j = some line →
        indexedHeading line = some (level, anchor) → s.level < level) ∧
      (s.end_ < lines.length → ∃ line level anchor, lines.get? s.end_ = some line ∧
        indexedHeading line = some (level, anchor) ∧ level ≤ s.level) ∧
      ∀ t ∈ parseMarkdownSections lines, t.anchor = a → t = s := by
  have hlook := lookupSection_buildSections lines.length a (collectHeadings 0 lines) []
  have hnil : lookupSection [] a = none := rfl
  rw [hnil] at hlook
  dsimp only at hlook
  have hord := collectHeadings_ordered lines 0
  refine ⟨?_, ?_⟩
  · unfold parseMarkdownSections
    rw [hlook]
    cases hf : (collectHeadings 0 lines).find? (fun g => g.anchor = a) with
    | none =>
      simp only [true_iff]
      intro line hline level text hp hta
      obtain ⟨j, hj⟩ := List.mem_iff_get?.1 hline
      have hk : ({ index := j, level := level, anchor := a } : heading) ∈
          collectHeadings 0 lines :=
        (mem_collectHeadings lines 0 _).2 ⟨Nat.zero_le _, line, by simpa using hj,
          (indexedHeading_iff line level a).2 ⟨ha, text, hp, hta⟩⟩
      simpa using List.find?_eq_none.1 hf _ hk
    | some g =>
      simp only [false_iff, not_forall, reduceCtorEq, not_false_eq_true]
      have hg := List.mem_of_find?_eq_some hf
      have hga : g.anchor = a := by simpa using List.find?_some hf
      obtain ⟨_, line, hline, hh⟩ := (mem_collectHeadings lines 0 g).1 hg
      obtain ⟨_, text, hp, hta⟩ := (indexedHeading_iff line g.level g.anchor).1 hh
      exact ⟨line, List.mem_iff_get?.2 ⟨_, hline⟩, g.level, text, hp,
        fun hne => hne (hta.trans hga)⟩
  · intro s hs
    have hmem := (lookupSection_some hs).1
    have hsa := (lookupSection_some hs).2
    have he := section_end_spec hmem
    refine ⟨hsa, ?_, ?_, he.1, he.2, ?_⟩
    · obtain ⟨pre, g, later, hall, rfl⟩ := parseMarkdownSections_cut lines s hmem
      have hg : g ∈ collectHeadings 0 lines := by rw [hall]; simp
      obtain ⟨_, line, hline, hh⟩ := (mem_collectHeadings lines 0 g).1 hg
      obtain ⟨_, text, hp, hta⟩ := (indexedHeading_iff line g.level g.anchor).1 hh
      exact ⟨line, text, by simpa using hline, hp, hta.trans hsa⟩
    · unfold parseMarkdownSections at hs
      rw [hlook] at hs
      cases hf : (collectHeadings 0 lines).find? (fun g => g.anchor = a) with
      | none => rw [hf] at hs; cases hs
      | some g =>
        rw [hf] at hs
        simp only [Option.some.injEq] at hs
        obtain ⟨_, pre, later, hall, hpre⟩ := List.find?_eq_some.1 hf
        rw [hall] at hord
        obtain ⟨hlt, _, _, hlater⟩ := headingsOrdered_of_append hord
        have hb := headingsOrdered_index_bounds hlater
        intro j line level text hj hline hp hta
        have hk : ({ index := j, level := level, anchor := a } : heading) ∈
            collectHeadings 0 lines :=
          (mem_collectHeadings lines 0 _).2 ⟨Nat.zero_le _, line, by simpa using hline,
            (indexedHeading_iff line level a).2 ⟨ha, text, hp, hta⟩⟩
        rw [← hs] at hj
        simp only at hj
        rw [hall] at hk
        rcases List.mem_append.1 hk with hk | hk
        · simpa using hpre _ hk
        · rcases List.mem_cons.1 hk with hk | hk
          · rw [← hk] at hj
            simp only at hj
            omega
          · have := (hb _ hk).1
            simp only at this
            omega
    · intro t ht hta
      exact section_eq_of_anchor ht hmem (hta.trans hsa.symm)

/-- C14 (witness): in a text whose lines 1 and 6 both have the anchor `a`, the
entry for `a` is the section of line 1. -/
theorem spec_scenario_repeated_anchor :
    "a".toList ≠ [] ∧
    lookupSection (parseMarkdownSections (splitLines repeatedAnchorText)) "a".toList =
      some { anchor := "a".toList, level := 2, start := 1, end_ := 5 } ∧
    ∀ t ∈ parseMarkdownSections (splitLines repeatedAnchorText), t.anchor = "a".toList →
      t = { anchor := "a".toList, level := 2, start := 1, end_ := 5 } :=
  ⟨by decide, by decide,
    ((first_occurrence_wins (splitLines repeatedAnchorText) "a".toList (by decide)).2
      { anchor := "a".toList, level := 2, start := 1, end_ := 5 } (by decide)).2.2.2.2.2⟩

/-- C15. `ExtractSectionBody` returns the lines strictly between the heading
line of the section and its end, joined with newlines; the empty text when the
section has no such lines; and an error when the anchor is not in the index. It
does not panic. -/
theorem extractSectionBody_spec (content a : Str) :
    (lookupSection (sectionIndex content) a = none →
      ExtractSectionBody content a = .error (.sectionMissing a)) ∧
    ∀ s, lookupSection (sectionIndex content) a = some s →
      ExtractSectionBody content a =
        .ok (joinLines (linesBetween (splitLines content) (s.start + 1) s.end_)) ∧
      (s.end_ ≤ s.start + 1 → ExtractSectionBody content a = .ok []) := by
  unfold sectionIndex
  refine ⟨?_, ?_⟩
  · intro h
    unfold ExtractSectionBody
    simp only [h]
  · intro s h
    have hb := section_bounds (lookupSection_some h).1
    unfold ExtractSectionBody
    simp only [h, ge_iff_le]
    by_cases hle : s.end_ ≤ s.start + 1
    · have hz : s.end_ - (s.start + 1) = 0 := by omega
      simp [hle, linesBetween, hz, joinLines]
    · simp [hle, hb.2, linesBetween]

/-- C15 (witness): the body of the first section `a` of the example text, and
an anchor that is not in its index. -/
theorem spec_scenario_extract_body :
    ExtractSectionBody repeatedAnchorText "a".toList = .ok "first\n### Sub\nmore".toList ∧
    ExtractSectionBody repeatedAnchorText "b".toList = .ok [] ∧
    ExtractSectionBody repeatedAnchorText "missing".toList =
      .error (.sectionMissing "missing".toList) :=
  ⟨((extractSectionBody_spec repeatedAnchorText "a".toList).2
      { anchor := "a".toList, level := 2, start := 1, end_ := 5 } (by decide)).1,
    ((extractSectionBody_spec repeatedAnchorText "b".toList).2
      { anchor := "b".toList, level := 2, start := 5, end_ := 6 } (by decide)).2 (by decide),
    (extractSectionBody_spec repeatedAnchorText "missing".toList).1 (by decide)⟩

/-! ## Accumulation of the override rules -/

theorem isSome_grantFull (rules : List (Str × overrideRule)) (q p : Str) :
    (lookupRule (grantFull rules q) p).isSome = true ↔
      p = q ∨ (lookupRule rules p).isSome = true := by
  rw [lookupRule_grantFull]
  by_cases h : p = q <;> simp [h]

theorem ruleFull_grantFull (rules : List (Str × overrideRule)) (q p : Str) :
    ruleFull (grantFull rules q) p = true ↔ p = q ∨ ruleFull rules p = true := by
  unfold ruleFull
  rw [lookupRule_grantFull]
  by_cases h : p = q <;> simp [h]

theorem ruleSections_grantFull (rules : List (Str × overrideRule)) (q p : Str) :
    ruleSections (grantFull rules q) p = ruleSections rules p := by
  unfold ruleSections
  rw [lookupRule_grantFull]
  by_cases h : p = q <;> simp [h]

theorem isSome_grantSection (rules : List (Str × overrideRule)) (q a p : Str) :
    (lookupRule (grantSection rules q a) p).isSome = true ↔
      p = q ∨ (lookupRule rules p).isSome = true := by
  rw [lookupRule_grantSection]
  by_cases h : p = q <;> simp [h]

theorem ruleFull_grantSection (rules : List (Str × overrideRule)) (q a p : Str) :
    ruleFull (grantSection rules q a) p = ruleFull rules p := by
  unfold ruleFull
  rw [lookupRule_grantSection]
  by_cases h : p = q <;> simp [h]

theorem mem_ruleSections_grantSection (rules : List (Str × overrideRule)) (q a p x : Str) :
    x ∈ ruleSections (grantSection rules q a) p ↔
      (p = q ∧ x = a) ∨ x ∈ ruleSections rules p := by
  unfold ruleSections
  rw [lookupRule_grantSection]
  by_cases h : p = q
  · subst h
    simp only [if_true, Option.map_some', Option.getD_some, true_and]
    split_ifs with hm
    · constructor
      · exact Or.inr
      · rintro (rfl | hx)
        · exact hm
        · exact hx
    · rw [List.mem_append, List.mem_singleton]
      exact or_comm
  · simp [h]

theorem nodup_ruleSections_grantSection (rules : List (Str × overrideRule)) (q a p : Str)
    (h : (ruleSections rules p).Nodup) : (ruleSections (grantSection rules q a) p).Nodup := by
  unfold ruleSections at h ⊢
  rw [lookupRule_grantSection]
  by_cases hp : p = q
  · subst hp
    simp only [if_true, Option.map_some', Option.getD_some]
    split_ifs with hm
    · exact h
    · exact List.Nodup.append h (List.nodup_singleton a) (by simpa using hm)
  · simpa [hp] using h

theorem keys_grantFull (rules : List (Str × overrideRule)) (q : Str) :
    (grantFull rules q).map Prod.fst =
      if q ∈ rules.map Prod.fst then rules.map Prod.fst else rules.map Prod.fst ++ [q] := by
  induction rules with
  | nil => simp [grantFull]
  | cons kv rest ih =>
    unfold grantFull
    by_cases hk : kv.1 = q
    · have hm : q ∈ (kv :: rest).map Prod.fst := by
        rw [List.map_cons, ← hk]; exact List.mem_cons_self _ _
      rw [if_pos hk, if_pos hm]
      rfl
    · rw [if_neg hk, List.map_cons, ih]
      have hq : ¬ q = kv.1 := fun h => hk h.symm
      by_cases hm : q ∈ rest.map Prod.fst
      · have hm2 : q ∈ (kv :: rest).map Prod.fst := by
          rw [List.map_cons]; exact List.mem_cons_of_mem _ hm
        rw [if_pos hm, if_pos hm2, List.map_cons]
      · have hm2 : ¬ q ∈ (kv :: rest).map Prod.fst := by
          rw [List.map_cons, List.mem_cons]
          exact fun h => h.elim hq hm
        rw [if_neg hm, if_neg hm2, List.map_cons, List.cons_append]

theorem keys_grantSection (rules : List (Str × overrideRule)) (q a : Str) :
    (grantSection rules q a).map Prod.fst =
      if q ∈ rules.map Prod.fst then rules.map Prod.fst else rules.map Prod.fst ++ [q] := by
  induction rules with
  | nil => simp [grantSection]
  | cons kv rest ih =>
    unfold grantSection
    by_cases hk : kv.1 = q
    · have hm : q ∈ (kv :: rest).map Prod.fst := by
        rw [List.map_cons, ← hk]; exact List.mem_cons_self _ _
      rw [if_pos hk, if_pos hm]
      rfl
    · rw [if_neg hk, List.map_cons, ih]
      have hq : ¬ q = kv.1 := fun h => hk h.symm
      by_cases hm : q ∈ rest.map Prod.fst
      · have hm2 : q ∈ (kv :: rest).map Prod.fst := by
          rw [List.map_cons]; exact List.mem_cons_of_mem _ hm
        rw [if_pos hm, if_pos hm2, List.map_cons]
      · have hm2 : ¬ q ∈ (kv :: rest).map Prod.fst := by
          rw [List.map_cons, List.mem_cons]
          exact fun h => h.elim hq hm
        rw [if_neg hm, if_neg hm2, List.map_cons, List.cons_append]

theorem nodup_keys_step {keys : List Str} (q : Str) (h : keys.Nodup) :
    (if q ∈ keys then keys else keys ++ [q]).Nodup := by
  split_ifs with hm
  · exact h
  · exact List.Nodup.append h (List.nodup_singleton q) (by simpa using hm)

theorem or_shuffle {a b c : Prop} : (a ∨ b) ∨ c ↔ b ∨ a ∨ c := by
  tauto

/-- The ways in which the loop of `parseOverridePaths` gets past a
declaration. -/
theorem parseOverridePathsFrom_cons_ok {clean : Str → Str} {raw : Str} {rest : List Str}
    {acc rules : List (Str × overrideRule)}
    (h : parseOverridePathsFrom clean (raw :: rest) acc = .ok rules) :
    (trimSpace raw = [] ∧ parseOverridePathsFrom clean rest acc = .ok rules) ∨
    (trimSpace raw ≠ [] ∧ ¬ Rejected (clean (splitHash (trimSpace raw)).1) ∧
      ((((splitHash (trimSpace raw)).2 = none ∨ (splitHash (trimSpace raw)).2 = some []) ∧
          parseOverridePathsFrom clean rest
            (grantFull acc (clean (splitHash (trimSpace raw)).1)) = .ok rules) ∨
        ∃ anchor, (splitHash (trimSpace raw)).2 = some anchor ∧ anchor ≠ [] ∧
          parseOverridePathsFrom clean rest
            (grantSection acc (clean (splitHash (trimSpace raw)).1) anchor) = .ok rules)) := by
  rw [parseOverridePathsFrom_cons] at h
  by_cases hblank : trimSpace raw = []
  · rw [if_pos hblank] at h
    exact Or.inl ⟨hblank, h⟩
  · rw [if_neg hblank] at h
    right
    by_cases hbad : clean (splitHash (trimSpace raw)).1 = ".".toList ∨
        "../".toList.isPrefixOf (clean (splitHash (trimSpace raw)).1)
    · rw [if_pos hbad] at h; cases h
    · rw [if_neg hbad] at h
      by_cases hout : ¬ ".claude/".toList.isPrefixOf (clean (splitHash (trimSpace raw)).1) ∧
          clean (splitHash (trimSpace raw)).1 ≠ ".claude".toList
      · rw [if_pos hout] at h; cases h
      · rw [if_neg hout] at h
        refine ⟨hblank, fun hr => hr.elim hbad hout, ?_⟩
        cases hanchor : (splitHash (trimSpace raw)).2 with
        | none =>
          rw [hanchor] at h
          exact Or.inl ⟨Or.inl rfl, h⟩
        | some anchor =>
          rw [hanchor] at h
          dsimp only at h
          by_cases hempty : anchor = []
          · rw [if_pos hempty] at h
            exact Or.inl ⟨Or.inr (by rw [hempty]), h⟩
          · rw [if_neg hempty] at h
            exact Or.inr ⟨anchor, rfl, hempty, h⟩

/-- What the loop of `parseOverridePaths` adds to the rules it starts from. -/
theorem rules_accumulate (clean : Str → Str) (p : Str) :
    ∀ (paths : List Str) (acc rules : List (Str × overrideRule)),
      parseOverridePathsFrom clean paths acc = .ok rules →
      ((lookupRule rules p).isSome = true ↔
        (lookupRule acc p).isSome = true ∨ ∃ raw ∈ paths, DeclaresFile clean raw p) ∧
      (ruleFull rules p = true ↔
        ruleFull acc p = true ∨ ∃ raw ∈ paths, DeclaresFull clean raw p) ∧
      (∀ a, a ∈ ruleSections rules p ↔
        a ∈ ruleSections acc p ∨ ∃ raw ∈ paths, DeclaresSection clean raw p a) := by
  intro paths
  induction paths with
  | nil =>
    intro acc rules h
    simp only [parseOverridePathsFrom, Except.ok.injEq] at h
    subst h
    simp
  | cons raw rest ih =>
    intro acc rules h
    have hex : ∀ (Q : Str → Prop), (∃ r ∈ raw :: rest, Q r) ↔ Q raw ∨ ∃ r ∈ rest, Q r := by
      intro Q; simp
    simp only [hex]
    have d1 : ∀ hblank : trimSpace raw ≠ [],
        (DeclaresFile clean raw p ↔ p = clean (splitHash (trimSpace raw)).1) :=
      fun hblank => ⟨fun d => d.2.symm, fun e => ⟨hblank, e.symm⟩⟩
    rcases parseOverridePathsFrom_cons_ok h with
      ⟨hblank, h⟩ | ⟨hblank, -, ⟨hanchor, h⟩ | ⟨anchor, hanchor, hempty, h⟩⟩
    · obtain ⟨h1, h2, h3⟩ := ih acc rules h
      have n1 : ¬ DeclaresFile clean raw p := fun d => d.1 hblank
      have n2 : ¬ DeclaresFull clean raw p := fun d => d.1 hblank
      have n3 : ∀ a, ¬ DeclaresSection clean raw p a := fun a d => d.1 hblank
      refine ⟨by rw [h1]; simp [n1], by rw [h2]; simp [n2], fun a => by rw [h3]; simp [n3]⟩
    · obtain ⟨h1, h2, h3⟩ := ih _ rules h
      have d2 : DeclaresFull clean raw p ↔ p = clean (splitHash (trimSpace raw)).1 :=
        ⟨fun d => d.2.1.symm, fun e => ⟨hblank, e.symm, hanchor⟩⟩
      have n3 : ∀ a, ¬ DeclaresSection clean raw p a := by
        intro a d
        have hd := d.2.2.1
        rcases hanchor with e | e
        · rw [e] at hd; cases hd
        · rw [e] at hd
          simp only [Option.some.injEq] at hd
          exact d.2.2.2 hd.symm
      refine ⟨?_, ?_, ?_⟩
      · rw [h1, isSome_grantFull, d1 hblank]; exact or_shuffle
      · rw [h2, ruleFull_grantFull, d2]; exact or_shuffle
      · intro a
        rw [h3, ruleSections_grantFull]
        simp [n3]
    · obtain ⟨h1, h2, h3⟩ := ih _ rules h
      have n2 : ¬ DeclaresFull clean raw p := by
        intro d
        rcases d.2.2 with e | e
        · rw [hanchor] at e; cases e
        · rw [hanchor] at e
          simp only [Option.some.injEq] at e
          exact hempty e
      have d3 : ∀ a, DeclaresSection clean raw p a ↔
          (p = clean (splitHash (trimSpace raw)).1 ∧ a = anchor) := by
        intro a
        constructor
        · intro d
          have := d.2.2.1
          rw [hanchor] at this
          simp only [Option.some.injEq] at this
          exact ⟨d.2.1.symm, this.symm⟩
        · rintro ⟨e1, e2⟩
          exact ⟨hblank, e1.symm, by rw [hanchor, e2], by rw [e2]; exact hempty⟩
      refine ⟨?_, ?_, ?_⟩
      · rw [h1, isSome_grantSection, d1 hblank]; exact or_shuffle
      · rw [h2, ruleFull_grantSection]; simp [n2]
      · intro a
        rw [h3, mem_ruleSections_grantSection, d3]
        exact or_shuffle

/-- The loop of `parseOverridePaths` keeps the keys of the rule map distinct
and each anchor set free of repetitions. -/
theorem rules_nodup (clean : Str → Str) :
    ∀ (paths : List Str) (acc rules : List (Str × overrideRule)),
      parseOverridePathsFrom clean paths acc = .ok rules →
      (acc.map Prod.fst).Nodup → (∀ p, (ruleSections acc p).Nodup) →
      (rules.map Prod.fst).Nodup ∧ ∀ p, (ruleSections rules p).Nodup := by
  intro paths
  induction paths with
  | nil =>
    intro acc rules h hk hs
    simp only [parseOverridePathsFrom, Except.ok.injEq] at h
    subst h
    exact ⟨hk, hs⟩
  | cons raw rest ih =>
    intro acc rules h hk hs
    rcases parseOverridePathsFrom_cons_ok h with
      ⟨-, h⟩ | ⟨-, -, ⟨-, h⟩ | ⟨anchor, -, -, h⟩⟩
    · exact ih acc rules h hk hs
    · refine ih _ rules h ?_ ?_
      · rw [keys_grantFull]; exact nodup_keys_step _ hk
      · intro p; rw [ruleSections_grantFull]; exact hs p
    · refine ih _ rules h ?_ ?_
      · rw [keys_grantSection]; exact nodup_keys_step _ hk
      · intro p; exact nodup_ruleSections_grantSection _ _ _ _ (hs p)

/-- C17. Override rule accumulation: when `parseOverridePaths` accepts the
declarations, the rule map has one key per cleaned file path that some
declaration names and no other key; the rule of a path is full exactly when
some declaration names the path without an anchor (no `#`, or nothing after
it); and its anchor set holds, once each, exactly the anchors that are not
empty and declared for the path. -/
theorem override_rules_accumulate (clean : Str → Str) (paths : List Str)
    (rules : List (Str × overrideRule)) (h : parseOverridePaths clean paths = .ok rules) :
    (rules.map Prod.fst).Nodup ∧
    ∀ p,
      (lookupRule rules p = none ↔ ¬ ∃ raw ∈ paths, DeclaresFile clean raw p) ∧
      ∀ rule, lookupRule rules p = some rule →
        (rule.full = true ↔ ∃ raw ∈ paths, DeclaresFull clean raw p) ∧
        (∀ a, a ∈ rule.sections ↔ ∃ raw ∈ paths, DeclaresSection clean raw p a) ∧
        rule.sections.Nodup := by
  unfold parseOverridePaths at h
  have hnd := rules_nodup clean paths [] rules h (by simp) (fun p => by simp [ruleSections, lookupRule])
  refine ⟨hnd.1, fun p => ?_⟩
  obtain ⟨h1, h2, h3⟩ := rules_accumulate clean p paths [] rules h
  have e1 : (lookupRule [] p).isSome = false := rfl
  have e2 : ruleFull [] p = false := rfl
  have e3 : ruleSections [] p = [] := rfl
  rw [e1] at h1
  rw [e2] at h2
  simp only [e3, List.not_mem_nil, false_or, Bool.false_eq_true] at h1 h2 h3
  refine ⟨?_, ?_⟩
  · rw [← h1]
    cases lookupRule rules p <;> simp
  · intro rule hrule
    have hs := hnd.2 p
    simp only [ruleFull, ruleSections, hrule, Option.map_some', Option.getD_some] at h2 h3 hs
    exact ⟨h2, h3, hs⟩

/-- C17 (witness): the rules for five declarations, under Go's `path.Clean`. -/
theorem spec_scenario_rule_accumulation :
    parseOverridePaths pathClean exampleDeclarations =
      .ok [(".claude/CLAUDE.md".toList, { full := true, sections := ["a".toList] }),
           (".claude/x.md".toList, { full := false, sections := ["b".toList] })] ∧
    (lookupRule [(".claude/CLAUDE.md".toList, { full := true, sections := ["a".toList] }),
        (".claude/x.md".toList, { full := false, sections := ["b".toList] })]
        ".claude/y.md".toList = none ↔
      ¬ ∃ raw ∈ exampleDeclarations, DeclaresFile pathClean raw ".claude/y.md".toList) :=
  ⟨rfl,
    ((override_rules_accumulate pathClean exampleDeclarations
      [(".claude/CLAUDE.md".toList, { full := true, sections := ["a".toList] }),
       (".claude/x.md".toList, { full := false, sections := ["b".toList] })]
      rfl).2 ".claude/y.md".toList).1⟩

/-! ## Slash paths -/

theorem splitSlash_ne_nil : ∀ s : Str, splitSlash s ≠ []
  | [] => by simp [splitSlash]
  | c :: cs => by
    unfold splitSlash
    split_ifs
    · simp
    · split <;> simp

theorem splitSlash_slash (cs : Str) : splitSlash ('/' :: cs) = [] :: splitSlash cs := by
  rw [splitSlash, if_pos rfl]

theorem splitSlash_cons_of_ne {c : Char} (hc : c ≠ '/') {cs e : Str} {es : List Str}
    (h : splitSlash cs = e :: es) : splitSlash (c :: cs) = (c :: e) :: es := by
  rw [splitSlash, if_neg hc, h]

theorem splitSlash_append_slash (a b : Str) :
    splitSlash (a ++ '/' :: b) = splitSlash a ++ splitSlash b := by
  induction a with
  | nil => rw [List.nil_append, splitSlash_slash]; rfl
  | cons c a ih =>
    by_cases hc : c = '/'
    · subst hc
      rw [List.cons_append, splitSlash_slash, splitSlash_slash, ih, List.cons_append]
    · cases ha : splitSlash a with
      | nil => exact absurd ha (splitSlash_ne_nil a)
      | cons e es =>
        have hrest : splitSlash (a ++ '/' :: b) = e :: (es ++ splitSlash b) := by
          rw [ih, ha, List.cons_append]
        rw [List.cons_append, splitSlash_cons_of_ne hc hrest,
          splitSlash_cons_of_ne hc ha, List.cons_append]

theorem joinSlash_cons_of_ne_nil (e : Str) {l : List Str} (h : l ≠ []) :
    joinSlash (e :: l) = e ++ '/' :: joinSlash l := by
  cases l with
  | nil => exact absurd rfl h
  | cons e2 es => rfl

theorem joinSlash_splitSlash (s : Str) : joinSlash (splitSlash s) = s := by
  induction s with
  | nil => rfl
  | cons c cs ih =>
    by_cases hc : c = '/'
    · subst hc
      rw [splitSlash_slash, joinSlash_cons_of_ne_nil _ (splitSlash_ne_nil cs), ih]
      rfl
    · cases h : splitSlash cs with
      | nil => exact absurd h (splitSlash_ne_nil cs)
      | cons e es =>
        rw [splitSlash_cons_of_ne hc h]
        rw [h] at ih
        cases es with
        | nil =>
          simp only [joinSlash] at ih ⊢
          rw [ih]
        | cons e2 es2 =>
          simp only [joinSlash] at ih ⊢
          rw [← ih]
          rfl

theorem no_slash_of_mem_splitSlash : ∀ (s : Str) (e : Str), e ∈ splitSlash s → '/' ∉ e
  | [], e, h => by
    simp only [splitSlash, List.mem_singleton] at h
    subst h
    simp
  | c :: cs, e, h => by
    by_cases hc : c = '/'
    · subst hc
      rw [splitSlash_slash, List.mem_cons] at h
      rcases h with rfl | h
      · simp
      · exact no_slash_of_mem_splitSlash cs e h
    · cases hs : splitSlash cs with
      | nil => exact absurd hs (splitSlash_ne_nil cs)
      | cons e1 es =>
        rw [splitSlash_cons_of_ne hc hs, List.mem_cons] at h
        rcases h with rfl | h
        · have := no_slash_of_mem_splitSlash cs e1 (by rw [hs]; simp)
          intro hm
          rcases List.mem_cons.1 hm with heq | hm
          · exact hc heq.symm
          · exact this hm
        · exact no_slash_of_mem_splitSlash cs e (by rw [hs]; exact List.mem_cons_of_mem _ h)

theorem splitSlash_of_no_slash : ∀ (e : Str), '/' ∉ e → splitSlash e = [e]
  | [], _ => rfl
  | c :: cs, h => by
    have hc : c ≠ '/' := fun hc => h (by rw [hc]; simp)
    have hcs : '/' ∉ cs := fun hm => h (List.mem_cons_of_mem _ hm)
    exact splitSlash_cons_of_ne hc (splitSlash_of_no_slash cs hcs)

theorem splitSlash_joinSlash : ∀ (l : List Str), l ≠ [] → (∀ e ∈ l, '/' ∉ e) →
    splitSlash (joinSlash l) = l
  | [], h, _ => absurd rfl h
  | [e], _, hl => by
    simp only [joinSlash]
    exact splitSlash_of_no_slash e (hl e (by simp))
  | e :: e2 :: es, _, hl => by
    rw [joinSlash_cons_of_ne_nil e (by simp), splitSlash_append_slash,
      splitSlash_of_no_slash e (hl e (by simp)),
      splitSlash_joinSlash (e2 :: es) (by simp) (fun x hx => hl x (List.mem_cons_of_mem _ hx))]
    rfl

theorem joinSlash_eq_nil : ∀ {l : List Str}, (∀ e ∈ l, e ≠ []) → joinSlash l = [] → l = []
  | [], _, _ => rfl
  | [e], hl, h => by
    simp only [joinSlash] at h
    exact absurd h (hl e (by simp))
  | e :: e2 :: es, _, h => by
    rw [joinSlash_cons_of_ne_nil e (by simp)] at h
    simp at h

/-! ## `path.Clean` -/

theorem cleanElement_skip (rooted : Bool) (out : List Str) {elem : Str}
    (h : elem = [] ∨ elem = ".".toList) : cleanElement rooted out elem = out := by
  unfold cleanElement
  rw [if_pos h]

theorem cleanElement_dotdot_nil (rooted : Bool) :
    cleanElement rooted [] "..".toList = if rooted then [] else ["..".toList] := by
  cases rooted <;> rfl

theorem cleanElement_dotdot_cons (rooted : Bool) (last : Str) (before : List Str) :
    cleanElement rooted (last :: before) "..".toList =
      if last = "..".toList then "..".toList :: last :: before else before := by
  unfold cleanElement
  rw [if_neg (by decide), if_pos rfl]

theorem cleanElement_plain (rooted : Bool) (out : List Str) {elem : Str}
    (h1 : ¬ (elem = [] ∨ elem = ".".toList)) (h2 : elem ≠ "..".toList) :
    cleanElement rooted out elem = elem :: out := by
  unfold cleanElement
  rw [if_neg h1, if_neg h2]

theorem cleanElement_mem {rooted : Bool} {out : List Str} {elem x : Str}
    (h : x ∈ cleanElement rooted out elem) :
    x ∈ out ∨ (x = elem ∧ elem ≠ [] ∧ elem ≠ ".".toList) := by
  by_cases h1 : elem = [] ∨ elem = ".".toList
  · rw [cleanElement_skip rooted out h1] at h
    exact Or.inl h
  · have hne : elem ≠ [] ∧ elem ≠ ".".toList := ⟨fun e => h1 (Or.inl e), fun e => h1 (Or.inr e)⟩
    by_cases h2 : elem = "..".toList
    · subst h2
      cases out with
      | nil =>
        rw [cleanElement_dotdot_nil] at h
        cases rooted
        · simp only [Bool.false_eq_true, if_false, List.mem_singleton] at h
          exact Or.inr ⟨h, hne⟩
        · simp at h
      | cons last before =>
        rw [cleanElement_dotdot_cons] at h
        split_ifs at h
        · rcases List.mem_cons.1 h with h | h
          · exact Or.inr ⟨h, hne⟩
          · exact Or.inl h
        · exact Or.inl (List.mem_cons_of_mem _ h)
    · rw [cleanElement_plain rooted out h1 h2] at h
      rcases List.mem_cons.1 h with h | h
      · exact Or.inr ⟨h, hne⟩
      · exact Or.inl h

theorem cleanElement_dotsFirst {rooted : Bool} {out : List Str} (elem : Str)
    (h : out.Pairwise (fun a b => a = "..".toList → b = "..".toList)) :
    (cleanElement rooted out elem).Pairwise (fun a b => a = "..".toList → b = "..".toList) := by
  by_cases h1 : elem = [] ∨ elem = ".".toList
  · rw [cleanElement_skip rooted out h1]
    exact h
  · by_cases h2 : elem = "..".toList
    · subst h2
      cases out with
      | nil =>
        rw [cleanElement_dotdot_nil]
        cases rooted
        · exact List.pairwise_singleton _ _
        · exact List.Pairwise.nil
      | cons last before =>
        rw [cleanElement_dotdot_cons]
        split_ifs with hl
        · refine List.Pairwise.cons ?_ h
          intro b hb _
          rcases List.mem_cons.1 hb with rfl | hb
          · exact hl
          · exact List.rel_of_pairwise_cons h hb hl
        · exact (List.pairwise_cons.1 h).2
    · rw [cleanElement_plain rooted out h1 h2]
      exact List.Pairwise.cons (fun b _ he => absurd he h2) h

theorem foldl_clean_mem (rooted : Bool) :
    ∀ (segs : List Str) (out : List Str) (x : Str),
      x ∈ segs.foldl (cleanElement rooted) out → x ∈ out ∨ (x ∈ segs ∧ x ≠ [] ∧ x ≠ ".".toList)
  | [], out, x, h => Or.inl h
  | seg :: segs, out, x, h => by
    rw [List.foldl_cons] at h
    rcases foldl_clean_mem rooted segs _ x h with h | ⟨h, hne⟩
    · rcases cleanElement_mem h with h | ⟨rfl, hne⟩
      · exact Or.inl h
      · exact Or.inr ⟨List.mem_cons_self _ _, hne⟩
    · exact Or.inr ⟨List.mem_cons_of_mem _ h, hne⟩

theorem foldl_clean_dotsFirst (rooted : Bool) :
    ∀ (segs : List Str) (out : List Str),
      out.Pairwise (fun a b => a = "..".toList → b = "..".toList) →
      (segs.foldl (cleanElement rooted) out).Pairwise
        (fun a b => a = "..".toList → b = "..".toList)
  | [], _, h => h
  | seg :: segs, _, h => by
    rw [List.foldl_cons]
    exact foldl_clean_dotsFirst rooted segs _ (cleanElement_dotsFirst seg h)

theorem foldl_clean_valid (rooted : Bool) :
    ∀ (segs : List Str) (out : List Str),
      (∀ e ∈ segs, e ≠ [] ∧ e ≠ ".".toList ∧ e ≠ "..".toList) →
      segs.foldl (cleanElement rooted) out = segs.reverse ++ out
  | [], _, _ => rfl
  | seg :: segs, out, h => by
    obtain ⟨h1, h2, h3⟩ := h seg (List.mem_cons_self _ _)
    have hstep : cleanElement rooted out seg = seg :: out :=
      cleanElement_plain rooted out (fun e => e.elim h1 h2) h3
    rw [List.foldl_cons, hstep,
      foldl_clean_valid rooted segs _ (fun e he => h e (List.mem_cons_of_mem _ he))]
    simp

theorem validPath_ne_nil {p : Str} (h : ValidPath p) : p ≠ [] := by
  rintro rfl
  exact (h [] (by simp [splitSlash])).1 rfl

theorem validPath_head {p : Str} (h : ValidPath p) : p.head? ≠ some '/' := by
  cases p with
  | nil => simp
  | cons c cs =>
    intro hc
    simp only [List.head?_cons, Option.some.injEq] at hc
    subst hc
    exact (h [] (by rw [splitSlash_slash]; simp)).1 rfl

/-- `path.Clean` leaves a valid path as it is. -/
theorem pathClean_of_valid {p : Str} (h : ValidPath p) : pathClean p = p := by
  unfold pathClean
  rw [if_neg (validPath_ne_nil h)]
  have hr : decide (p.head? = some '/') = false := by simpa using validPath_head h
  simp only [hr, Bool.false_eq_true, if_false]
  rw [foldl_clean_valid false _ _ h, List.append_nil, List.reverse_reverse,
    joinSlash_splitSlash, if_neg (validPath_ne_nil h)]

/-- `path.Join(".", p)` is `p` for a valid path `p`. -/
theorem pathJoin_dot_of_valid {p : Str} (h : ValidPath p) : pathJoin ".".toList p = p := by
  have hsplit : splitSlash (".".toList ++ '/' :: p) = ".".toList :: splitSlash p := by
    rw [splitSlash_append_slash]; rfl
  unfold pathJoin
  rw [if_neg (by simp), if_neg (by simp)]
  unfold pathClean
  rw [if_neg (by simp)]
  have hr : decide ((".".toList ++ '/' :: p).head? = some '/') = false := by
    simp
  simp only [hr, Bool.false_eq_true, if_false]
  rw [hsplit, List.foldl_cons]
  have h0 : cleanElement false [] ".".toList = [] := by decide
  rw [h0, foldl_clean_valid false _ _ h, List.append_nil, List.reverse_reverse,
    joinSlash_splitSlash, if_neg (validPath_ne_nil h)]

theorem underClaude_split {p : Str} (h : UnderClaude p) :
    ∃ rest, splitSlash p = ".claude".toList :: rest := by
  rcases h with rfl | h
  · exact ⟨[], by decide⟩
  · obtain ⟨t, rfl⟩ := List.isPrefixOf_iff_prefix.1 h
    have : ".claude/".toList ++ t = ".claude".toList ++ '/' :: t := by
      simp
    rw [this, splitSlash_append_slash]
    exact ⟨splitSlash t, by rfl⟩

/-- A cleaned path that is `.claude` or under `.claude/` has no element `..`. -/
theorem no_dotdot_of_underClaude (x : Str) (h : UnderClaude (pathClean x)) :
    "..".toList ∉ splitSlash (pathClean x) := by
  obtain ⟨rest, hrest⟩ := underClaude_split h
  have hkey : ∃ out : List Str, out.Pairwise (fun a b => a = "..".toList → b = "..".toList) ∧
      splitSlash (pathClean x) = out.reverse := by
    unfold pathClean at h ⊢
    by_cases hx : x = []
    · rw [if_pos hx] at h
      exact absurd h (by decide)
    · rw [if_neg hx] at h ⊢
      by_cases hrooted : x.head? = some '/'
      · simp only [hrooted, decide_True, if_true] at h
        exact absurd h (by
          rintro (h | h)
          · simp at h
          · simp [List.isPrefixOf] at h)
      · have hr : decide (x.head? = some '/') = false := by simpa using hrooted
        simp only [hr, Bool.false_eq_true, if_false] at h ⊢
        by_cases hbody : joinSlash ((splitSlash x).foldl (cleanElement false) []).reverse = []
        · rw [if_pos hbody] at h
          exact absurd h (by decide)
        · rw [if_neg hbody]
          refine ⟨(splitSlash x).foldl (cleanElement false) [],
            foldl_clean_dotsFirst false (splitSlash x) [] List.Pairwise.nil, ?_⟩
          apply splitSlash_joinSlash
          · intro hnil
            rw [hnil] at hbody
            exact hbody rfl
          · intro e he
            rcases foldl_clean_mem false _ [] e (List.mem_reverse.1 he) with hm | ⟨hm, _⟩
            · simp at hm
            · exact no_slash_of_mem_splitSlash x e hm
  obtain ⟨out, hpw, hsplit⟩ := hkey
  rw [hsplit]
  rw [hsplit] at hrest
  have hout : out = rest.reverse ++ [".claude".toList] := by
    have := congrArg List.reverse hrest
    simpa using this
  rw [hout] at hpw
  intro hmem
  rw [hrest] at hmem
  rcases List.mem_cons.1 hmem with hm | hm
  · exact absurd hm (by decide)
  · have h3 := (List.pairwise_append.1 hpw).2.2
    have h4 : ".claude".toList = "..".toList :=
      h3 "..".toList (List.mem_reverse.2 hm) ".claude".toList (by simp) rfl
    exact absurd h4 (by decide)

/-! ## Override paths stay under `.claude` -/

theorem lookupRule_isSome_of_mem {rules : List (Str × overrideRule)} {kv : Str × overrideRule}
    (h : kv ∈ rules) : (lookupRule rules kv.1).isSome = true := by
  unfold lookupRule
  rw [Option.isSome_map', List.find?_isSome]
  exact ⟨kv, h, by simp⟩

/-- An accepted list has no declaration whose cleaned path is rejected. -/
theorem accepted_of_ok (clean : Str → Str) :
    ∀ (paths : List Str) (acc rules : List (Str × overrideRule)),
      parseOverridePathsFrom clean paths acc = .ok rules →
      ∀ raw ∈ paths, trimSpace raw ≠ [] → ¬ Rejected (clean (splitHash (trimSpace raw)).1) := by
  intro paths
  induction paths with
  | nil => intro _ _ _ raw hraw; simp at hraw
  | cons r rest ih =>
    intro acc rules h raw hraw hblank
    rcases parseOverridePathsFrom_cons_ok h with
      ⟨hb, h⟩ | ⟨-, hacc, ⟨-, h⟩ | ⟨anchor, -, -, h⟩⟩
    · rcases List.mem_cons.1 hraw with rfl | hraw
      · exact absurd hb hblank
      · exact ih _ _ h raw hraw hblank
    · rcases List.mem_cons.1 hraw with rfl | hraw
      · exact hacc
      · exact ih _ _ h raw hraw hblank
    · rcases List.mem_cons.1 hraw with rfl | hraw
      · exact hacc
      · exact ih _ _ h raw hraw hblank

/-- A list without a rejected declaration is accepted. -/
theorem ok_of_accepted (clean : Str → Str) :
    ∀ (paths : List Str) (acc : List (Str × overrideRule)),
      (∀ raw ∈ paths, trimSpace raw ≠ [] → ¬ Rejected (clean (splitHash (trimSpace raw)).1)) →
      ∃ rules, parseOverridePathsFrom clean paths acc = .ok rules := by
  intro paths
  induction paths with
  | nil => intro acc _; exact ⟨acc, rfl⟩
  | cons r rest ih =>
    intro acc h
    have hrest : ∀ raw ∈ rest, trimSpace raw ≠ [] →
        ¬ Rejected (clean (splitHash (trimSpace raw)).1) :=
      fun raw hraw => h raw (List.mem_cons_of_mem _ hraw)
    rw [parseOverridePathsFrom_cons]
    by_cases hblank : trimSpace r = []
    · rw [if_pos hblank]
      exact ih acc hrest
    · have hacc := h r (List.mem_cons_self _ _) hblank
      rw [if_neg hblank, if_neg (fun hbad => hacc (Or.inl hbad)),
        if_neg (fun hout => hacc (Or.inr hout))]
      cases (splitHash (trimSpace r)).2 with
      | none => exact ih _ hrest
      | some anchor =>
        dsimp only
        split_ifs
        · exact ih _ hrest
        · exact ih _ hrest

/-- C16. Override paths cannot escape `.claude`: `parseOverridePaths` (with
Go's `path.Clean`) rejects the whole list exactly when the cleaned file part of
some declaration that is not blank is `.`, starts with `../`, or is neither
`.claude` nor under `.claude/`; every key of a returned rule map is `.claude`
or under `.claude/` and has no element `..`; and when the list is rejected
`ApplyOverrides` returns the error with the file system as it was. -/
theorem override_paths_cannot_escape (paths : List Str) :
    ((∃ e, parseOverridePaths pathClean paths = .error e) ↔
      ∃ raw ∈ paths, trimSpace raw ≠ [] ∧
        Rejected (pathClean (splitHash (trimSpace raw)).1)) ∧
    (∀ rules, parseOverridePaths pathClean paths = .ok rules →
      ∀ kv ∈ rules, UnderClaude kv.1 ∧ "..".toList ∉ splitSlash kv.1) ∧
    (∀ (ord : RangeOrder) (fs : FS) (loaded : Except OverrideError (List (Str × Str)))
        (e : OverrideError), parseOverridePaths pathClean paths = .error e →
      ApplyOverrides ord pathClean fs loaded paths =
        { warnings := [], exit := .error e, fs := fs }) := by
  refine ⟨?_, ?_, ?_⟩
  · constructor
    · rintro ⟨e, he⟩
      by_contra hno
      have hall : ∀ raw ∈ paths, trimSpace raw ≠ [] →
          ¬ Rejected (pathClean (splitHash (trimSpace raw)).1) :=
        fun raw hraw hblank hrej => hno ⟨raw, hraw, hblank, hrej⟩
      obtain ⟨rules, hrules⟩ := ok_of_accepted pathClean paths [] hall
      unfold parseOverridePaths at he
      rw [hrules] at he
      cases he
    · rintro ⟨raw, hraw, hblank, hrej⟩
      cases hres : parseOverridePaths pathClean paths with
      | error e => exact ⟨e, rfl⟩
      | ok rules =>
        exact absurd hrej (accepted_of_ok pathClean paths [] rules hres raw hraw hblank)
  · intro rules hrules kv hkv
    have hsome := lookupRule_isSome_of_mem hkv
    have hacc := (rules_accumulate pathClean kv.1 paths [] rules hrules).1.1 hsome
    have e1 : (lookupRule [] kv.1).isSome = false := rfl
    rw [e1] at hacc
    simp only [Bool.false_eq_true, false_or] at hacc
    obtain ⟨raw, hraw, hblank, hfile⟩ := hacc
    have hnot := accepted_of_ok pathClean paths [] rules hrules raw hraw hblank
    rw [hfile] at hnot
    have hunder : UnderClaude kv.1 := by
      by_contra hn
      apply hnot
      right
      exact ⟨fun hp => hn (Or.inr (by simpa using hp)), fun he => hn (Or.inl he)⟩
    refine ⟨hunder, ?_⟩
    rw [← hfile] at hunder ⊢
    exact no_dotdot_of_underClaude _ hunder
  · intro ord fs loaded e he
    unfold ApplyOverrides
    rw [he]

/-- C16 (witness): a declaration that leaves `.claude` through `..` makes
`ApplyOverrides` return an error without a write, and declarations that wind
inside `.claude` give keys under `.claude/`. -/
theorem spec_scenario_escaping_declaration :
    ApplyOverrides RangeOrder.stored pathClean (exampleFS exampleBase)
        (.ok [(exampleTarget, "x".toList)]) escapingDeclarations =
      { warnings := [], exit := .error (.outsideClaude ".claude/../etc/passwd#x".toList),
        fs := exampleFS exampleBase } ∧
    ∀ kv ∈ [(".claude/b.md".toList, ({ full := false, sections := ["x".toList] } : overrideRule)),
        (".claude/c.md".toList, { full := true, sections := [] })],
      UnderClaude kv.1 ∧ "..".toList ∉ splitSlash kv.1 :=
  ⟨(override_paths_cannot_escape escapingDeclarations).2.2 RangeOrder.stored
      (exampleFS exampleBase) (.ok [(exampleTarget, "x".toList)])
      (.outsideClaude ".claude/../etc/passwd#x".toList) rfl,
    (override_paths_cannot_escape windingDeclarations).2.1 _ rfl⟩

/-! ## The anchor of a heading -/

theorem slugLoop_true (s : Str) :
    slugLoop s true = slugLoop (s.dropWhile (fun c => !isSlugChar c)) false := by
  induction s with
  | nil => rfl
  | cons ch rest ih =>
    by_cases hc : isSlugChar ch = true
    · simp [slugLoop, List.dropWhile_cons, hc]
    · simp only [Bool.not_eq_true] at hc
      simp [slugLoop, List.dropWhile_cons, hc, ih]

theorem slugLoop_eq_collapseRuns : ∀ (n : Nat) (s : Str), s.length ≤ n →
    slugLoop s false = collapseRuns s
  | _, [], _ => by rw [collapseRuns]; rfl
  | 0, ch :: rest, h => by simp at h
  | n + 1, ch :: rest, h => by
    have hlen : rest.length ≤ n := by simpa using h
    rw [collapseRuns]
    by_cases hc : isSlugChar ch = true
    · simp only [slugLoop, hc, if_true]
      rw [slugLoop_eq_collapseRuns n rest hlen]
    · simp only [Bool.not_eq_true] at hc
      simp only [slugLoop, hc, Bool.false_eq_true, if_false, Bool.not_false, if_true]
      rw [slugLoop_true, slugLoop_eq_collapseRuns n _
        (le_trans (List.Sublist.length_le (List.dropWhile_sublist _)) hlen)]

theorem trimDash_cons_dash (y : Str) : trimDash ('-' :: y) = trimDash y := by
  simp [trimDash, List.dropWhile_cons]

theorem trimDash_append_dash (y : Str) : trimDash (y ++ ['-']) = trimDash y := by
  unfold trimDash
  rw [List.dropWhile_append]
  split_ifs with he
  · have : List.dropWhile (fun c => c == '-') y = [] := by simpa using he
    rw [this]
    simp [List.dropWhile_cons]
  · simp [List.dropWhile_cons]

theorem slugLoop_false_cases (s : Str) :
    slugLoop s false = slugLoop s true ∨ slugLoop s false = '-' :: slugLoop s true := by
  cases s with
  | nil => exact Or.inl rfl
  | cons ch rest =>
    by_cases hc : isSlugChar ch = true
    · left; simp [slugLoop, hc]
    · simp only [Bool.not_eq_true] at hc
      right; simp [slugLoop, hc]

theorem trimDash_slugLoop_true (s : Str) :
    trimDash (slugLoop s true) = trimDash (slugLoop s false) := by
  rcases slugLoop_false_cases s with h | h
  · rw [h]
  · rw [h, trimDash_cons_dash]

theorem slugLoop_true_leading {pre : Str} (h : ∀ c ∈ pre, isSlugChar c = false) (s : Str) :
    slugLoop (pre ++ s) true = slugLoop s true := by
  induction pre with
  | nil => rfl
  | cons c pre ih =>
    have hc := h c (List.mem_cons_self _ _)
    simp only [List.cons_append, slugLoop, hc, Bool.false_eq_true, if_false, Bool.not_true]
    exact ih (fun d hd => h d (List.mem_cons_of_mem _ hd))

/-- Characters outside `[a-z0-9]` before the text do not change the anchor. -/
theorem trimDash_slugLoop_leading {pre : Str} (h : ∀ c ∈ pre, isSlugChar c = false) (s : Str) :
    trimDash (slugLoop (pre ++ s) false) = trimDash (slugLoop s false) := by
  cases pre with
  | nil => rfl
  | cons c pre =>
    have hc := h c (List.mem_cons_self _ _)
    simp only [List.cons_append, slugLoop, hc, Bool.false_eq_true, if_false, Bool.not_false,
      if_true]
    have hrest : slugLoop (pre ++ s) true = slugLoop s true :=
      slugLoop_true_leading (fun d hd => h d (List.mem_cons_of_mem _ hd)) s
    rw [trimDash_cons_dash]
    show trimDash (slugLoop (pre ++ s) true) = trimDash (slugLoop s false)
    rw [hrest, trimDash_slugLoop_true]

theorem slugLoop_trailing {suf : Str} (h : ∀ c ∈ suf, isSlugChar c = false) :
    ∀ (s : Str) (b : Bool),
      slugLoop (s ++ suf) b = slugLoop s b ∨ slugLoop (s ++ suf) b = slugLoop s b ++ ['-']
  | [], true => by
    left
    have := slugLoop_true_leading h []
    simpa using this
  | [], false => by
    cases suf with
    | nil => exact Or.inl rfl
    | cons c suf =>
      right
      have hc := h c (List.mem_cons_self _ _)
      have := slugLoop_true_leading (fun d hd => h d (List.mem_cons_of_mem _ hd)) []
      simp only [List.append_nil] at this
      simp [slugLoop, hc, this]
  | ch :: rest, b => by
    by_cases hc : isSlugChar ch = true
    · rcases slugLoop_trailing h rest false with ih | ih
      · left; simp [slugLoop, hc, ih]
      · right; simp [slugLoop, hc, ih]
    · simp only [Bool.not_eq_true] at hc
      rcases slugLoop_trailing h rest true with ih | ih
      · left
        cases b <;> simp [slugLoop, hc, ih]
      · right
        cases b <;> simp [slugLoop, hc, ih]

/-- Characters outside `[a-z0-9]` after the text do not change the anchor. -/
theorem trimDash_slugLoop_trailing {suf : Str} (h : ∀ c ∈ suf, isSlugChar c = false) (s : Str) :
    trimDash (slugLoop (s ++ suf) false) = trimDash (slugLoop s false) := by
  rcases slugLoop_trailing h s false with e | e
  · rw [e]
  · rw [e, trimDash_append_dash]

theorem not_slug_of_space {c : Char} (h : isSpace c = true) :
    isSlugChar (toLowerChar c) = false := by
  have hn : ¬ (65 ≤ c.toNat ∧ c.toNat ≤ 90) ∧ c.toNat ≠ 0x130 ∧ c.toNat ≠ 0x212A ∧
      ¬ (97 ≤ c.toNat ∧ c.toNat ≤ 122) ∧ ¬ (48 ≤ c.toNat ∧ c.toNat ≤ 57) := by
    simp only [isSpace, Bool.or_eq_true, Bool.and_eq_true, decide_eq_true_eq, beq_iff_eq] at h
    omega
  obtain ⟨h1, h2, h3, h4, h5⟩ := hn
  unfold toLowerChar
  rw [if_neg h1, if_neg h2, if_neg h3]
  simp only [isSlugChar, Bool.or_eq_false_iff, Bool.and_eq_false_iff, decide_eq_false_iff_not]
  omega

theorem trimSpace_decompose (t : Str) :
    ∃ pre suf, (∀ c ∈ pre, isSpace c = true) ∧ (∀ c ∈ suf, isSpace c = true) ∧
      t = pre ++ (trimSpace t ++ suf) := by
  refine ⟨t.takeWhile isSpace, ((t.dropWhile isSpace).reverse.takeWhile isSpace).reverse,
    fun c hc => List.mem_takeWhile_imp hc,
    fun c hc => List.mem_takeWhile_imp (List.mem_reverse.1 hc), ?_⟩
  unfold trimSpace
  rw [← List.reverse_append, List.takeWhile_append_dropWhile, List.reverse_reverse,
    List.takeWhile_append_dropWhile]

/-- The anchor the source computes is the slug of the specification. -/
theorem anchorFromHeading_eq_reference (text : Str) :
    anchorFromHeading text = slugReference text := by
  obtain ⟨pre, suf, hpre, hsuf, ht⟩ := trimSpace_decompose text
  have hpre2 : ∀ c ∈ toLower pre, isSlugChar c = false := by
    intro c hc
    obtain ⟨d, hd, rfl⟩ := List.mem_map.1 hc
    exact not_slug_of_space (hpre d hd)
  have hsuf2 : ∀ c ∈ toLower suf, isSlugChar c = false := by
    intro c hc
    obtain ⟨d, hd, rfl⟩ := List.mem_map.1 hc
    exact not_slug_of_space (hsuf d hd)
  unfold anchorFromHeading slugReference
  rw [← slugLoop_eq_collapseRuns _ _ (le_refl _)]
  conv_rhs => rw [ht]
  have hmap : toLower (pre ++ (trimSpace text ++ suf)) =
      toLower pre ++ (toLower (trimSpace text) ++ toLower suf) := by
    simp [toLower]
  rw [hmap, trimDash_slugLoop_leading hpre2, trimDash_slugLoop_trailing hsuf2]

/-- C13. Anchor slug rule: for every heading text `anchorFromHeading` returns
the text in lower case with each maximal run of characters outside `[a-z0-9]`
replaced by one hyphen and the hyphens at both ends removed; the texts
`Repo-Specific Rules` and `  repo specific   RULES  ` both give
`repo-specific-rules`. -/
theorem anchor_slug_rule :
    (∀ text : Str, anchorFromHeading text = slugReference text) ∧
    anchorFromHeading "Repo-Specific Rules".toList = "repo-specific-rules".toList ∧
    anchorFromHeading "  repo specific   RULES  ".toList = "repo-specific-rules".toList := by
  refine ⟨fun text => ?_, by decide, by decide⟩
  rw [anchorFromHeading_eq_reference]

/-! ## The verdict of the validation does not depend on the order of the visit -/

theorem errorKind_duplicate (x : Str) :
    errorKind ("duplicate skill ID: ".toList ++ x) = .duplicateID := by
  unfold errorKind
  rw [if_pos (List.isPrefixOf_iff_prefix.2 (List.prefix_append _ _))]

theorem errorKind_circular {e : Str} (h : CircularText e) : errorKind e = .circular := by
  obtain ⟨t, rfl⟩ := h
  unfold errorKind
  rw [if_neg (by simp [List.isPrefixOf]), if_pos (List.isPrefixOf_iff_prefix.2 (List.prefix_append _ _))]

theorem errorKind_skill (x : Str) : errorKind ("skill ".toList ++ x) = .missingReference := by
  unfold errorKind
  rw [if_neg (by simp [List.isPrefixOf]), if_neg (by simp [List.isPrefixOf]),
    if_pos (List.isPrefixOf_iff_prefix.2 (List.prefix_append _ _))]

/-- The duplicate check accepts exactly the lists whose ids are distinct and
not yet seen. -/
theorem checkDuplicateIDs_result :
    ∀ (l : List (Str × Metadata)) (idSet : List Str),
      (checkDuplicateIDs l idSet = .ok () ∧
        ((l.map (fun kv => kv.2.ID)).Nodup ∧ ∀ kv ∈ l, kv.2.ID ∉ idSet)) ∨
      (∃ e, checkDuplicateIDs l idSet = .error e ∧ errorKind e = .duplicateID ∧
        ¬ ((l.map (fun kv => kv.2.ID)).Nodup ∧ ∀ kv ∈ l, kv.2.ID ∉ idSet)) := by
  intro l
  induction l with
  | nil => intro idSet; left; exact ⟨rfl, by simp⟩
  | cons kv rest ih =>
    intro idSet
    unfold checkDuplicateIDs
    by_cases hin : kv.2.ID ∈ idSet
    · right
      rw [if_pos hin]
      exact ⟨_, rfl, errorKind_duplicate _, fun h => h.2 kv (List.mem_cons_self _ _) hin⟩
    · rw [if_neg hin]
      rcases ih (kv.2.ID :: idSet) with ⟨hok, hnd, hnew⟩ | ⟨e, herr, hkind, hnot⟩
      · left
        refine ⟨hok, ?_, ?_⟩
        · rw [List.map_cons, List.nodup_cons]
          refine ⟨?_, hnd⟩
          intro hm
          obtain ⟨kv1, hkv1, heq⟩ := List.mem_map.1 hm
          exact hnew kv1 hkv1 (by rw [heq]; exact List.mem_cons_self _ _)
        · intro kv1 hkv1
          rcases List.mem_cons.1 hkv1 with rfl | hkv1
          · exact hin
          · exact fun hm => hnew kv1 hkv1 (List.mem_cons_of_mem _ hm)
      · right
        refine ⟨e, herr, hkind, ?_⟩
        rintro ⟨hnd, hnew⟩
        rw [List.map_cons, List.nodup_cons] at hnd
        apply hnot
        refine ⟨hnd.2, ?_⟩
        intro kv1 hkv1 hm
        rcases List.mem_cons.1 hm with heq | hm
        · exact hnd.1 (List.mem_map.2 ⟨kv1, hkv1, heq⟩)
        · exact hnew kv1 (List.mem_cons_of_mem _ hkv1) hm

theorem checkDependsOn_result (reg : Registry) (skill : Metadata) :
    ∀ (deps : List Str),
      (checkDependsOn reg skill deps = .ok () ∧
        ∀ d ∈ deps, (lookupSkill reg d).isSome = true) ∨
      (∃ e, checkDependsOn reg skill deps = .error e ∧ errorKind e = .missingReference ∧
        ¬ ∀ d ∈ deps, (lookupSkill reg d).isSome = true) := by
  intro deps
  induction deps with
  | nil => left; exact ⟨rfl, by simp⟩
  | cons d rest ih =>
    unfold checkDependsOn
    by_cases hd : (lookupSkill reg d).isNone = true
    · right
      rw [if_pos hd]
      refine ⟨_, rfl, ?_, ?_⟩
      · rw [List.append_assoc, List.append_assoc]
        exact errorKind_skill _
      · intro h
        have := h d (List.mem_cons_self _ _)
        rw [Option.isNone_iff_eq_none] at hd
        rw [hd] at this
        cases this
    · rw [if_neg hd]
      have hsome : (lookupSkill reg d).isSome = true := by
        cases h : lookupSkill reg d with
        | none => rw [h] at hd; exact absurd rfl hd
        | some _ => rfl
      rcases ih with ⟨hok, hall⟩ | ⟨e, herr, hkind, hnot⟩
      · left
        refine ⟨hok, ?_⟩
        intro d1 hd1
        rcases List.mem_cons.1 hd1 with rfl | hd1
        · exact hsome
        · exact hall d1 hd1
      · right
        exact ⟨e, herr, hkind, fun h => hnot (fun d1 hd1 => h d1 (List.mem_cons_of_mem _ hd1))⟩

theorem checkConflictsWith_result (reg : Registry) (skill : Metadata) :
    ∀ (ids : List Str),
      (checkConflictsWith reg skill ids = .ok () ∧
        ∀ d ∈ ids, (lookupSkill reg d).isSome = true) ∨
      (∃ e, checkConflictsWith reg skill ids = .error e ∧ errorKind e = .missingReference ∧
        ¬ ∀ d ∈ ids, (lookupSkill reg d).isSome = true) := by
  intro ids
  induction ids with
  | nil => left; exact ⟨rfl, by simp⟩
  | cons d rest ih =>
    unfold checkConflictsWith
    by_cases hd : (lookupSkill reg d).isNone = true
    · right
      rw [if_pos hd]
      refine ⟨_, rfl, ?_, ?_⟩
      · rw [List.append_assoc, List.append_assoc]
        exact errorKind_skill _
      · intro h
        have := h d (List.mem_cons_self _ _)
        rw [Option.isNone_iff_eq_none] at hd
        rw [hd] at this
        cases this
    · rw [if_neg hd]
      have hsome : (lookupSkill reg d).isSome = true := by
        cases h : lookupSkill reg d with
        | none => rw [h] at hd; exact absurd rfl hd
        | some _ => rfl
      rcases ih with ⟨hok, hall⟩ | ⟨e, herr, hkind, hnot⟩
      · left
        refine ⟨hok, ?_⟩
        intro d1 hd1
        rcases List.mem_cons.1 hd1 with rfl | hd1
        · exact hsome
        · exact hall d1 hd1
      · right
        exact ⟨e, herr, hkind, fun h => hnot (fun d1 hd1 => h d1 (List.mem_cons_of_mem _ hd1))⟩

/-- The reference check accepts exactly the lists in which every reference is
a key of the registry. -/
theorem checkReferences_result (reg : Registry) :
    ∀ (l : List (Str × Metadata)),
      (checkReferences reg l = .ok () ∧
        ∀ kv ∈ l, (∀ d ∈ kv.2.DependsOn, (lookupSkill reg d).isSome = true) ∧
          (∀ d ∈ kv.2.ConflictsWith, (lookupSkill reg d).isSome = true)) ∨
      (∃ e, checkReferences reg l = .error e ∧ errorKind e = .missingReference ∧
        ¬ ∀ kv ∈ l, (∀ d ∈ kv.2.DependsOn, (lookupSkill reg d).isSome = true) ∧
          (∀ d ∈ kv.2.ConflictsWith, (lookupSkill reg d).isSome = true)) := by
  intro l
  induction l with
  | nil => left; exact ⟨rfl, by simp⟩
  | cons kv rest ih =>
    unfold checkReferences
    rcases checkDependsOn_result reg kv.2 kv.2.DependsOn with ⟨hok1, h1⟩ | ⟨e, herr, hkind, hnot⟩
    · rw [hok1]
      rcases checkConflictsWith_result reg kv.2 kv.2.ConflictsWith with
        ⟨hok2, h2⟩ | ⟨e, herr, hkind, hnot⟩
      · rw [hok2]
        rcases ih with ⟨hok, hall⟩ | ⟨e, herr, hkind, hnot⟩
        · left
          refine ⟨hok, ?_⟩
          intro kv1 hkv1
          rcases List.mem_cons.1 hkv1 with rfl | hkv1
          · exact ⟨h1, h2⟩
          · exact hall kv1 hkv1
        · right
          exact ⟨e, herr, hkind,
            fun h => hnot (fun kv1 hkv1 => h kv1 (List.mem_cons_of_mem _ hkv1))⟩
      · right
        rw [herr]
        exact ⟨e, rfl, hkind, fun h => hnot (h kv (List.mem_cons_self _ _)).2⟩
    · right
      rw [herr]
      exact ⟨e, rfl, hkind, fun h => hnot (h kv (List.mem_cons_self _ _)).1⟩

/-- When every reference is a key, the cycle check returns, accepting exactly
when no key lies on a cycle of the edges `detectCycles` follows. -/
theorem checkCycles_result (reg : Registry) (fuel : Nat) (hfuel : reg.skills.length < fuel)
    (hrefs : ∀ kv ∈ reg.skills, ∀ d ∈ kv.2.DependsOn, (lookupSkill reg d).isSome = true)
    (l : List (Str × Metadata)) (hl : l.Perm reg.skills) :
    ∃ r, checkCycles fuel reg l = some r ∧
      ((r = .ok () ∧ ¬ ∃ x, TransGen (KeyEdge reg) x x) ∨
        (∃ e, r = .error e ∧ errorKind e = .circular ∧ ∃ x, TransGen (KeyEdge reg) x x)) := by
  obtain ⟨r, hrun⟩ := checkCycles_returns reg fuel hfuel l
  have hsource : ∀ a d, KeyEdge reg a d → ∃ skill, (a, skill) ∈ reg.skills ∧
      d ∈ skill.DependsOn := by
    intro a d h
    unfold KeyEdge dependsOf at h
    cases hlook : lookupSkill reg a with
    | none => rw [hlook] at h; simp at h
    | some skill =>
      rw [hlook] at h
      exact ⟨skill, lookupSkill_mem hlook, h⟩
  have hres : ∀ a d, KeyEdge reg a d → (lookupSkill reg d).isSome = true := by
    intro a d h
    obtain ⟨skill, hmem, hd⟩ := hsource a d h
    exact hrefs _ hmem d hd
  have hkeys : ∀ kv ∈ l, (lookupSkill reg kv.1).isSome = true := fun kv hkv =>
    lookupSkill_isSome_of_key (List.mem_map_of_mem Prod.fst (hl.mem_iff.1 hkv))
  obtain ⟨hok, herr⟩ := checkCycles_spec reg fuel hres l r hkeys hrun
  refine ⟨r, hrun, ?_⟩
  cases r with
  | ok u =>
    left
    refine ⟨rfl, ?_⟩
    rintro ⟨x, hx⟩
    obtain ⟨b, hb, _⟩ := TransGen.head'_iff.1 hx
    obtain ⟨skill, hmem, _⟩ := hsource x b hb
    exact hok rfl (x, skill) (hl.mem_iff.2 hmem) hx
  | error e =>
    right
    obtain ⟨htext, hcycle⟩ := herr e rfl
    exact ⟨e, rfl, errorKind_circular htext, hcycle⟩

/-- C11 (evaluation). Repeated runs of `ValidateRegistry` on one registry do
not report the same error text: the map is ranged over without sorting its
keys, so the text follows the order of the visit. The chain A -> B -> C -> A is
reported from A or from C, of the two cycles A -> B -> A and C -> D -> C either
one is reported, and of two dangling references either one. -/
theorem error_text_depends_on_visit_order :
    ValidateRegistry RangeOrder.stored 4 (some chainRegistry) =
      some (.error "circular dependency detected involving skill: A -> C -> B -> A".toList) ∧
    ValidateRegistry RangeOrder.backwards 4 (some chainRegistry) =
      some (.error "circular dependency detected involving skill: C -> B -> A -> C".toList) ∧
    ValidateRegistry RangeOrder.stored 5 (some twoCycleRegistry) =
      some (.error "circular dependency detected involving skill: A -> B -> A".toList) ∧
    ValidateRegistry RangeOrder.backwards 5 (some twoCycleRegistry) =
      some (.error "circular dependency detected involving skill: D -> C -> D".toList) ∧
    ValidateRegistry RangeOrder.stored 3 (some twoDanglingRegistry) =
      some (.error "skill A depends on non-existent skill X".toList) ∧
    ValidateRegistry RangeOrder.backwards 3 (some twoDanglingRegistry) =
      some (.error "skill B depends on non-existent skill Y".toList) :=
  ⟨rfl, rfl, rfl, rfl, rfl, rfl⟩

/-- What the runs of `ValidateRegistry` agree on: for every registry, any two
runs, whatever the order in which each visits the map, both return, and either
both accept the registry or both reject it with an error of the same kind
(duplicate id, missing reference or circular dependency). -/
theorem validation_verdict_deterministic (ord1 ord2 : RangeOrder) (reg : Registry)
    (fuel1 fuel2 : Nat) (h1 : reg.skills.length < fuel1) (h2 : reg.skills.length < fuel2) :
    ∃ r1 r2, ValidateRegistry ord1 fuel1 (some reg) = some r1 ∧
      ValidateRegistry ord2 fuel2 (some reg) = some r2 ∧ SameVerdict r1 r2 := by
  unfold ValidateRegistry
  simp only
  have hperm : ∀ (site1 site2 : Nat),
      (ord1.shuffle site1 reg.skills).Perm (ord2.shuffle site2 reg.skills) :=
    fun site1 site2 => (ord1.perm site1 _).trans (ord2.perm site2 _).symm
  have hdup : ((ord1.shuffle 3 reg.skills).map (fun kv => kv.2.ID)).Nodup ↔
      ((ord2.shuffle 3 reg.skills).map (fun kv => kv.2.ID)).Nodup :=
    ((hperm 3 3).map _).nodup_iff
  rcases checkDuplicateIDs_result (ord1.shuffle 3 reg.skills) [] with
    ⟨hok1, hnd1, -⟩ | ⟨e1, herr1, hkind1, hnot1⟩ <;>
  rcases checkDuplicateIDs_result (ord2.shuffle 3 reg.skills) [] with
    ⟨hok2, hnd2, -⟩ | ⟨e2, herr2, hkind2, hnot2⟩
  · rw [hok1, hok2]
    simp only
    have hmem : ∀ kv, kv ∈ ord1.shuffle 4 reg.skills ↔ kv ∈ ord2.shuffle 4 reg.skills :=
      fun kv => (hperm 4 4).mem_iff
    rcases checkReferences_result reg (ord1.shuffle 4 reg.skills) with
      ⟨hr1, hall1⟩ | ⟨e1, herr1, hkind1, hnot1⟩ <;>
    rcases checkReferences_result reg (ord2.shuffle 4 reg.skills) with
      ⟨hr2, hall2⟩ | ⟨e2, herr2, hkind2, hnot2⟩
    · rw [hr1, hr2]
      simp only
      have hrefs : ∀ kv ∈ reg.skills, ∀ d ∈ kv.2.DependsOn,
          (lookupSkill reg d).isSome = true :=
        fun kv hkv => (hall1 kv ((shuffle_mem ord1 4 _ kv).2 hkv)).1
      obtain ⟨r1, hrun1, hres1⟩ :=
        checkCycles_result reg fuel1 h1 hrefs _ (ord1.perm 5 reg.skills)
      obtain ⟨r2, hrun2, hres2⟩ :=
        checkCycles_result reg fuel2 h2 hrefs _ (ord2.perm 5 reg.skills)
      refine ⟨r1, r2, hrun1, hrun2, ?_⟩
      rcases hres1 with ⟨ho1, hno1⟩ | ⟨e1, he1, hk1, hc1⟩ <;>
      rcases hres2 with ⟨ho2, hno2⟩ | ⟨e2, he2, hk2, hc2⟩
      · exact Or.inl ⟨ho1, ho2⟩
      · exact absurd hc2 hno1
      · exact absurd hc1 hno2
      · exact Or.inr ⟨e1, e2, he1, he2, by rw [hk1, hk2]⟩
    · exact absurd (fun kv hkv => hall1 kv ((hmem kv).2 hkv)) hnot2
    · exact absurd (fun kv hkv => hall2 kv ((hmem kv).1 hkv)) hnot1
    · rw [herr1, herr2]
      exact ⟨_, _, rfl, rfl, Or.inr ⟨e1, e2, rfl, rfl, by rw [hkind1, hkind2]⟩⟩
  · exact absurd ⟨hdup.1 hnd1, by simp⟩ hnot2
  · exact absurd ⟨hdup.2 hnd2, by simp⟩ hnot1
  · rw [herr1, herr2]
    exact ⟨_, _, rfl, rfl, Or.inr ⟨e1, e2, rfl, rfl, by rw [hkind1, hkind2]⟩⟩

/-- The chain visited as stored and back to front gives the same verdict. -/
theorem spec_scenario_two_visit_orders :
    chainRegistry.skills.length < 4 ∧
    ∃ r1 r2, ValidateRegistry RangeOrder.stored 4 (some chainRegistry) = some r1 ∧
      ValidateRegistry RangeOrder.backwards 4 (some chainRegistry) = some r2 ∧
      SameVerdict r1 r2 :=
  ⟨by decide, validation_verdict_deterministic RangeOrder.stored RangeOrder.backwards
    chainRegistry 4 4 (by decide) (by decide)⟩

/-! ## The order of `sort.Strings` -/

theorem strLess_irrefl : ∀ a : Str, strLess a a = false
  | [] => rfl
  | c :: cs => by
    rw [strLess, if_neg (lt_irrefl c), if_neg (lt_irrefl c)]
    exact strLess_irrefl cs

theorem strLess_connex : ∀ a b : Str, strLess a b = false → strLess b a = false → a = b
  | [], [], _, _ => rfl
  | [], _ :: _, h, _ => by simp [strLess] at h
  | _ :: _, [], _, h => by simp [strLess] at h
  | a :: as, b :: bs, h1, h2 => by
    rw [strLess] at h1 h2
    rcases lt_trichotomy a b with hlt | heq | hgt
    · rw [if_pos hlt] at h1; cases h1
    · subst heq
      rw [if_neg (lt_irrefl a), if_neg (lt_irrefl a)] at h1 h2
      rw [strLess_connex as bs h1 h2]
    · rw [if_pos hgt] at h2; cases h2

theorem strLess_trans : ∀ a b c : Str, strLess a b = true → strLess b c = true →
    strLess a c = true
  | [], [], _, h, _ => by simp [strLess] at h
  | [], _ :: _, [], _, h => by simp [strLess] at h
  | [], _ :: _, _ :: _, _, _ => by simp [strLess]
  | _ :: _, [], _, h, _ => by simp [strLess] at h
  | _ :: _, _ :: _, [], _, h => by simp [strLess] at h
  | a :: as, b :: bs, c :: cs, h1, h2 => by
    rw [strLess] at h1 h2 ⊢
    rcases lt_trichotomy a b with hab | hab | hab
    · rcases lt_trichotomy b c with hbc | hbc | hbc
      · rw [if_pos (lt_trans hab hbc)]
      · rw [if_pos (hbc ▸ hab)]
      · rw [if_neg (lt_asymm hbc), if_pos hbc] at h2; cases h2
    · subst hab
      rw [if_neg (lt_irrefl a), if_neg (lt_irrefl a)] at h1
      rcases lt_trichotomy a c with hbc | hbc | hbc
      · rw [if_pos hbc]
      · subst hbc
        rw [if_neg (lt_irrefl a), if_neg (lt_irrefl a)] at h2 ⊢
        exact strLess_trans as bs cs h1 h2
      · rw [if_neg (lt_asymm hbc), if_pos hbc] at h2; cases h2
    · rw [if_neg (lt_asymm hab), if_pos hab] at h1; cases h1

theorem strLess_asymm (a b : Str) (h : strLess a b = true) : strLess b a = false := by
  cases hba : strLess b a with
  | false => rfl
  | true =>
    have := strLess_trans a b a h hba
    rw [strLess_irrefl] at this
    cases this

theorem strLess_total : IsTotal Str (fun a b => strLess b a = false) where
  total := by
    intro a b
    cases h : strLess b a with
    | false => exact Or.inl rfl
    | true => exact Or.inr (strLess_asymm b a h)

theorem strLess_isTrans : IsTrans Str (fun a b => strLess b a = false) where
  trans := by
    intro a b c hab hbc
    cases hca : strLess c a with
    | false => rfl
    | true =>
      cases hab2 : strLess a b with
      | false =>
        have := strLess_connex a b hab2 hab
        subst this
        rw [hca] at hbc
        cases hbc
      | true =>
        have := strLess_trans c a b hca hab2
        rw [this] at hbc
        cases hbc

/-- Sorting with `sort.Strings` puts distinct strings in strictly ascending
order. -/
theorem sortStrings_strict {l : List Str} (h : l.Nodup) :
    (sortStrings l).Sorted (fun a b => strLess a b = true) := by
  haveI := strLess_total
  haveI := strLess_isTrans
  have hs : (sortStrings l).Sorted (fun a b => strLess b a = false) :=
    List.sorted_insertionSort _ l
  have hnd : (sortStrings l).Nodup :=
    (List.perm_insertionSort _ l).nodup_iff.2 h
  have hboth := List.Pairwise.and hs hnd
  refine List.Pairwise.imp ?_ hboth
  intro a b hab
  cases hlt : strLess a b with
  | true => rfl
  | false => exact absurd (strLess_connex a b hlt hab.1) hab.2

theorem mem_sortStrings {l : List Str} {x : Str} : x ∈ sortStrings l ↔ x ∈ l :=
  (List.perm_insertionSort _ l).mem_iff

theorem sortStrings_of_strict {l : List Str}
    (h : l.Sorted (fun a b => strLess a b = true)) : sortStrings l = l := by
  apply List.Sorted.insertionSort_eq
  exact List.Pairwise.imp (fun hab => strLess_asymm _ _ hab) h

theorem strict_nodup {l : List Str} (h : l.Sorted (fun a b => strLess a b = true)) :
    l.Nodup := by
  refine List.Pairwise.imp ?_ h
  intro a b hab heq
  subst heq
  rw [strLess_irrefl] at hab
  cases hab

/-! ## The manifest of a skill -/

theorem trimLeading_cases (p lead : Str) :
    (∃ t, p = lead ++ t ∧ trimLeading p lead = t) ∨
    (lead.isPrefixOf p = false ∧ trimLeading p lead = p) := by
  unfold trimLeading
  by_cases h : lead.isPrefixOf p = true
  · obtain ⟨t, rfl⟩ := List.isPrefixOf_iff_prefix.1 h
    left
    refine ⟨t, rfl, ?_⟩
    rw [if_pos h, List.drop_left]
  · right
    simp only [Bool.not_eq_true] at h
    refine ⟨h, ?_⟩
    rw [if_neg (by simp [h])]

theorem slash_append (a t : Str) : (a ++ "/".toList) ++ t = a ++ '/' :: t := by
  rw [List.append_assoc]
  rfl

/-- A visited path, stripped of the skill directory, is a valid path and
`path.Join(".", _)` leaves it as it is. -/
theorem manifest_entry (skillName : Str) {p : Str} (hp : ValidPath p) :
    ValidPath (trimLeading p (skillName ++ "/".toList)) ∧
    pathJoin ".".toList (trimLeading p (skillName ++ "/".toList)) =
      trimLeading p (skillName ++ "/".toList) := by
  have hvalid : ValidPath (trimLeading p (skillName ++ "/".toList)) := by
    rcases trimLeading_cases p (skillName ++ "/".toList) with ⟨t, hpt, ht⟩ | ⟨_, ht⟩
    · rw [ht]
      intro e he
      apply hp e
      rw [hpt, slash_append, splitSlash_append_slash]
      exact List.mem_append_right _ he
    · rw [ht]; exact hp
  exact ⟨hvalid, pathJoin_dot_of_valid hvalid⟩

theorem root_of_valid_skill {skillName : Str}
    (h : ∀ e ∈ splitSlash skillName, e ≠ [] ∧ e ≠ ".".toList ∧ e ≠ "..".toList) :
    pathJoin skillName ".claude".toList = skillName ++ '/' :: ".claude".toList := by
  have hne : skillName ≠ [] := validPath_ne_nil h
  unfold pathJoin
  rw [if_neg (fun hh => hne hh.1), if_neg hne]
  apply pathClean_of_valid
  intro e he
  rw [splitSlash_append_slash] at he
  rcases List.mem_append.1 he with he | he
  · exact h e he
  · have : splitSlash ".claude".toList = [".claude".toList] := by decide
    rw [this, List.mem_singleton] at he
    subst he
    decide

/-- Distinct visited paths give distinct manifest entries. -/
theorem manifest_injective {templates : TemplateFS} (hwalk : WalkContract templates)
    {skillName : Str} {visited : List Str}
    (hv : templates.walk (pathJoin skillName ".claude".toList) = .files visited) :
    ∀ p1 ∈ visited, ∀ p2 ∈ visited,
      pathJoin ".".toList (trimLeading p1 (skillName ++ "/".toList)) =
        pathJoin ".".toList (trimLeading p2 (skillName ++ "/".toList)) → p1 = p2 := by
  obtain ⟨_, hall⟩ := hwalk skillName visited hv
  have hmixed : ∀ p1 ∈ visited, ∀ p2 ∈ visited, ∀ t,
      p1 = (skillName ++ "/".toList) ++ t → (skillName ++ "/".toList).isPrefixOf p2 = false →
      False := by
    intro p1 hp1 p2 hp2 t hpt hno
    have hvalid1 := (hall p1 hp1).1
    have hskill : ∀ e ∈ splitSlash skillName,
        e ≠ [] ∧ e ≠ ".".toList ∧ e ≠ "..".toList := by
      intro e he
      apply hvalid1 e
      rw [hpt, slash_append, splitSlash_append_slash]
      exact List.mem_append_left _ he
    have hroot := root_of_valid_skill hskill
    have hpre : (skillName ++ "/".toList).isPrefixOf p2 = true := by
      rw [List.isPrefixOf_iff_prefix]
      rcases (hall p2 hp2).2 with h | h
      · rw [h, hroot]
        exact ⟨".claude".toList, by rw [slash_append]⟩
      · obtain ⟨rest, hrest⟩ := List.isPrefixOf_iff_prefix.1 h
        rw [hroot] at hrest
        refine ⟨".claude".toList ++ ("/".toList ++ rest), ?_⟩
        rw [← hrest, slash_append]
        simp
    rw [hpre] at hno
    cases hno
  intro p1 hp1 p2 hp2 heq
  rw [(manifest_entry skillName (hall p1 hp1).1).2,
    (manifest_entry skillName (hall p2 hp2).1).2] at heq
  rcases trimLeading_cases p1 (skillName ++ "/".toList) with ⟨t1, hpt1, ht1⟩ | ⟨hno1, ht1⟩ <;>
  rcases trimLeading_cases p2 (skillName ++ "/".toList) with ⟨t2, hpt2, ht2⟩ | ⟨hno2, ht2⟩
  · rw [ht1, ht2] at heq
    rw [hpt1, hpt2, heq]
  · exact (hmixed p1 hp1 p2 hp2 t1 hpt1 hno2).elim
  · exact (hmixed p2 hp2 p1 hp1 t2 hpt2 hno1).elim
  · rw [ht1, ht2] at heq
    exact heq

/-- The manifest `listSkillFiles` returns is in strictly ascending order. -/
theorem listSkillFiles_strict {templates : TemplateFS} (hwalk : WalkContract templates)
    {skillName : Str} {files : List Str} (h : listSkillFiles templates skillName = .ok files) :
    files.Sorted (fun a b => strLess a b = true) := by
  unfold listSkillFiles at h
  cases hw : templates.walk (pathJoin skillName ".claude".toList) with
  | statError => simp only [hw] at h; cases h
  | walkError => simp only [hw] at h; cases h
  | files visited =>
    simp only [hw, Except.ok.injEq] at h
    rw [← h]
    apply sortStrings_strict
    exact List.Nodup.map_on (manifest_injective hwalk hw) (hwalk skillName visited hw).1

theorem listSkillFiles_statError {templates : TemplateFS} {skillName : Str}
    (h : templates.walk (pathJoin skillName ".claude".toList) = .statError) :
    listSkillFiles templates skillName = .error (.skillNotFound skillName) := by
  unfold listSkillFiles
  simp only [h]

theorem manifest_of_ok {templates : TemplateFS} {skillName : Str} {files : List Str}
    (h : listSkillFiles templates skillName = .ok files) : manifest templates skillName = files := by
  unfold manifest
  rw [h]

/-! ## Owners and conflicts -/

theorem lookupOwner_append (existing : List (Str × Str)) (file skill path : Str) :
    lookupOwner (existing ++ [(file, skill)]) path =
      match lookupOwner existing path with
      | some owner => some owner
      | none => if file = path then some skill else none := by
  unfold lookupOwner
  rw [List.find?_append]
  cases List.find? (fun kv => decide (kv.1 = path)) existing with
  | some kv => rfl
  | none =>
    simp only [Option.none_or, List.find?_cons, List.find?_nil, Option.map_none']
    by_cases h : file = path <;> simp [h]

/-- After the files of a skill are claimed, a path keeps the owner it had and
otherwise gets the skill when it is one of the files. -/
theorem lookupOwner_claimFiles (skill path : Str) :
    ∀ (files : List Str) (existing : List (Str × Str)),
      lookupOwner (claimFiles files skill existing) path =
        match lookupOwner existing path with
        | some owner => some owner
        | none => if path ∈ files then some skill else none := by
  intro files
  induction files with
  | nil =>
    intro existing
    rw [claimFiles]
    cases lookupOwner existing path <;> simp
  | cons file rest ih =>
    intro existing
    rw [claimFiles]
    cases hfile : lookupOwner existing file with
    | some o =>
      dsimp only
      rw [ih existing]
      cases hpath : lookupOwner existing path with
      | some o2 => rfl
      | none =>
        dsimp only
        have hne : path ≠ file := by
          intro h
          rw [h, hfile] at hpath
          cases hpath
        simp [hne]
    | none =>
      dsimp only
      rw [ih, lookupOwner_append]
      cases hpath : lookupOwner existing path with
      | some o2 => rfl
      | none =>
        dsimp only
        by_cases h : file = path
        · simp [h]
        · have h2 : ¬ path = file := fun e => h e.symm
          simp [h, h2]

theorem firstOwner_cons (templates : TemplateFS) (id : Str) (rest : List Str) (path : Str) :
    firstOwner templates (id :: rest) path =
      if path ∈ manifest templates id then some id else firstOwner templates rest path := by
  unfold firstOwner
  rw [List.find?_cons]
  by_cases h : path ∈ manifest templates id <;> simp [h]

/-- When every installed manifest can be read, the first loop of
`DetectConflicts` returns a map that gives each path its first owner. -/
theorem collectExisting_owner (templates : TemplateFS) :
    ∀ (installed : List Str) (acc : List (Str × Str)),
      (∀ id ∈ installed, ∃ files, listSkillFiles templates id = .ok files) →
      ∃ existing, collectExisting templates installed acc = .ok existing ∧
        ∀ path, lookupOwner existing path =
          match lookupOwner acc path with
          | some owner => some owner
          | none => firstOwner templates installed path := by
  intro installed
  induction installed with
  | nil =>
    intro acc _
    refine ⟨acc, rfl, fun path => ?_⟩
    cases lookupOwner acc path <;> rfl
  | cons id rest ih =>
    intro acc hread
    obtain ⟨files, hfiles⟩ := hread id (List.mem_cons_self _ _)
    obtain ⟨existing, hrun, hown⟩ := ih (claimFiles files id acc)
      (fun id1 h1 => hread id1 (List.mem_cons_of_mem _ h1))
    refine ⟨existing, ?_, fun path => ?_⟩
    · rw [collectExisting, hfiles]
      exact hrun
    · rw [hown path, lookupOwner_claimFiles, firstOwner_cons, manifest_of_ok hfiles]
      cases lookupOwner acc path with
      | some o => rfl
      | none =>
        dsimp only
        by_cases h : path ∈ files <;> simp [h]

/-- The first loop of `DetectConflicts` fails when an installed id has no
`.claude` tree. -/
theorem collectExisting_error (templates : TemplateFS) :
    ∀ (installed : List Str) (acc : List (Str × Str)),
      (∃ id ∈ installed, templates.walk (pathJoin id ".claude".toList) = .statError) →
      ∃ e, collectExisting templates installed acc = .error e := by
  intro installed
  induction installed with
  | nil => intro acc h; obtain ⟨id, hid, _⟩ := h; simp at hid
  | cons id rest ih =>
    intro acc h
    rw [collectExisting]
    cases hfiles : listSkillFiles templates id with
    | error e => exact ⟨e, rfl⟩
    | ok files =>
      dsimp only
      apply ih
      obtain ⟨id1, hid1, hstat⟩ := h
      rcases List.mem_cons.1 hid1 with rfl | hid1
      · rw [listSkillFiles_statError hstat] at hfiles
        cases hfiles
      · exact ⟨id1, hid1, hstat⟩

theorem newConflicts_eq (existing : List (Str × Str)) (newSkill : Str) :
    ∀ files : List Str, newConflicts existing newSkill files =
      files.filterMap fun path =>
        (lookupOwner existing path).map fun owner =>
          { Path := path, ExistingSkill := owner, NewSkill := newSkill,
            Severity := "warn".toList }
  | [] => rfl
  | file :: rest => by
    rw [newConflicts, List.filterMap_cons]
    cases lookupOwner existing file with
    | some o =>
      dsimp only [Option.map_some']
      rw [newConflicts_eq existing newSkill rest]
    | none =>
      dsimp only [Option.map_none']
      rw [newConflicts_eq existing newSkill rest]

/-- The paths of the reference conflicts are the paths of the new manifest
that have an owner, in the order of the manifest. -/
theorem referenceConflicts_paths (templates : TemplateFS) (installed : List Str)
    (newSkill : Str) :
    (referenceConflicts templates installed newSkill).map (fun c => c.Path) =
      (manifest templates newSkill).filter
        (fun path => (firstOwner templates installed path).isSome) := by
  unfold referenceConflicts
  induction manifest templates newSkill with
  | nil => rfl
  | cons path rest ih =>
    rw [List.filterMap_cons, List.filter_cons]
    cases firstOwner templates installed path with
    | some o =>
      simp only [Option.map_some', List.map_cons, Option.isSome_some, if_true]
      rw [ih]
    | none =>
      simp only [Option.map_none', Option.isSome_none, Bool.false_eq_true, if_false]
      rw [ih]

theorem firstOwner_isSome (templates : TemplateFS) (installed : List Str) (path : Str) :
    (firstOwner templates installed path).isSome = true ↔
      ∃ id ∈ installed, path ∈ manifest templates id := by
  unfold firstOwner
  rw [List.find?_isSome]
  simp

theorem sortConflicts_of_strict {conflicts : List Conflict}
    (h : (conflicts.map (fun c => c.Path)).Sorted (fun a b => strLess a b = true)) :
    sortConflicts conflicts = conflicts := by
  apply List.Sorted.insertionSort_eq
  have := List.pairwise_map.1 h
  exact List.Pairwise.imp (fun hab => strLess_asymm _ _ hab) this

/-- When the manifests can be read, `DetectConflicts` returns the reference
conflicts, and their paths are in strictly ascending order. -/
theorem detectConflicts_ok {templates : TemplateFS} (hwalk : WalkContract templates)
    {installed : List Str} {newSkill : Str} (hnew : newSkill ≠ [])
    (hread : ∀ id ∈ newSkill :: installed, ∃ files, listSkillFiles templates id = .ok files) :
    DetectConflicts templates installed newSkill =
      .ok (referenceConflicts templates installed newSkill) ∧
    ((referenceConflicts templates installed newSkill).map (fun c => c.Path)).Sorted
      (fun a b => strLess a b = true) := by
  obtain ⟨newFiles, hfiles⟩ := hread newSkill (List.mem_cons_self _ _)
  obtain ⟨existing, hrun, hown⟩ := collectExisting_owner templates installed []
    (fun id hid => hread id (List.mem_cons_of_mem _ hid))
  have hsorted : ((referenceConflicts templates installed newSkill).map
      (fun c => c.Path)).Sorted (fun a b => strLess a b = true) := by
    rw [referenceConflicts_paths, manifest_of_ok hfiles]
    exact List.Pairwise.sublist (List.filter_sublist _) (listSkillFiles_strict hwalk hfiles)
  refine ⟨?_, hsorted⟩
  unfold DetectConflicts
  rw [if_neg hnew, hrun]
  dsimp only
  rw [hfiles]
  dsimp only
  have hsame : newConflicts existing newSkill newFiles =
      referenceConflicts templates installed newSkill := by
    rw [newConflicts_eq]
    unfold referenceConflicts
    rw [manifest_of_ok hfiles]
    apply List.filterMap_congr
    intro path _
    rw [hown path]
    rfl
  rw [hsame, sortConflicts_of_strict hsorted]

/-- C18. Conflict detection equals its reference definition: when the walks
of the package source visit every file once under a valid path below the root,
the new id is not empty and every manifest can be read, `DetectConflicts`
returns exactly one `Conflict` for each path of the manifest of the new skill
that is in the manifest of some installed id, with the first such id of the
installed list as the existing skill, the new id as the new skill and the
severity `warn`, in strictly ascending order of the paths; the paths are the
same for every reordering of the installed list. The call fails when the new id
is empty or one of the skills has no `.claude` tree. -/
theorem conflict_detection_reference (templates : TemplateFS) (installed : List Str)
    (newSkill : Str) :
    (WalkContract templates → newSkill ≠ [] →
      (∀ id ∈ newSkill :: installed, ∃ files, listSkillFiles templates id = .ok files) →
      DetectConflicts templates installed newSkill =
        .ok (referenceConflicts templates installed newSkill) ∧
      ((referenceConflicts templates installed newSkill).map (fun c => c.Path)).Sorted
        (fun a b => strLess a b = true) ∧
      (∀ path, path ∈ (referenceConflicts templates installed newSkill).map (fun c => c.Path) ↔
        path ∈ manifest templates newSkill ∧ ∃ id ∈ installed, path ∈ manifest templates id) ∧
      ∀ installed2 : List Str, installed2.Perm installed →
        ∃ conflicts2, DetectConflicts templates installed2 newSkill = .ok conflicts2 ∧
          conflicts2.map (fun c => c.Path) =
            (referenceConflicts templates installed newSkill).map (fun c => c.Path)) ∧
    DetectConflicts templates installed [] = .error .newSkillRequired ∧
    ((∃ id ∈ newSkill :: installed,
        templates.walk (pathJoin id ".claude".toList) = .statError) →
      ∃ e, DetectConflicts templates installed newSkill = .error e) := by
  refine ⟨?_, rfl, ?_⟩
  · intro hwalk hnew hread
    obtain ⟨hrun, hsorted⟩ := detectConflicts_ok hwalk hnew hread
    refine ⟨hrun, hsorted, ?_, ?_⟩
    · intro path
      rw [referenceConflicts_paths, List.mem_filter, firstOwner_isSome]
    · intro installed2 hperm
      have hread2 : ∀ id ∈ newSkill :: installed2,
          ∃ files, listSkillFiles templates id = .ok files := by
        intro id hid
        apply hread id
        rcases List.mem_cons.1 hid with h | h
        · rw [h]; exact List.mem_cons_self _ _
        · exact List.mem_cons_of_mem _ (hperm.mem_iff.1 h)
      refine ⟨_, (detectConflicts_ok hwalk hnew hread2).1, ?_⟩
      rw [referenceConflicts_paths, referenceConflicts_paths]
      apply List.filter_congr
      intro path _
      rw [Bool.eq_iff_iff, firstOwner_isSome, firstOwner_isSome]
      constructor
      · rintro ⟨id, hid, hp⟩
        exact ⟨id, hperm.mem_iff.1 hid, hp⟩
      · rintro ⟨id, hid, hp⟩
        exact ⟨id, hperm.mem_iff.2 hid, hp⟩
  · rintro ⟨id, hid, hstat⟩
    unfold DetectConflicts
    by_cases hnew : newSkill = []
    · rw [if_pos hnew]
      exact ⟨_, rfl⟩
    · rw [if_neg hnew]
      cases hrun : collectExisting templates installed [] with
      | error e => exact ⟨e, rfl⟩
      | ok existing =>
        dsimp only
        rcases List.mem_cons.1 hid with h | h
        · rw [h] at hstat
          rw [listSkillFiles_statError hstat]
          exact ⟨_, rfl⟩
        · obtain ⟨e, he⟩ := collectExisting_error templates installed [] ⟨id, h, hstat⟩
          rw [he] at hrun
          cases hrun

/-- The example package source keeps the contract of the walks. -/
theorem exampleTemplates_contract : WalkContract exampleTemplates := by
  intro skillName visited h
  unfold exampleTemplates at h
  simp only at h
  split_ifs at h with h1 h2
  · simp only [Walk.files.injEq] at h
    subst h
    rw [h1]
    decide
  · simp only [Walk.files.injEq] at h
    subst h
    rw [h2]
    decide

/-- C18 (witness): the package source of `TestDetectConflicts`, with `skill-a`
installed and `skill-b` new, gives the one conflict on `.claude/CLAUDE.md`. -/
theorem spec_scenario_detect_conflicts :
    DetectConflicts exampleTemplates ["skill-a".toList] "skill-b".toList =
      .ok [{ Path := ".claude/CLAUDE.md".toList, ExistingSkill := "skill-a".toList,
             NewSkill := "skill-b".toList, Severity := "warn".toList }] ∧
    ∃ e, DetectConflicts exampleTemplates ["skill-a".toList] "skill-c".toList = .error e :=
  ⟨((conflict_detection_reference exampleTemplates ["skill-a".toList] "skill-b".toList).1
      exampleTemplates_contract (by decide)
      (by
        intro id hid
        simp only [List.mem_cons, List.mem_singleton, List.not_mem_nil, or_false] at hid
        rcases hid with rfl | rfl
        · exact ⟨_, rfl⟩
        · exact ⟨_, rfl⟩)).1,
    (conflict_detection_reference exampleTemplates ["skill-a".toList] "skill-c".toList).2.2
      ⟨"skill-c".toList, List.mem_cons_self _ _, by decide⟩⟩

/-- C19 (evaluation). A reinstall: `skill-a` is in the installed list, as
`installedSkillIDs` gives it, and is the new skill. `DetectConflicts` reports
its file `.claude/CLAUDE.md` as a conflict of `skill-a` with `skill-a`. -/
theorem reinstall_conflicts_with_itself :
    installedSkillIDs ["skill-a".toList] = ["skill-a".toList] ∧
    DetectConflicts exampleTemplates (installedSkillIDs ["skill-a".toList]) "skill-a".toList =
      .ok [{ Path := ".claude/CLAUDE.md".toList, ExistingSkill := "skill-a".toList,
             NewSkill := "skill-a".toList, Severity := "warn".toList }] ∧
    DetectConflicts exampleTemplates ["skill-a".toList, "skill-b".toList] "skill-b".toList =
      .ok [{ Path := ".claude/CLAUDE.md".toList, ExistingSkill := "skill-a".toList,
             NewSkill := "skill-b".toList, Severity := "warn".toList },
           { Path := ".claude/commands/test.md".toList, ExistingSkill := "skill-b".toList,
             NewSkill := "skill-b".toList, Severity := "warn".toList }] :=
  ⟨by decide, rfl, rfl⟩

/-! ## Lookup and listing in the registry -/

theorem strLess_antisymm : IsAntisymm Str (fun a b => strLess b a = false) where
  antisymm := fun a b hab hba => strLess_connex a b hba hab

/-- The result of `sort.Strings` depends only on the strings sorted, not on
their order. -/
theorem sortStrings_perm {l1 l2 : List Str} (h : l1.Perm l2) :
    sortStrings l1 = sortStrings l2 := by
  haveI := strLess_total
  haveI := strLess_isTrans
  haveI := strLess_antisymm
  apply List.eq_of_perm_of_sorted (r := fun a b => strLess b a = false)
  · exact ((List.perm_insertionSort _ l1).trans h).trans (List.perm_insertionSort _ l2).symm
  · exact List.sorted_insertionSort _ l1
  · exact List.sorted_insertionSort _ l2

/-- The listing does not depend on the order in which the map is visited. -/
theorem registry_list_order_independent (ord : RangeOrder) (reg : Registry) :
    reg.List ord = reg.List RangeOrder.stored := by
  unfold Registry.List
  rw [sortStrings_perm (ord.perm 6 (reg.skills.map Prod.fst))]
  rfl

/-- C20 (evaluation). `Load` stores each descriptor under its name. In the
registry it builds from the directories `beta` (name `Beta`) and `zeta` (name
`Alpha`) the descriptor with the id `zeta` is not found by `Get` under its id,
and `List` returns the ids in the order `zeta`, `beta`, which is descending. -/
theorem load_keys_break_get_and_list :
    Load zetaUnmarshal (some misnamedSource) =
      some { skills := [("Beta".toList, namedSkill "beta".toList "Beta".toList []),
        ("Alpha".toList, namedSkill "zeta".toList "Alpha".toList [])] } ∧
    (∀ reg ∈ Load zetaUnmarshal (some misnamedSource),
      (∃ kv ∈ reg.skills, kv.2.ID = "zeta".toList) ∧ reg.Get "zeta".toList = none ∧
      ∀ ord : RangeOrder, (reg.List ord).map (fun d => d.ID) = ["zeta".toList, "beta".toList]) ∧
    strLess "beta".toList "zeta".toList = true := by
  refine ⟨by decide, ?_, by decide⟩
  intro reg hreg
  have h : Load zetaUnmarshal (some misnamedSource) =
      some { skills := [("Beta".toList, namedSkill "beta".toList "Beta".toList []),
        ("Alpha".toList, namedSkill "zeta".toList "Alpha".toList [])] } := by decide
  rw [h] at hreg
  simp only [Option.mem_def, Option.some.injEq] at hreg
  subst hreg
  refine ⟨⟨_, List.mem_cons_of_mem _ (List.mem_cons_self _ _), rfl⟩, by decide, ?_⟩
  intro ord
  rw [registry_list_order_independent]
  decide

/-! ## Lines and newlines -/

theorem splitLines_newline (cs : Str) : splitLines ('\n' :: cs) = [] :: splitLines cs := by
  rw [splitLines, if_pos rfl]

theorem splitLines_cons_of_ne {c : Char} (hc : c ≠ '\n') {cs l : Str} {ls : List Str}
    (h : splitLines cs = l :: ls) : splitLines (c :: cs) = (c :: l) :: ls := by
  rw [splitLines, if_neg hc, h]

theorem splitLines_append_newline (a b : Str) :
    splitLines (a ++ '\n' :: b) = splitLines a ++ splitLines b := by
  induction a with
  | nil => rw [List.nil_append, splitLines_newline]; rfl
  | cons c a ih =>
    by_cases hc : c = '\n'
    · subst hc
      rw [List.cons_append, splitLines_newline, splitLines_newline, ih, List.cons_append]
    · cases ha : splitLines a with
      | nil => exact absurd ha (splitLines_ne_nil a)
      | cons l ls =>
        have hrest : splitLines (a ++ '\n' :: b) = l :: (ls ++ splitLines b) := by
          rw [ih, ha, List.cons_append]
        rw [List.cons_append, splitLines_cons_of_ne hc hrest, splitLines_cons_of_ne hc ha,
          List.cons_append]

theorem no_newline_of_mem_splitLines : ∀ (s : Str) (l : Str), l ∈ splitLines s → '\n' ∉ l
  | [], l, h => by
    simp only [splitLines, List.mem_singleton] at h
    subst h
    simp
  | c :: cs, l, h => by
    by_cases hc : c = '\n'
    · subst hc
      rw [splitLines_newline, List.mem_cons] at h
      rcases h with rfl | h
      · simp
      · exact no_newline_of_mem_splitLines cs l h
    · cases hs : splitLines cs with
      | nil => exact absurd hs (splitLines_ne_nil cs)
      | cons l1 ls =>
        rw [splitLines_cons_of_ne hc hs, List.mem_cons] at h
        rcases h with rfl | h
        · have := no_newline_of_mem_splitLines cs l1 (by rw [hs]; simp)
          intro hm
          rcases List.mem_cons.1 hm with heq | hm
          · exact hc heq.symm
          · exact this hm
        · exact no_newline_of_mem_splitLines cs l (by rw [hs]; exact List.mem_cons_of_mem _ h)

theorem splitLines_of_no_newline : ∀ (l : Str), '\n' ∉ l → splitLines l = [l]
  | [], _ => rfl
  | c :: cs, h => by
    have hc : c ≠ '\n' := fun hc => h (by rw [hc]; simp)
    have hcs : '\n' ∉ cs := fun hm => h (List.mem_cons_of_mem _ hm)
    exact splitLines_cons_of_ne hc (splitLines_of_no_newline cs hcs)

/-- Splitting the join of lines without newlines gives the lines back. -/
theorem splitLines_joinLines : ∀ (ls : List Str), ls ≠ [] → (∀ l ∈ ls, '\n' ∉ l) →
    splitLines (joinLines ls) = ls
  | [], h, _ => absurd rfl h
  | [l], _, hl => by
    simp only [joinLines]
    exact splitLines_of_no_newline l (hl l (by simp))
  | l :: l2 :: ls, _, hl => by
    rw [joinLines_cons_of_ne_nil l (by simp), splitLines_append_newline,
      splitLines_of_no_newline l (hl l (by simp)),
      splitLines_joinLines (l2 :: ls) (by simp) (fun x hx => hl x (List.mem_cons_of_mem _ hx))]
    rfl

theorem joinLines_eq_nil : ∀ {ls : List Str}, joinLines ls = [] → ls = [] ∨ ls = [[]]
  | [], _ => Or.inl rfl
  | [l], h => by
    simp only [joinLines] at h
    right; rw [h]
  | l :: l2 :: ls, h => by
    rw [joinLines_cons_of_ne_nil l (by simp)] at h
    simp at h

/-! ## Well-formed index and the round trip of a scaffold -/

/-- The line on which a section starts is a heading with the level of the section
whose anchor is the anchor of the section. -/
theorem section_heading {lines : List Str} {s : mdSection}
    (h : s ∈ parseMarkdownSections lines) :
    ∃ line text, lines.get? s.start = some line ∧ parseHeading line = some (s.level, text) ∧
      anchorFromHeading text = s.anchor := by
  obtain ⟨pre, g, later, hall, rfl⟩ := parseMarkdownSections_cut lines s h
  have hg : g ∈ collectHeadings 0 lines := by rw [hall]; simp
  obtain ⟨_, line, hline, hh⟩ := (mem_collectHeadings lines 0 g).1 hg
  obtain ⟨_, text, hp, hta⟩ := (indexedHeading_iff line g.level g.anchor).1 hh
  exact ⟨line, text, by simpa using hline, hp, hta⟩

/-- C30. Section index well-formedness: every section of the index of a line
buffer has `start < end <= len(lines)`, its start line parses as a heading with
the level of the section whose slug is the anchor of the section, and two sections
of the index are disjoint or one lies inside the other. -/
theorem section_index_well_formed (lines : List Str) :
    (∀ s ∈ parseMarkdownSections lines,
      0 ≤ s.start ∧ s.start < s.end_ ∧ s.end_ ≤ lines.length ∧
      ∃ line text, lines.get? s.start = some line ∧
        parseHeading line = some (s.level, text) ∧ anchorFromHeading text = s.anchor) ∧
    ∀ s ∈ parseMarkdownSections lines, ∀ t ∈ parseMarkdownSections lines,
      (s.end_ ≤ t.start ∨ t.end_ ≤ s.start) ∨
      (s.start ≤ t.start ∧ t.end_ ≤ s.end_) ∨ (t.start ≤ s.start ∧ s.end_ ≤ t.end_) := by
  refine ⟨fun s hs => ?_, fun s hs t ht => ?_⟩
  · have hb := section_bounds hs
    exact ⟨Nat.zero_le _, hb.1, hb.2, section_heading hs⟩
  · rcases sections_laminar hs ht with h | h | h | h | h
    · right; left
      rw [h]
      exact ⟨le_refl _, le_refl _⟩
    · left; left; exact h
    · left; right; exact h
    · right; left; exact ⟨le_of_lt h.1, h.2⟩
    · right; right; exact ⟨le_of_lt h.1, h.2⟩

theorem extractSectionBody_of_section {content a : Str} {s : mdSection}
    (h : lookupSection (sectionIndex content) a = some s) :
    ExtractSectionBody content a =
      .ok (joinLines (linesBetween (splitLines content) (s.start + 1) s.end_)) := by
  unfold sectionIndex at h
  have hb := section_bounds (lookupSection_some h).1
  unfold ExtractSectionBody
  simp only [h, ge_iff_le]
  by_cases hle : s.end_ ≤ s.start + 1
  · have hz : s.end_ - (s.start + 1) = 0 := by omega
    simp [hle, linesBetween, hz, joinLines]
  · simp [hle, hb.2, linesBetween]

/-- An override with headings none of which has an allowed anchor leaves the
file system as it is. -/
theorem no_selected_section_no_write (ord : RangeOrder) (fs : FS)
    (targetPath base override a : Str)
    (hread : readFileFromRoot fs targetPath = some base)
    (hhead : sectionIndex override ≠ [])
    (hnone : lookupSection (sectionIndex override) a = none) :
    applySectionOverrides ord fs targetPath override [a] = (.ok, fs) := by
  unfold sectionIndex at hhead hnone
  have hno : ∀ s ∈ ord.shuffle 1 (parseMarkdownSections (splitLines override)),
      ¬ s.anchor ∈ [a] := by
    intro s hs hmem
    rw [List.mem_singleton] at hmem
    exact lookupSection_none hnone s ((shuffle_mem ord 1 _ s).1 hs) hmem
  have hsel : selected [a] (ord.shuffle 1 (parseMarkdownSections (splitLines override))) = [] := by
    unfold selected
    rw [List.filter_eq_nil_iff]
    intro s hs
    simpa using hno s hs
  have hbuild : buildReplacements ord targetPath (splitLines base) (splitLines override) [a] =
      .ok [] := by
    rw [buildReplacements_with_headings ord targetPath [a] hhead,
      collectReplacements_ok targetPath _ _ [a] _ [] (override_bounds ord 1)
        (fun s hs hmem => absurd hmem (hno s hs)), hsel]
    rfl
  unfold applySectionOverrides
  simp only [hread, hbuild, List.length_nil, if_true]

theorem reassemble_section {lines : List Str} {i j : Nat} {heading : Str}
    (hget : lines.get? i = some heading) (hij : i < j) :
    lines.take i ++ (([heading] ++ linesBetween lines (i + 1) j) ++ lines.drop j) = lines := by
  have hdrop : lines.drop i = heading :: lines.drop (i + 1) := by
    rw [List.get?_eq_some] at hget
    obtain ⟨hlt, hval⟩ := hget
    rw [List.drop_eq_getElem_cons hlt]
    simp only [List.get_eq_getElem] at hval
    rw [hval]
  have hrest : linesBetween lines (i + 1) j ++ lines.drop j = lines.drop (i + 1) := by
    unfold linesBetween
    have hj : lines.drop j = (lines.drop (i + 1)).drop (j - (i + 1)) := by
      rw [List.drop_drop]
      congr 1
      omega
    rw [hj, List.take_append_drop]
  rw [List.append_assoc, hrest, List.singleton_append, ← hdrop, List.take_append_drop]

/-- C29 (counterexample). Two bases for which the unedited scaffold changes
the file. In `## A`, (empty line), `## B`, `b` the body of `a` is one empty
line; the scaffold is the empty text and applying it drops that line. In
`## A`, `### A`, `x` the body of `a` holds a heading with the anchor `a`;
applying the scaffold replaces the whole section by that sub-section, so the
heading `## A` is lost. -/
theorem unedited_scaffold_changes_file :
    ExtractSectionBody blankBodyBase "a".toList = .ok [] ∧
    (applySectionOverrides RangeOrder.stored (exampleFS blankBodyBase) exampleTarget []
      ["a".toList]).2.files exampleTarget = some "## A\n## B\nb".toList ∧
    ExtractSectionBody echoBase "a".toList = .ok "### A\nx".toList ∧
    (applySectionOverrides RangeOrder.stored (exampleFS echoBase) exampleTarget
      "### A\nx".toList ["a".toList]).2.files exampleTarget = some "### A\nx".toList :=
  ⟨rfl, by decide, rfl, by decide⟩

/-- C29 (amended). Scaffold round trip: when the anchor is in the index of the
base, the body of its section is not one empty line and no heading inside the
body has the anchor itself, applying `ExtractSectionBody(base, anchor)` as the
override for that one allowed anchor either writes nothing or writes the base
back, so every file reads as before. -/
theorem scaffold_round_trip (ord : RangeOrder) (fs : FS) (targetPath base a : Str)
    (s : mdSection) (hread : readFileFromRoot fs targetPath = some base)
    (hsec : lookupSection (sectionIndex base) a = some s)
    (hblank : linesBetween (splitLines base) (s.start + 1) s.end_ ≠ [[]])
    (hecho : lookupSection
      (sectionIndex (joinLines (linesBetween (splitLines base) (s.start + 1) s.end_))) a = none) :
    ∃ body, ExtractSectionBody base a = .ok body ∧
      (applySectionOverrides ord fs targetPath body [a] = (.ok, fs) ∨
        applySectionOverrides ord fs targetPath body [a] = writeFile fs targetPath base) ∧
      ∀ q, (applySectionOverrides ord fs targetPath body [a]).2.files q = fs.files q := by
  have hb := section_bounds (lookupSection_some hsec).1
  have hcases : applySectionOverrides ord fs targetPath
        (joinLines (linesBetween (splitLines base) (s.start + 1) s.end_)) [a] = (.ok, fs) ∨
      applySectionOverrides ord fs targetPath
        (joinLines (linesBetween (splitLines base) (s.start + 1) s.end_)) [a] =
        writeFile fs targetPath base := by
    by_cases hhead : sectionIndex (joinLines (linesBetween (splitLines base) (s.start + 1)
        s.end_)) = []
    · right
      obtain ⟨heading, hget, hrun⟩ := without_headings_writes ord fs targetPath base
        (joinLines (linesBetween (splitLines base) (s.start + 1) s.end_)) a s hread hhead hsec
      rw [hrun]
      have hlines : (if joinLines (linesBetween (splitLines base) (s.start + 1) s.end_) ≠ []
          then [heading] ++
            splitLines (joinLines (linesBetween (splitLines base) (s.start + 1) s.end_))
          else [heading]) =
          [heading] ++ linesBetween (splitLines base) (s.start + 1) s.end_ := by
        by_cases hbody : joinLines (linesBetween (splitLines base) (s.start + 1) s.end_) = []
        · rw [if_neg (not_not.2 hbody)]
          rcases joinLines_eq_nil hbody with h | h
          · rw [h, List.append_nil]
          · exact absurd h hblank
        · rw [if_pos hbody]
          have hne : linesBetween (splitLines base) (s.start + 1) s.end_ ≠ [] := by
            intro h
            rw [h] at hbody
            exact hbody rfl
          rw [splitLines_joinLines _ hne]
          intro l hl
          apply no_newline_of_mem_splitLines base l
          unfold linesBetween at hl
          exact List.mem_of_mem_drop (List.mem_of_mem_take hl)
      rw [hlines, reassemble_section hget hb.1, joinLines_splitLines]
    · left
      exact no_selected_section_no_write ord fs targetPath base _ a hread hhead hecho
  refine ⟨_, extractSectionBody_of_section hsec, hcases, ?_⟩
  intro q
  rcases hcases with h | h
  · rw [h]
  · rw [h]
    unfold writeFile
    split_ifs with hw
    · by_cases hq : q = targetPath
      · simp only [hq, if_true]
        unfold readFileFromRoot at hread
        rw [hread]
      · simp only [hq, if_false]
    · rfl

/-- C29 (witness): the section `repo-specific-rules` of the example base. -/
theorem spec_scenario_scaffold :
    ∃ body, ExtractSectionBody exampleBase "repo-specific-rules".toList = .ok body ∧
      (applySectionOverrides RangeOrder.stored (exampleFS exampleBase) exampleTarget body
          ["repo-specific-rules".toList] = (.ok, exampleFS exampleBase) ∨
        applySectionOverrides RangeOrder.stored (exampleFS exampleBase) exampleTarget body
          ["repo-specific-rules".toList] =
          writeFile (exampleFS exampleBase) exampleTarget exampleBase) ∧
      ∀ q, (applySectionOverrides RangeOrder.stored (exampleFS exampleBase) exampleTarget body
        ["repo-specific-rules".toList]).2.files q = (exampleFS exampleBase).files q :=
  scaffold_round_trip RangeOrder.stored (exampleFS exampleBase) exampleTarget exampleBase
    "repo-specific-rules".toList
    { anchor := "repo-specific-rules".toList, level := 2, start := 1, end_ := 3 }
    (by decide) (by decide) (by decide) (by decide)

/-! ## The splice on nested and on sibling sections -/

/-- C27 (evaluation). The base `# A`, `## B`, `b1`, `b2`, `b3` has the section
`b` inside the section `a`, both ending at line 5. The override `# A`,
`## B` replaces `b` by one line, which leaves a file of two lines; the splice
for `a` then slices the file at the old end 5 and the call panics, whatever
the order in which the maps are visited. -/
theorem nested_shrink_panics :
    sectionIndex shrinkBase =
      [{ anchor := "a".toList, level := 1, start := 0, end_ := 5 },
       { anchor := "b".toList, level := 2, start := 1, end_ := 5 }] ∧
    ∀ ord : RangeOrder,
      (applySectionOverrides ord (exampleFS shrinkBase) exampleTarget shrinkOverride
        ["a".toList, "b".toList]).1 = .panic := by
  refine ⟨by decide, fun ord => ?_⟩
  have hstored : (applySectionOverrides RangeOrder.stored (exampleFS shrinkBase) exampleTarget
      shrinkOverride ["a".toList, "b".toList]).1 = .panic := by decide
  rcases (applySectionOverrides_order ord RangeOrder.stored (exampleFS shrinkBase) exampleTarget
    shrinkOverride ["a".toList, "b".toList]).2 with h | ⟨e1, e2, _, h2⟩
  · rw [h, hstored]
  · rw [hstored] at h2
    cases h2

/-- C28 (evaluation). The base `## A`, `a`, `## B`, `b`, `# T` has the sibling sections
`a` and `b`. With the override that lists `a` before `b` the call
writes `## A`, `A2`, `## B`, `B2`, `# T`; with the override that lists `b`
before `a` it writes `# T`, `A2`, `## B`, `B2`, `# T`: the heading of `a` is
overwritten by the base tail that the splice for `b` appended to the override
slice. -/
theorem sibling_order_changes_output :
    ∀ ord : RangeOrder,
      (applySectionOverrides ord (exampleFS siblingBase) exampleTarget orderedOverride
        ["a".toList, "b".toList]).2.files exampleTarget =
        some "## A\nA2\n## B\nB2\n# T".toList ∧
      (applySectionOverrides ord (exampleFS siblingBase) exampleTarget siblingOverride
        ["a".toList, "b".toList]).2.files exampleTarget =
        some "# T\nA2\n## B\nB2\n# T".toList := by
  intro ord
  rw [(applySectionOverrides_order ord RangeOrder.stored (exampleFS siblingBase) exampleTarget
      orderedOverride ["a".toList, "b".toList]).1,
    (applySectionOverrides_order ord RangeOrder.stored (exampleFS siblingBase) exampleTarget
      siblingOverride ["a".toList, "b".toList]).1]
  exact ⟨by decide, by decide⟩

/-! ## Loading descriptors and discovery -/

/-- C23. Required descriptor fields: `LoadMetadata` succeeds exactly when
`skill.json` can be read, `json.Unmarshal` accepts it, and none of id, name,
type, version, description and repo_types is empty; it then returns the
descriptor `json.Unmarshal` produced. In every other case it fails: with the
read error, the unmarshal error, or the error that names the first empty
field. Only the one file enters the result. -/
theorem loadMetadata_required_fields (unmarshal : Str → Option Metadata) (file : Option Str) :
    (∀ meta, LoadMetadata unmarshal file = .ok meta ↔
      (∃ data, file = some data ∧ unmarshal data = some meta) ∧
      meta.ID ≠ [] ∧ meta.Name ≠ [] ∧ meta.Type_ ≠ [] ∧ meta.Version ≠ [] ∧
      meta.Description ≠ [] ∧ meta.RepoTypes ≠ []) ∧
    (file = none → LoadMetadata unmarshal file = .error .read) ∧
    (∀ data, file = some data → unmarshal data = none →
      LoadMetadata unmarshal file = .error .unmarshal) ∧
    (∀ data meta, file = some data → unmarshal data = some meta →
      (meta.ID = [] ∨ meta.Name = [] ∨ meta.Type_ = [] ∨ meta.Version = [] ∨
        meta.Description = [] ∨ meta.RepoTypes = []) →
      ∃ field, LoadMetadata unmarshal file = .error (.required field)) := by
  refine ⟨?_, ?_, ?_, ?_⟩
  · intro meta
    cases file with
    | none => simp [LoadMetadata]
    | some data =>
      cases hu : unmarshal data with
      | none => simp [LoadMetadata, hu]
      | some m =>
        simp only [LoadMetadata, hu, Option.some.injEq, exists_eq_left', List.length_eq_zero]
        constructor
        · intro h
          split_ifs at h with h1 h2 h3 h4 h5 h6
          simp only [Except.ok.injEq] at h
          subst h
          exact ⟨rfl, h1, h2, h3, h4, h5, h6⟩
        · rintro ⟨rfl, h1, h2, h3, h4, h5, h6⟩
          rw [if_neg h1, if_neg h2, if_neg h3, if_neg h4, if_neg h5, if_neg h6]
  · rintro rfl
    rfl
  · rintro data rfl hu
    simp [LoadMetadata, hu]
  · rintro data meta rfl hu hempty
    simp only [LoadMetadata, hu, List.length_eq_zero]
    split_ifs with h1 h2 h3 h4 h5 h6
    · exact ⟨_, rfl⟩
    · exact ⟨_, rfl⟩
    · exact ⟨_, rfl⟩
    · exact ⟨_, rfl⟩
    · exact ⟨_, rfl⟩
    · exact ⟨_, rfl⟩
    · rcases hempty with h | h | h | h | h | h
      · exact absurd h h1
      · exact absurd h h2
      · exact absurd h h3
      · exact absurd h h4
      · exact absurd h h5
      · exact absurd h h6

/-- C23 (witness): the document of the directory `alpha` loads and an absent
file does not. -/
theorem spec_scenario_load_metadata :
    LoadMetadata exampleUnmarshal (some alphaJson) =
      .ok (namedSkill "alpha".toList "Alpha".toList []) ∧
    LoadMetadata exampleUnmarshal none = .error .read :=
  ⟨((loadMetadata_required_fields exampleUnmarshal (some alphaJson)).1
      (namedSkill "alpha".toList "Alpha".toList [])).2
      ⟨⟨alphaJson, rfl, by decide⟩, by decide, by decide, by decide, by decide, by decide,
        by decide⟩,
    (loadMetadata_required_fields exampleUnmarshal none).2.1 rfl⟩

theorem keys_putSkill (skills : List (Str × Metadata)) (key : Str) (meta : Metadata) :
    (putSkill skills key meta).map Prod.fst =
      if key ∈ skills.map Prod.fst then skills.map Prod.fst else skills.map Prod.fst ++ [key] := by
  induction skills with
  | nil => simp [putSkill]
  | cons kv rest ih =>
    unfold putSkill
    by_cases hk : kv.1 = key
    · have hm : key ∈ (kv :: rest).map Prod.fst := by
        rw [List.map_cons, ← hk]; exact List.mem_cons_self _ _
      rw [if_pos hk, if_pos hm, List.map_cons, List.map_cons, hk]
    · rw [if_neg hk, List.map_cons, ih]
      have hq : ¬ key = kv.1 := fun h => hk h.symm
      by_cases hm : key ∈ rest.map Prod.fst
      · have hm2 : key ∈ (kv :: rest).map Prod.fst := by
          rw [List.map_cons]; exact List.mem_cons_of_mem _ hm
        rw [if_pos hm, if_pos hm2, List.map_cons]
      · have hm2 : ¬ key ∈ (kv :: rest).map Prod.fst := by
          rw [List.map_cons, List.mem_cons]
          exact fun h => h.elim hq hm
        rw [if_neg hm, if_neg hm2, List.map_cons, List.cons_append]

theorem mem_keys_putSkill (skills : List (Str × Metadata)) (key : Str) (meta : Metadata)
    (n : Str) :
    n ∈ (putSkill skills key meta).map Prod.fst ↔ n ∈ skills.map Prod.fst ∨ n = key := by
  rw [keys_putSkill]
  split_ifs with h
  · constructor
    · exact Or.inl
    · rintro (h1 | rfl)
      · exact h1
      · exact h
  · rw [List.mem_append, List.mem_singleton]

theorem length_putSkill (skills : List (Str × Metadata)) (key : Str) (meta : Metadata) :
    (putSkill skills key meta).length ≤ skills.length + 1 := by
  have h := congrArg List.length (keys_putSkill skills key meta)
  simp only [List.length_map] at h
  rw [h]
  split_ifs
  · simp
  · simp

theorem nodup_keys_putSkill (skills : List (Str × Metadata)) (key : Str) (meta : Metadata)
    (h : (skills.map Prod.fst).Nodup) : ((putSkill skills key meta).map Prod.fst).Nodup := by
  rw [keys_putSkill]
  exact nodup_keys_step key h

/-- The step of the loop of `Load` on one entry. -/
theorem loadEntries_cons (unmarshal : Str → Option Metadata) (entry : DirEntry)
    (rest : List DirEntry) (skills : List (Str × Metadata)) :
    loadEntries unmarshal (entry :: rest) skills =
      if Scanned entry then
        match LoadMetadata unmarshal entry.skillJson with
        | .error _ => loadEntries unmarshal rest skills
        | .ok meta => loadEntries unmarshal rest (putSkill skills meta.Name meta)
      else loadEntries unmarshal rest skills := by
  rw [loadEntries]
  by_cases hs : Scanned entry
  · rw [if_pos hs]
    obtain ⟨hd, h1, h2⟩ := hs
    rw [hd]
    simp only [Bool.not_true, Bool.false_eq_true, if_false]
    rw [if_neg (fun h => h.elim h1 h2)]
  · rw [if_neg hs]
    by_cases hd : entry.isDir = true
    · have hn : entry.name = "_PACK_PLAN.md".toList ∨ entry.name = "_PACK_README.md".toList := by
        by_contra hn
        exact hs ⟨hd, fun h => hn (Or.inl h), fun h => hn (Or.inr h)⟩
      rw [hd]
      simp only [Bool.not_true, Bool.false_eq_true, if_false]
      rw [if_pos hn]
    · simp only [Bool.not_eq_true] at hd
      rw [hd]
      simp only [Bool.not_false, if_true]

/-- What the loop of `Load` leaves in the map. -/
theorem loadEntries_spec (unmarshal : Str → Option Metadata) :
    ∀ (entries : List DirEntry) (skills : List (Str × Metadata)),
      (∀ n, n ∈ (loadEntries unmarshal entries skills).map Prod.fst ↔
        n ∈ skills.map Prod.fst ∨
          ∃ e ∈ entries, Scanned e ∧
            ∃ meta, LoadMetadata unmarshal e.skillJson = .ok meta ∧ meta.Name = n) ∧
      (loadEntries unmarshal entries skills).length ≤
        skills.length + (entries.filter (loadable unmarshal)).length ∧
      ((skills.map Prod.fst).Nodup →
        ((loadEntries unmarshal entries skills).map Prod.fst).Nodup) := by
  intro entries
  induction entries with
  | nil =>
    intro skills
    refine ⟨fun n => ?_, Nat.le_add_right _ _, fun h => h⟩
    show n ∈ skills.map Prod.fst ↔ _
    constructor
    · exact Or.inl
    · rintro (h | ⟨e, he, _⟩)
      · exact h
      · cases he
  | cons entry rest ih =>
    intro skills
    rw [loadEntries_cons]
    have hex : ∀ (Q : DirEntry → Prop), (∃ e ∈ entry :: rest, Q e) ↔ Q entry ∨ ∃ e ∈ rest, Q e := by
      intro Q
      constructor
      · rintro ⟨e, he, hq⟩
        rcases List.mem_cons.1 he with rfl | he
        · exact Or.inl hq
        · exact Or.inr ⟨e, he, hq⟩
      · rintro (hq | ⟨e, he, hq⟩)
        · exact ⟨entry, List.mem_cons_self _ _, hq⟩
        · exact ⟨e, List.mem_cons_of_mem _ he, hq⟩
    have hcount : (rest.filter (loadable unmarshal)).length ≤
        ((entry :: rest).filter (loadable unmarshal)).length := by
      rw [List.filter_cons]
      split_ifs <;> simp
    by_cases hs : Scanned entry
    · rw [if_pos hs]
      cases hload : LoadMetadata unmarshal entry.skillJson with
      | error e =>
        obtain ⟨h1, h2, h3⟩ := ih skills
        refine ⟨fun n => ?_, le_trans h2 (by omega), h3⟩
        rw [h1 n, hex]
        have : ¬ (Scanned entry ∧ ∃ meta, LoadMetadata unmarshal entry.skillJson = .ok meta ∧
            meta.Name = n) := by
          rintro ⟨_, meta, hm, _⟩
          rw [hload] at hm
          cases hm
        rw [or_iff_right this]
      | ok meta =>
        obtain ⟨h1, h2, h3⟩ := ih (putSkill skills meta.Name meta)
        have hl : loadable unmarshal entry = true := by
          unfold loadable
          rw [hs.1, hload]
          rfl
        have hcount2 : ((entry :: rest).filter (loadable unmarshal)).length =
            (rest.filter (loadable unmarshal)).length + 1 := by
          rw [List.filter_cons, if_pos hl, List.length_cons]
        refine ⟨fun n => ?_, ?_, fun hnd => h3 (nodup_keys_putSkill _ _ _ hnd)⟩
        · rw [h1 n, mem_keys_putSkill, hex]
          have : (Scanned entry ∧ ∃ m, LoadMetadata unmarshal entry.skillJson = .ok m ∧
              m.Name = n) ↔ n = meta.Name := by
            constructor
            · rintro ⟨_, m, hm, hn⟩
              rw [hload] at hm
              simp only [Except.ok.injEq] at hm
              rw [← hn, hm]
            · intro hn
              exact ⟨hs, meta, hload, hn.symm⟩
          rw [this, or_assoc]
        · have := length_putSkill skills meta.Name meta
          show (loadEntries unmarshal rest (putSkill skills meta.Name meta)).length ≤ _
          rw [hcount2]
          omega
    · rw [if_neg hs]
      obtain ⟨h1, h2, h3⟩ := ih skills
      refine ⟨fun n => ?_, le_trans h2 (by omega), h3⟩
      rw [h1 n, hex]
      have : ¬ (Scanned entry ∧ ∃ meta, LoadMetadata unmarshal entry.skillJson = .ok meta ∧
          meta.Name = n) := fun h => hs h.1
      rw [or_iff_right this]

/-- C22 (counterexample). A package source whose one directory has the name
`_PACK_PLAN.md` and a `skill.json` that loads with the name `Alpha`: `Load`
returns the empty registry, so `HasSkill("Alpha")` is false. -/
theorem reserved_directory_is_skipped :
    LoadMetadata exampleUnmarshal (some alphaJson) =
      .ok (namedSkill "alpha".toList "Alpha".toList []) ∧
    Load exampleUnmarshal (some reservedNameSource) = some { skills := [] } ∧
    (Load exampleUnmarshal (some reservedNameSource)).map
      (fun reg => reg.HasSkill "Alpha".toList) = some false :=
  ⟨rfl, by decide, by decide⟩

/-- C22 (amended). Discovery skips instead of failing: for every package source
with a readable root `Load` returns a registry, and `HasSkill(n)` holds exactly
when some top-level directory that is not named `_PACK_PLAN.md` or
`_PACK_README.md` has a `skill.json` that `LoadMetadata` loads with the name
`n`; every other entry is skipped, so `Count` is at most the number of
directories whose `skill.json` loads, and the keys of the map are distinct. -/
theorem discovery_skips (unmarshal : Str → Option Metadata) (entries : List DirEntry) :
    ∃ reg, Load unmarshal (some entries) = some reg ∧
      (∀ n, reg.HasSkill n = true ↔
        ∃ e ∈ entries, Scanned e ∧
          ∃ meta, LoadMetadata unmarshal e.skillJson = .ok meta ∧ meta.Name = n) ∧
      reg.Count ≤ (entries.filter (loadable unmarshal)).length ∧
      (reg.skills.map Prod.fst).Nodup := by
  obtain ⟨h1, h2, h3⟩ := loadEntries_spec unmarshal entries []
  refine ⟨{ skills := loadEntries unmarshal entries [] }, rfl, fun n => ?_, ?_, h3 List.nodup_nil⟩
  · unfold Registry.HasSkill
    constructor
    · intro h
      rcases (h1 n).1 (key_of_lookupSkill_isSome h) with hnil | hfound
      · cases hnil
      · exact hfound
    · intro h
      exact lookupSkill_isSome_of_key ((h1 n).2 (Or.inr h))
  · unfold Registry.Count
    simpa using h2

/-- C22 (witness): the source with the directories `alpha` and `beta`. -/
theorem spec_scenario_discovery :
    ∃ reg, Load exampleUnmarshal (some namedSource) = some reg ∧
      (∀ n, reg.HasSkill n = true ↔
        ∃ e ∈ namedSource, Scanned e ∧
          ∃ meta, LoadMetadata exampleUnmarshal e.skillJson = .ok meta ∧ meta.Name = n) ∧
      reg.Count ≤ (namedSource.filter (loadable exampleUnmarshal)).length ∧
      (reg.skills.map Prod.fst).Nodup :=
  discovery_skips exampleUnmarshal namedSource

/-! ## The applicability filter -/

theorem nameOrder_total : IsTotal Metadata (fun a b => strLess b.Name a.Name = false) where
  total := fun a b => strLess_total.total a.Name b.Name

theorem nameOrder_isTrans : IsTrans Metadata (fun a b => strLess b.Name a.Name = false) where
  trans := fun a b c hab hbc => strLess_isTrans.trans a.Name b.Name c.Name hab hbc

theorem applicable_iff (k : Str) (d : Metadata) :
    applicable k d = true ↔ k ∈ d.RepoTypes ∨ "generic".toList ∈ d.RepoTypes := by
  unfold applicable
  rw [List.any_eq_true]
  constructor
  · rintro ⟨rt, hrt, h⟩
    simp only [Bool.or_eq_true, decide_eq_true_eq] at h
    rcases h with h | h
    · exact Or.inl (h ▸ hrt)
    · exact Or.inr (h ▸ hrt)
  · rintro (h | h)
    · exact ⟨k, h, by simp⟩
    · exact ⟨_, h, by simp⟩

/-- C21. Applicability filter: for a repo type `k` that is not empty,
`MatchRepoType(k)` returns the descriptors of the registry whose repo types
contain `k` or `generic`, one for each entry of the map, in ascending order of
the names, strictly ascending when the names in the registry are distinct;
`MatchRepoType("")` returns `List()`. -/
theorem matchRepoType_spec (ord : RangeOrder) (reg : Registry) (k : Str) :
    (k ≠ [] →
      (reg.MatchRepoType ord k).Perm ((reg.skills.map Prod.snd).filter (applicable k)) ∧
      (reg.MatchRepoType ord k).Sorted (fun a b => strLess b.Name a.Name = false) ∧
      ((reg.skills.map (fun kv => kv.2.Name)).Nodup →
        (reg.MatchRepoType ord k).Sorted (fun a b => strLess a.Name b.Name = true))) ∧
    (∀ d : Metadata, applicable k d = true ↔
      k ∈ d.RepoTypes ∨ "generic".toList ∈ d.RepoTypes) ∧
    reg.MatchRepoType ord [] = reg.List ord := by
  refine ⟨fun hk => ?_, applicable_iff k, ?_⟩
  · haveI := nameOrder_total
    haveI := nameOrder_isTrans
    have hperm : (reg.MatchRepoType ord k).Perm
        ((reg.skills.map Prod.snd).filter (applicable k)) := by
      unfold Registry.MatchRepoType
      rw [if_neg hk]
      exact (List.perm_insertionSort _ _).trans (((ord.perm 7 reg.skills).map Prod.snd).filter _)
    have hsorted : (reg.MatchRepoType ord k).Sorted (fun a b => strLess b.Name a.Name = false) := by
      unfold Registry.MatchRepoType
      rw [if_neg hk]
      exact List.sorted_insertionSort _ _
    refine ⟨hperm, hsorted, fun hnd => ?_⟩
    have hnames : ((reg.MatchRepoType ord k).map (fun d => d.Name)).Nodup := by
      rw [(hperm.map _).nodup_iff]
      have hsub : (((reg.skills.map Prod.snd).filter (applicable k)).map (fun d => d.Name)).Sublist
          ((reg.skills.map Prod.snd).map (fun d => d.Name)) :=
        (List.filter_sublist _).map _
      rw [List.map_map] at hsub
      exact hnd.sublist hsub
    have hne := List.pairwise_map.1 hnames
    refine List.Pairwise.imp ?_ (List.Pairwise.and hsorted hne)
    intro a b hab
    cases hlt : strLess a.Name b.Name with
    | true => rfl
    | false => exact absurd (strLess_connex a.Name b.Name hlt hab.1) hab.2
  · unfold Registry.MatchRepoType
    rw [if_pos rfl]

/-- C21 (witness): of a service skill, a library skill and a generic skill the
filter `go-service` keeps the generic one and the service one, in this order. -/
theorem spec_scenario_match_repo_type :
    mixedRegistry.MatchRepoType RangeOrder.backwards "go-service".toList =
      [{ namedSkill "any".toList "any".toList [] with RepoTypes := ["generic".toList] },
       { namedSkill "svc".toList "svc".toList [] with RepoTypes := ["go-service".toList] }] ∧
    (mixedRegistry.MatchRepoType RangeOrder.backwards "go-service".toList).Perm
      ((mixedRegistry.skills.map Prod.snd).filter (applicable "go-service".toList)) :=
  ⟨by decide,
    ((matchRepoType_spec RangeOrder.backwards mixedRegistry "go-service".toList).1
      (by decide)).1⟩

/-! ## The language of `semverRegex` -/

theorem mem_charSum (l : List Char) (x : Str) :
    x ∈ (l.foldr (fun c r => RegularExpression.char c + r) 0).matches' ↔ ∃ c ∈ l, x = [c] := by
  induction l with
  | nil =>
    simp only [List.foldr_nil, RegularExpression.matches'_zero, List.not_mem_nil, false_and,
      exists_false, iff_false]
    exact fun h => h
  | cons a rest ih =>
    rw [List.foldr_cons, RegularExpression.matches'_add, Language.mem_add, ih,
      RegularExpression.matches'_char]
    constructor
    · rintro (h | ⟨c, hc, rfl⟩)
      · exact ⟨a, List.mem_cons_self _ _, h⟩
      · exact ⟨c, List.mem_cons_of_mem _ hc, rfl⟩
    · rintro ⟨c, hc, rfl⟩
      rcases List.mem_cons.1 hc with rfl | hc
      · exact Or.inl rfl
      · exact Or.inr ⟨c, hc, rfl⟩

theorem mem_oneOf (chars : String) (x : Str) :
    x ∈ (oneOf chars).matches' ↔ ∃ c ∈ chars.toList, x = [c] :=
  mem_charSum chars.toList x

/-- A character below 128 lies in a list when its code does. -/
theorem mem_of_code {l : List Char} {p : Char → Bool}
    (hl : ∀ n : Fin 128, p (Char.ofNat n.val) = true → Char.ofNat n.val ∈ l)
    {c : Char} (hc : c.toNat < 128) (hp : p c = true) : c ∈ l := by
  have h := hl ⟨c.toNat, hc⟩
  simp only [Char.ofNat_toNat] at h
  exact h hp

theorem isAsciiDigit_lt {c : Char} (h : isAsciiDigit c = true) : c.toNat < 128 := by
  simp only [isAsciiDigit, Bool.and_eq_true, decide_eq_true_eq] at h
  omega

theorem isIdentChar_lt {c : Char} (h : isIdentChar c = true) : c.toNat < 128 := by
  simp only [isIdentChar, isAsciiDigit, Bool.or_eq_true, Bool.and_eq_true, decide_eq_true_eq,
    beq_iff_eq] at h
  rcases h with ((h | h) | h) | h
  · omega
  · omega
  · omega
  · rw [h]; decide

theorem mem_digits (c : Char) : c ∈ "0123456789".toList ↔ isAsciiDigit c = true := by
  constructor
  · intro h
    revert c
    decide
  · intro h
    exact mem_of_code (p := isAsciiDigit) (by decide) (isAsciiDigit_lt h) h

theorem mem_positives (c : Char) :
    c ∈ "123456789".toList ↔ isAsciiDigit c = true ∧ c ≠ '0' := by
  constructor
  · intro h
    revert c
    decide
  · rintro ⟨h, hne⟩
    exact mem_of_code (p := fun c => isAsciiDigit c && decide (c ≠ '0')) (by decide)
      (isAsciiDigit_lt h) (by simp [h, hne])

theorem mem_identChars (c : Char) :
    c ∈ "0123456789abcdefghijklmnopqrstuvwxyzABCDEFGHIJKLMNOPQRSTUVWXYZ-".toList ↔
      isIdentChar c = true := by
  constructor
  · intro h
    revert c
    decide
  · intro h
    exact mem_of_code (p := isIdentChar) (by decide) (isIdentChar_lt h) h

theorem mem_lettersOrHyphen (c : Char) :
    c ∈ "abcdefghijklmnopqrstuvwxyzABCDEFGHIJKLMNOPQRSTUVWXYZ-".toList ↔
      isIdentChar c = true ∧ isAsciiDigit c = false := by
  constructor
  · intro h
    revert c
    decide
  · rintro ⟨h, hne⟩
    exact mem_of_code (p := fun c => isIdentChar c && !isAsciiDigit c) (by decide)
      (isIdentChar_lt h) (by simp [h, hne])

/-- The star of a character class holds the strings made of its characters. -/
theorem mem_star_class {L : Language Char} {p : Char → Prop}
    (hL : ∀ y : Str, y ∈ L ↔ ∃ c, p c ∧ y = [c]) (x : Str) :
    x ∈ KStar.kstar L ↔ ∀ c ∈ x, p c := by
  rw [Language.mem_kstar]
  constructor
  · rintro ⟨S, rfl, hS⟩ c hc
    rcases List.mem_flatten.1 hc with ⟨y, hy, hcy⟩
    rcases (hL y).1 (hS y hy) with ⟨d, hd, rfl⟩
    rcases List.mem_singleton.1 hcy with rfl
    exact hd
  · intro h
    refine ⟨x.map fun c => [c], ?_, ?_⟩
    · clear h
      induction x with
      | nil => rfl
      | cons c rest ih =>
        rw [List.map_cons, List.flatten_cons, ← ih]
        rfl
    · intro y hy
      rcases List.mem_map.1 hy with ⟨c, hc, rfl⟩
      exact (hL _).2 ⟨c, h c hc, rfl⟩

theorem mem_reDigit (x : Str) :
    x ∈ reDigit.matches' ↔ ∃ c, isAsciiDigit c = true ∧ x = [c] := by
  unfold reDigit
  rw [mem_oneOf]
  constructor
  · rintro ⟨c, hc, rfl⟩
    exact ⟨c, (mem_digits c).1 hc, rfl⟩
  · rintro ⟨c, hc, rfl⟩
    exact ⟨c, (mem_digits c).2 hc, rfl⟩

theorem mem_rePositive (x : Str) :
    x ∈ rePositive.matches' ↔ ∃ c, (isAsciiDigit c = true ∧ c ≠ '0') ∧ x = [c] := by
  unfold rePositive
  rw [mem_oneOf]
  constructor
  · rintro ⟨c, hc, rfl⟩
    exact ⟨c, (mem_positives c).1 hc, rfl⟩
  · rintro ⟨c, hc, rfl⟩
    exact ⟨c, (mem_positives c).2 hc, rfl⟩

theorem mem_reIdentChar (x : Str) :
    x ∈ reIdentChar.matches' ↔ ∃ c, isIdentChar c = true ∧ x = [c] := by
  unfold reIdentChar
  rw [mem_oneOf]
  constructor
  · rintro ⟨c, hc, rfl⟩
    exact ⟨c, (mem_identChars c).1 hc, rfl⟩
  · rintro ⟨c, hc, rfl⟩
    exact ⟨c, (mem_identChars c).2 hc, rfl⟩

theorem mem_reLetterOrHyphen (x : Str) :
    x ∈ reLetterOrHyphen.matches' ↔
      ∃ c, (isIdentChar c = true ∧ isAsciiDigit c = false) ∧ x = [c] := by
  unfold reLetterOrHyphen
  rw [mem_oneOf]
  constructor
  · rintro ⟨c, hc, rfl⟩
    exact ⟨c, (mem_lettersOrHyphen c).1 hc, rfl⟩
  · rintro ⟨c, hc, rfl⟩
    exact ⟨c, (mem_lettersOrHyphen c).2 hc, rfl⟩

theorem mem_digit_star (x : Str) :
    x ∈ reDigit.star.matches' ↔ ∀ c ∈ x, isAsciiDigit c = true := by
  rw [RegularExpression.matches'_star]
  exact mem_star_class mem_reDigit x

theorem mem_identChar_star (x : Str) :
    x ∈ reIdentChar.star.matches' ↔ ∀ c ∈ x, isIdentChar c = true := by
  rw [RegularExpression.matches'_star]
  exact mem_star_class mem_reIdentChar x

theorem isIdentChar_of_digit {c : Char} (h : isAsciiDigit c = true) : isIdentChar c = true := by
  simp [isIdentChar, h]

/-- The strings of `[1-9]\d*`. -/
theorem mem_positive_number (x : Str) :
    x ∈ (rePositive * reDigit.star).matches' ↔
      ∃ c rest, isAsciiDigit c = true ∧ c ≠ '0' ∧ (∀ d ∈ rest, isAsciiDigit d = true) ∧
        x = c :: rest := by
  rw [RegularExpression.matches'_mul, Language.mem_mul]
  constructor
  · rintro ⟨a, ha, b, hb, rfl⟩
    rcases (mem_rePositive a).1 ha with ⟨c, ⟨hc, hne⟩, rfl⟩
    exact ⟨c, b, hc, hne, (mem_digit_star b).1 hb, rfl⟩
  · rintro ⟨c, rest, hc, hne, hrest, rfl⟩
    exact ⟨[c], (mem_rePositive _).2 ⟨c, ⟨hc, hne⟩, rfl⟩, rest, (mem_digit_star rest).2 hrest,
      rfl⟩

/-- The group `(0|[1-9]\d*)` holds the numeric identifiers. -/
theorem mem_reNumeric (x : Str) : x ∈ reNumeric.matches' ↔ IsNumericIdentifier x := by
  unfold reNumeric
  rw [RegularExpression.matches'_add, Language.mem_add, mem_positive_number,
    RegularExpression.matches'_char]
  constructor
  · rintro (h | ⟨c, rest, hc, hne, hrest, rfl⟩)
    · have hx : x = ['0'] := h
      subst hx
      refine ⟨by simp, ?_, fun _ => rfl⟩
      intro c hc
      rcases List.mem_singleton.1 hc with rfl
      decide
    · refine ⟨by simp, ?_, ?_⟩
      · intro d hd
        rcases List.mem_cons.1 hd with rfl | hd
        · exact hc
        · exact hrest d hd
      · intro h
        simp only [List.head?_cons, Option.some.injEq] at h
        exact absurd h hne
  · rintro ⟨hne, hall, hzero⟩
    cases x with
    | nil => exact absurd rfl hne
    | cons c rest =>
      by_cases hc : c = '0'
      · left
        have := hzero (by simp [hc])
        rw [this]
        rfl
      · right
        exact ⟨c, rest, hall c (List.mem_cons_self _ _), hc,
          fun d hd => hall d (List.mem_cons_of_mem _ hd), rfl⟩

/-- The group `[0-9a-zA-Z-]+` holds the build identifiers. -/
theorem mem_reBuildIdent (x : Str) : x ∈ reBuildIdent.matches' ↔ IsBuildIdentifier x := by
  unfold reBuildIdent
  rw [RegularExpression.matches'_mul, Language.mem_mul]
  constructor
  · rintro ⟨a, ha, b, hb, rfl⟩
    rcases (mem_reIdentChar a).1 ha with ⟨c, hc, rfl⟩
    refine ⟨by simp, ?_⟩
    intro d hd
    rcases List.mem_cons.1 hd with rfl | hd
    · exact hc
    · exact (mem_identChar_star b).1 hb d hd
  · rintro ⟨hne, hall⟩
    cases x with
    | nil => exact absurd rfl hne
    | cons c rest =>
      exact ⟨[c], (mem_reIdentChar _).2 ⟨c, hall c (List.mem_cons_self _ _), rfl⟩, rest,
        (mem_identChar_star rest).2 (fun d hd => hall d (List.mem_cons_of_mem _ hd)), rfl⟩

/-- A string with a character that is no digit splits at the first such one. -/
theorem split_at_first_nondigit (x : Str) (h : ¬ ∀ c ∈ x, isAsciiDigit c = true) :
    ∃ ds l rest, (∀ d ∈ ds, isAsciiDigit d = true) ∧ isAsciiDigit l = false ∧
      x = ds ++ l :: rest := by
  induction x with
  | nil => exact absurd (fun c hc => absurd hc (List.not_mem_nil c)) h
  | cons c tail ih =>
    by_cases hc : isAsciiDigit c = true
    · have htail : ¬ ∀ d ∈ tail, isAsciiDigit d = true := by
        intro hall
        apply h
        intro d hd
        rcases List.mem_cons.1 hd with rfl | hd
        · exact hc
        · exact hall d hd
      rcases ih htail with ⟨ds, l, rest, hds, hl, rfl⟩
      refine ⟨c :: ds, l, rest, ?_, hl, rfl⟩
      intro d hd
      rcases List.mem_cons.1 hd with rfl | hd
      · exact hc
      · exact hds d hd
    · refine ⟨[], c, tail, ?_, ?_, rfl⟩
      · intro d hd
        exact absurd hd (List.not_mem_nil d)
      · cases hv : isAsciiDigit c
        · rfl
        · exact absurd hv hc

/-- The strings of `\d*[a-zA-Z-][0-9a-zA-Z-]*`. -/
theorem mem_alphanumeric (x : Str) :
    x ∈ (reDigit.star * reLetterOrHyphen * reIdentChar.star).matches' ↔
      ∃ ds l rest, (∀ d ∈ ds, isAsciiDigit d = true) ∧ isIdentChar l = true ∧
        isAsciiDigit l = false ∧ (∀ d ∈ rest, isIdentChar d = true) ∧ x = ds ++ l :: rest := by
  rw [RegularExpression.matches'_mul, Language.mem_mul]
  constructor
  · rintro ⟨a, ha, b, hb, rfl⟩
    rw [RegularExpression.matches'_mul, Language.mem_mul] at ha
    rcases ha with ⟨ds, hds, m, hm, rfl⟩
    rcases (mem_reLetterOrHyphen m).1 hm with ⟨l, ⟨hl, hnd⟩, rfl⟩
    refine ⟨ds, l, b, (mem_digit_star ds).1 hds, hl, hnd, (mem_identChar_star b).1 hb, ?_⟩
    simp
  · rintro ⟨ds, l, rest, hds, hl, hnd, hrest, rfl⟩
    refine ⟨ds ++ [l], ?_, rest, (mem_identChar_star rest).2 hrest, by simp⟩
    rw [RegularExpression.matches'_mul, Language.mem_mul]
    exact ⟨ds, (mem_digit_star ds).2 hds, [l], (mem_reLetterOrHyphen _).2 ⟨l, ⟨hl, hnd⟩, rfl⟩,
      rfl⟩

/-- The group of one pre-release identifier holds the pre-release identifiers. -/
theorem mem_rePrereleaseIdent (x : Str) :
    x ∈ rePrereleaseIdent.matches' ↔ IsPrereleaseIdentifier x := by
  unfold rePrereleaseIdent
  rw [RegularExpression.matches'_add, Language.mem_add, mem_alphanumeric]
  constructor
  · rintro (h | ⟨ds, l, rest, hds, hl, hnd, hrest, rfl⟩)
    · rcases (mem_reNumeric x).1 h with ⟨hne, hall, hzero⟩
      exact ⟨hne, fun c hc => isIdentChar_of_digit (hall c hc), fun _ => hzero⟩
    · refine ⟨by simp, ?_, ?_⟩
      · intro c hc
        rcases List.mem_append.1 hc with hc | hc
        · exact isIdentChar_of_digit (hds c hc)
        · rcases List.mem_cons.1 hc with rfl | hc
          · exact hl
          · exact hrest c hc
      · intro hall
        have := hall l (by simp)
        rw [hnd] at this
        exact absurd this (by decide)
  · rintro ⟨hne, hall, hzero⟩
    by_cases hd : ∀ c ∈ x, isAsciiDigit c = true
    · left
      exact (mem_reNumeric x).2 ⟨hne, hd, hzero hd⟩
    · right
      rcases split_at_first_nondigit x hd with ⟨ds, l, rest, hds, hl, rfl⟩
      exact ⟨ds, l, rest, hds, hall l (by simp), hl, fun d hd => hall d (by simp [hd]), rfl⟩

theorem joinDots_cons (a : Str) (ids : List Str) :
    joinDots (a :: ids) = a ++ (ids.map fun i => '.' :: i).flatten := by
  induction ids generalizing a with
  | nil => simp [joinDots]
  | cons b rest ih =>
    rw [joinDots, ih b]
    simp

/-- The strings of `(?:\.X)*` are the identifiers of `X`, each after a dot. -/
theorem mem_dot_star {X : RegularExpression Char} {P : Str → Prop}
    (hX : ∀ y, y ∈ X.matches' ↔ P y) (z : Str) :
    z ∈ (RegularExpression.char '.' * X).star.matches' ↔
      ∃ ids : List Str, (∀ i ∈ ids, P i) ∧ z = (ids.map fun i => '.' :: i).flatten := by
  rw [RegularExpression.matches'_star, Language.mem_kstar]
  constructor
  · rintro ⟨S, rfl, hS⟩
    induction S with
    | nil => exact ⟨[], fun i hi => absurd hi (List.not_mem_nil i), rfl⟩
    | cons y rest ih =>
      rcases ih (fun w hw => hS w (List.mem_cons_of_mem _ hw)) with ⟨ids, hids, hrest⟩
      have hy := hS y (List.mem_cons_self _ _)
      rw [RegularExpression.matches'_mul, Language.mem_mul] at hy
      rcases hy with ⟨d, hd, i, hi, rfl⟩
      rw [RegularExpression.matches'_char] at hd
      have hd2 : d = ['.'] := hd
      subst hd2
      refine ⟨i :: ids, ?_, ?_⟩
      · intro j hj
        rcases List.mem_cons.1 hj with rfl | hj
        · exact (hX _).1 hi
        · exact hids j hj
      · rw [List.flatten_cons, hrest]
        rfl
  · rintro ⟨ids, hids, rfl⟩
    refine ⟨ids.map fun i => '.' :: i, rfl, ?_⟩
    intro y hy
    rcases List.mem_map.1 hy with ⟨i, hi, rfl⟩
    rw [RegularExpression.matches'_mul, Language.mem_mul]
    exact ⟨['.'], rfl, i, (hX i).2 (hids i hi), rfl⟩

/-- The strings of `X(?:\.X)*` are the identifiers of `X` joined by dots. -/
theorem mem_dotted {X : RegularExpression Char} {P : Str → Prop}
    (hX : ∀ y, y ∈ X.matches' ↔ P y) (z : Str) :
    z ∈ (X * (RegularExpression.char '.' * X).star).matches' ↔
      ∃ ids : List Str, ids ≠ [] ∧ (∀ i ∈ ids, P i) ∧ z = joinDots ids := by
  rw [RegularExpression.matches'_mul, Language.mem_mul]
  constructor
  · rintro ⟨a, ha, b, hb, rfl⟩
    rcases (mem_dot_star hX b).1 hb with ⟨ids, hids, rfl⟩
    refine ⟨a :: ids, by simp, ?_, (joinDots_cons a ids).symm⟩
    intro j hj
    rcases List.mem_cons.1 hj with rfl | hj
    · exact (hX _).1 ha
    · exact hids j hj
  · rintro ⟨ids, hne, hids, rfl⟩
    cases ids with
    | nil => exact absurd rfl hne
    | cons a rest =>
      exact ⟨a, (hX a).2 (hids a (List.mem_cons_self _ _)), _,
        (mem_dot_star hX _).2 ⟨rest, fun i hi => hids i (List.mem_cons_of_mem _ hi), rfl⟩,
        (joinDots_cons a rest).symm⟩

/-- The strings of the optional group `(?:sX(?:\.X)*)?`. -/
theorem mem_optional_dotted (sep : Char) {X : RegularExpression Char} {P : Str → Prop}
    (hX : ∀ y, y ∈ X.matches' ↔ P y) (z : Str) :
    z ∈ (1 + RegularExpression.char sep *
        (X * (RegularExpression.char '.' * X).star)).matches' ↔
      ∃ ids : List Str, (∀ i ∈ ids, P i) ∧
        z = if ids = [] then [] else sep :: joinDots ids := by
  rw [RegularExpression.matches'_add, Language.mem_add, RegularExpression.matches'_epsilon,
    Language.mem_one, RegularExpression.matches'_mul, Language.mem_mul]
  constructor
  · rintro (rfl | ⟨a, ha, b, hb, rfl⟩)
    · exact ⟨[], fun i hi => absurd hi (List.not_mem_nil i), rfl⟩
    · rw [RegularExpression.matches'_char] at ha
      have ha2 : a = [sep] := ha
      subst ha2
      rcases (mem_dotted hX b).1 hb with ⟨ids, hne, hids, rfl⟩
      exact ⟨ids, hids, by rw [if_neg hne]; rfl⟩
  · rintro ⟨ids, hids, rfl⟩
    by_cases hne : ids = []
    · left
      rw [if_pos hne]
    · right
      rw [if_neg hne]
      exact ⟨[sep], rfl, joinDots ids, (mem_dotted hX _).2 ⟨ids, hne, hids, rfl⟩, rfl⟩

/-- The strings of `N\.N\.N` for the numeric group `N`. -/
theorem mem_core (z : Str) :
    z ∈ (reNumeric * RegularExpression.char '.' * reNumeric * RegularExpression.char '.' *
        reNumeric).matches' ↔
      ∃ major minor patch : Str, IsNumericIdentifier major ∧ IsNumericIdentifier minor ∧
        IsNumericIdentifier patch ∧ z = major ++ '.' :: (minor ++ '.' :: patch) := by
  simp only [RegularExpression.matches'_mul, Language.mem_mul, RegularExpression.matches'_char]
  constructor
  · rintro ⟨_, ⟨_, ⟨_, ⟨a, ha, d1, hd1, rfl⟩, b, hb, rfl⟩, d2, hd2, rfl⟩, c, hc, rfl⟩
    have e1 : d1 = ['.'] := hd1
    have e2 : d2 = ['.'] := hd2
    subst e1 e2
    exact ⟨a, b, c, (mem_reNumeric a).1 ha, (mem_reNumeric b).1 hb, (mem_reNumeric c).1 hc,
      by simp⟩
  · rintro ⟨a, b, c, ha, hb, hc, rfl⟩
    exact ⟨_, ⟨_, ⟨_, ⟨a, (mem_reNumeric a).2 ha, ['.'], rfl, rfl⟩, b, (mem_reNumeric b).2 hb,
      rfl⟩, ['.'], rfl, rfl⟩, c, (mem_reNumeric c).2 hc, by simp⟩

/-- The regular expression `semverRegex` accepts the valid semantic versions. -/
theorem matchesSemver_iff (v : Str) : matchesSemver v = true ↔ IsSemVer v := by
  unfold matchesSemver
  rw [RegularExpression.rmatch_iff_matches']
  unfold semverRegex
  rw [RegularExpression.matches'_mul, Language.mem_mul]
  constructor
  · rintro ⟨a, ha, b, hb, rfl⟩
    rw [RegularExpression.matches'_mul, Language.mem_mul] at ha
    rcases ha with ⟨core, hcore, p, hp, rfl⟩
    rcases (mem_core core).1 hcore with ⟨major, minor, patch, h1, h2, h3, rfl⟩
    rcases (mem_optional_dotted '-' mem_rePrereleaseIdent p).1 hp with ⟨pre, hpre, rfl⟩
    rcases (mem_optional_dotted '+' mem_reBuildIdent b).1 hb with ⟨build, hbuild, rfl⟩
    exact ⟨major, minor, patch, pre, build, h1, h2, h3, hpre, hbuild, by simp⟩
  · rintro ⟨major, minor, patch, pre, build, h1, h2, h3, hpre, hbuild, rfl⟩
    refine ⟨(major ++ '.' :: (minor ++ '.' :: patch)) ++
      (if pre = [] then [] else '-' :: joinDots pre), ?_,
      (if build = [] then [] else '+' :: joinDots build),
      (mem_optional_dotted '+' mem_reBuildIdent _).2 ⟨build, hbuild, rfl⟩, by simp⟩
    rw [RegularExpression.matches'_mul, Language.mem_mul]
    exact ⟨_, (mem_core _).2 ⟨major, minor, patch, h1, h2, h3, rfl⟩, _,
      (mem_optional_dotted '-' mem_rePrereleaseIdent _).2 ⟨pre, hpre, rfl⟩, rfl⟩

/-! ## The installed state -/

theorem upsertLoop_none (now : Nat) (meta : Metadata) (hasOverrides : Bool) :
    ∀ (l : List InstalledSkill),
      upsertLoop now meta hasOverrides l = none ↔ ∀ r ∈ l, r.ID ≠ meta.ID := by
  intro l
  induction l with
  | nil => simp [upsertLoop]
  | cons s rest ih =>
    unfold upsertLoop
    by_cases h : s.ID = meta.ID
    · rw [if_pos h]
      constructor
      · intro hn; cases hn
      · intro hall; exact absurd h (hall s (List.mem_cons_self _ _))
    · rw [if_neg h, Option.map_eq_none', ih]
      constructor
      · intro hall r hr
        rcases List.mem_cons.1 hr with rfl | hr
        · exact h
        · exact hall r hr
      · intro hall r hr
        exact hall r (List.mem_cons_of_mem _ hr)

theorem upsertLoop_some (now : Nat) (meta : Metadata) (hasOverrides : Bool) :
    ∀ (l l1 : List InstalledSkill), upsertLoop now meta hasOverrides l = some l1 →
      ∃ pre old post, l = pre ++ old :: post ∧ (∀ r ∈ pre, r.ID ≠ meta.ID) ∧
        old.ID = meta.ID ∧
        l1 = pre ++ { ID := old.ID, Version := meta.Version, InstalledAt := now,
                      HasOverrides := hasOverrides } :: post := by
  intro l
  induction l with
  | nil => intro l1 h; simp [upsertLoop] at h
  | cons s rest ih =>
    intro l1 h
    unfold upsertLoop at h
    by_cases hs : s.ID = meta.ID
    · rw [if_pos hs] at h
      simp only [Option.some.injEq] at h
      exact ⟨[], s, rest, rfl, by simp, hs, h.symm⟩
    · rw [if_neg hs, Option.map_eq_some'] at h
      obtain ⟨l2, hl2, rfl⟩ := h
      obtain ⟨pre, old, post, hl, hpre, hold, hl1⟩ := ih l2 hl2
      refine ⟨s :: pre, old, post, by rw [hl]; rfl, ?_, hold, by rw [hl1]; rfl⟩
      intro r hr
      rcases List.mem_cons.1 hr with rfl | hr
      · exact hs
      · exact hpre r hr

/-- C25. Installed-state upsert: `upsertInstalledSkill` either overwrites the
version, the time and `hasOverrides` of the first record whose id is the id of
the descriptor and leaves the length, the order and every other record as they
are, or, when no record has the id, appends one record; a state with distinct
ids keeps distinct ids and then has exactly one record for the id, with the
version of the descriptor. A nil state or descriptor changes nothing. -/
theorem upsert_installed_skill (now : Nat) (st : InstalledState) (m : Metadata)
    (hasOverrides : Bool) :
    (∃ st1, upsertInstalledSkill now (some st) (some m) hasOverrides = some st1 ∧
      ((∃ pre old post, st.Skills = pre ++ old :: post ∧ (∀ r ∈ pre, r.ID ≠ m.ID) ∧
          old.ID = m.ID ∧
          st1.Skills = pre ++ { ID := old.ID, Version := m.Version, InstalledAt := now,
                                HasOverrides := hasOverrides } :: post) ∨
        ((∀ r ∈ st.Skills, r.ID ≠ m.ID) ∧
          st1.Skills = st.Skills ++ [{ ID := m.ID, Version := m.Version, InstalledAt := now,
                                       HasOverrides := hasOverrides }])) ∧
      ((st.Skills.map (fun r => r.ID)).Nodup →
        (st1.Skills.map (fun r => r.ID)).Nodup ∧
        st1.Skills.filter (fun r => decide (r.ID = m.ID)) =
          [{ ID := m.ID, Version := m.Version, InstalledAt := now,
             HasOverrides := hasOverrides }])) ∧
    upsertInstalledSkill now none (some m) hasOverrides = none ∧
    upsertInstalledSkill now (some st) none hasOverrides = some st := by
  refine ⟨?_, rfl, rfl⟩
  have hnone : ∀ l : List InstalledSkill, (∀ r ∈ l, r.ID ≠ m.ID) →
      l.filter (fun r => decide (r.ID = m.ID)) = [] := by
    intro l hl
    rw [List.filter_eq_nil_iff]
    intro r hr
    simpa using hl r hr
  have hdef : upsertInstalledSkill now (some st) (some m) hasOverrides =
      match upsertLoop now m hasOverrides st.Skills with
      | some skills => some { Skills := skills }
      | none =>
        some { Skills := st.Skills ++
          [{ ID := m.ID, Version := m.Version, InstalledAt := now,
             HasOverrides := hasOverrides }] } := rfl
  rw [hdef]
  cases hloop : upsertLoop now m hasOverrides st.Skills with
  | some l1 =>
    obtain ⟨pre, old, post, hl, hpre, hold, hl1⟩ := upsertLoop_some now m hasOverrides _ _ hloop
    refine ⟨{ Skills := l1 }, rfl, Or.inl ⟨pre, old, post, hl, hpre, hold, hl1⟩, ?_⟩
    intro hnd
    have hids : l1.map (fun r => r.ID) = st.Skills.map (fun r => r.ID) := by
      rw [hl1, hl]
      simp
    refine ⟨by rw [hids]; exact hnd, ?_⟩
    have hpost : ∀ r ∈ post, r.ID ≠ m.ID := by
      intro r hr heq
      rw [hl, List.map_append, List.map_cons] at hnd
      have h2 := (List.nodup_append.1 hnd).2.1
      rw [List.nodup_cons] at h2
      apply h2.1
      rw [hold, ← heq]
      exact List.mem_map_of_mem _ hr
    show l1.filter _ = _
    rw [hl1, List.filter_append, hnone pre hpre, List.filter_cons, hold]
    simp only [decide_True, if_true, List.nil_append]
    rw [hnone post hpost]
  | none =>
    have hall := (upsertLoop_none now m hasOverrides st.Skills).1 hloop
    refine ⟨_, rfl, Or.inr ⟨hall, rfl⟩, ?_⟩
    intro hnd
    refine ⟨?_, ?_⟩
    · show ((st.Skills ++ [_]).map _).Nodup
      rw [List.map_append]
      refine List.Nodup.append hnd (List.nodup_singleton _) ?_
      intro x hx hx2
      simp only [List.map_cons, List.map_nil, List.mem_singleton] at hx2
      obtain ⟨r, hr, hrx⟩ := List.mem_map.1 hx
      exact hall r hr (hrx.trans hx2)
    · show (st.Skills ++ [_]).filter _ = _
      rw [List.filter_append, hnone _ hall]
      simp

/-- C25 (witness): `skill-b` is installed again with a new version, and
`skill-c` is installed for the first time. -/
theorem spec_scenario_upsert :
    upsertInstalledSkill 30 (some exampleState) (some (versionedSkill "skill-b".toList
        "2.1.0".toList)) false =
      some { Skills :=
        [{ ID := "skill-a".toList, Version := "1.0.0".toList, InstalledAt := 10,
           HasOverrides := false },
         { ID := "skill-b".toList, Version := "2.1.0".toList, InstalledAt := 30,
           HasOverrides := false }] } ∧
    ∃ st1, upsertInstalledSkill 30 (some exampleState) (some (versionedSkill "skill-c".toList
        "0.1.0".toList)) true = some st1 ∧
      ((exampleState.Skills.map (fun r => r.ID)).Nodup →
        (st1.Skills.map (fun r => r.ID)).Nodup ∧
        st1.Skills.filter (fun r => decide (r.ID = "skill-c".toList)) =
          [{ ID := "skill-c".toList, Version := "0.1.0".toList, InstalledAt := 30,
             HasOverrides := true }]) := by
  refine ⟨by decide, ?_⟩
  obtain ⟨st1, h1, _, h3⟩ := (upsert_installed_skill 30 exampleState
    (versionedSkill "skill-c".toList "0.1.0".toList) true).1
  exact ⟨st1, h1, h3⟩

/-! ## ValidateSkill -/

theorem utf8Size_of_isIdChar {c : Char} (h : isIdChar c = true) : c.utf8Size = 1 := by
  have hle : c.toNat ≤ 127 := by
    simp only [isIdChar, Bool.or_eq_true, Bool.and_eq_true, decide_eq_true_eq, beq_iff_eq] at h
    rcases h with (h | h) | h
    · omega
    · omega
    · rw [h]; decide
  unfold Char.utf8Size
  have : c.val ≤ 127 := by
    show c.val.toNat ≤ 127
    exact hle
  simp [this]

theorem byteLength_of_idChars (s : Str) (h : ∀ c ∈ s, isIdChar c = true) :
    byteLength s = s.length := by
  induction s with
  | nil => rfl
  | cons c rest ih =>
    have hrest := ih (fun d hd => h d (List.mem_cons_of_mem _ hd))
    unfold byteLength at hrest ⊢
    rw [List.map_cons, List.sum_cons, hrest, utf8Size_of_isIdChar (h c (List.mem_cons_self _ _)),
      List.length_cons]
    omega

theorem matchesIdPattern_iff (s : Str) :
    matchesIdPattern s = true ↔ s ≠ [] ∧ ∀ c ∈ s, isIdChar c = true := by
  unfold matchesIdPattern
  rw [Bool.and_eq_true, List.all_eq_true]
  cases s with
  | nil => simp
  | cons c rest => simp

/-- A descriptor that `validateMetadataManually` accepts has an id of the
pattern with 1 to 64 bytes. -/
theorem validateMetadataManually_id (meta : Metadata) (u : Unit)
    (h : validateMetadataManually meta = .ok u) :
    matchesIdPattern meta.ID = true ∧ 1 ≤ byteLength meta.ID ∧ byteLength meta.ID ≤ 64 := by
  unfold validateMetadataManually at h
  by_cases hp : matchesIdPattern meta.ID = true
  · refine ⟨hp, ?_⟩
    rw [if_neg (by simp [hp])] at h
    by_cases hl : byteLength meta.ID < 1 ∨ byteLength meta.ID > 64
    · rw [if_pos hl] at h
      cases h
    · omega
  · rw [if_pos (by simp [hp])] at h
    cases h

/-- What `ValidateSkill` accepts. -/
theorem validateSkill_ok (unmarshal : Str → Option Metadata) (file : Option Str)
    (skillPath : Str) (hasClaudeMd : Bool)
    (h : ValidateSkill unmarshal file skillPath hasClaudeMd = .ok ()) :
    ∃ meta, LoadMetadata unmarshal file = .ok meta ∧ validateMetadataManually meta = .ok () ∧
      meta.ID = filepathBase skillPath ∧ matchesSemver meta.Version = true ∧
      hasClaudeMd = true := by
  unfold ValidateSkill at h
  cases hload : LoadMetadata unmarshal file with
  | error e =>
    rw [hload] at h
    cases h
  | ok meta =>
    rw [hload] at h
    cases hval : validateMetadataManually meta with
    | error e =>
      simp only [hval] at h
      cases h
    | ok u =>
      simp only [hval] at h
      refine ⟨meta, rfl, hval, ?_⟩
      by_cases hid : meta.ID = filepathBase skillPath
      · rw [if_neg (not_not.2 hid)] at h
        cases hv : matchesSemver meta.Version
        · simp [hv] at h
        · cases hasClaudeMd
          · simp [hv] at h
          · exact ⟨hid, rfl, rfl⟩
      · rw [if_pos hid] at h
        cases h

/-- Claim C24: a skill that `ValidateSkill` accepts has a descriptor whose id
is made of the characters `[a-z0-9-]`, has 1 to 64 of them, equals the base
name of the skill directory, and whose version is a valid semantic version;
a skill whose descriptor violates one of these is rejected with an error; the
version `1.0.0` is a valid semantic version for `semverRegex` and `1.0` is
not. -/
theorem validateSkill_invariant (unmarshal : Str → Option Metadata) (file : Option Str)
    (skillPath : Str) (hasClaudeMd : Bool) :
    (ValidateSkill unmarshal file skillPath hasClaudeMd = .ok () →
      ∃ meta, LoadMetadata unmarshal file = .ok meta ∧
        (∀ c ∈ meta.ID, isIdChar c = true) ∧ 1 ≤ meta.ID.length ∧ meta.ID.length ≤ 64 ∧
        byteLength meta.ID = meta.ID.length ∧
        meta.ID = filepathBase skillPath ∧ IsSemVer meta.Version) ∧
    (∀ meta, LoadMetadata unmarshal file = .ok meta →
      (¬ (∀ c ∈ meta.ID, isIdChar c = true) ∨ meta.ID.length < 1 ∨ 64 < meta.ID.length ∨
        meta.ID ≠ filepathBase skillPath ∨ ¬ IsSemVer meta.Version) →
      ∃ e, ValidateSkill unmarshal file skillPath hasClaudeMd = .error e) ∧
    (∀ v, matchesSemver v = true ↔ IsSemVer v) ∧
    matchesSemver "1.0.0".toList = true ∧ matchesSemver "1.0".toList = false := by
  have hacc : ValidateSkill unmarshal file skillPath hasClaudeMd = .ok () →
      ∃ meta, LoadMetadata unmarshal file = .ok meta ∧
        (∀ c ∈ meta.ID, isIdChar c = true) ∧ 1 ≤ meta.ID.length ∧ meta.ID.length ≤ 64 ∧
        byteLength meta.ID = meta.ID.length ∧
        meta.ID = filepathBase skillPath ∧ IsSemVer meta.Version := by
    intro h
    rcases validateSkill_ok unmarshal file skillPath hasClaudeMd h with
      ⟨meta, hload, hval, hid, hver, _⟩
    rcases validateMetadataManually_id meta () hval with ⟨hp, h1, h64⟩
    have hchars := ((matchesIdPattern_iff meta.ID).1 hp).2
    have hlen := byteLength_of_idChars meta.ID hchars
    rw [hlen] at h1 h64
    exact ⟨meta, hload, hchars, h1, h64, hlen, hid, (matchesSemver_iff _).1 hver⟩
  refine ⟨hacc, ?_, matchesSemver_iff, by decide, by decide⟩
  intro meta hload hbad
  cases hres : ValidateSkill unmarshal file skillPath hasClaudeMd with
  | error e => exact ⟨e, rfl⟩
  | ok u =>
    exfalso
    rcases hacc hres with ⟨meta2, hload2, hchars, h1, h64, _, hid, hver⟩
    rw [hload] at hload2
    cases hload2
    rcases hbad with h | h | h | h | h
    · exact h hchars
    · omega
    · omega
    · exact h hid
    · exact h hver

/-- The skill `gateway` with version `1.0.0` in the directory `skills/gateway`
is accepted and has the properties of the invariant; with version `1.0` it is
rejected. -/
theorem spec_scenario_validate_skill :
    ValidateSkill (constUnmarshal (versionedSkill "gateway".toList "1.0.0".toList)) (some [])
        "skills/gateway".toList true = .ok () ∧
      (∃ meta, LoadMetadata (constUnmarshal (versionedSkill "gateway".toList "1.0.0".toList))
          (some []) = .ok meta ∧
        (∀ c ∈ meta.ID, isIdChar c = true) ∧ 1 ≤ meta.ID.length ∧ meta.ID.length ≤ 64 ∧
        byteLength meta.ID = meta.ID.length ∧
        meta.ID = filepathBase "skills/gateway".toList ∧ IsSemVer meta.Version) ∧
      ValidateSkill (constUnmarshal (versionedSkill "gateway".toList "1.0".toList)) (some [])
        "skills/gateway".toList true = .error (.invalidSemver "1.0".toList) ∧
      ValidateSkill (constUnmarshal (versionedSkill "gateway".toList "1.0.0".toList)) (some [])
        "skills/other".toList true =
          .error (.idMismatch "gateway".toList "other".toList) :=
  ⟨rfl,
    (validateSkill_invariant (constUnmarshal (versionedSkill "gateway".toList "1.0.0".toList))
      (some []) "skills/gateway".toList true).1 rfl,
    rfl, rfl⟩

/-! ## IsReadOnly -/

/-- Claim C26: the query `SELECT 1;; DROP TABLE users` passes `IsReadOnly`
although, split at the semicolons, its third part is the statement
`DROP TABLE users`, which holds the write keyword `DROP`; only the part after
the first semicolon is tested for text, and only the part before it is scanned
for keywords. With one semicolon the same query is rejected. -/
theorem second_semicolon_hides_write :
    IsReadOnly hiddenWriteQuery = true ∧
      splitSemicolon hiddenWriteQuery = ["SELECT 1".toList, [], " DROP TABLE users".toList] ∧
      blockedMatch none " DROP TABLE users".toList = true ∧
      IsReadOnly "SELECT 1; DROP TABLE users".toList = false :=
  ⟨by decide, by decide, by decide, by decide⟩

/-! ## Overrides with headings -/

/-- A buffer with a heading whose anchor is not empty has a section. -/
theorem sectionIndex_ne_nil_of_heading (content : Str)
    (h : ∃ line ∈ splitLines content, ∃ level text,
      parseHeading line = some (level, text) ∧ anchorFromHeading text ≠ []) :
    sectionIndex content ≠ [] := by
  obtain ⟨line, hline, level, text, hparse, hanchor⟩ := h
  obtain ⟨i, hi⟩ := List.get?_of_mem hline
  have hidx : indexedHeading line = some (level, anchorFromHeading text) :=
    (indexedHeading_iff line level _).2 ⟨hanchor, text, hparse, rfl⟩
  have hg : ({ index := i, level := level, anchor := anchorFromHeading text } : heading) ∈
      collectHeadings 0 (splitLines content) :=
    (mem_collectHeadings (splitLines content) 0 _).2 ⟨Nat.zero_le _, line, hi, hidx⟩
  have hlook := lookupSection_buildSections (splitLines content).length (anchorFromHeading text)
    (collectHeadings 0 (splitLines content)) []
  have hnil : lookupSection [] (anchorFromHeading text) = none := rfl
  rw [hnil] at hlook
  dsimp only at hlook
  intro hempty
  unfold sectionIndex parseMarkdownSections at hempty
  rw [hempty] at hlook
  cases hfind : (collectHeadings 0 (splitLines content)).find?
      (fun g => g.anchor = anchorFromHeading text) with
  | none =>
    have := List.find?_eq_none.1 hfind _ hg
    simp at this
  | some g =>
    rw [hfind] at hlook
    cases hlook

/-- C2 (counterexample). The override `# !!!`, `foo` contains a heading, and
its heading has the empty anchor, so its section index is empty and no anchor
of the override is allowed. With the one allowed anchor `repo-specific-rules`
the call takes the override for the body of that section and writes the file;
with two allowed anchors it returns the error that headings are required. -/
theorem anchorless_heading_override_is_a_body :
    parseHeading "# !!!".toList = some (1, "!!!".toList) ∧
    anchorFromHeading "!!!".toList = [] ∧
    sectionIndex anchorlessOverride = [] ∧
    (applySectionOverrides RangeOrder.stored (exampleFS exampleBase) exampleTarget
      anchorlessOverride ["repo-specific-rules".toList]).2.files exampleTarget =
      some "# Title\n## Repo-Specific Rules\n# !!!\nfoo\n## Other\nkeep this".toList ∧
    (applySectionOverrides RangeOrder.stored (exampleFS exampleBase) exampleTarget
      anchorlessOverride ["repo-specific-rules".toList, "other".toList]).1 =
      .error .headingsRequired := by
  decide

/-- C2 (amended). Section override with headings, one target: for an override
that contains a heading whose anchor is not empty, when exactly one anchor `a`
of the override is allowed, with section `[s', e')` in the override, the file
written is `base[0..s) ++ override[s'..e') ++ base[e..]` where `[s, e)` is the
base section of `a`, and the call fails with `section not found` when the base
has no section `a`; when no anchor of the override is allowed nothing is written
and no error is returned. -/
theorem section_override_one_heading_target (ord : RangeOrder) (fs : FS)
    (targetPath base override : Str) (allowed : List Str) (a : Str)
    (hread : readFileFromRoot fs targetPath = some base)
    (hhead : ∃ line ∈ splitLines override, ∃ level text,
      parseHeading line = some (level, text) ∧ anchorFromHeading text ≠ []) :
    (∀ sec', lookupSection (sectionIndex override) a = some sec' →
      (∀ s ∈ sectionIndex override, s.anchor ∈ allowed ↔ s.anchor = a) →
      (∀ sec, lookupSection (sectionIndex base) a = some sec →
        applySectionOverrides ord fs targetPath override allowed =
          writeFile fs targetPath (joinLines ((splitLines base).take sec.start ++
            linesBetween (splitLines override) sec'.start sec'.end_ ++
            (splitLines base).drop sec.end_))) ∧
      (lookupSection (sectionIndex base) a = none →
        applySectionOverrides ord fs targetPath override allowed =
          (.error (.sectionNotFound a targetPath), fs))) ∧
    ((∀ s ∈ sectionIndex override, s.anchor ∉ allowed) →
      applySectionOverrides ord fs targetPath override allowed = (.ok, fs)) :=
  indexed_override_one_target ord fs targetPath base override allowed a hread
    (sectionIndex_ne_nil_of_heading override hhead)

/-- C2 (witness): an override with the heading of the one allowed section, and
the same override when its anchor is not allowed. -/
theorem spec_scenario_one_heading :
    (applySectionOverrides RangeOrder.backwards (exampleFS exampleBase) exampleTarget
      exampleOverride ["repo-specific-rules".toList]).2.files exampleTarget =
      some "# Title\n## Repo-Specific Rules\nnew rules\n## Other\nkeep this".toList ∧
    applySectionOverrides RangeOrder.backwards (exampleFS exampleBase) exampleTarget
      exampleOverride ["other".toList] = (.ok, exampleFS exampleBase) := by
  have hhead : ∃ line ∈ splitLines exampleOverride, ∃ level text,
      parseHeading line = some (level, text) ∧ anchorFromHeading text ≠ [] :=
    ⟨"## Repo-Specific Rules".toList, by decide, 2, "Repo-Specific Rules".toList, by decide,
      by decide⟩
  refine ⟨?_, (section_override_one_heading_target RangeOrder.backwards (exampleFS exampleBase)
    exampleTarget exampleBase exampleOverride ["other".toList] [] (by decide) hhead).2
    (by decide)⟩
  rw [((section_override_one_heading_target RangeOrder.backwards (exampleFS exampleBase)
    exampleTarget exampleBase exampleOverride ["repo-specific-rules".toList]
    "repo-specific-rules".toList (by decide) hhead).1
    { anchor := "repo-specific-rules".toList, level := 2, start := 0, end_ := 2 }
    (by decide) (by decide)).1
    { anchor := "repo-specific-rules".toList, level := 2, start := 1, end_ := 3 } (by decide)]
  decide

end ScgBoost
